import Mathlib

/-!
Phone forwarding (`src/phone-forward`): a shallow embedding

The C sources `string_utils.h`, `list.c`, `vector.c`, `trie.c` and
`phone_forward.c` are transcribed function by function.

Conventions of the embedding.

* A C string is the list of its characters before the terminating NUL
  (`Str`); a nullable `char *` is an `Option Str`.
* Every function that can run into undefined behaviour (reading a freed
  node, indexing `next` out of range, popping an empty vector, running out of
  loop fuel) returns an `Option`; `none` is that fault.  A C function that
  returns a nullable pointer returns an inner `Option`.
* `malloc`, `calloc` and `realloc` are taken to succeed.
* A node pointer `Trie *` is the chain of `order` bytes met when following
  `previous` up to the root (`TriePtr`); the root is `[]`, the parent of
  `n :: p` is `p` and its `order` is `n`.  The field `next[n]` of node `p` is
  non-NULL exactly when the heap holds a node at `n :: p`.
* The circular list of `list.c` is the sequence of its data cells, front to
  back, each cell carrying an identity that stands for its address.
-/

namespace Phfwd

/-- A C string without its terminating NUL. -/
abbrev Str := List Char

/-! ## string_utils.h -/

/-- `strCopy`: a fresh copy of the string. -/
def strCopy (str : Str) : Str := str

/-- `strConcat`: the two strings joined. -/
def strConcat (str1 str2 : Str) : Str := str1 ++ str2

/-- `strToInt` on the character `*str`. -/
def strToInt (c : Char) : Nat :=
  if '0' ≤ c ∧ c ≤ '9' then c.toNat - '0'.toNat
  else if c = '*' then 10
  else if c = '#' then 11
  else 12

/-! ## list.c -/

/-- The data cells of one circular list, front to back: `(address, value)`.
The sentinel cell (whose `value` is NULL) is not listed. -/
abbrev CList := List (Nat × Str)

/-- `listNew`: a ring that holds only its sentinel. -/
def listNew : CList := []

/-- `listEmpty`: NULL, or a ring whose sentinel points to itself. -/
def listEmpty : Option CList → Bool
  | none => true
  | some l => l.isEmpty

/-- `listAdd(list, value)` on the sentinel: the new cell `mid`, whose address is
`cell`, is linked right after the sentinel. -/
def listAdd (list : CList) (cell : Nat) (value : Str) : CList :=
  (cell, value) :: list

/-- `listGet` on the sentinel: the value of the first data cell. -/
def listGet (list : Option CList) : Option Str :=
  if listEmpty list then none
  else match list with
    | some (c :: _) => some c.2
    | _ => none

/-- `listRemoveFirst(list)`: called on the sentinel (`none`) it unlinks the cell
after it, called on a data cell (`some cell`) it unlinks that cell. -/
def listRemoveFirst (ring : CList) : Option Nat → CList
  | none => ring.tail
  | some cell => ring.filter (fun c => c.1 ≠ cell)

/-! ## vector.c -/

/-- `struct Vector`: `elements` holds the `elementsCount` strings in use,
`size` is the capacity of the array. -/
structure Vector where
  elements : List Str
  size : Nat
  deriving DecidableEq

/-- `vectorNew`. -/
def vectorNew : Vector := { elements := [], size := 1 }

/-- `vectorAdd`: doubles the capacity when the array is full, then appends. -/
def vectorAdd (v : Vector) (element : Str) : Vector :=
  let size := if v.elements.length = v.size then 2 * v.size else v.size
  { elements := v.elements ++ [element], size := size }

/-- `vectorGet` on a nullable vector. -/
def vectorGet (v : Option Vector) (idx : Nat) : Option Str :=
  match v with
  | none => none
  | some v => if idx < v.elements.length then v.elements.get? idx else none

/-- `vectorRemoveLast`: `--elementsCount` and the slot is freed; on an empty
vector the count wraps around and the freed slot is out of range (fault). -/
def vectorRemoveLast (v : Vector) : Option Vector :=
  if v.elements.length = 0 then none
  else some { v with elements := v.elements.dropLast }

/-- `vectorSwap`. -/
def vectorSwap (v : Vector) (i j : Nat) : Vector :=
  if i < v.elements.length ∧ j < v.elements.length ∧ i ≠ j then
    { v with elements :=
        (v.elements.set i (v.elements.getD j [])).set j (v.elements.getD i []) }
  else v

/-- `vectorSize` on a nullable vector. -/
def vectorSize (v : Option Vector) : Nat :=
  match v with
  | none => 0
  | some v => v.elements.length

/-- `vectorShrink`. -/
def vectorShrink (v : Vector) : Vector :=
  { v with size := if v.elements.length = 0 then 1 else v.elements.length }

/-- Insertion of one element into a list ordered by `cmp`. -/
def orderedInsert (cmp : Str → Str → Int) (a : Str) : List Str → List Str
  | [] => [a]
  | b :: l => if cmp a b ≤ 0 then a :: b :: l else b :: orderedInsert cmp a l

/-- Modelled from the spec: `qsort` of the C library, which `vectorSort` calls
and which is not part of the repository: the elements rearranged into an order
in which no element sorts after its successor under `cmp`. Insertion sort
stands for it. -/
def qsort (cmp : Str → Str → Int) : List Str → List Str
  | [] => []
  | a :: l => orderedInsert cmp a (qsort cmp l)

/-- `vectorSort`. -/
def vectorSort (v : Vector) (cmp : Str → Str → Int) : Vector :=
  { v with elements := qsort cmp v.elements }

/-! ## trie.c -/

/-- `ALPHABET_SIZE`. -/
def ALPHABET_SIZE : Nat := 12

/-- `ROOT_VALUE`. -/
def ROOT_VALUE : Str := ['!']

/-- A non-NULL `Trie *`: the `order` bytes from the node up to the root. -/
abbrev TriePtr := List Nat

/-- A non-NULL `List *` that points to a data cell: the node whose `keys` ring
holds the cell, and the cell's address. -/
structure ListPtr where
  owner : TriePtr
  cell : Nat
  deriving DecidableEq

/-- `struct Trie`. The fields `previous`, `order` and `next` are carried by the
node's `TriePtr` and by the heap. -/
structure Trie where
  value : Option Str
  keys : Option CList
  keysInRev : Option ListPtr
  revNode : Option TriePtr
  nextCount : Nat
  deriving DecidableEq

/-- The allocated trie nodes, and the number of list cells allocated so far
(the address given to the next one). -/
structure Heap where
  nodes : List (TriePtr × Trie)
  cells : Nat
  deriving DecidableEq

/-- Reading the node behind a pointer; `none` when nothing is allocated there. -/
def Heap.find (h : Heap) (p : TriePtr) : Option Trie :=
  match h.nodes.find? (fun e => e.1 = p) with
  | some e => some e.2
  | none => none

/-- Storing a node behind a pointer (allocating it when it is new). -/
def Heap.write (h : Heap) (p : TriePtr) (nd : Trie) : Heap :=
  { h with nodes := (p, nd) :: h.nodes.filter (fun e => e.1 ≠ p) }

/-- Releasing the node behind a pointer. -/
def Heap.free (h : Heap) (p : TriePtr) : Heap :=
  { h with nodes := h.nodes.filter (fun e => e.1 ≠ p) }

/-- The heap after one more list cell has been allocated. -/
def Heap.newCell (h : Heap) : Heap :=
  { h with cells := h.cells + 1 }

/-- What `calloc(1, sizeof(Trie))` returns. -/
def Trie.zero : Trie :=
  { value := none, keys := none, keysInRev := none, revNode := none, nextCount := 0 }

/-- `trie->previous`. -/
def previous : TriePtr → Option TriePtr
  | [] => none
  | _ :: p => some p

/-- `trie->order`. -/
def order : TriePtr → Nat
  | [] => 0
  | n :: _ => n

/-- `trie->next[n]`: a fault when `n` is outside the array. -/
def next (h : Heap) (trie : TriePtr) (n : Nat) : Option (Option TriePtr) :=
  if n < ALPHABET_SIZE then
    some (if (h.find (n :: trie)).isSome then some (n :: trie) else none)
  else none

/-- `trieAddNode`. -/
def trieAddNode (h : Heap) (trie : TriePtr) (n : Nat) : Option Heap :=
  match h.find trie, next h trie n with
  | some nd, some child =>
    if child.isSome then some h
    else
      let h1 := h.write (n :: trie) Trie.zero
      some (h1.write trie { nd with nextCount := (nd.nextCount + 1) % 256 })
  | _, _ => none

/-- The loop of `trieDeleteUnusedBranch` from a non-NULL node. -/
def trieDeleteUnusedBranchLoop : TriePtr → Heap → Option Heap
  | [], h =>
    match h.find [] with
    | none => none
    | some nd =>
      if nd.nextCount = 0 ∧ nd.value = none ∧ listEmpty nd.keys = true then
        some (h.free [])
      else some h
  | n :: prev, h =>
    match h.find (n :: prev) with
    | none => none
    | some nd =>
      if nd.nextCount = 0 ∧ nd.value = none ∧ listEmpty nd.keys = true then
        match h.find prev with
        | none => none
        | some pn =>
          let h1 := h.write prev { pn with nextCount := (pn.nextCount + 255) % 256 }
          trieDeleteUnusedBranchLoop prev (h1.free (n :: prev))
      else some h

/-- `trieDeleteUnusedBranch`. -/
def trieDeleteUnusedBranch (h : Heap) : Option TriePtr → Option Heap
  | none => some h
  | some trie => trieDeleteUnusedBranchLoop trie h

/-- `trieGetNode`: the node reached from `trie` along `key`, created on the way
where missing. -/
def trieGetNode : Str → Heap → TriePtr → Option (Heap × TriePtr)
  | [], h, trie => some (h, trie)
  | c :: key, h, trie =>
    let dir := strToInt c
    match next h trie dir with
    | none => none
    | some (some child) => trieGetNode key h child
    | some none =>
      match trieAddNode h trie dir with
      | none => none
      | some h1 => trieGetNode key h1 (dir :: trie)

/-- `listRemoveFirst(p)` for a cell pointer held in a node: the cell is unlinked
from the ring of its owner; NULL does nothing. -/
def listRemoveFirstAt (h : Heap) : Option ListPtr → Option Heap
  | none => some h
  | some p =>
    match h.find p.owner with
    | none => none
    | some nd =>
      match nd.keys with
      | none => none
      | some ring =>
        if ring.any (fun c => c.1 = p.cell) then
          some (h.write p.owner { nd with keys := some (listRemoveFirst ring (some p.cell)) })
        else none

/-- The lines `if (revNode != NULL && listEmpty(revNode->keys)) { listDelete(...);
revNode->keys = NULL; }`; the flag tells whether the branch was taken. -/
def dropEmptyKeys (h : Heap) : Option TriePtr → Option (Heap × Bool)
  | none => some (h, false)
  | some r =>
    match h.find r with
    | none => none
    | some rn =>
      if listEmpty rn.keys then some (h.write r { rn with keys := none }, true)
      else some (h, false)

/-- `trieRemoveNodeValue`. -/
def trieRemoveNodeValue (h : Heap) (trie : TriePtr) : Option Heap := do
  let nd ← h.find trie
  let h1 ← listRemoveFirstAt h nd.keysInRev
  let (h2, _) ← dropEmptyKeys h1 nd.revNode
  let h3 ← trieDeleteUnusedBranch h2 nd.revNode
  let nd3 ← h3.find trie
  let h4 := h3.write trie { nd3 with keysInRev := none, value := none, revNode := none }
  trieDeleteUnusedBranch h4 (some trie)

/-- The `while (trie != end)` loop of `trieRemoveValues`; `fuel` bounds the
number of iterations. -/
def trieRemoveValuesLoop (stop : Option TriePtr) :
    Nat → Heap → Option TriePtr → Nat → Option Heap
  | 0, _, _, _ => none
  | fuel + 1, h, trie, i =>
    if trie = stop then some h
    else
      match trie with
      | none => none
      | some t =>
        match h.find t with
        | none => none
        | some nd0 =>
          let nd := if nd0.value = none then { nd0 with value := some ROOT_VALUE } else nd0
          let h := h.write t nd
          if i = ALPHABET_SIZE then
            let nd1 := if nd.value = some ROOT_VALUE then { nd with value := none } else nd
            let h := h.write t nd1
            let i := (order t + 1) % 256
            let prev := previous t
            match trieRemoveNodeValue h t with
            | none => none
            | some h => trieRemoveValuesLoop stop fuel h prev i
          else
            match next h t i with
            | none => none
            | some none => trieRemoveValuesLoop stop fuel h (some t) ((i + 1) % 256)
            | some (some child) => trieRemoveValuesLoop stop fuel h (some child) 0

/-- `trieRemoveValues`. Every iteration either advances `i`, descends to a
child or leaves a node for good, so thirteen iterations per allocated node
are enough. -/
def trieRemoveValues (h : Heap) : Option TriePtr → Option Heap
  | none => some h
  | some trie =>
    trieRemoveValuesLoop (previous trie) (13 * h.nodes.length + 1) h (some trie) 0

/-- The loop of `trieRemoveValues` once more, with a record of the nodes that
`trieRemoveNodeValue` is called on, in the order of the calls. -/
def trieRemoveValuesCalls (stop : Option TriePtr) :
    Nat → Heap → Option TriePtr → Nat → List TriePtr → Option (Heap × List TriePtr)
  | 0, _, _, _, _ => none
  | fuel + 1, h, trie, i, calls =>
    if trie = stop then some (h, calls)
    else
      match trie with
      | none => none
      | some t =>
        match h.find t with
        | none => none
        | some nd0 =>
          let nd := if nd0.value = none then { nd0 with value := some ROOT_VALUE } else nd0
          let h := h.write t nd
          if i = ALPHABET_SIZE then
            let nd1 := if nd.value = some ROOT_VALUE then { nd with value := none } else nd
            let h := h.write t nd1
            let i := (order t + 1) % 256
            let prev := previous t
            match trieRemoveNodeValue h t with
            | none => none
            | some h => trieRemoveValuesCalls stop fuel h prev i (calls ++ [t])
          else
            match next h t i with
            | none => none
            | some none => trieRemoveValuesCalls stop fuel h (some t) ((i + 1) % 256) calls
            | some (some child) => trieRemoveValuesCalls stop fuel h (some child) 0 calls

/-- `trieRemoveValues` with the record of its calls of `trieRemoveNodeValue`. -/
def trieRemoveValuesLog (h : Heap) : Option TriePtr → Option (Heap × List TriePtr)
  | none => some (h, [])
  | some trie =>
    trieRemoveValuesCalls (previous trie) (13 * h.nodes.length + 1) h (some trie) 0 []

/-- `trieNew`. -/
def trieNew : Heap × TriePtr :=
  ({ nodes := [([], { Trie.zero with value := some ROOT_VALUE })], cells := 0 }, [])

/-- The second part of `trieInsert`, after the steps that can fail: the old
value of the key's node gives way to `val`, whose registry cell is `list`. -/
def trieInsertLink (h : Heap) (trieKey trieValue : TriePtr) (list : ListPtr) (val : Str) :
    Option Heap := do
  let kn ← h.find trieKey
  let h := h.write trieKey { kn with value := some val }
  let h ← listRemoveFirstAt h kn.keysInRev
  let kn ← h.find trieKey
  let h := h.write trieKey { kn with keysInRev := some list }
  let (h, emptied) ← dropEmptyKeys h kn.revNode
  let h ← if emptied then trieDeleteUnusedBranch h kn.revNode else some h
  let kn ← h.find trieKey
  return h.write trieKey { kn with revNode := some trieValue }

/-- `trieInsert`: first the steps that can fail (the two nodes and the registry
cell for `key`), then `trieInsertLink`. -/
def trieInsert (h : Heap) (trie : TriePtr) (key val : Str) : Option (Heap × Bool) := do
  let (h, trieKey) ← trieGetNode key h trie
  let (h, trieValue) ← trieGetNode val h trie
  let vn ← h.find trieValue
  let ring := vn.keys.getD listNew
  let list : ListPtr := { owner := trieValue, cell := h.cells }
  let h := (h.write trieValue { vn with keys := some (listAdd ring h.cells key) }).newCell
  let h ← trieInsertLink h trieKey trieValue list val
  return (h, true)

/-! ### `trieInsert` when an allocation fails

The functions below are `trieAddNode`, `trieGetNode` and `trieInsert` again, with
the allocator made explicit: `budget` is the number of allocations that still
succeed, the one after them returns NULL. -/

/-- `trieAddNode` with `budget` allocations left: the heap, the returned flag
and the allocations left afterwards. -/
def trieAddNodeA (h : Heap) (trie : TriePtr) (n : Nat) (budget : Nat) :
    Option (Heap × Bool × Nat) :=
  match h.find trie, next h trie n with
  | some nd, some child =>
    if child.isSome then some (h, true, budget)
    else
      match budget with
      | 0 => some (h, false, 0)
      | b + 1 =>
        let h1 := h.write (n :: trie) Trie.zero
        some (h1.write trie { nd with nextCount := (nd.nextCount + 1) % 256 }, true, b)
  | _, _ => none

/-- `trieGetNode` with `budget` allocations left: the returned pointer is NULL
when `trieAddNode` failed, after `trieDeleteUnusedBranch(trie)`. -/
def trieGetNodeA : Str → Heap → TriePtr → Nat → Option (Heap × Option TriePtr × Nat)
  | [], h, trie, budget => some (h, some trie, budget)
  | c :: key, h, trie, budget =>
    let dir := strToInt c
    match next h trie dir with
    | none => none
    | some (some child) => trieGetNodeA key h child budget
    | some none =>
      match trieAddNodeA h trie dir budget with
      | none => none
      | some (h1, true, b1) => trieGetNodeA key h1 (dir :: trie) b1
      | some (h1, false, b1) =>
        match trieDeleteUnusedBranch h1 (some trie) with
        | none => none
        | some h2 => some (h2, none, b1)

/-- The failure branch of `trieInsert`: `trieDeleteUnusedBranch(trieKey);
trieDeleteUnusedBranch(trieValue); return false;`. -/
def trieInsertFail (h : Heap) (trieKey trieValue : Option TriePtr) : Option (Heap × Bool) :=
  match trieDeleteUnusedBranch h trieKey with
  | none => none
  | some h1 =>
    match trieDeleteUnusedBranch h1 trieValue with
    | none => none
    | some h2 => some (h2, false)

/-- The last disjunct of the condition of `trieInsert`, `(list =
listAdd(trieValue->keys, key)) == NULL`, and what follows it; `ring` is the
list `trieValue->keys`, which is not NULL here. -/
def trieInsertAdd (h : Heap) (trieKey trieValue : TriePtr) (vn : Trie) (ring : CList)
    (key val : Str) (budget : Nat) : Option (Heap × Bool) :=
  match budget with
  | 0 => trieInsertFail h (some trieKey) (some trieValue)
  | _ + 1 =>
    let list : ListPtr := { owner := trieValue, cell := h.cells }
    let h := (h.write trieValue { vn with keys := some (listAdd ring h.cells key) }).newCell
    match trieInsertLink h trieKey trieValue list val with
    | none => none
    | some h => some (h, true)

/-- `trieInsert` with `budget` allocations left. -/
def trieInsertA (h : Heap) (trie : TriePtr) (key val : Str) (budget : Nat) :
    Option (Heap × Bool) :=
  match trieGetNodeA key h trie budget with
  | none => none
  | some (h, none, _) => trieInsertFail h none none
  | some (h, some trieKey, budget) =>
    match trieGetNodeA val h trie budget with
    | none => none
    | some (h, none, _) => trieInsertFail h (some trieKey) none
    | some (h, some trieValue, budget) =>
      match h.find trieValue with
      | none => none
      | some vn =>
        match vn.keys with
        | some ring => trieInsertAdd h trieKey trieValue vn ring key val budget
        | none =>
          match budget with
          | 0 => trieInsertFail h (some trieKey) (some trieValue)
          | b + 1 =>
            let vn1 := { vn with keys := some listNew }
            trieInsertAdd (h.write trieValue vn1) trieKey trieValue vn1 listNew key val b

/-- The loop of `trieGet`: `result` and `n` are the value and depth of the
deepest node with a value met so far. -/
def trieGetLoop (h : Heap) :
    Str → TriePtr → Nat → Option Str → Nat → Option (Option Str × Nat)
  | [], _, _, result, n => some (result, n)
  | c :: key, trie, currentDepth, result, n =>
    match next h trie (strToInt c) with
    | none => none
    | some none => some (result, n)
    | some (some child) =>
      match h.find child with
      | none => none
      | some nd =>
        match nd.value with
        | some v => trieGetLoop h key child (currentDepth + 1) (some v) (currentDepth + 1)
        | none => trieGetLoop h key child (currentDepth + 1) result n

/-- `trieGet`: the value found and the length `*n` of the matched part of `key`. -/
def trieGet (h : Heap) (trie : TriePtr) (key : Str) : Option (Option Str × Nat) :=
  trieGetLoop h key trie 0 none 0

/-- The `do ... while (listIteratorNext(iter))` of `trieReverse` over the cells
of one ring, from the cell after the sentinel on. -/
def trieReverseCells (val : Str) : CList → Vector → Vector
  | [], result => result
  | c :: rest, result => trieReverseCells val rest (vectorAdd result (strConcat c.2 val))

/-- The `while` loop of `trieReverse`. -/
def trieReverseLoop (h : Heap) : Str → TriePtr → Vector → Option Vector
  | [], _, result => some result
  | c :: val, trie, result =>
    match next h trie (strToInt c) with
    | none => none
    | some none => some result
    | some (some child) =>
      match h.find child with
      | none => none
      | some nd =>
        if listEmpty nd.keys then trieReverseLoop h val child result
        else
          match nd.keys with
          | none => none
          | some ring => trieReverseLoop h val child (trieReverseCells val ring result)

/-- `trieReverse`. -/
def trieReverse (h : Heap) (trie : TriePtr) (val : Str) : Option Vector :=
  trieReverseLoop h val trie vectorNew

/-- The loop of `trieRemove`: walks down `key` while the node is not NULL. -/
def trieRemoveWalk (h : Heap) : Str → Option TriePtr → Option (Option TriePtr)
  | [], trie => some trie
  | _ :: _, none => some none
  | c :: key, some t =>
    match next h t (strToInt c) with
    | none => none
    | some child => trieRemoveWalk h key child

/-- `trieRemove`. -/
def trieRemove (h : Heap) (trie : TriePtr) (key : Str) : Option Heap :=
  match trieRemoveWalk h key (some trie) with
  | none => none
  | some none => some h
  | some (some t) => trieRemoveValues h (some t)

/-! ## phone_forward.c -/

/-- `struct PhoneForward`: the root pointer `trie` and the heap it points into. -/
structure PhoneForward where
  heap : Heap
  trie : TriePtr
  deriving DecidableEq

/-- `struct PhoneNumbers`. -/
structure PhoneNumbers where
  vector : Vector
  deriving DecidableEq

/-- The test of the `do ... while` body of `isPhoneNumberCorrect` on one
character: true when the character is refused. -/
def badChar (c : Char) : Bool :=
  c ≠ '*' && c ≠ '#' && (c < '0' || c > '9')

/-- The `do ... while` of `isPhoneNumberCorrect` on a non-NULL string. At the
end of the string `*num` is NUL, which the test refuses. -/
def isPhoneNumberCorrectLoop : Str → Bool
  | [] => false
  | c :: num =>
    if badChar c then false
    else match num with
      | [] => true
      | _ :: _ => isPhoneNumberCorrectLoop num

/-- `isPhoneNumberCorrect`. -/
def isPhoneNumberCorrect : Option Str → Bool
  | none => false
  | some num => isPhoneNumberCorrectLoop num

/-- `phoneNumbersComparator` on the two strings. -/
def phoneNumbersComparator : Str → Str → Int
  | c1 :: num1, c2 :: num2 =>
    if c1 ≠ c2 then (if strToInt c1 < strToInt c2 then -1 else 1)
    else phoneNumbersComparator num1 num2
  | [], [] => 0
  | _ :: _, [] => 1
  | [], _ :: _ => -1

/-- `phnumNew`. -/
def phnumNew : Option Vector → Option PhoneNumbers
  | none => none
  | some v => some { vector := v }

/-- `phnumGet`. -/
def phnumGet (pnum : Option PhoneNumbers) (idx : Nat) : Option Str :=
  match pnum with
  | none => none
  | some pn => vectorGet (some pn.vector) idx

/-- `phfwdNew`. -/
def phfwdNew : PhoneForward :=
  { heap := trieNew.1, trie := trieNew.2 }

/-- `phfwdAdd`: the structure afterwards and the returned flag. -/
def phfwdAdd (pf : Option PhoneForward) (num1 num2 : Option Str) :
    Option (Option PhoneForward × Bool) :=
  match pf, num1, num2 with
  | some pf, some n1, some n2 =>
    if !isPhoneNumberCorrect (some n1) || !isPhoneNumberCorrect (some n2) || n1 = n2 then
      some (some pf, false)
    else
      match trieInsert pf.heap pf.trie (strCopy n1) (strCopy n2) with
      | none => none
      | some (h, ok) => some (some { pf with heap := h }, ok)
  | pf, _, _ => some (pf, false)

/-- `phfwdRemove`. -/
def phfwdRemove (pf : Option PhoneForward) (num : Option Str) : Option (Option PhoneForward) :=
  match pf, num with
  | some pf, some n =>
    if isPhoneNumberCorrect (some n) then
      match trieRemove pf.heap pf.trie n with
      | none => none
      | some h => some (some { pf with heap := h })
    else some (some pf)
  | pf, _ => some pf

/-- `phfwdGet`. -/
def phfwdGet (pf : Option PhoneForward) (num : Option Str) : Option (Option PhoneNumbers) :=
  match pf with
  | none => some none
  | some pf =>
    let v := vectorNew
    match num with
    | none => some (phnumNew (some v))
    | some num =>
      if !isPhoneNumberCorrect (some num) then some (phnumNew (some v))
      else
        match trieGet pf.heap pf.trie num with
        | none => none
        | some (some newPrefix, oldPrefixLength) =>
          some (phnumNew (some (vectorAdd v (newPrefix ++ num.drop oldPrefixLength))))
        | some (none, _) => some (phnumNew (some (vectorAdd v (strCopy num))))

/-- The duplicate-removing `for` loop of `phfwdReverse`, from index `i` on, run
for `steps = size - i` rounds: the vector and `j` afterwards. -/
def dedupLoop : Nat → Vector → Nat → Nat → Vector × Nat
  | 0, v, _, j => (v, j)
  | steps + 1, v, i, j =>
    if vectorGet (some v) (i - 1) ≠ vectorGet (some v) i then
      dedupLoop steps (vectorSwap v i j) (i + 1) (j + 1)
    else dedupLoop steps v (i + 1) j

/-- The loop `while (j++ < size) vectorRemoveLast(v)`, run for `size - j` rounds. -/
def removeLastLoop : Nat → Vector → Option Vector
  | 0, v => some v
  | k + 1, v =>
    match vectorRemoveLast v with
    | none => none
    | some v => removeLastLoop k v

/-- `phfwdReverse`. -/
def phfwdReverse (pf : Option PhoneForward) (num : Option Str) :
    Option (Option PhoneNumbers) :=
  match pf with
  | none => some none
  | some pf =>
    match num with
    | none => some (phnumNew (some vectorNew))
    | some num =>
      if !isPhoneNumberCorrect (some num) then some (phnumNew (some vectorNew))
      else
        match trieReverse pf.heap pf.trie num with
        | none => none
        | some result =>
          let result := vectorAdd result (strCopy num)
          let result := vectorSort result phoneNumbersComparator
          let size := vectorSize (some result)
          let (result, j) := dedupLoop (size - 1) result 1 1
          match removeLastLoop (size - j) result with
          | none => none
          | some result => some (phnumNew (some (vectorShrink result)))

/-- The filtering `for` loop of `phfwdGetReverse`, from index `i` on, run for
`steps = size - i` rounds; `none` inside the result is the early `return NULL`. -/
def filterLoop (pf : Option PhoneForward) (num : Str) :
    Nat → Vector → Nat → Nat → Option (Option (Vector × Nat))
  | 0, v, _, j => some (some (v, j))
  | steps + 1, v, i, j =>
    match phfwdGet pf (vectorGet (some v) i) with
    | none => none
    | some none => some none
    | some (some pnGet) =>
      if phnumGet (some pnGet) 0 = some num then
        filterLoop pf num steps (vectorSwap v i j) (i + 1) (j + 1)
      else filterLoop pf num steps v (i + 1) j

/-- `phfwdGetReverse`. -/
def phfwdGetReverse (pf : Option PhoneForward) (num : Option Str) :
    Option (Option PhoneNumbers) :=
  match phfwdReverse pf num with
  | none => none
  | some none => some none
  | some (some pn) =>
    if phnumGet (some pn) 0 = none then some (some pn)
    else
      match num with
      | none => none
      | some num =>
        let size := vectorSize (some pn.vector)
        match filterLoop pf num size pn.vector 0 0 with
        | none => none
        | some none => some none
        | some (some (v, j)) =>
          match removeLastLoop (size - j) v with
          | none => none
          | some v => some (some { vector := vectorShrink v })

/-! ## The calls of the interface and what they register -/

/-- A valid phone number, as `isPhoneNumberCorrect` judges it. -/
def Valid (num : Str) : Prop := isPhoneNumberCorrect (some num) = true

instance : DecidablePred Valid :=
  fun num => inferInstanceAs (Decidable (isPhoneNumberCorrect (some num) = true))

/-- The sequence that holds the one string `x`, as `phfwdGet` builds it. -/
def oneNumber (x : Str) : PhoneNumbers := { vector := vectorAdd vectorNew x }

/-- `phfwdGet(pf, c)` returns the sequence of the one string `num`. -/
def getsTo (pf : PhoneForward) (num c : Str) : Bool :=
  decide (phfwdGet (some pf) (some c) = some (some (oneNumber num)))

/-- A call that changes the structure: `phfwdAdd` or `phfwdRemove`, with the
(nullable) strings passed. -/
inductive Call where
  | add (num1 num2 : Option Str)
  | remove (num : Option Str)

/-- The structure after one call; `none` when the call runs into a fault. -/
def Call.run (pf : PhoneForward) : Call → Option PhoneForward
  | Call.add num1 num2 =>
    match phfwdAdd (some pf) num1 num2 with
    | some (some pf', _) => some pf'
    | _ => none
  | Call.remove num =>
    match phfwdRemove (some pf) num with
    | some (some pf') => some pf'
    | _ => none

/-- The structure after a sequence of calls, first call first. -/
def runCalls : List Call → PhoneForward → Option PhoneForward
  | [], pf => some pf
  | c :: cs, pf =>
    match c.run pf with
    | some pf' => runCalls cs pf'
    | none => none

/-- The forwardings after one call, as the interface describes it: `add` of two
valid numbers that differ registers the forwarding of the first to the second
(replacing an older one of the same key), `remove` of a valid number takes away
every forwarding whose key begins with it, any other call changes nothing. -/
def Call.apply (m : Str → Option Str) : Call → Str → Option Str
  | Call.add (some num1) (some num2) =>
    if Valid num1 ∧ Valid num2 ∧ num1 ≠ num2 then fun x => if x = num1 then some num2 else m x
    else m
  | Call.add _ _ => m
  | Call.remove (some num) =>
    if Valid num then fun x => if num <+: x then none else m x else m
  | Call.remove none => m

/-- The forwardings after a sequence of calls. -/
def forwardings : List Call → (Str → Option Str) → Str → Option Str
  | [], m => m
  | c :: cs, m => forwardings cs (c.apply m)

/-- The string `x` is `num` rewritten by the forwardings `m`: either some key of
`m` is a non-empty prefix of `num`, and then `x` is `v ++ num[len(k):]` for the
longest such key `k` and its value `v`; or no key of `m` is a prefix of `num`,
and then `x` is `num`. -/
def Rewritten (m : Str → Option Str) (num x : Str) : Prop :=
  (∃ k v, m k = some v ∧ k ≠ [] ∧ k <+: num ∧
      (∀ k' v', m k' = some v' → k' <+: num → k'.length ≤ k.length) ∧
      x = v ++ num.drop k.length) ∨
    ((∀ k v, m k = some v → ¬ k <+: num) ∧ x = num)

/-- The string `x` is a candidate of the reverse of `num` under the forwardings
`m`: it is `k ++ num[len(v):]` for a key `k` that forwards to a non-empty prefix
`v` of `num`. -/
def Candidate (m : Str → Option Str) (num x : Str) : Prop :=
  ∃ k v, m k = some v ∧ v ≠ [] ∧ v <+: num ∧ x = k ++ num.drop v.length

/-- The keys in the reverse registry of the node of `num`, none when there is no
such node. -/
def reverseRegistry (pf : PhoneForward) (num : Str) : List Str :=
  match pf.heap.find ((num.map strToInt).reverse) with
  | some nd => (nd.keys.getD []).map Prod.snd
  | none => []

/-- The forwardings registered by a sequence of calls on a new structure:
`registered calls k = some v` when the key `k` currently forwards to `v`. -/
def registered (calls : List Call) : Str → Option Str :=
  forwardings calls (fun _ => none)

/-- The strings of `phfwdGet(pf, num)` on the structure that the calls build from
a new one; `none` on a fault or a NULL result. -/
def getAfter (calls : List Call) (num : Option Str) : Option (List Str) :=
  match runCalls calls phfwdNew with
  | none => none
  | some pf =>
    match phfwdGet (some pf) num with
    | some (some pn) => some pn.vector.elements
    | _ => none

/-- The strings of `phfwdReverse(pf, num)` on the structure that the calls build
from a new one; `none` on a fault or a NULL result. -/
def reverseAfter (calls : List Call) (num : Str) : Option (List Str) :=
  match runCalls calls phfwdNew with
  | none => none
  | some pf =>
    match phfwdReverse (some pf) (some num) with
    | some (some pn) => some pn.vector.elements
    | _ => none

/-- The strings of `phfwdGetReverse(pf, num)` on the structure that the calls
build from a new one; `none` on a fault or a NULL result. -/
def getReverseAfter (calls : List Call) (num : Str) : Option (List Str) :=
  match runCalls calls phfwdNew with
  | none => none
  | some pf =>
    match phfwdGetReverse (some pf) (some num) with
    | some (some pn) => some pn.vector.elements
    | _ => none

/-! ## Vocabulary of the verification -/

/-- The pointer of the node that the string `key` leads to from the root. -/
def pathOf (key : Str) : TriePtr := (key.map strToInt).reverse

/-- The number of non-NULL entries of `next` in the node behind `p`. -/
def childCount (h : Heap) (p : TriePtr) : Nat :=
  ((List.range ALPHABET_SIZE).filter (fun n => (h.find (n :: p)).isSome)).length

/-- A node with its `nextCount` blanked: the fields that hold forwarding data. -/
def Trie.pay (nd : Trie) : Trie := { nd with nextCount := 0 }

/-- The forwarding data of the node behind `q`, if one is allocated. -/
def view (h : Heap) (q : TriePtr) : Option Trie := (h.find q).map Trie.pay

/-- The tree is well shaped: the root is allocated and holds a value, every
allocated node hangs below an allocated parent in one of the twelve slots, and
`nextCount` counts the children. -/
structure Shape (h : Heap) : Prop where
  root : ∃ r, h.find [] = some r ∧ r.value ≠ none
  closed : ∀ n p, (h.find (n :: p)).isSome = true →
    n < ALPHABET_SIZE ∧ (h.find p).isSome = true
  count : ∀ p nd, h.find p = some nd → nd.nextCount = childCount h p

/-- Values, reverse nodes and registry cells agree with one another, for the
nodes `f` of a heap whose next list cell is `cells`. Nodes may hold the root
marker `ROOT_VALUE`; such nodes count as holding no value. -/
structure LinkedF (f : TriePtr → Option Trie) (cells : Nat) : Prop where
  root : ∀ r, f [] = some r → r.value = some ROOT_VALUE
  noval : ∀ p nd, f p = some nd → (nd.value = none ∨ nd.value = some ROOT_VALUE) →
    nd.keysInRev = none ∧ nd.revNode = none
  val : ∀ p nd v, f p = some nd → nd.value = some v → v ≠ ROOT_VALUE →
    Valid v ∧ pathOf v ≠ p ∧ nd.revNode = some (pathOf v) ∧
    ∃ c k rn ring, nd.keysInRev = some ⟨pathOf v, c⟩ ∧ Valid k ∧ pathOf k = p ∧
      f (pathOf v) = some rn ∧ rn.keys = some ring ∧ (c, k) ∈ ring
  ring : ∀ q nd ring c k, f q = some nd → nd.keys = some ring → (c, k) ∈ ring →
    Valid k ∧ c < cells ∧
    ∃ kn v, f (pathOf k) = some kn ∧ kn.value = some v ∧ v ≠ ROOT_VALUE ∧
      pathOf v = q ∧ kn.keysInRev = some ⟨q, c⟩
  ringNe : ∀ q nd, f q = some nd → nd.keys ≠ some []
  ringNodup : ∀ q nd ring, f q = some nd → nd.keys = some ring →
    (ring.map Prod.fst).Nodup

/-- The forwarding data of a heap is consistent. -/
def Linked (h : Heap) : Prop := LinkedF (view h) h.cells

/-- No node but the root holds the marker `ROOT_VALUE`. -/
def NoMarkerF (f : TriePtr → Option Trie) : Prop :=
  ∀ p nd, p ≠ [] → f p = some nd → nd.value ≠ some ROOT_VALUE

/-- No node of the heap but the root holds the marker `ROOT_VALUE`. -/
def NoMarker (h : Heap) : Prop := NoMarkerF (view h)

/-- The nodes `f` forward the key `k` to `v`: the node of `k` holds the value `v`. -/
def FwdF (f : TriePtr → Option Trie) (k v : Str) : Prop :=
  Valid k ∧ ∃ nd, f (pathOf k) = some nd ∧ nd.value = some v ∧ v ≠ ROOT_VALUE

/-- The trie forwards the key `k` to `v`. -/
def Fwd (h : Heap) (k v : Str) : Prop := FwdF (view h) k v

/-- Nodes `f2` are nodes `f1` with some blank nodes added and some nodes that held
neither a value nor a registry cell left out. -/
def SimilarF (f1 f2 : TriePtr → Option Trie) : Prop :=
  ∀ q, f2 q = f1 q ∨ (f1 q = none ∧ f2 q = some Trie.zero) ∨
    (f2 q = none ∧ ∃ nd, f1 q = some nd ∧ nd.value = none ∧ listEmpty nd.keys = true)

/-- Nodes `f2` are nodes `f1` without some nodes that held neither a value nor a
registry cell. -/
def PrunedF (f1 f2 : TriePtr → Option Trie) : Prop :=
  ∀ q, f2 q = f1 q ∨
    (f2 q = none ∧ ∃ nd, f1 q = some nd ∧ nd.value = none ∧ listEmpty nd.keys = true)

/-- A node whose registry, when empty, is released and set to NULL. -/
def normKeys (nd : Trie) : Trie :=
  { nd with keys := if listEmpty nd.keys then none else nd.keys }

/-- Overwriting one entry of the node map. -/
def setF (f : TriePtr → Option Trie) (p : TriePtr) (x : Option Trie) :
    TriePtr → Option Trie :=
  fun q => if q = p then x else f q

/-- The node of a key once `trieInsert` has stored the value `v`, whose node is
`tv`, and the registry cell `c` in it. -/
def linkKey (kn : Trie) (v : Str) (tv : TriePtr) (c : Nat) : Trie :=
  { kn with value := some v, keysInRev := some ⟨tv, c⟩, revNode := some tv }

/-- The node of a value once the cell `c` with the key `k` is at the front of its
registry. -/
def linkVal (vn : Trie) (c : Nat) (k : Str) : Trie :=
  { vn with keys := some ((c, k) :: vn.keys.getD []) }

/-- The node map once the key `k` is linked to the value `v` through the cell `c`. -/
def linkF (f : TriePtr → Option Trie) (k v : Str) (kn vn : Trie) (c : Nat) :
    TriePtr → Option Trie :=
  setF (setF f (pathOf v) (some (linkVal vn c k))) (pathOf k)
    (some (linkKey kn v (pathOf v) c))

/-- A node once its value is taken away. -/
def unlinkKey (nd : Trie) : Trie :=
  { nd with value := none, keysInRev := none, revNode := none }

/-- A registry without the cell `c`: NULL when no cell is left. -/
def ringWithout (keys : Option CList) (c : Nat) : Option CList :=
  if (listRemoveFirst (keys.getD []) (some c)).isEmpty then none
  else some (listRemoveFirst (keys.getD []) (some c))

/-- The node of a value once the cell `c` has left its registry. -/
def unlinkVal (rn : Trie) (c : Nat) : Trie :=
  { rn with keys := ringWithout rn.keys c }

/-- The node map once the node `p`, which held a value whose node is `ro` and whose
registry cell is `c`, holds no value any more. -/
def unlinkF (f : TriePtr → Option Trie) (p ro : TriePtr) (nd rn : Trie) (c : Nat) :
    TriePtr → Option Trie :=
  setF (setF f ro (some (unlinkVal rn c))) p (some (unlinkKey nd))

/-- A node with another `value` pointer. -/
def setValue (nd : Trie) (w : Option Str) : Trie := { nd with value := w }

/-- The second heap is the first one with some new nodes, all blank. -/
def Grown (h h' : Heap) : Prop :=
  h'.cells = h.cells ∧
  ∀ q, view h' q = view h q ∨ (h.find q = none ∧ view h' q = some Trie.zero)

/-- The second heap is the first one without some nodes that held neither a
value nor a registry cell. -/
def Pruned (h h' : Heap) : Prop :=
  h'.cells = h.cells ∧
  ∀ q, view h' q = view h q ∨
    (h'.find q = none ∧ ∃ nd, h.find q = some nd ∧ nd.value = none ∧ listEmpty nd.keys = true)

/-- The node as `trieRemoveValues` leaves it on arriving: marked when it holds no
value. -/
def markNode (nd : Trie) : Trie :=
  if nd.value = none then { nd with value := some ROOT_VALUE } else nd

/-- The node as `trieRemoveValues` leaves it before `trieRemoveNodeValue`: the
marker is taken away again. -/
def unmarkNode (nd : Trie) : Trie :=
  if nd.value = some ROOT_VALUE then { nd with value := none } else nd

/-- While `trieRemoveValues` works below the node `R` and stands at node `cur`
with child index `i`: the node `q` is still to be visited. -/
def Unvisited (R cur : TriePtr) (i : Nat) (q : TriePtr) : Prop :=
  (∃ c, i ≤ c ∧ c :: cur <:+ q) ∨
  (∃ a n c, R <:+ a ∧ n :: a <:+ cur ∧ n < c ∧ c :: a <:+ q)

/-- The invariant of the loop of `trieRemoveValues` started on the node `R` of
the heap `h0`, at node `cur` with child index `i`. -/
structure LoopInv (R : TriePtr) (h0 h : Heap) (cur : TriePtr) (i : Nat) : Prop where
  shape : Shape h
  linked : Linked h
  rne : R ≠ []
  sub : R <:+ cur
  ile : i ≤ ALPHABET_SIZE
  alive : ∀ a, R <:+ a → a <:+ cur → a ≠ cur → ∃ nd, h.find a = some nd ∧ nd.value ≠ none
  curlive : (h.find cur).isSome = true
  markers : ∀ q nd, q ≠ [] → view h q = some nd → nd.value = some ROOT_VALUE →
    R <:+ q ∧ q <:+ cur
  fwdIn : ∀ x y, Fwd h x y → Fwd h0 x y
  fwdOut : ∀ x y, Fwd h0 x y → ¬ R <:+ pathOf x → Fwd h x y
  done : ∀ x y, Fwd h x y → R <:+ pathOf x →
    pathOf x <:+ cur ∨ Unvisited R cur i (pathOf x)

/-- The iterations that the nodes between `R` and `cur` still need after their
current child is done. -/
def depthCost (R cur : TriePtr) : Nat :=
  ((cur.take (cur.length - R.length)).map (fun n => ALPHABET_SIZE - n)).sum

/-- What `trieRemoveValues` on the node `R` of heap `h0` leaves behind. -/
structure RemovePost (R : TriePtr) (h0 h : Heap) : Prop where
  shape : Shape h
  linked : Linked h
  nomarker : NoMarker h
  fwd : ∀ x y, Fwd h x y ↔ Fwd h0 x y ∧ ¬ R <:+ pathOf x

/-- The invariant of the loop of `trieGet` on `num` after `depth` characters:
`result` and `n` are the value and length of the longest forwarded beginning of
`num` of at most that length, if there is one. -/
def GetInv (h : Heap) (num : Str) (result : Option Str) (n depth : Nat) : Prop :=
  match result with
  | some v => 0 < n ∧ n ≤ depth ∧ Fwd h (num.take n) v ∧
      ∀ d v', n < d → d ≤ depth → ¬ Fwd h (num.take d) v'
  | none => ∀ d v', 0 < d → d ≤ depth → ¬ Fwd h (num.take d) v'

/-- Every character of the string is a digit, `*` or `#`. -/
def Good (s : Str) : Prop := ∀ c ∈ s, badChar c = false

/-- The order of the sorted results: `a` does not sort after `b`. -/
def NotAfter (a b : Str) : Prop := phoneNumbersComparator a b ≤ 0

/-- The cells of the reverse registry `keys` of the node behind `q`; none when
the node is not allocated or its `keys` is NULL. -/
def registryAt (h : Heap) (q : TriePtr) : CList :=
  match h.find q with
  | some nd => nd.keys.getD []
  | none => []

/-- The node counts as unused for `trieDeleteUnusedBranch`: no child, no value
and no registry cell. -/
def Trie.unused (nd : Trie) : Prop :=
  nd.nextCount = 0 ∧ nd.value = none ∧ listEmpty nd.keys = true

/-- The heap holds an unused node other than the root behind `p`. -/
def Dead (h : Heap) (p : TriePtr) : Prop :=
  p ≠ [] ∧ ∃ nd, h.find p = some nd ∧ nd.unused

/-- Every unused node of the heap, the root apart, is one of `S`. -/
def DeadOnly (h : Heap) (S : TriePtr → Prop) : Prop := ∀ p, Dead h p → S p

/-- The heap holds no unused node but possibly the root. -/
def NoDead (h : Heap) : Prop := ∀ p, ¬ Dead h p

/-- What the loop of `trieRemoveValues`, working below the node `R` of the heap
`h0`, does from the node `cur` and child index `i` of the heap `h` until it
leaves `R`: the heap `h'` and the calls `tr` of `trieRemoveNodeValue`. -/
structure RunPost (R : TriePtr) (h0 h h' : Heap) (cur : TriePtr) (i : Nat)
    (tr : List TriePtr) : Prop where
  post : RemovePost R h0 h'
  nodead : NoDead h'
  mono : ∀ q, (h'.find q).isSome = true → (h.find q).isSome = true
  sound : ∀ q ∈ tr, (q <:+ cur ∨ Unvisited R cur i q) ∧ R <:+ q ∧ (h.find q).isSome = true
  order : tr.Pairwise (fun a b => ¬ a <:+ b)
  complete : ∀ q, (q <:+ cur ∨ Unvisited R cur i q) → R <:+ q →
    (h'.find q).isSome = true → q ∈ tr
  last : tr.getLast? = some R

/-- The structure `pf` is well formed and holds exactly the forwardings `m`. -/
structure Rep (pf : PhoneForward) (m : Str → Option Str) : Prop where
  trie : pf.trie = []
  shape : Shape pf.heap
  linked : Linked pf.heap
  nomarker : NoMarker pf.heap
  fwd : ∀ k v, m k = some v ↔ Fwd pf.heap k v

/-! ## list.c, cell by cell

The same functions of `list.c` once more, on the cells of the ring with their
`next` and `previous` pointers.  A `List *` is the address of a cell (a natural
number) or NULL (`none`); reading a cell that is not allocated is a fault.  The
address that `calloc` returns for a new cell is a parameter of `listNew` and of
`listAdd`. -/

namespace ListC

/-- `struct List`: one cell of the ring. -/
structure Cell where
  value : Option Str
  next : Nat
  previous : Nat
  deriving DecidableEq

/-- The allocated cells, by address. -/
abbrev Mem := List (Nat × Cell)

/-- Reading the cell at an address; `none` when nothing is allocated there. -/
def find (m : Mem) (p : Nat) : Option Cell :=
  match m.find? (fun e => e.1 = p) with
  | some e => some e.2
  | none => none

/-- Storing a cell at an address. -/
def write (m : Mem) (p : Nat) (c : Cell) : Mem :=
  (p, c) :: m.filter (fun e => e.1 ≠ p)

/-- `free` of the cell at an address. -/
def free (m : Mem) (p : Nat) : Mem :=
  m.filter (fun e => e.1 ≠ p)

/-- An assignment to a field of the cell at `p`; a fault when no cell is
allocated there. -/
def update (m : Mem) (p : Nat) (f : Cell → Cell) : Option Mem :=
  match find m p with
  | none => none
  | some c => some (write m p (f c))

/-- `listNew`, where `calloc` returns the address `list`: the memory afterwards. -/
def listNew (m : Mem) (list : Nat) : Mem :=
  write m list { value := none, next := list, previous := list }

/-- `listEmpty`. -/
def listEmpty (m : Mem) : Option Nat → Option Bool
  | none => some true
  | some list =>
    match find m list with
    | none => none
    | some c => some (decide (c.next = list))

/-- `listAdd`, where `calloc` returns the address `mid`: the memory afterwards
and the returned pointer. -/
def listAdd (m : Mem) (list : Option Nat) (value : Str) (mid : Nat) :
    Option (Mem × Option Nat) :=
  match list with
  | none => some (m, none)
  | some left =>
    let m := listNew m mid
    match find m left with
    | none => none
    | some lc =>
      let right := lc.next
      match update m mid (fun c => { c with value := some value }) with
      | none => none
      | some m =>
      match update m mid (fun c => { c with previous := left }) with
      | none => none
      | some m =>
      match update m mid (fun c => { c with next := right }) with
      | none => none
      | some m =>
      match update m left (fun c => { c with next := mid }) with
      | none => none
      | some m =>
      match update m right (fun c => { c with previous := mid }) with
      | none => none
      | some m => some (m, some mid)

/-- `listGet`. -/
def listGet (m : Mem) (list : Option Nat) : Option (Option Str) :=
  match listEmpty m list, list with
  | some false, some l =>
    match find m l with
    | none => none
    | some c =>
      if c.value = none then
        match find m c.next with
        | none => none
        | some n => some n.value
      else some c.value
  | some _, _ => some none
  | none, _ => none

/-- The statements of `listRemoveFirst` after the step over the sentinel: the
neighbours of the cell `list` are linked to each other and the cell is freed. -/
def unlink (m : Mem) (list : Nat) : Option Mem :=
  match find m list with
  | none => none
  | some c =>
    match update m c.previous (fun x => { x with next := c.next }) with
    | none => none
    | some m =>
      match find m list with
      | none => none
      | some c =>
        match update m c.next (fun x => { x with previous := c.previous }) with
        | none => none
        | some m =>
          match find m list with
          | none => none
          | some _ => some (free m list)

/-- `listRemoveFirst`. -/
def listRemoveFirst (m : Mem) (list : Option Nat) : Option Mem :=
  match listEmpty m list, list with
  | some false, some l =>
    match find m l with
    | none => none
    | some c => unlink m (if c.value = none then c.next else l)
  | some _, _ => some m
  | none, _ => none

/-- `struct ListIterator`. -/
structure ListIterator where
  start : Nat
  current : Nat
  deriving DecidableEq

/-- `listIteratorNew`; `malloc` is taken to succeed. -/
def listIteratorNew (m : Mem) (list : Option Nat) : Option (Option ListIterator) :=
  match listEmpty m list, list with
  | some false, some l =>
    match find m l with
    | none => none
    | some c =>
      let s := if c.value = none then c.next else l
      some (some { start := s, current := s })
  | some _, _ => some none
  | none, _ => none

/-- `listIteratorNext`: the iterator afterwards and the returned flag. -/
def listIteratorNext (m : Mem) (it : ListIterator) : Option (ListIterator × Bool) :=
  match find m it.current with
  | none => none
  | some c0 =>
    match find m c0.next with
    | none => none
    | some c =>
      let current := if c.value = none then c.next else c0.next
      some ({ it with current := current }, decide (current ≠ it.start))

/-- `listIteratorValue`. -/
def listIteratorValue (m : Mem) (it : ListIterator) : Option (Option Str) :=
  match find m it.current with
  | none => none
  | some c => some c.value

/-- The loop `do { ... listIteratorValue(iter) ... } while (listIteratorNext(iter))`
that `trieReverse` runs over a ring, for at most `fuel` rounds: the values it
meets, in order. -/
def iterateLoop (m : Mem) : Nat → ListIterator → List (Option Str) → Option (List (Option Str))
  | 0, _, _ => none
  | fuel + 1, it, seen =>
    match listIteratorValue m it with
    | none => none
    | some v =>
      match listIteratorNext m it with
      | none => none
      | some (it1, true) => iterateLoop m fuel it1 (seen ++ [v])
      | some (_, false) => some (seen ++ [v])

/-- An iteration over the list: `listIteratorNew`, and the loop when the
iterator is not NULL. -/
def iterate (m : Mem) (list : Option Nat) (fuel : Nat) : Option (List (Option Str)) :=
  match listIteratorNew m list with
  | none => none
  | some none => some []
  | some (some it) => iterateLoop m fuel it []

/-- The address of the first cell of `l`, or `e` when there is none. -/
def headAddr (e : Nat) : CList → Nat
  | [] => e
  | c :: _ => c.1

/-- The address of the last cell of `l`, or `e` when there is none. -/
def lastAddr (e : Nat) : CList → Nat
  | [] => e
  | c :: l => lastAddr c.1 l

/-- The data cells `l` are allocated and chained in this order: the first has
`previous = p`, the last has `next = n`. -/
def Seg (m : Mem) : Nat → CList → Nat → Prop
  | _, [], _ => True
  | p, c :: l, n =>
    find m c.1 = some { value := some c.2, next := headAddr n l, previous := p } ∧
      Seg m c.1 l n

/-- The memory holds the ring with sentinel `s` and data cells `l`, front to
back: this is what the sequence of data cells of `CList` stands for. -/
def Ring (m : Mem) (s : Nat) (l : CList) : Prop :=
  find m s = some { value := none, next := headAddr s l, previous := lastAddr s l } ∧
    Seg m s l s ∧ (s :: l.map Prod.fst).Nodup

end ListC

end Phfwd

/-!
Labyrinth (`src/labyrinth`): a shallow embedding of `vector.c`, `bitset.c` and
`maze.c`.

* `uint64_t` and `size_t` values are natural numbers; where the C arithmetic can
  wrap, the result is taken modulo `2^64`.
* A function that can run into undefined behaviour (an index outside an array,
  a division by zero) returns an `Option`; `none` is that fault.
* The shift `1ULL << m` is the shift of a 64-bit machine word: for a count of 64
  or more, which the C standard leaves undefined, the count is taken modulo 64,
  as the shift instructions of x86-64 and AArch64 do.
* `safe_malloc`, `safe_calloc` and `safe_realloc` are taken to succeed.
-/

namespace Labyrinth

/-- The number of values of `uint64_t` and of `size_t`. -/
def WORD : Nat := 2 ^ 64

/-! ## vector.c -/

/-- `struct Vector`: the elements `data[0]`, ..., `data[elements_number - 1]`. -/
abbrev Vector := List Nat

/-- `vector_create`. -/
def vector_create : Vector := []

/-- `vector_clear`. -/
def vector_clear (_ : Vector) : Vector := []

/-- `vector_push_back`. -/
def vector_push_back (v : Vector) (element : Nat) : Vector := v ++ [element]

/-- `vector_pop_back`: the vector without its last element, and that element.
On an empty vector `--elements_number` wraps and the read is outside the array. -/
def vector_pop_back (v : Vector) : Option (Vector × Nat) :=
  match v.getLast? with
  | none => none
  | some x => some (v.dropLast, x)

/-- `vector_get`; reading past the elements is taken as a fault. -/
def vector_get (v : Vector) (i : Nat) : Option Nat := v.get? i

/-- `vector_size`. -/
def vector_size (v : Vector) : Nat := v.length

/-- `vector_is_empty`. -/
def vector_is_empty (v : Vector) : Bool := v.length == 0

/-! ## bitset.c -/

/-- `BITS`: the bits stored in one element of a bitset. -/
def BITS : Nat := 64

/-- `struct Bitset`: the words `data[0 .. size / 64]` and the number of bits. -/
structure Bitset where
  data : List Nat
  size : Nat
  deriving DecidableEq

/-- `bitset_create`: `1 + size / 64` words of zeros. -/
def bitset_create (size : Nat) : Bitset :=
  { data := List.replicate (1 + size / 64) 0, size := size }

/-- `1ULL << m` on a 64-bit word: `2^m` for `m < 64`; for a larger count the
machine shift uses the count modulo 64. -/
def shiftOne (m : Nat) : Nat := 1 <<< (m % 64)

/-- `bitset_set`: the bitset afterwards and the returned flag. -/
def bitset_set (bitset : Bitset) (i : Nat) : Option (Bitset × Bool) :=
  if i ≥ bitset.size then some (bitset, false)
  else
    let n := i / BITS
    let m := i - n
    match bitset.data.get? n with
    | some w => some ({ bitset with data := bitset.data.set n (w ||| shiftOne m) }, true)
    | none => none

/-- `bitset_get`. -/
def bitset_get (bitset : Bitset) (i : Nat) : Option Bool :=
  let n := i / BITS
  let m := i - n
  match bitset.data.get? n with
  | some w => some (decide ((w &&& shiftOne m) > 0))
  | none => none

/-! ## maze.c -/

/-- `struct Maze`. -/
structure Maze where
  dimensions : Vector
  start_position : Vector
  end_position : Vector
  walls : Bitset
  start_position_hash : Nat
  end_position_hash : Nat
  deriving DecidableEq

/-- The loop of `is_position_valid` from index `i` on. -/
def is_position_valid_loop : List Nat → List Nat → Bool
  | z_i :: position, n_i :: dimensions =>
    if z_i < 1 ∨ z_i > n_i then false else is_position_valid_loop position dimensions
  | _, _ => true

/-- `is_position_valid` on a non-NULL position. -/
def is_position_valid (maze : Maze) (position : Vector) : Bool :=
  if vector_size position ≠ vector_size maze.dimensions then false
  else is_position_valid_loop position maze.dimensions

/-- `is_position_free`. -/
def is_position_free (maze : Maze) (position_hash : Nat) : Option Bool :=
  match bitset_get maze.walls position_hash with
  | none => none
  | some b => some (!b)

/-- `set_wall`. -/
def set_wall (maze : Maze) (position_hash : Nat) : Option Maze :=
  match bitset_set maze.walls position_hash with
  | none => none
  | some (walls, _) => some { maze with walls := walls }

/-- The loop of `hash_position` over the dimensions from index `i` on; the
position is read from the same index. -/
def hash_position_loop : List Nat → List Nat → Nat → Nat → Option Nat
  | [], _, hash, _ => some hash
  | _ :: _, [], _, _ => none
  | n_i :: dimensions, z_i :: position, hash, N =>
    hash_position_loop dimensions position
      ((hash + ((z_i + WORD - 1) % WORD) * N) % WORD) ((N * n_i) % WORD)

/-- `hash_position`. -/
def hash_position (maze : Maze) (position : Vector) : Option Nat :=
  hash_position_loop maze.dimensions position 0 1

/-- The loop of `dehash_position` over the dimensions from index `i` on. -/
def dehash_position_loop : List Nat → Nat → Vector → Option Vector
  | [], _, result => some result
  | n_i :: dimensions, hash, result =>
    if n_i = 0 then none
    else dehash_position_loop dimensions (hash / n_i) (vector_push_back result (1 + hash % n_i))

/-- The number of a position as the specification states it: the sum over `i`
of `(z_i - 1) * n_1 * ... * n_(i-1)`, the indices counted from 1. -/
def positionNumber (dimensions position : List Nat) : Nat :=
  Finset.sum (Finset.range dimensions.length)
    (fun i => (position.getD i 0 - 1) * (dimensions.take i).prod)

/-- `dehash_position`: the contents of `result` afterwards. -/
def dehash_position (maze : Maze) (hash : Nat) (result : Vector) : Option Vector :=
  dehash_position_loop maze.dimensions hash (vector_clear result)

/-- One round of the inner loop of `process_adjacent_positions` (`j` is 0 or
1): the maze and `next` afterwards, and whether the function returns true. The
subtractions are those of `size_t`: `2^64` is added first and the result taken
modulo `2^64`. -/
def process_adjacent_step (maze : Maze) (z n_i position_hash N : Nat) (next : Vector)
    (j : Nat) : Option (Maze × Vector × Bool) :=
  let notj := if j = 0 then 1 else 0
  let next_position_hash := (WORD + position_hash - (N * notj) % WORD + N * j) % WORD
  let z_i := (WORD + z - notj + j) % WORD
  if z_i < 1 ∨ z_i > n_i then some (maze, next, false)
  else
    match is_position_free maze next_position_hash with
    | none => none
    | some false => some (maze, next, false)
    | some true =>
      if next_position_hash = maze.end_position_hash then some (maze, next, true)
      else
        match set_wall maze next_position_hash with
        | none => none
        | some maze1 => some (maze1, vector_push_back next next_position_hash, false)

/-- The outer loop of `process_adjacent_positions` over the dimensions from
index `i` on; the coordinates of `position` are read from the same index. -/
def process_adjacent_loop : List Nat → List Nat → Maze → Nat → Nat → Vector →
    Option (Maze × Vector × Bool)
  | [], _, maze, _, _, next => some (maze, next, false)
  | _ :: _, [], _, _, _, _ => none
  | n_i :: dimensions, z :: position, maze, position_hash, N, next =>
    match process_adjacent_step maze z n_i position_hash N next 0 with
    | none => none
    | some (maze1, next1, true) => some (maze1, next1, true)
    | some (maze1, next1, false) =>
      match process_adjacent_step maze1 z n_i position_hash N next1 1 with
      | none => none
      | some (maze2, next2, true) => some (maze2, next2, true)
      | some (maze2, next2, false) =>
        process_adjacent_loop dimensions position maze2 position_hash ((N * n_i) % WORD) next2

/-- `process_adjacent_positions`. -/
def process_adjacent_positions (maze : Maze) (position : Vector) (position_hash : Nat)
    (next : Vector) : Option (Maze × Vector × Bool) :=
  process_adjacent_loop maze.dimensions position maze position_hash 1 next

/-- The `while` loop of `find_shortest_path`, for at most `fuel` rounds. The
outer `none` is a fault, the inner `none` says that the rounds ran out. -/
def find_shortest_path_loop : Nat → Maze → Vector → Vector → Vector → Nat → Nat →
    Option (Option Nat)
  | 0, _, _, _, _, _, _ => some none
  | fuel + 1, maze, current, next, position, answer, depth =>
    if answer ≠ 0 ∨ vector_is_empty current then some (some answer)
    else
      match vector_pop_back current with
      | none => none
      | some (current1, position_hash) =>
        match dehash_position maze position_hash position with
        | none => none
        | some position1 =>
          match process_adjacent_positions maze position1 position_hash next with
          | none => none
          | some (maze1, next1, found) =>
            let answer1 := if found then (depth + 1) % WORD else answer
            if vector_is_empty current1 then
              find_shortest_path_loop fuel maze1 next1 current1 position1 answer1
                ((depth + 1) % WORD)
            else find_shortest_path_loop fuel maze1 current1 next1 position1 answer1 depth

/-- `find_shortest_path`, with `fuel` rounds for its loop. -/
def find_shortest_path (fuel : Nat) (maze : Maze) : Option (Option Nat) :=
  match set_wall maze maze.start_position_hash with
  | none => none
  | some maze1 =>
    find_shortest_path_loop fuel maze1
      (vector_push_back vector_create maze.start_position_hash) vector_create vector_create 0 0

/-- What `maze_solve` prints: a length, or `NO WAY`. -/
inductive Output where
  | length (n : Nat)
  | noWay
  deriving DecidableEq

/-- `maze_solve`, with `fuel` rounds for the loop of `find_shortest_path`. -/
def maze_solve (fuel : Nat) (maze : Maze) : Option (Option Output) :=
  if maze.start_position_hash = maze.end_position_hash then some (some (Output.length 0))
  else
    match find_shortest_path fuel maze with
    | none => none
    | some none => some none
    | some (some path_length) =>
      if path_length ≠ 0 then some (some (Output.length path_length))
      else some (some Output.noWay)

/-- A maze as `read_maze_data` sets it up from valid positions: the hashes are
those of `hash_position`. -/
def mazeOf (dimensions start_position end_position : Vector) (walls : Bitset) : Option Maze :=
  let maze : Maze :=
    { dimensions := dimensions, start_position := start_position,
      end_position := end_position, walls := walls, start_position_hash := 0,
      end_position_hash := 0 }
  match hash_position maze start_position, hash_position maze end_position with
  | some s, some e => some { maze with start_position_hash := s, end_position_hash := e }
  | _, _ => none

/-- The result of `maze_solve` on the maze with the given dimensions, positions
and walls. -/
def solve (fuel : Nat) (dimensions start_position end_position : Vector) (walls : Bitset) :
    Option (Option Output) :=
  match mazeOf dimensions start_position end_position walls with
  | none => none
  | some maze => maze_solve fuel maze

/-- The corridor of 70 cells without walls, from cell 1 to cell 70 (the input
lines `70`, `1`, `70`, `0x0`). -/
def corridor : Maze :=
  { dimensions := [70], start_position := [1], end_position := [70],
    walls := bitset_create 70, start_position_hash := 0, end_position_hash := 69 }

/-! ## Moves in the maze -/

/-- One move: exactly one coordinate changes, by 1. -/
def Move (a b : Vector) : Prop :=
  ∃ pre x y post, a = pre ++ x :: post ∧ b = pre ++ y :: post ∧ (y = x + 1 ∨ x = y + 1)

/-- The position lies inside the grid and is not a wall of the maze:
`is_position_free` finds the bit of its hash clear in `walls`. -/
def Free (maze : Maze) (z : Vector) : Prop :=
  is_position_valid maze z = true ∧
    ∃ h, hash_position maze z = some h ∧ is_position_free maze h = some true

/-- From `a`, `k` moves lead to `b`, each of them to a position inside the grid
and off the walls. -/
def Walk (maze : Maze) : Nat → Vector → Vector → Prop
  | 0, a, b => a = b
  | k + 1, a, b => ∃ c, Move a c ∧ Free maze c ∧ Walk maze k c b

/-- The position `z` is `k` moves away from `a` and not less. -/
def Dist (maze : Maze) (a : Vector) (k : Nat) (z : Vector) : Prop :=
  Walk maze k a z ∧ ∀ j, j < k → ¬ Walk maze j a z

/-- A maze as `read_maze_data` hands it to `maze_solve`: the number of cells
fits into `size_t`, both positions are inside the grid and free and the hashes
are theirs, and the walls are a bitset of as many bits as there are cells. -/
structure Maze.Ready (maze : Maze) : Prop where
  fit : maze.dimensions.prod < WORD
  start_valid : is_position_valid maze maze.start_position = true
  end_valid : is_position_valid maze maze.end_position = true
  start_hash : hash_position maze maze.start_position = some maze.start_position_hash
  end_hash : hash_position maze maze.end_position = some maze.end_position_hash
  walls_size : maze.walls.size = maze.dimensions.prod
  walls_len : maze.walls.data.length = 1 + maze.walls.size / 64
  start_free : is_position_free maze maze.start_position_hash = some true
  end_free : is_position_free maze maze.end_position_hash = some true

/-- The invariant of the loop of `find_shortest_path` on the maze `maze0`, when
the walls have become those of `maze`, the vectors hold `current` and `next`
and the depth is `depth`: the marked cells are the walls, the positions up to
`depth` moves away and those of `next`; `current` holds positions `depth`
moves away, `next` positions one move further; the positions of this depth
that have left `current` have all their neighbours marked; and the end
position is more than `depth` moves away and not in `next`. -/
structure BfsInv (maze0 maze : Maze) (current next : Vector) (depth : Nat) : Prop where
  same : maze = { maze0 with walls := maze.walls }
  size : maze.walls.size = maze0.walls.size
  len : maze.walls.data.length = maze0.walls.data.length
  marked : ∀ u, u < maze0.walls.size →
    (bitset_get maze.walls u = some true ↔
      bitset_get maze0.walls u = some true ∨
      (∃ k z, k ≤ depth ∧ Dist maze0 maze0.start_position k z ∧
        positionNumber maze0.dimensions z = u) ∨ u ∈ next)
  cur : ∀ u ∈ current, ∃ z, Dist maze0 maze0.start_position depth z ∧
    positionNumber maze0.dimensions z = u
  nxt : ∀ u ∈ next, ∃ z, Dist maze0 maze0.start_position (depth + 1) z ∧
    positionNumber maze0.dimensions z = u
  done : ∀ z, Dist maze0 maze0.start_position depth z →
    positionNumber maze0.dimensions z ∉ current →
    ∀ c, Move z c → is_position_valid maze0 c = true →
      bitset_get maze.walls (positionNumber maze0.dimensions c) = some true
  far : ∀ k, k ≤ depth → ¬ Walk maze0 k maze0.start_position maze0.end_position
  endOut : maze0.end_position_hash ∉ next

/-- The hashes that the loops of `process_adjacent_positions` reach from the
position with hash `h`, in their order: for every coordinate, first the step
down and then the step up, each when it stays inside the grid. -/
def adjacentFrom : List Nat → List Nat → Nat → Nat → List Nat
  | n_i :: dimensions, z :: position, h, N =>
    (if 2 ≤ z then [h - N] else []) ++ (if z + 1 ≤ n_i then [h + N] else []) ++
      adjacentFrom dimensions position h (N * n_i)
  | _, _, _, _ => []

/-- What `process_adjacent_positions` does with the hashes it reaches, one after
the other: a wall or a visited position is passed over, the end position ends
the search, any other position is marked and stored in `next`. -/
def scan : List Nat → Maze → Vector → Option (Maze × Vector × Bool)
  | [], maze, next => some (maze, next, false)
  | u :: us, maze, next =>
    match is_position_free maze u with
    | none => none
    | some false => scan us maze next
    | some true =>
      if u = maze.end_position_hash then some (maze, next, true)
      else
        match set_wall maze u with
        | none => none
        | some maze1 => scan us maze1 (vector_push_back next u)

end Labyrinth

/-! # Theorems -/

namespace Phfwd

/-! ## The heap -/

theorem find_nodes_filter (l : List (TriePtr × Trie)) (p q : TriePtr) (hq : q ≠ p) :
    (l.filter (fun e => e.1 ≠ p)).find? (fun e => e.1 = q) = l.find? (fun e => e.1 = q) := by
  rw [List.find?_filter]
  congr 1
  funext a
  by_cases h2 : a.1 = q
  · simp [h2, hq]
  · simp [h2]

theorem find_nodes_filter_self (l : List (TriePtr × Trie)) (p : TriePtr) :
    (l.filter (fun e => e.1 ≠ p)).find? (fun e => e.1 = p) = none := by
  rw [List.find?_filter, List.find?_eq_none]
  intro a _
  by_cases h2 : a.1 = p <;> simp [h2]

theorem find_write (h : Heap) (p q : TriePtr) (nd : Trie) :
    (h.write p nd).find q = if q = p then some nd else h.find q := by
  unfold Heap.find Heap.write
  by_cases hq : q = p
  · subst hq
    simp [List.find?_cons]
  · have hq2 : p ≠ q := fun e => hq e.symm
    have := find_nodes_filter h.nodes p q hq
    simp only [ne_eq, decide_not] at this
    simp [List.find?_cons, hq, hq2, this]

theorem find_free (h : Heap) (p q : TriePtr) :
    (h.free p).find q = if q = p then none else h.find q := by
  unfold Heap.find Heap.free
  by_cases hq : q = p
  · subst hq
    have := find_nodes_filter_self h.nodes q
    simp only [ne_eq, decide_not] at this
    simp [this]
  · have := find_nodes_filter h.nodes p q hq
    simp only [ne_eq, decide_not] at this
    simp [hq, this]

@[simp]
theorem cells_write (h : Heap) (p : TriePtr) (nd : Trie) :
    (h.write p nd).cells = h.cells := rfl

@[simp]
theorem cells_free (h : Heap) (p : TriePtr) : (h.free p).cells = h.cells := rfl

@[simp]
theorem find_cells_update (h : Heap) (c : Nat) (q : TriePtr) :
    Heap.find { h with cells := c } q = h.find q := rfl

@[simp]
theorem find_newCell (h : Heap) (q : TriePtr) : h.newCell.find q = h.find q := rfl

@[simp]
theorem cells_newCell (h : Heap) : h.newCell.cells = h.cells + 1 := rfl

theorem find_mem_nodes (h : Heap) (q : TriePtr) (nd : Trie) (hf : h.find q = some nd) :
    (q, nd) ∈ h.nodes := by
  unfold Heap.find at hf
  cases hfe : h.nodes.find? (fun e => e.1 = q) with
  | none => simp [hfe] at hf
  | some e =>
    simp [hfe] at hf
    have h1 := List.find?_some hfe
    have h2 := List.mem_of_find?_eq_some hfe
    simp at h1
    have : e = (q, nd) := by
      cases e; simp at h1 hf ⊢; exact ⟨h1, hf⟩
    rw [← this]; exact h2

/-! ## Characters and phone numbers -/

theorem char_le_iff (a b : Char) : a ≤ b ↔ a.toNat ≤ b.toNat := by
  simp [Char.le_def, UInt32.le_def, BitVec.le_def, Char.toNat, UInt32.toNat]

theorem char_lt_iff (a b : Char) : a < b ↔ a.toNat < b.toNat := by
  simp [Char.lt_def, UInt32.lt_def, BitVec.lt_def, Char.toNat, UInt32.toNat]

theorem char_toNat_inj (a b : Char) (h : a.toNat = b.toNat) : a = b := by
  apply Char.ext
  cases a with | mk va ha => cases b with | mk vb hb =>
  cases va with | mk ba => cases vb with | mk bb =>
  simp [Char.toNat, UInt32.toNat] at h
  simp
  rw [BitVec.eq_of_toNat_eq h]

theorem badChar_false_iff (c : Char) :
    badChar c = false ↔ c = '*' ∨ c = '#' ∨ (48 ≤ c.toNat ∧ c.toNat ≤ 57) := by
  have e0 : ('0' : Char).toNat = 48 := rfl
  have e9 : ('9' : Char).toNat = 57 := rfl
  unfold badChar
  simp only [Bool.and_eq_false_imp, Bool.or_eq_false_iff, Bool.and_eq_true,
    decide_eq_true_eq, decide_eq_false_iff_not, char_lt_iff, gt_iff_lt, e0, e9, ne_eq]
  constructor
  · intro h
    by_cases h1 : c = '*'
    · exact Or.inl h1
    · by_cases h2 : c = '#'
      · exact Or.inr (Or.inl h2)
      · have := h ⟨h1, h2⟩
        exact Or.inr (Or.inr (by omega))
  · rintro (h | h | h) ⟨h1, h2⟩
    · exact absurd h h1
    · exact absurd h h2
    · omega

theorem strToInt_star : strToInt '*' = 10 := by decide

theorem strToInt_hash : strToInt '#' = 11 := by decide

theorem strToInt_digit (c : Char) (h : 48 ≤ c.toNat ∧ c.toNat ≤ 57) :
    strToInt c = c.toNat - 48 := by
  have e0 : ('0' : Char).toNat = 48 := rfl
  have e9 : ('9' : Char).toNat = 57 := rfl
  unfold strToInt
  simp only [char_le_iff, e0, e9, h, and_self, if_true]

theorem strToInt_lt (c : Char) (hc : badChar c = false) : strToInt c < ALPHABET_SIZE := by
  rw [badChar_false_iff] at hc
  unfold ALPHABET_SIZE
  rcases hc with hc | hc | hc
  · rw [hc, strToInt_star]; omega
  · rw [hc, strToInt_hash]; omega
  · rw [strToInt_digit c hc]; omega

theorem strToInt_inj (c d : Char) (hc : badChar c = false) (hd : badChar d = false)
    (h : strToInt c = strToInt d) : c = d := by
  rw [badChar_false_iff] at hc hd
  rcases hc with hc | hc | hc <;> rcases hd with hd | hd | hd
  · rw [hc, hd]
  · rw [hc, hd, strToInt_star, strToInt_hash] at h; omega
  · rw [hc, strToInt_star, strToInt_digit d hd] at h; omega
  · rw [hc, hd, strToInt_star, strToInt_hash] at h; omega
  · rw [hc, hd]
  · rw [hc, strToInt_hash, strToInt_digit d hd] at h; omega
  · rw [hd, strToInt_star, strToInt_digit c hc] at h; omega
  · rw [hd, strToInt_hash, strToInt_digit c hc] at h; omega
  · rw [strToInt_digit c hc, strToInt_digit d hd] at h
    apply char_toNat_inj
    omega

theorem loop_true_iff (num : Str) :
    isPhoneNumberCorrectLoop num = true ↔ num ≠ [] ∧ ∀ c ∈ num, badChar c = false := by
  induction num with
  | nil => simp [isPhoneNumberCorrectLoop]
  | cons c num ih =>
    cases num with
    | nil =>
      simp [isPhoneNumberCorrectLoop]
    | cons d num =>
      unfold isPhoneNumberCorrectLoop
      by_cases hc : badChar c = true
      · simp [hc]
      · simp only [Bool.not_eq_true] at hc
        simp only [hc, Bool.false_eq_true, if_false, ih]
        simp [hc]

theorem valid_iff (num : Str) : Valid num ↔ num ≠ [] ∧ ∀ c ∈ num, badChar c = false := by
  unfold Valid isPhoneNumberCorrect
  exact loop_true_iff num

theorem Valid.ne_nil {num : Str} (h : Valid num) : num ≠ [] := ((valid_iff num).1 h).1

theorem Valid.good {num : Str} (h : Valid num) : ∀ c ∈ num, badChar c = false :=
  ((valid_iff num).1 h).2

theorem not_valid_root : ¬ Valid ROOT_VALUE := by
  intro h
  have := h.good '!' (by simp [ROOT_VALUE])
  revert this
  decide

theorem Valid.ne_root {num : Str} (h : Valid num) : num ≠ ROOT_VALUE := by
  intro e; rw [e] at h; exact not_valid_root h

/-! ## Paths -/

@[simp]
theorem pathOf_nil : pathOf [] = [] := rfl

theorem pathOf_cons (c : Char) (k : Str) : pathOf (c :: k) = pathOf k ++ [strToInt c] := by
  simp [pathOf]

theorem pathOf_append (a b : Str) : pathOf (a ++ b) = pathOf b ++ pathOf a := by
  simp [pathOf]

theorem pathOf_snoc (k : Str) (c : Char) : pathOf (k ++ [c]) = strToInt c :: pathOf k := by
  simp [pathOf]

@[simp]
theorem pathOf_length (k : Str) : (pathOf k).length = k.length := by
  simp [pathOf]

theorem pathOf_eq_nil {k : Str} (h : pathOf k = []) : k = [] := by
  have := congrArg List.length h
  simpa using this

theorem Valid.pathOf_ne_nil {k : Str} (h : Valid k) : pathOf k ≠ [] :=
  fun e => h.ne_nil (pathOf_eq_nil e)

theorem map_strToInt_inj : ∀ (a b : Str), (∀ c ∈ a, badChar c = false) →
    (∀ c ∈ b, badChar c = false) → a.map strToInt = b.map strToInt → a = b
  | [], [], _, _, _ => rfl
  | [], _ :: _, _, _, h => by simp at h
  | _ :: _, [], _, _, h => by simp at h
  | x :: a, y :: b, ha, hb, h => by
    simp only [List.map_cons, List.cons.injEq] at h
    have h1 := strToInt_inj x y (ha x (by simp)) (hb y (by simp)) h.1
    have h2 := map_strToInt_inj a b (fun c hc => ha c (by simp [hc]))
      (fun c hc => hb c (by simp [hc])) h.2
    rw [h1, h2]

theorem pathOf_inj {a b : Str} (ha : Valid a) (hb : Valid b) (h : pathOf a = pathOf b) :
    a = b :=
  map_strToInt_inj a b ha.good hb.good (List.reverse_injective h)

theorem pathOf_suffix_of {a b : Str} (h : a <+: b) : pathOf a <:+ pathOf b := by
  obtain ⟨t, rfl⟩ := h
  rw [pathOf_append]
  exact List.suffix_append _ _

theorem of_pathOf_suffix {a b : Str} (ha : ∀ c ∈ a, badChar c = false)
    (hb : ∀ c ∈ b, badChar c = false) (h : pathOf a <:+ pathOf b) : a <+: b := by
  have h1 : (a.map strToInt) <+: (b.map strToInt) := by
    have := List.reverse_prefix.2 h
    simpa [pathOf] using this
  have h2 : a.map strToInt = (b.take a.length).map strToInt := by
    have := List.prefix_iff_eq_take.1 h1
    rw [this, List.map_take]; simp
  have h3 := map_strToInt_inj a (b.take a.length) ha
    (fun c hc => hb c (List.mem_of_mem_take hc)) h2
  rw [h3]
  exact List.take_prefix _ _

theorem Valid.take {num : Str} (h : Valid num) {d : Nat} (hd : 0 < d) : Valid (num.take d) := by
  rw [valid_iff] at h ⊢
  refine ⟨?_, fun c hc => h.2 c (List.mem_of_mem_take hc)⟩
  intro e
  have := congrArg List.length e
  simp at this
  rcases this with h0 | h0
  · omega
  · exact h.1 h0

/-! ## Counting children -/

theorem filter_length_congr (l : List Nat) (f g : Nat → Bool) (h : ∀ n ∈ l, g n = f n) :
    (l.filter g).length = (l.filter f).length := by
  rw [List.filter_congr h]

theorem filter_length_add (l : List Nat) (f g : Nat → Bool) (m : Nat) (hl : l.Nodup)
    (hm : m ∈ l) (hf : f m = false) (hg : g m = true) (h : ∀ n, n ≠ m → g n = f n) :
    (l.filter g).length = (l.filter f).length + 1 := by
  induction l with
  | nil => simp at hm
  | cons a l ih =>
    have hnd := List.nodup_cons.1 hl
    by_cases ha : a = m
    · subst ha
      have hrest : (l.filter g).length = (l.filter f).length :=
        filter_length_congr l f g (fun n hn => h n (fun e => hnd.1 (e ▸ hn)))
      simp [List.filter_cons, hf, hg, hrest]
    · have hm2 : m ∈ l := by
        rcases List.mem_cons.1 hm with e | e
        · exact absurd e.symm ha
        · exact e
      have := ih hnd.2 hm2
      rw [List.filter_cons, List.filter_cons, h a ha]
      cases f a <;> simp [this]

theorem childCount_congr (h h' : Heap) (p : TriePtr)
    (hs : ∀ n, (h'.find (n :: p)).isSome = (h.find (n :: p)).isSome) :
    childCount h' p = childCount h p := by
  unfold childCount
  exact filter_length_congr _ _ _ (fun n _ => hs n)

theorem childCount_add (h h' : Heap) (p : TriePtr) (m : Nat) (hm : m < ALPHABET_SIZE)
    (h0 : h.find (m :: p) = none) (h1 : (h'.find (m :: p)).isSome = true)
    (hs : ∀ n, n ≠ m → (h'.find (n :: p)).isSome = (h.find (n :: p)).isSome) :
    childCount h' p = childCount h p + 1 := by
  unfold childCount
  exact filter_length_add _ _ _ m (List.nodup_range _) (List.mem_range.2 hm)
    (by simp [h0]) h1 hs

theorem childCount_sub (h h' : Heap) (p : TriePtr) (m : Nat) (hm : m < ALPHABET_SIZE)
    (h0 : (h.find (m :: p)).isSome = true) (h1 : h'.find (m :: p) = none)
    (hs : ∀ n, n ≠ m → (h'.find (n :: p)).isSome = (h.find (n :: p)).isSome) :
    childCount h p = childCount h' p + 1 :=
  childCount_add h' h p m hm h1 h0 (fun n hn => (hs n hn).symm)

theorem childCount_le (h : Heap) (p : TriePtr) : childCount h p ≤ ALPHABET_SIZE := by
  unfold childCount
  calc ((List.range ALPHABET_SIZE).filter _).length
      ≤ (List.range ALPHABET_SIZE).length := List.length_filter_le _ _
    _ = ALPHABET_SIZE := List.length_range _

theorem childCount_eq_zero (h : Heap) (p : TriePtr) (hz : childCount h p = 0) (n : Nat)
    (hn : n < ALPHABET_SIZE) : h.find (n :: p) = none := by
  unfold childCount at hz
  have h1 := List.length_eq_zero.1 hz
  rw [List.filter_eq_nil_iff] at h1
  have := h1 n (List.mem_range.2 hn)
  simpa using this

theorem childCount_zero_of (h : Heap) (p : TriePtr)
    (hz : ∀ n, h.find (n :: p) = none) : childCount h p = 0 := by
  unfold childCount
  rw [List.length_eq_zero, List.filter_eq_nil_iff]
  intro n _
  simp [hz n]

/-! ## Views -/

theorem view_write (h : Heap) (p q : TriePtr) (nd : Trie) :
    view (h.write p nd) q = if q = p then some nd.pay else view h q := by
  unfold view
  rw [find_write]
  split_ifs <;> rfl

theorem view_free (h : Heap) (p q : TriePtr) :
    view (h.free p) q = if q = p then none else view h q := by
  unfold view
  rw [find_free]
  split_ifs <;> rfl

theorem view_eq_some {h : Heap} {q : TriePtr} {nd : Trie} (hf : h.find q = some nd) :
    view h q = some nd.pay := by
  simp [view, hf]

theorem view_eq_none {h : Heap} {q : TriePtr} (hf : h.find q = none) : view h q = none := by
  simp [view, hf]

theorem view_isSome (h : Heap) (q : TriePtr) : (view h q).isSome = (h.find q).isSome := by
  simp [view]

theorem pay_eq_iff (a b : Trie) : a.pay = b.pay ↔
    a.value = b.value ∧ a.keys = b.keys ∧ a.keysInRev = b.keysInRev ∧
      a.revNode = b.revNode := by
  cases a; cases b
  simp [Trie.pay]

/-- From equal views: the node read in one heap is there in the other, with the
same forwarding data. -/
theorem find_of_view_eq {h h' : Heap} {q : TriePtr} {nd : Trie} (hv : view h' q = view h q)
    (hf : h'.find q = some nd) : ∃ nd0, h.find q = some nd0 ∧ nd0.value = nd.value ∧
      nd0.keys = nd.keys ∧ nd0.keysInRev = nd.keysInRev ∧ nd0.revNode = nd.revNode := by
  unfold view at hv
  rw [hf] at hv
  cases h0 : h.find q with
  | none => simp [h0] at hv
  | some nd0 =>
    simp only [h0, Option.map_some', Option.some.injEq] at hv
    exact ⟨nd0, rfl, ((pay_eq_iff _ _).1 hv.symm)⟩

/-! ## Shape is kept by writes that keep `nextCount` -/

theorem Shape.of_same_live {h h' : Heap} (hs : Shape h)
    (hl : ∀ q, (h'.find q).isSome = (h.find q).isSome)
    (hc : ∀ q nd', h'.find q = some nd' → ∃ nd, h.find q = some nd ∧
      nd'.nextCount = nd.nextCount)
    (hr : ∀ r, h'.find [] = some r → r.value ≠ none) : Shape h' := by
  refine ⟨?_, ?_, ?_⟩
  · obtain ⟨r, hr1, _⟩ := hs.root
    have := hl []
    rw [hr1] at this
    cases h0 : h'.find [] with
    | none => simp [h0] at this
    | some r' => exact ⟨r', rfl, hr r' h0⟩
  · intro n p hnp
    rw [hl] at hnp
    have := hs.closed n p hnp
    rw [hl]
    exact this
  · intro p nd' hp
    obtain ⟨nd, h1, h2⟩ := hc p nd' hp
    rw [h2, hs.count p nd h1]
    exact (childCount_congr h h' p (fun n => hl (n :: p))).symm

theorem Shape.write {h : Heap} (hs : Shape h) {p : TriePtr} {nd nd' : Trie}
    (hp : h.find p = some nd) (hn : nd'.nextCount = nd.nextCount)
    (hr : p = [] → nd'.value ≠ none) : Shape (h.write p nd') := by
  apply hs.of_same_live
  · intro q
    rw [find_write]
    split_ifs with e
    · subst e; simp [hp]
    · rfl
  · intro q x hq
    rw [find_write] at hq
    split_ifs at hq with e
    · subst e
      simp only [Option.some.injEq] at hq
      subst hq
      exact ⟨nd, hp, hn⟩
    · exact ⟨x, hq, rfl⟩
  · intro r hr0
    rw [find_write] at hr0
    split_ifs at hr0 with e
    · simp only [Option.some.injEq] at hr0
      subst hr0
      exact hr e.symm
    · obtain ⟨r0, hr1, hr2⟩ := hs.root
      rw [hr1] at hr0
      simp only [Option.some.injEq] at hr0
      subst hr0
      exact hr2

theorem Shape.cells {h : Heap} (hs : Shape h) (c : Nat) : Shape { h with cells := c } :=
  ⟨hs.root, hs.closed, hs.count⟩

theorem Shape.nextCount_le {h : Heap} (hs : Shape h) {p : TriePtr} {nd : Trie}
    (hp : h.find p = some nd) : nd.nextCount ≤ ALPHABET_SIZE := by
  rw [hs.count p nd hp]
  exact childCount_le h p

/-! ## Growing and pruning -/

theorem Grown.refl_grown (h : Heap) : Grown h h := ⟨rfl, fun _ => Or.inl rfl⟩

theorem Grown.trans_grown {h h1 h2 : Heap} (a : Grown h h1) (b : Grown h1 h2) : Grown h h2 := by
  refine ⟨b.1.trans a.1, fun q => ?_⟩
  rcases b.2 q with e2 | ⟨n1, z2⟩
  · rcases a.2 q with e1 | ⟨n0, z1⟩
    · exact Or.inl (e2.trans e1)
    · exact Or.inr ⟨n0, e2.trans z1⟩
  · rcases a.2 q with e1 | ⟨n0, _⟩
    · refine Or.inr ⟨?_, z2⟩
      have : view h q = none := by rw [← e1]; exact view_eq_none n1
      cases h0 : h.find q with
      | none => rfl
      | some x => simp [view, h0] at this
    · exact Or.inr ⟨n0, z2⟩

theorem Grown.live_grown {h h' : Heap} (g : Grown h h') {q : TriePtr}
    (hq : (h.find q).isSome = true) : (h'.find q).isSome = true := by
  rcases g.2 q with e | ⟨n0, _⟩
  · rw [← view_isSome, e, view_isSome]; exact hq
  · simp [n0] at hq

theorem Pruned.refl_pruned (h : Heap) : Pruned h h := ⟨rfl, fun _ => Or.inl rfl⟩

theorem Pruned.trans_pruned {h h1 h2 : Heap} (a : Pruned h h1) (b : Pruned h1 h2) : Pruned h h2 := by
  refine ⟨b.1.trans a.1, fun q => ?_⟩
  rcases b.2 q with e2 | ⟨n2, nd1, f1, v1, k1⟩
  · rcases a.2 q with e1 | ⟨n1, x⟩
    · exact Or.inl (e2.trans e1)
    · refine Or.inr ⟨?_, x⟩
      have : view h2 q = none := by rw [e2]; exact view_eq_none n1
      cases h0 : h2.find q with
      | none => rfl
      | some y => simp [view, h0] at this
  · rcases a.2 q with e1 | ⟨n1, _⟩
    · obtain ⟨nd0, g0, gv, gk, _, _⟩ := find_of_view_eq e1 f1
      exact Or.inr ⟨n2, nd0, g0, gv.trans v1, by rw [gk]; exact k1⟩
    · rw [n1] at f1; cases f1

theorem Pruned.live_pruned {h h' : Heap} (g : Pruned h h') {q : TriePtr}
    (hq : (h'.find q).isSome = true) : (h.find q).isSome = true := by
  rcases g.2 q with e | ⟨n0, _⟩
  · rw [← view_isSome, ← e, view_isSome]; exact hq
  · simp [n0] at hq

/-- A node that holds a value or a registry cell survives pruning. -/
theorem Pruned.keep_pruned {h h' : Heap} (g : Pruned h h') {q : TriePtr} {nd : Trie}
    (hq : h.find q = some nd) (hu : nd.value ≠ none ∨ listEmpty nd.keys = false) :
    view h' q = view h q := by
  rcases g.2 q with e | ⟨_, nd0, f0, v0, k0⟩
  · exact e
  · rw [hq] at f0
    simp only [Option.some.injEq] at f0
    subst f0
    rcases hu with hu | hu
    · exact absurd v0 hu
    · rw [k0] at hu; cases hu

theorem trieAddNode_spec {h : Heap} (hs : Shape h) {p : TriePtr} {nd : Trie}
    (hp : h.find p = some nd) {n : Nat} (hn : n < ALPHABET_SIZE)
    (hc : h.find (n :: p) = none) :
    ∃ h', trieAddNode h p n = some h' ∧ Shape h' ∧ Grown h h' ∧
      (h'.find (n :: p)).isSome = true := by
  have hne : n :: p ≠ p := fun e => by
    have := congrArg List.length e
    simp at this
  refine ⟨(h.write (n :: p) Trie.zero).write p
    { nd with nextCount := (nd.nextCount + 1) % 256 }, ?_, ?_, ?_, ?_⟩
  · simp [trieAddNode, hp, next, hn, hc]
  · have hfind : ∀ q, (((h.write (n :: p) Trie.zero).write p
        { nd with nextCount := (nd.nextCount + 1) % 256 }).find q).isSome
        = (decide (q = n :: p) || (h.find q).isSome) := by
      intro q
      rw [find_write, find_write]
      by_cases e1 : q = p
      · subst e1; simp [hp]
      · by_cases e2 : q = n :: p
        · simp [e1, e2]
        · simp [e1, e2]
    refine ⟨?_, ?_, ?_⟩
    · obtain ⟨r, hr1, hr2⟩ := hs.root
      by_cases e : p = []
      · subst e
        rw [hp] at hr1
        simp only [Option.some.injEq] at hr1
        subst hr1
        exact ⟨{ nd with nextCount := (nd.nextCount + 1) % 256 },
          by rw [find_write]; simp, hr2⟩
      · refine ⟨r, ?_, hr2⟩
        rw [find_write, find_write]
        simp [Ne.symm e, hr1]
    · intro m q hmq
      rw [hfind] at hmq
      rw [hfind]
      simp only [Bool.or_eq_true, decide_eq_true_eq] at hmq ⊢
      rcases hmq with e | e
      · simp only [List.cons.injEq] at e
        obtain ⟨rfl, rfl⟩ := e
        exact ⟨hn, Or.inr (by simp [hp])⟩
      · have := hs.closed m q e
        exact ⟨this.1, Or.inr this.2⟩
    · intro q x hq
      rw [find_write, find_write] at hq
      by_cases e1 : q = p
      · subst e1
        simp only [if_true, Option.some.injEq] at hq
        subst hq
        have hle := hs.nextCount_le hp
        have hcnt := hs.count q nd hp
        have := childCount_add h ((h.write (n :: q) Trie.zero).write q
          { nd with nextCount := (nd.nextCount + 1) % 256 }) q n hn hc
          (by rw [hfind]; simp)
          (fun m hm => by rw [hfind]; simp [hm])
        rw [this]
        simp only
        unfold ALPHABET_SIZE at hle
        omega
      · by_cases e2 : q = n :: p
        · subst e2
          simp only [e1, if_false, if_true, Option.some.injEq] at hq
          subst hq
          symm
          apply childCount_zero_of
          intro m
          have h0 : h.find (m :: n :: p) = none := by
            cases hx : h.find (m :: n :: p) with
            | none => rfl
            | some y =>
              have := (hs.closed m (n :: p) (by simp [hx])).2
              simp [hc] at this
          have := hfind (m :: n :: p)
          have hne2 : m :: n :: p ≠ n :: p := fun e => by
            have := congrArg List.length e
            simp at this
          simp only [hne2, decide_False, Bool.false_or, h0, Option.isSome_none] at this
          cases hx : ((h.write (n :: p) Trie.zero).write p
            { nd with nextCount := (nd.nextCount + 1) % 256 }).find (m :: n :: p) with
          | none => rfl
          | some y => simp [hx] at this
        · simp only [e1, e2, if_false] at hq
          rw [hs.count q x hq]
          symm
          apply childCount_congr
          intro m
          rw [hfind]
          have : m :: q ≠ n :: p := fun e => e1 (by simp at e; exact e.2)
          simp [this]
  · refine ⟨rfl, fun q => ?_⟩
    rw [view_write, view_write]
    by_cases e1 : q = p
    · subst e1
      left
      simp [view, hp, Trie.pay]
    · by_cases e2 : q = n :: p
      · subst e2
        right
        simp [e1, hc, Trie.pay, Trie.zero]
      · left; simp [e1, e2]
  · rw [find_write, find_write]
    simp [hne]

theorem trieGetNode_spec (key : Str) : ∀ (h : Heap) (cur : TriePtr), Shape h →
    (h.find cur).isSome = true → (∀ c ∈ key, badChar c = false) →
    ∃ h', trieGetNode key h cur = some (h', pathOf key ++ cur) ∧ Shape h' ∧ Grown h h' ∧
      (h'.find (pathOf key ++ cur)).isSome = true := by
  induction key with
  | nil =>
    intro h cur hs hc _
    exact ⟨h, rfl, hs, Grown.refl_grown h, hc⟩
  | cons c key ih =>
    intro h cur hs hc hg
    have hlt := strToInt_lt c (hg c (by simp))
    have hg2 : ∀ d ∈ key, badChar d = false := fun d hd => hg d (by simp [hd])
    have hpath : pathOf (c :: key) ++ cur = pathOf key ++ (strToInt c :: cur) := by
      rw [pathOf_cons]; simp
    rw [hpath]
    cases hch : h.find (strToInt c :: cur) with
    | some x =>
      obtain ⟨h', e1, e2, e3, e4⟩ := ih h (strToInt c :: cur) hs (by simp [hch]) hg2
      refine ⟨h', ?_, e2, e3, e4⟩
      simp [trieGetNode, next, hlt, hch, e1]
    | none =>
      obtain ⟨nd, hnd⟩ := Option.isSome_iff_exists.1 hc
      obtain ⟨h1, a1, a2, a3, a4⟩ := trieAddNode_spec hs hnd hlt hch
      obtain ⟨h', e1, e2, e3, e4⟩ := ih h1 (strToInt c :: cur) a2 a4 hg2
      refine ⟨h', ?_, e2, a3.trans_grown e3, e4⟩
      simp [trieGetNode, next, hlt, hch, a1, e1]

theorem prune_spec (p : TriePtr) : ∀ (h : Heap), Shape h → (h.find p).isSome = true →
    ∃ h', trieDeleteUnusedBranchLoop p h = some h' ∧ Shape h' ∧ Pruned h h' := by
  induction p with
  | nil =>
    intro h hs _
    obtain ⟨r, hr1, hr2⟩ := hs.root
    refine ⟨h, ?_, hs, Pruned.refl_pruned h⟩
    simp [trieDeleteUnusedBranchLoop, hr1, hr2]
  | cons n prev ih =>
    intro h hs hl
    obtain ⟨nd, hnd⟩ := Option.isSome_iff_exists.1 hl
    by_cases hu : nd.nextCount = 0 ∧ nd.value = none ∧ listEmpty nd.keys = true
    · obtain ⟨hn, hprev⟩ := hs.closed n prev hl
      obtain ⟨pn, hpn⟩ := Option.isSome_iff_exists.1 hprev
      have hne : n :: prev ≠ prev := fun e => by
        have := congrArg List.length e
        simp at this
      have hnochild : ∀ m, h.find (m :: n :: prev) = none := by
        intro m
        cases hx : h.find (m :: n :: prev) with
        | none => rfl
        | some y =>
          have hm := (hs.closed m (n :: prev) (by simp [hx])).1
          have hz : childCount h (n :: prev) = 0 := by
            rw [← hs.count _ nd hnd]; exact hu.1
          rw [childCount_eq_zero h _ hz m hm] at hx
          cases hx
      let h2 := (h.write prev { pn with nextCount := (pn.nextCount + 255) % 256 }).free
        (n :: prev)
      have hfind : ∀ q, (h2.find q).isSome = (!decide (q = n :: prev) && (h.find q).isSome) := by
        intro q
        show (((h.write prev { pn with nextCount := (pn.nextCount + 255) % 256 }).free
          (n :: prev)).find q).isSome = _
        rw [find_free, find_write]
        by_cases e1 : q = n :: prev
        · simp [e1]
        · by_cases e2 : q = prev
          · subst e2; simp [e1, hpn]
          · simp [e1, e2]
      have hs2 : Shape h2 := by
        refine ⟨?_, ?_, ?_⟩
        · obtain ⟨r, hr1, hr2⟩ := hs.root
          show ∃ r, ((h.write prev { pn with nextCount := (pn.nextCount + 255) % 256 }).free
            (n :: prev)).find [] = some r ∧ _
          rw [find_free, find_write]
          by_cases e : prev = []
          · subst e
            rw [hpn] at hr1
            simp only [Option.some.injEq] at hr1
            subst hr1
            exact ⟨{ pn with nextCount := (pn.nextCount + 255) % 256 }, by simp, hr2⟩
          · exact ⟨r, by simp [Ne.symm e, hr1], hr2⟩
        · intro m q hmq
          rw [hfind] at hmq
          rw [hfind]
          simp only [Bool.and_eq_true, Bool.not_eq_true', decide_eq_false_iff_not] at hmq ⊢
          have := hs.closed m q hmq.2
          refine ⟨this.1, ?_, this.2⟩
          intro e
          subst e
          rw [hnochild m] at hmq
          simp at hmq
        · intro q x hq
          show x.nextCount = childCount h2 q
          have hq' : ((h.write prev { pn with nextCount := (pn.nextCount + 255) % 256 }).free
            (n :: prev)).find q = some x := hq
          rw [find_free, find_write] at hq'
          by_cases e1 : q = n :: prev
          · simp [e1] at hq'
          · by_cases e2 : q = prev
            · subst e2
              simp only [e1, if_false, if_true, Option.some.injEq] at hq'
              subst hq'
              have hcnt := hs.count q pn hpn
              have := childCount_sub h h2 q n hn hl
                (by
                  have := hfind (n :: q)
                  simp only [decide_True, Bool.not_true, Bool.false_and] at this
                  cases hx : h2.find (n :: q) with
                  | none => rfl
                  | some y => simp [hx] at this)
                (fun m hm => by rw [hfind]; simp [hm])
              have hle := childCount_le h q
              unfold ALPHABET_SIZE at hle
              simp only
              omega
            · simp only [e1, e2, if_false] at hq'
              rw [hs.count q x hq']
              symm
              apply childCount_congr
              intro m
              rw [hfind]
              have : m :: q ≠ n :: prev := fun e => e2 (by simp at e; exact e.2)
              simp [this]
      have hp2 : Pruned h h2 := by
        refine ⟨rfl, fun q => ?_⟩
        show view ((h.write prev { pn with nextCount := (pn.nextCount + 255) % 256 }).free
          (n :: prev)) q = _ ∨ (((h.write prev
            { pn with nextCount := (pn.nextCount + 255) % 256 }).free (n :: prev)).find q = none ∧ _)
        rw [view_free, view_write, find_free]
        by_cases e1 : q = n :: prev
        · subst e1
          right
          exact ⟨by simp, nd, hnd, hu.2.1, hu.2.2⟩
        · left
          by_cases e2 : q = prev
          · subst e2
            simp [e1, view, hpn, Trie.pay]
          · simp [e1, e2]
      have hl2 : (h2.find prev).isSome = true := by
        rw [hfind]; simp [Ne.symm hne, hpn]
      obtain ⟨h', e1, e2, e3⟩ := ih h2 hs2 hl2
      refine ⟨h', ?_, e2, hp2.trans_pruned e3⟩
      rw [trieDeleteUnusedBranchLoop]
      simp only [hnd, hu, and_self, if_true, hpn]
      exact e1
    · refine ⟨h, ?_, hs, Pruned.refl_pruned h⟩
      rw [trieDeleteUnusedBranchLoop]
      simp only [hnd, hu, if_false]

theorem trieDeleteUnusedBranch_spec {h : Heap} (hs : Shape h) (p : Option TriePtr)
    (hl : ∀ q, p = some q → (h.find q).isSome = true) :
    ∃ h', trieDeleteUnusedBranch h p = some h' ∧ Shape h' ∧ Pruned h h' := by
  cases p with
  | none => exact ⟨h, rfl, hs, Pruned.refl_pruned h⟩
  | some q => exact prune_spec q h hs (hl q rfl)

/-! ## Transport of the invariants along growing and pruning -/

theorem SimilarF.fwd {f1 f2 : TriePtr → Option Trie} (s : SimilarF f1 f2) {q : TriePtr}
    {nd : Trie} (h2 : f2 q = some nd) : f1 q = some nd ∨ nd = Trie.zero := by
  rcases s q with e | ⟨_, e⟩ | ⟨e, _⟩
  · exact Or.inl (e ▸ h2)
  · rw [h2] at e; exact Or.inr (Option.some.inj e)
  · rw [h2] at e; cases e

theorem SimilarF.bwd {f1 f2 : TriePtr → Option Trie} (s : SimilarF f1 f2) {q : TriePtr}
    {nd : Trie} (h1 : f1 q = some nd) (hu : nd.value ≠ none ∨ listEmpty nd.keys = false) :
    f2 q = some nd := by
  rcases s q with e | ⟨e, _⟩ | ⟨_, nd0, e, v0, k0⟩
  · exact e.trans h1
  · rw [h1] at e; cases e
  · rw [h1] at e
    simp only [Option.some.injEq] at e
    subst e
    rcases hu with hu | hu
    · exact absurd v0 hu
    · rw [k0] at hu; cases hu

theorem listEmpty_of_mem {ring : CList} {x : Nat × Str} (hx : x ∈ ring) :
    listEmpty (some ring) = false := by
  cases ring with
  | nil => simp at hx
  | cons a l => rfl

theorem LinkedF.similar_linkedF {f1 f2 : TriePtr → Option Trie} {c : Nat} (l : LinkedF f1 c)
    (s : SimilarF f1 f2) (hr : f1 [] ≠ none) : LinkedF f2 c := by
  refine ⟨?_, ?_, ?_, ?_, ?_, ?_⟩
  · intro r h2
    cases hr1 : f1 [] with
    | none => exact absurd hr1 hr
    | some r1 =>
      have hv := l.root r1 hr1
      have := s.bwd hr1 (by rw [hv]; simp)
      rw [h2] at this
      simp only [Option.some.injEq] at this
      rw [this]; exact hv
  · intro p nd h2 hv
    rcases s.fwd h2 with h1 | h1
    · exact l.noval p nd h1 hv
    · subst h1; exact ⟨rfl, rfl⟩
  · intro p nd v h2 hv hne
    rcases s.fwd h2 with h1 | h1
    · obtain ⟨a1, a2, a3, c0, k, rn, ring, b1, b2, b3, b4, b5, b6⟩ := l.val p nd v h1 hv hne
      refine ⟨a1, a2, a3, c0, k, rn, ring, b1, b2, b3, ?_, b5, b6⟩
      exact s.bwd b4 (Or.inr (by rw [b5]; exact listEmpty_of_mem b6))
    · subst h1; cases hv
  · intro q nd ring c0 k h2 hk hm
    rcases s.fwd h2 with h1 | h1
    · obtain ⟨a1, a2, kn, v, b1, b2, b3, b4, b5⟩ := l.ring q nd ring c0 k h1 hk hm
      refine ⟨a1, a2, kn, v, ?_, b2, b3, b4, b5⟩
      exact s.bwd b1 (Or.inl (by rw [b2]; simp))
    · subst h1; cases hk
  · intro q nd h2
    rcases s.fwd h2 with h1 | h1
    · exact l.ringNe q nd h1
    · subst h1; simp [Trie.zero]
  · intro q nd ring h2 hk
    rcases s.fwd h2 with h1 | h1
    · exact l.ringNodup q nd ring h1 hk
    · subst h1; cases hk

theorem FwdF.similar_fwdF {f1 f2 : TriePtr → Option Trie} (s : SimilarF f1 f2) (k v : Str) :
    FwdF f2 k v ↔ FwdF f1 k v := by
  constructor
  · rintro ⟨hk, nd, h2, hv, hne⟩
    rcases s.fwd h2 with h1 | h1
    · exact ⟨hk, nd, h1, hv, hne⟩
    · subst h1; cases hv
  · rintro ⟨hk, nd, h1, hv, hne⟩
    exact ⟨hk, nd, s.bwd h1 (Or.inl (by rw [hv]; simp)), hv, hne⟩

theorem NoMarkerF.similar_noMarkerF {f1 f2 : TriePtr → Option Trie} (s : SimilarF f1 f2)
    (n : NoMarkerF f1) : NoMarkerF f2 := by
  intro p nd hp h2
  rcases s.fwd h2 with h1 | h1
  · exact n p nd hp h1
  · subst h1; simp [Trie.zero]

theorem SimilarF.refl_similarF (f : TriePtr → Option Trie) : SimilarF f f := fun _ => Or.inl rfl

theorem Grown.similar_grown {h h' : Heap} (g : Grown h h') : SimilarF (view h) (view h') := by
  intro q
  rcases g.2 q with e | ⟨e1, e2⟩
  · exact Or.inl e
  · exact Or.inr (Or.inl ⟨view_eq_none e1, e2⟩)

theorem Pruned.similar_pruned {h h' : Heap} (g : Pruned h h') : SimilarF (view h) (view h') := by
  intro q
  rcases g.2 q with e | ⟨e1, nd, e2, e3, e4⟩
  · exact Or.inl e
  · exact Or.inr (Or.inr ⟨view_eq_none e1, nd.pay, view_eq_some e2, e3, e4⟩)

theorem Shape.view_root {h : Heap} (hs : Shape h) : view h [] ≠ none := by
  obtain ⟨r, hr, _⟩ := hs.root
  simp [view, hr]

theorem Linked.grown {h h' : Heap} (l : Linked h) (hs : Shape h) (g : Grown h h') :
    Linked h' := by
  unfold Linked
  rw [g.1]
  exact LinkedF.similar_linkedF l g.similar_grown hs.view_root

theorem Linked.pruned {h h' : Heap} (l : Linked h) (hs : Shape h) (g : Pruned h h') :
    Linked h' := by
  unfold Linked
  rw [g.1]
  exact LinkedF.similar_linkedF l g.similar_pruned hs.view_root

/-! ## Node maps after writes -/

theorem view_write_eq (h : Heap) (p : TriePtr) (nd : Trie) :
    view (h.write p nd) = setF (view h) p (some nd.pay) := by
  funext q
  rw [view_write]
  rfl

@[simp]
theorem view_cells_update (h : Heap) (c : Nat) :
    view { h with cells := c } = view h := rfl

@[simp]
theorem setF_same (f : TriePtr → Option Trie) (p : TriePtr) (x : Option Trie) :
    setF f p x p = x := by simp [setF]

theorem setF_other (f : TriePtr → Option Trie) {p q : TriePtr} (x : Option Trie)
    (h : q ≠ p) : setF f p x q = f q := by simp [setF, h]

theorem setF_setF (f : TriePtr → Option Trie) (p : TriePtr) (x y : Option Trie) :
    setF (setF f p x) p y = setF f p y := by
  funext q; simp only [setF]; split_ifs <;> rfl

theorem setF_comm (f : TriePtr → Option Trie) {p q : TriePtr} (x y : Option Trie)
    (h : p ≠ q) : setF (setF f p x) q y = setF (setF f q y) p x := by
  funext r; simp only [setF]
  split_ifs with h1 h2
  · exact absurd (h2.symm.trans h1) h
  · rfl
  · rfl
  · rfl

theorem setF_id (f : TriePtr → Option Trie) (p : TriePtr) : setF f p (f p) = f := by
  funext q; simp only [setF]; split_ifs with e
  · rw [e]
  · rfl

theorem Pruned.prunedF {h h' : Heap} (g : Pruned h h') : PrunedF (view h) (view h') := by
  intro q
  rcases g.2 q with e | ⟨e1, nd, e2, e3, e4⟩
  · exact Or.inl e
  · exact Or.inr ⟨view_eq_none e1, nd.pay, view_eq_some e2, e3, e4⟩

theorem PrunedF.similar_prunedF {f1 f2 : TriePtr → Option Trie} (g : PrunedF f1 f2) : SimilarF f1 f2 := by
  intro q
  rcases g q with e | e
  · exact Or.inl e
  · exact Or.inr (Or.inr e)

theorem PrunedF.refl_prunedF (f : TriePtr → Option Trie) : PrunedF f f := fun _ => Or.inl rfl

theorem PrunedF.trans_prunedF {f1 f2 f3 : TriePtr → Option Trie} (a : PrunedF f1 f2)
    (b : PrunedF f2 f3) : PrunedF f1 f3 := by
  intro q
  rcases b q with e2 | ⟨n2, nd1, g1, v1, k1⟩
  · rcases a q with e1 | ⟨n1, x⟩
    · exact Or.inl (e2.trans e1)
    · exact Or.inr ⟨e2.trans n1, x⟩
  · rcases a q with e1 | ⟨n1, _⟩
    · exact Or.inr ⟨n2, nd1, e1 ▸ g1, v1, k1⟩
    · rw [n1] at g1; cases g1

/-- Pruning commutes with a write to a node that pruning keeps. -/
theorem PrunedF.setF {f1 f2 : TriePtr → Option Trie} (a : PrunedF f1 f2) (p : TriePtr)
    (x : Option Trie) : PrunedF (setF f1 p x) (setF f2 p x) := by
  intro q
  by_cases e : q = p
  · left; simp [Phfwd.setF, e]
  · rw [setF_other _ _ e, setF_other _ _ e]
    exact a q

theorem PrunedF.keep_prunedF {f1 f2 : TriePtr → Option Trie} (g : PrunedF f1 f2) {q : TriePtr}
    {nd : Trie} (hq : f1 q = some nd) (hu : nd.value ≠ none ∨ listEmpty nd.keys = false) :
    f2 q = some nd :=
  g.similar_prunedF.bwd hq hu

theorem PrunedF.from {f1 f2 : TriePtr → Option Trie} (g : PrunedF f1 f2) {q : TriePtr}
    {nd : Trie} (hq : f2 q = some nd) : f1 q = some nd := by
  rcases g q with e | ⟨e, _⟩
  · exact e ▸ hq
  · rw [hq] at e; cases e

theorem find_of_view {h : Heap} {q : TriePtr} {x : Trie} (hv : view h q = some x) :
    ∃ nd, h.find q = some nd ∧ nd.pay = x := by
  unfold view at hv
  cases h0 : h.find q with
  | none => simp [h0] at hv
  | some nd =>
    simp only [h0, Option.map_some', Option.some.injEq] at hv
    exact ⟨nd, rfl, hv⟩

/-! ## Registering one forwarding in the node map -/

theorem LinkedF.fresh {f : TriePtr → Option Trie} {c : Nat} (l : LinkedF f c) {q : TriePtr}
    {nd : Trie} (hq : f q = some nd) : ∀ x ∈ nd.keys.getD [], x.1 < c := by
  intro x hx
  cases hk : nd.keys with
  | none => simp [hk] at hx
  | some ring =>
    rw [hk] at hx
    simp only [Option.getD_some] at hx
    exact (l.ring q nd ring x.1 x.2 hq hk hx).2.1

theorem linkF_read {f : TriePtr → Option Trie} {k v : Str} {kn vn : Trie} {c : Nat}
    {q : TriePtr} {nd : Trie} (hq : linkF f k v kn vn c q = some nd) :
    (q = pathOf k ∧ nd = linkKey kn v (pathOf v) c) ∨
    (q ≠ pathOf k ∧ q = pathOf v ∧ nd = linkVal vn c k) ∨
    (q ≠ pathOf k ∧ q ≠ pathOf v ∧ f q = some nd) := by
  simp only [linkF, setF] at hq
  split_ifs at hq with e1 e2
  · exact Or.inl ⟨e1, (Option.some.inj hq).symm⟩
  · exact Or.inr (Or.inl ⟨e1, e2, (Option.some.inj hq).symm⟩)
  · exact Or.inr (Or.inr ⟨e1, e2, hq⟩)

theorem linkF_key (f : TriePtr → Option Trie) (k v : Str) (kn vn : Trie) (c : Nat) :
    linkF f k v kn vn c (pathOf k) = some (linkKey kn v (pathOf v) c) := by
  simp [linkF]

theorem linkF_val (f : TriePtr → Option Trie) {k v : Str} (kn vn : Trie) (c : Nat)
    (hne : pathOf v ≠ pathOf k) : linkF f k v kn vn c (pathOf v) = some (linkVal vn c k) := by
  simp [linkF, setF, hne]

theorem linkF_other (f : TriePtr → Option Trie) (k v : Str) (kn vn : Trie) (c : Nat)
    {q : TriePtr} (h1 : q ≠ pathOf k) (h2 : q ≠ pathOf v) : linkF f k v kn vn c q = f q := by
  simp [linkF, setF, h1, h2]

/-- The node map after `trieInsert` has linked the key `k`, whose node held no
value, to the value `v`. -/
theorem LinkedF.link_linkedF {f : TriePtr → Option Trie} {c : Nat} (l : LinkedF f c) {k v : Str}
    (hk : Valid k) (hv : Valid v) (hkv : k ≠ v) {kn vn : Trie}
    (hkn : f (pathOf k) = some kn) (hvn : f (pathOf v) = some vn) (hnone : kn.value = none) :
    LinkedF (linkF f k v kn vn c) (c + 1) := by
  have hne : pathOf v ≠ pathOf k := fun e => hkv (pathOf_inj hv hk e).symm
  have hkr := hk.pathOf_ne_nil
  have hvr := hv.pathOf_ne_nil
  -- a node that held a value still holds it, with the same `keysInRev`
  have keep : ∀ q nd w, f q = some nd → nd.value = some w →
      ∃ nd', linkF f k v kn vn c q = some nd' ∧ nd'.value = some w ∧
        nd'.keysInRev = nd.keysInRev := by
    intro q nd w hq hw
    by_cases e1 : q = pathOf k
    · subst e1
      rw [hkn] at hq
      simp only [Option.some.injEq] at hq
      subst hq
      rw [hnone] at hw; cases hw
    · by_cases e2 : q = pathOf v
      · subst e2
        rw [hvn] at hq
        simp only [Option.some.injEq] at hq
        subst hq
        exact ⟨_, linkF_val f kn vn c hne, hw, rfl⟩
      · exact ⟨nd, by rw [linkF_other f k v kn vn c e1 e2]; exact hq, hw, rfl⟩
  -- a registry keeps its cells
  have keepRing : ∀ q nd ring x, f q = some nd → nd.keys = some ring → x ∈ ring →
      ∃ nd' ring', linkF f k v kn vn c q = some nd' ∧ nd'.keys = some ring' ∧ x ∈ ring' := by
    intro q nd ring x hq hr hx
    by_cases e1 : q = pathOf k
    · subst e1
      rw [hkn] at hq
      simp only [Option.some.injEq] at hq
      subst hq
      exact ⟨_, ring, linkF_key f k v kn vn c, hr, hx⟩
    · by_cases e2 : q = pathOf v
      · subst e2
        rw [hvn] at hq
        simp only [Option.some.injEq] at hq
        subst hq
        refine ⟨_, _, linkF_val f kn vn c hne, rfl, ?_⟩
        rw [hr]; simp [hx]
      · exact ⟨nd, ring, by rw [linkF_other f k v kn vn c e1 e2]; exact hq, hr, hx⟩
  refine ⟨?_, ?_, ?_, ?_, ?_, ?_⟩
  · intro r hr
    rw [linkF_other f k v kn vn c (Ne.symm hkr) (Ne.symm hvr)] at hr
    exact l.root r hr
  · intro p nd hp hval
    rcases linkF_read hp with ⟨_, e⟩ | ⟨_, _, e⟩ | ⟨_, _, e⟩
    · subst e
      rcases hval with hval | hval
      · cases hval
      · simp only [linkKey, Option.some.injEq] at hval
        exact absurd hval hv.ne_root
    · subst e
      exact l.noval _ vn hvn hval
    · exact l.noval p nd e hval
  · intro p nd w hp hw hwr
    rcases linkF_read hp with ⟨e0, e⟩ | ⟨_, e0, e⟩ | ⟨_, _, e⟩
    · subst e
      simp only [linkKey, Option.some.injEq] at hw
      subst hw
      refine ⟨hv, fun e => hne (e0 ▸ e), rfl, c, k, _, _, rfl, hk, e0.symm,
        linkF_val f kn vn c hne, rfl, ?_⟩
      simp
    · subst e
      obtain ⟨a1, a2, a3, c0, k0, rn, ring, b1, b2, b3, b4, b5, b6⟩ := l.val _ vn w hvn hw hwr
      obtain ⟨nd', ring', d1, d2, d3⟩ := keepRing _ rn ring _ b4 b5 b6
      exact ⟨a1, e0 ▸ a2, a3, c0, k0, nd', ring', b1, b2, e0 ▸ b3, d1, d2, d3⟩
    · obtain ⟨a1, a2, a3, c0, k0, rn, ring, b1, b2, b3, b4, b5, b6⟩ := l.val p nd w e hw hwr
      obtain ⟨nd', ring', d1, d2, d3⟩ := keepRing _ rn ring _ b4 b5 b6
      exact ⟨a1, a2, a3, c0, k0, nd', ring', b1, b2, b3, d1, d2, d3⟩
  · intro q nd ring c0 k0 hq hr hm
    have old : ∀ nd0 ring0, f q = some nd0 → nd0.keys = some ring0 → (c0, k0) ∈ ring0 →
        Valid k0 ∧ c0 < c + 1 ∧ ∃ kn' w, linkF f k v kn vn c (pathOf k0) = some kn' ∧
          kn'.value = some w ∧ w ≠ ROOT_VALUE ∧ pathOf w = q ∧ kn'.keysInRev = some ⟨q, c0⟩ := by
      intro nd0 ring0 h0 h1 h2
      obtain ⟨a1, a2, kn0, w, b1, b2, b3, b4, b5⟩ := l.ring q nd0 ring0 c0 k0 h0 h1 h2
      obtain ⟨kn', d1, d2, d3⟩ := keep _ kn0 w b1 b2
      exact ⟨a1, Nat.lt_succ_of_lt a2, kn', w, d1, d2, b3, b4, d3.trans b5⟩
    rcases linkF_read hq with ⟨e0, e⟩ | ⟨_, e0, e⟩ | ⟨_, _, e⟩
    · subst e
      exact old kn ring (e0 ▸ hkn) hr hm
    · subst e
      simp only [linkVal, Option.some.injEq] at hr
      subst hr
      rcases List.mem_cons.1 hm with e1 | e1
      · simp only [Prod.mk.injEq] at e1
        rw [e1.1, e1.2, e0]
        exact ⟨hk, Nat.lt_succ_self _, linkKey kn v (pathOf v) c, v, linkF_key f k v kn vn c,
          rfl, hv.ne_root, rfl, rfl⟩
      · cases hvk : vn.keys with
        | none => simp [hvk] at e1
        | some ring0 =>
          rw [hvk] at e1
          simp only [Option.getD_some] at e1
          exact old vn ring0 (e0 ▸ hvn) hvk e1
    · exact old nd ring e hr hm
  · intro q nd hq
    rcases linkF_read hq with ⟨_, e⟩ | ⟨_, _, e⟩ | ⟨_, _, e⟩
    · subst e; exact l.ringNe _ kn hkn
    · subst e; simp [linkVal]
    · exact l.ringNe q nd e
  · intro q nd ring hq hr
    rcases linkF_read hq with ⟨_, e⟩ | ⟨_, _, e⟩ | ⟨_, _, e⟩
    · subst e; exact l.ringNodup _ kn ring hkn hr
    · subst e
      simp only [linkVal, Option.some.injEq] at hr
      subst hr
      simp only [List.map_cons, List.nodup_cons]
      refine ⟨?_, ?_⟩
      · intro hmem
        obtain ⟨x, hx, hxc⟩ := List.mem_map.1 hmem
        have := l.fresh hvn x hx
        omega
      · cases hvk : vn.keys with
        | none => simp
        | some ring0 => simpa using l.ringNodup _ vn ring0 hvn hvk
    · exact l.ringNodup q nd ring e hr

theorem FwdF.link_fwdF {f : TriePtr → Option Trie} {c : Nat} (l : LinkedF f c) {k v : Str}
    (hk : Valid k) (hv : Valid v) (hkv : k ≠ v) {kn vn : Trie}
    (hkn : f (pathOf k) = some kn) (hvn : f (pathOf v) = some vn) (x y : Str) :
    FwdF (linkF f k v kn vn c) x y ↔ if x = k then y = v else FwdF f x y := by
  have hne : pathOf v ≠ pathOf k := fun e => hkv (pathOf_inj hv hk e).symm
  by_cases hx : x = k
  · subst hx
    simp only [if_true]
    constructor
    · rintro ⟨_, nd, h1, h2, _⟩
      rw [linkF_key] at h1
      simp only [Option.some.injEq] at h1
      subst h1
      simpa [linkKey] using h2.symm
    · rintro rfl
      exact ⟨hk, _, linkF_key f x y kn vn c, rfl, hv.ne_root⟩
  · simp only [hx, if_false]
    constructor
    · rintro ⟨hxv, nd, h1, h2, h3⟩
      have hxk : pathOf x ≠ pathOf k := fun e => hx (pathOf_inj hxv hk e)
      rcases linkF_read h1 with ⟨e0, _⟩ | ⟨_, _, e⟩ | ⟨_, _, e⟩
      · exact absurd e0 hxk
      · subst e
        exact ⟨hxv, vn, by rw [← hvn]; congr, h2, h3⟩
      · exact ⟨hxv, nd, e, h2, h3⟩
    · rintro ⟨hxv, nd, h1, h2, h3⟩
      have hxk : pathOf x ≠ pathOf k := fun e => hx (pathOf_inj hxv hk e)
      by_cases e2 : pathOf x = pathOf v
      · rw [e2, hvn] at h1
        simp only [Option.some.injEq] at h1
        subst h1
        exact ⟨hxv, linkVal vn c k, by rw [e2]; exact linkF_val f kn vn c hne, h2, h3⟩
      · exact ⟨hxv, nd, by rw [linkF_other f k v kn vn c hxk e2]; exact h1, h2, h3⟩

theorem NoMarkerF.link_noMarkerF {f : TriePtr → Option Trie} (n : NoMarkerF f) {k v : Str}
    (hv : Valid v) {kn vn : Trie} {c : Nat}
    (hvn : f (pathOf v) = some vn) : NoMarkerF (linkF f k v kn vn c) := by
  intro p nd hp hq
  rcases linkF_read hq with ⟨_, e⟩ | ⟨_, e0, e⟩ | ⟨_, _, e⟩
  · subst e
    simp only [linkKey, ne_eq, Option.some.injEq]
    exact hv.ne_root
  · subst e
    exact n _ vn hv.pathOf_ne_nil hvn
  · exact n p nd hp e

/-! ## Unregistering one forwarding in the node map -/

theorem nodup_fst_unique {ring : CList} (hn : (ring.map Prod.fst).Nodup) {c : Nat} {a b : Str}
    (ha : (c, a) ∈ ring) (hb : (c, b) ∈ ring) : a = b := by
  induction ring with
  | nil => simp at ha
  | cons x ring ih =>
    simp only [List.map_cons, List.nodup_cons] at hn
    rcases List.mem_cons.1 ha with e1 | e1 <;> rcases List.mem_cons.1 hb with e2 | e2
    · rw [← e2] at e1; simpa using e1
    · exact absurd (List.mem_map.2 ⟨(c, b), e2, by rw [← e1]⟩) hn.1
    · exact absurd (List.mem_map.2 ⟨(c, a), e1, by rw [← e2]⟩) hn.1
    · exact ih hn.2 e1 e2

theorem listRemoveFirst_cell (ring : CList) (c : Nat) :
    listRemoveFirst ring (some c) = ring.filter (fun x => x.1 ≠ c) := rfl

theorem ringWithout_some {keys : Option CList} {c : Nat} {ring : CList}
    (h : ringWithout keys c = some ring) :
    ring = (keys.getD []).filter (fun x => x.1 ≠ c) ∧ ring ≠ [] := by
  unfold ringWithout at h
  rw [listRemoveFirst_cell] at h
  split_ifs at h with e
  simp only [Option.some.injEq] at h
  refine ⟨h.symm, ?_⟩
  rw [← h]
  intro e2
  rw [e2] at e
  simp at e

theorem ringWithout_mem {keys : Option CList} {c : Nat} {ring : CList} {y : Nat × Str}
    (hk : keys = some ring) (hy : y ∈ ring) (hc : y.1 ≠ c) :
    ∃ ring', ringWithout keys c = some ring' ∧ y ∈ ring' := by
  have hm : y ∈ (keys.getD []).filter (fun x => x.1 ≠ c) := by
    rw [hk]; simp [hy, hc]
  unfold ringWithout
  rw [listRemoveFirst_cell]
  split_ifs with e
  · rw [List.isEmpty_iff] at e
    rw [e] at hm
    simp at hm
  · exact ⟨_, rfl, hm⟩

theorem unlinkF_read {f : TriePtr → Option Trie} {p ro : TriePtr} {nd rn : Trie} {c : Nat}
    {q : TriePtr} {x : Trie} (hq : unlinkF f p ro nd rn c q = some x) :
    (q = p ∧ x = unlinkKey nd) ∨
    (q ≠ p ∧ q = ro ∧ x = unlinkVal rn c) ∨
    (q ≠ p ∧ q ≠ ro ∧ f q = some x) := by
  simp only [unlinkF, setF] at hq
  split_ifs at hq with e1 e2
  · exact Or.inl ⟨e1, (Option.some.inj hq).symm⟩
  · exact Or.inr (Or.inl ⟨e1, e2, (Option.some.inj hq).symm⟩)
  · exact Or.inr (Or.inr ⟨e1, e2, hq⟩)

theorem unlinkF_key (f : TriePtr → Option Trie) (p ro : TriePtr) (nd rn : Trie) (c : Nat) :
    unlinkF f p ro nd rn c p = some (unlinkKey nd) := by
  simp [unlinkF]

theorem unlinkF_val (f : TriePtr → Option Trie) {p ro : TriePtr} (nd rn : Trie) (c : Nat)
    (hne : ro ≠ p) : unlinkF f p ro nd rn c ro = some (unlinkVal rn c) := by
  simp [unlinkF, setF, hne]

theorem unlinkF_other (f : TriePtr → Option Trie) (p ro : TriePtr) (nd rn : Trie) (c : Nat)
    {q : TriePtr} (h1 : q ≠ p) (h2 : q ≠ ro) : unlinkF f p ro nd rn c q = f q := by
  simp [unlinkF, setF, h1, h2]

/-- What the invariant tells about a node that holds a value. -/
theorem LinkedF.val_data {f : TriePtr → Option Trie} {c : Nat} (l : LinkedF f c)
    {p : TriePtr} {nd : Trie} {v : Str} (hp : f p = some nd) (hv : nd.value = some v)
    (hr : v ≠ ROOT_VALUE) :
    ∃ c0 k rn ring, Valid v ∧ pathOf v ≠ p ∧ nd.revNode = some (pathOf v) ∧
      nd.keysInRev = some ⟨pathOf v, c0⟩ ∧ Valid k ∧ pathOf k = p ∧
      f (pathOf v) = some rn ∧ rn.keys = some ring ∧ (c0, k) ∈ ring ∧
      (ring.map Prod.fst).Nodup := by
  obtain ⟨a1, a2, a3, c0, k, rn, ring, b1, b2, b3, b4, b5, b6⟩ := l.val p nd v hp hv hr
  exact ⟨c0, k, rn, ring, a1, a2, a3, b1, b2, b3, b4, b5, b6, l.ringNodup _ rn ring b4 b5⟩

/-- The node map after the value of node `p` has been taken away. -/
theorem LinkedF.unlink_linkedF {f : TriePtr → Option Trie} {c : Nat} (l : LinkedF f c)
    {p : TriePtr} {nd rn : Trie} {v : Str} {c0 : Nat} (hp : f p = some nd)
    (hv : nd.value = some v) (hr : v ≠ ROOT_VALUE) (hrn : f (pathOf v) = some rn)
    (hc0 : nd.keysInRev = some ⟨pathOf v, c0⟩) :
    LinkedF (unlinkF f p (pathOf v) nd rn c0) c := by
  obtain ⟨c0', k, rn', ring, hvv, hne, hrev, hkir, hk, hkp, hrn', hring, hmem, hnd⟩ :=
    l.val_data hp hv hr
  rw [hrn] at hrn'
  simp only [Option.some.injEq] at hrn'
  subst hrn'
  rw [hc0] at hkir
  simp only [Option.some.injEq, ListPtr.mk.injEq, true_and] at hkir
  subst hkir
  have hpr : p ≠ [] := hkp ▸ hk.pathOf_ne_nil
  have hror := hvv.pathOf_ne_nil
  have keep : ∀ q x w, f q = some x → x.value = some w → q ≠ p →
      ∃ x', unlinkF f p (pathOf v) nd rn c0 q = some x' ∧ x'.value = some w ∧
        x'.keysInRev = x.keysInRev := by
    intro q x w hq hw e1
    by_cases e2 : q = pathOf v
    · subst e2
      rw [hrn] at hq
      simp only [Option.some.injEq] at hq
      subst hq
      exact ⟨_, unlinkF_val f nd rn c0 hne, hw, rfl⟩
    · exact ⟨x, by rw [unlinkF_other f p _ nd rn c0 e1 e2]; exact hq, hw, rfl⟩
  have keepRing : ∀ q x ring1 y, f q = some x → x.keys = some ring1 → y ∈ ring1 →
      (q = pathOf v → y.1 ≠ c0) →
      ∃ x' ring', unlinkF f p (pathOf v) nd rn c0 q = some x' ∧ x'.keys = some ring' ∧
        y ∈ ring' := by
    intro q x ring1 y hq hr1 hy hcond
    by_cases e1 : q = p
    · subst e1
      rw [hp] at hq
      simp only [Option.some.injEq] at hq
      subst hq
      exact ⟨_, ring1, unlinkF_key f q _ nd rn c0, hr1, hy⟩
    · by_cases e2 : q = pathOf v
      · subst e2
        rw [hrn] at hq
        have hx : rn = x := Option.some.inj hq
        rw [← hx] at hr1
        obtain ⟨ring', g1, g2⟩ := ringWithout_mem hr1 hy (hcond rfl)
        exact ⟨unlinkVal rn c0, ring', unlinkF_val f nd rn c0 hne, g1, g2⟩
      · exact ⟨x, ring1, by rw [unlinkF_other f p _ nd rn c0 e1 e2]; exact hq, hr1, hy⟩
  -- the facts of the old map about a cell, moved to the new map
  have cell : ∀ q x ring1 c1 k1, f q = some x → x.keys = some ring1 → (c1, k1) ∈ ring1 →
      (q = pathOf v → c1 ≠ c0) →
      Valid k1 ∧ c1 < c ∧ ∃ kn w, unlinkF f p (pathOf v) nd rn c0 (pathOf k1) = some kn ∧
        kn.value = some w ∧ w ≠ ROOT_VALUE ∧ pathOf w = q ∧ kn.keysInRev = some ⟨q, c1⟩ := by
    intro q x ring1 c1 k1 hq hr1 hm hcond
    obtain ⟨a1, a2, kn, w, b1, b2, b3, b4, b5⟩ := l.ring q x ring1 c1 k1 hq hr1 hm
    have hk1 : pathOf k1 ≠ p := by
      intro e
      rw [e, hp] at b1
      simp only [Option.some.injEq] at b1
      subst b1
      rw [hv] at b2
      simp only [Option.some.injEq] at b2
      subst b2
      rw [hc0] at b5
      simp only [Option.some.injEq, ListPtr.mk.injEq] at b5
      exact hcond b4.symm b5.2.symm
    obtain ⟨kn', d1, d2, d3⟩ := keep _ kn w b1 b2 hk1
    exact ⟨a1, a2, kn', w, d1, d2, b3, b4, d3.trans b5⟩
  refine ⟨?_, ?_, ?_, ?_, ?_, ?_⟩
  · intro r hr0
    rw [unlinkF_other f p _ nd rn c0 (Ne.symm hpr) (Ne.symm hror)] at hr0
    exact l.root r hr0
  · intro q x hq hval
    rcases unlinkF_read hq with ⟨_, e⟩ | ⟨_, _, e⟩ | ⟨_, _, e⟩
    · subst e; exact ⟨rfl, rfl⟩
    · subst e; exact l.noval _ rn hrn hval
    · exact l.noval q x e hval
  · intro q x w hq hw hwr
    have main : ∀ x0, f q = some x0 → x0.value = some w → q ≠ p →
        x0.revNode = x.revNode → x0.keysInRev = x.keysInRev →
        Valid w ∧ pathOf w ≠ q ∧ x.revNode = some (pathOf w) ∧
        ∃ c1 k1 rn1 ring1, x.keysInRev = some ⟨pathOf w, c1⟩ ∧ Valid k1 ∧ pathOf k1 = q ∧
          unlinkF f p (pathOf v) nd rn c0 (pathOf w) = some rn1 ∧ rn1.keys = some ring1 ∧
          (c1, k1) ∈ ring1 := by
      intro x0 h0 h1 hqp h2 h3
      obtain ⟨a1, a2, a3, c1, k1, rn1, ring1, b1, b2, b3, b4, b5, b6⟩ := l.val q x0 w h0 h1 hwr
      have hcond : pathOf w = pathOf v → (c1, k1).1 ≠ c0 := by
        intro e1 e2
        simp only at e2
        subst e2
        rw [e1, hrn] at b4
        simp only [Option.some.injEq] at b4
        subst b4
        rw [hring] at b5
        simp only [Option.some.injEq] at b5
        subst b5
        have := nodup_fst_unique hnd b6 hmem
        subst this
        exact hqp (b3.symm.trans hkp)
      obtain ⟨x', ring', d1, d2, d3⟩ := keepRing _ rn1 ring1 _ b4 b5 b6 hcond
      exact ⟨a1, a2, h2 ▸ a3, c1, k1, x', ring', h3 ▸ b1, b2, b3, d1, d2, d3⟩
    rcases unlinkF_read hq with ⟨_, e⟩ | ⟨e1, e0, e⟩ | ⟨e1, _, e⟩
    · subst e; cases hw
    · subst e
      exact main rn (e0 ▸ hrn) hw e1 rfl rfl
    · exact main x e hw e1 rfl rfl
  · intro q x ring1 c1 k1 hq hr1 hm
    rcases unlinkF_read hq with ⟨e0, e⟩ | ⟨_, e0, e⟩ | ⟨_, e2, e⟩
    · subst e
      exact cell q nd ring1 c1 k1 (e0 ▸ hp) hr1 hm (fun e => absurd (e0.symm.trans e).symm hne)
    · subst e
      obtain ⟨g1, _⟩ := ringWithout_some hr1
      rw [g1, hring] at hm
      simp only [Option.getD_some, List.mem_filter, decide_eq_true_eq] at hm
      exact cell q rn ring c1 k1 (e0 ▸ hrn) hring hm.1 (fun _ => hm.2)
    · exact cell q x ring1 c1 k1 e hr1 hm (fun e => absurd e e2)
  · intro q x hq
    rcases unlinkF_read hq with ⟨_, e⟩ | ⟨_, _, e⟩ | ⟨_, _, e⟩
    · subst e; exact l.ringNe _ nd hp
    · subst e
      intro e
      exact (ringWithout_some e).2 rfl
    · exact l.ringNe q x e
  · intro q x ring1 hq hr1
    rcases unlinkF_read hq with ⟨_, e⟩ | ⟨_, _, e⟩ | ⟨_, _, e⟩
    · subst e; exact l.ringNodup _ nd ring1 hp hr1
    · subst e
      obtain ⟨g1, _⟩ := ringWithout_some hr1
      rw [g1, hring]
      simp only [Option.getD_some]
      exact hnd.sublist ((List.filter_sublist _).map _)
    · exact l.ringNodup q x ring1 e hr1

theorem FwdF.unlink_fwdF {f : TriePtr → Option Trie} {p ro : TriePtr} {nd rn : Trie} {c0 : Nat}
    (hne : ro ≠ p) (hrn : f ro = some rn) (x y : Str) :
    FwdF (unlinkF f p ro nd rn c0) x y ↔ FwdF f x y ∧ pathOf x ≠ p := by
  constructor
  · rintro ⟨hxv, z, h1, h2, h3⟩
    rcases unlinkF_read h1 with ⟨_, e⟩ | ⟨e1, e0, e⟩ | ⟨e1, _, e⟩
    · subst e; cases h2
    · subst e
      exact ⟨⟨hxv, rn, e0 ▸ hrn, h2, h3⟩, e1⟩
    · exact ⟨⟨hxv, z, e, h2, h3⟩, e1⟩
  · rintro ⟨⟨hxv, z, h1, h2, h3⟩, e1⟩
    by_cases e2 : pathOf x = ro
    · rw [e2, hrn] at h1
      simp only [Option.some.injEq] at h1
      subst h1
      exact ⟨hxv, unlinkVal rn c0, by rw [e2]; exact unlinkF_val f nd rn c0 hne, h2, h3⟩
    · exact ⟨hxv, z, by rw [unlinkF_other f p ro nd rn c0 e1 e2]; exact h1, h2, h3⟩

theorem NoMarkerF.unlink_noMarkerF {f : TriePtr → Option Trie} (n : NoMarkerF f) {p ro : TriePtr}
    {nd rn : Trie} {c0 : Nat} (hrn : f ro = some rn) :
    NoMarkerF (unlinkF f p ro nd rn c0) := by
  intro q x hq0 hq
  rcases unlinkF_read hq with ⟨_, e⟩ | ⟨_, e0, e⟩ | ⟨_, _, e⟩
  · subst e; simp [unlinkKey]
  · subst e; exact n q rn hq0 (e0 ▸ hrn)
  · exact n q x hq0 e

/-! ## Setting and clearing the marker -/

theorem LinkedF.setValue_linkedF {f : TriePtr → Option Trie} {c : Nat} (l : LinkedF f c)
    {p : TriePtr} {nd : Trie} (hp : f p = some nd)
    (hv : nd.value = none ∨ nd.value = some ROOT_VALUE) {w : Option Str}
    (hw : w = none ∨ w = some ROOT_VALUE) (hroot : p = [] → w = some ROOT_VALUE) :
    LinkedF (setF f p (some (setValue nd w))) c := by
  have rd : ∀ q x, setF f p (some (Phfwd.setValue nd w)) q = some x →
      (q = p ∧ x = Phfwd.setValue nd w) ∨ (q ≠ p ∧ f q = some x) := by
    intro q x hq
    simp only [setF] at hq
    split_ifs at hq with e
    · exact Or.inl ⟨e, (Option.some.inj hq).symm⟩
    · exact Or.inr ⟨e, hq⟩
  have keep : ∀ q x, f q = some x → ∃ x', setF f p (some (Phfwd.setValue nd w)) q = some x' ∧
      (x.value ≠ none → x.value ≠ some ROOT_VALUE → x'.value = x.value) ∧
      x'.keys = x.keys ∧ x'.keysInRev = x.keysInRev := by
    intro q x hq
    by_cases e : q = p
    · subst e
      rw [hp] at hq
      simp only [Option.some.injEq] at hq
      subst hq
      refine ⟨_, setF_same _ _ _, ?_, rfl, rfl⟩
      intro h1 h2
      rcases hv with hv | hv
      · exact absurd hv h1
      · exact absurd hv h2
    · exact ⟨x, by rw [setF_other _ _ e]; exact hq, fun _ _ => rfl, rfl, rfl⟩
  refine ⟨?_, ?_, ?_, ?_, ?_, ?_⟩
  · intro r hr
    rcases rd [] r hr with ⟨e, e2⟩ | ⟨_, e⟩
    · subst e2; exact hroot e.symm
    · exact l.root r e
  · intro q x hq _
    rcases rd q x hq with ⟨_, e⟩ | ⟨_, e⟩
    · subst e; exact l.noval _ nd hp hv
    · exact l.noval q x e (by assumption)
  · intro q x u hq hu hur
    rcases rd q x hq with ⟨_, e⟩ | ⟨_, e⟩
    · subst e
      simp only [Phfwd.setValue] at hu
      rcases hw with hw | hw
      · rw [hw] at hu; cases hu
      · rw [hw] at hu
        simp only [Option.some.injEq] at hu
        exact absurd hu.symm hur
    · obtain ⟨a1, a2, a3, c1, k1, rn1, ring1, b1, b2, b3, b4, b5, b6⟩ := l.val q x u e hu hur
      obtain ⟨x', d1, _, d3, _⟩ := keep _ rn1 b4
      exact ⟨a1, a2, a3, c1, k1, x', ring1, b1, b2, b3, d1, d3.trans b5, b6⟩
  · intro q x ring1 c1 k1 hq hr1 hm
    have main : ∀ x0, f q = some x0 → x0.keys = some ring1 →
        Valid k1 ∧ c1 < c ∧ ∃ kn u, setF f p (some (Phfwd.setValue nd w)) (pathOf k1) = some kn ∧
          kn.value = some u ∧ u ≠ ROOT_VALUE ∧ pathOf u = q ∧ kn.keysInRev = some ⟨q, c1⟩ := by
      intro x0 h0 h1
      obtain ⟨a1, a2, kn, u, b1, b2, b3, b4, b5⟩ := l.ring q x0 ring1 c1 k1 h0 h1 hm
      obtain ⟨x', d1, d2, _, d4⟩ := keep _ kn b1
      refine ⟨a1, a2, x', u, d1, ?_, b3, b4, d4.trans b5⟩
      rw [d2 (by rw [b2]; simp) (by rw [b2]; simpa using b3)]
      exact b2
    rcases rd q x hq with ⟨e0, e⟩ | ⟨_, e⟩
    · subst e
      exact main nd (e0 ▸ hp) hr1
    · exact main x e hr1
  · intro q x hq
    rcases rd q x hq with ⟨_, e⟩ | ⟨_, e⟩
    · subst e; exact l.ringNe _ nd hp
    · exact l.ringNe q x e
  · intro q x ring1 hq hr1
    rcases rd q x hq with ⟨_, e⟩ | ⟨_, e⟩
    · subst e; exact l.ringNodup _ nd ring1 hp hr1
    · exact l.ringNodup q x ring1 e hr1

theorem FwdF.setValue_fwdF {f : TriePtr → Option Trie} {p : TriePtr} {nd : Trie}
    (hp : f p = some nd) (hv : nd.value = none ∨ nd.value = some ROOT_VALUE) {w : Option Str}
    (hw : w = none ∨ w = some ROOT_VALUE) (x y : Str) :
    FwdF (setF f p (some (setValue nd w))) x y ↔ FwdF f x y := by
  constructor
  · rintro ⟨hxv, z, h1, h2, h3⟩
    simp only [setF] at h1
    split_ifs at h1 with e
    · simp only [Option.some.injEq] at h1
      subst h1
      simp only [Phfwd.setValue] at h2
      rcases hw with hw | hw
      · rw [hw] at h2; cases h2
      · rw [hw] at h2
        simp only [Option.some.injEq] at h2
        exact absurd h2.symm h3
    · exact ⟨hxv, z, h1, h2, h3⟩
  · rintro ⟨hxv, z, h1, h2, h3⟩
    by_cases e : pathOf x = p
    · rw [e, hp] at h1
      simp only [Option.some.injEq] at h1
      subst h1
      rcases hv with hv | hv
      · rw [hv] at h2; cases h2
      · rw [hv] at h2
        simp only [Option.some.injEq] at h2
        exact absurd h2.symm h3
    · exact ⟨hxv, z, by rw [setF_other _ _ e]; exact h1, h2, h3⟩

/-! ## `trieRemoveNodeValue` -/

theorem listRemoveFirstAt_spec {h : Heap} {ro : TriePtr} {rn : Trie} {ring : CList}
    {c0 : Nat} {k : Str} (hrn : h.find ro = some rn) (hring : rn.keys = some ring)
    (hm : (c0, k) ∈ ring) :
    listRemoveFirstAt h (some ⟨ro, c0⟩) =
      some (h.write ro { rn with keys := some (listRemoveFirst ring (some c0)) }) := by
  have : ring.any (fun c => decide (c.1 = c0)) = true := by
    rw [List.any_eq_true]
    exact ⟨(c0, k), hm, by simp⟩
  simp [listRemoveFirstAt, hrn, hring, this]

theorem dropEmptyKeys_spec {h : Heap} {r : TriePtr} {rn : Trie} (hrn : h.find r = some rn) :
    ∃ h2, dropEmptyKeys h (some r) = some (h2, listEmpty rn.keys) ∧ h2.cells = h.cells ∧
      view h2 = setF (view h) r (some (normKeys rn.pay)) ∧ (Shape h → Shape h2) := by
  cases he : listEmpty rn.keys with
  | true =>
    refine ⟨h.write r { rn with keys := none }, ?_, rfl, ?_, ?_⟩
    · simp [dropEmptyKeys, hrn, he]
    · rw [view_write_eq]
      simp [normKeys, Trie.pay, he]
    · intro hs
      exact hs.write hrn rfl (fun e => by
        obtain ⟨r0, hr1, hr2⟩ := hs.root
        rw [e] at hrn
        rw [hrn] at hr1
        simp only [Option.some.injEq] at hr1
        subst hr1
        exact hr2)
  | false =>
    refine ⟨h, ?_, rfl, ?_, fun hs => hs⟩
    · simp [dropEmptyKeys, hrn, he]
    · have : normKeys rn.pay = rn.pay := by
        cases rn
        simp only [normKeys, Trie.pay] at he ⊢
        simp [he]
      rw [this, ← view_eq_some hrn, setF_id]

theorem normKeys_removed (rn : Trie) (ring : CList) (c0 : Nat) (hring : rn.keys = some ring) :
    normKeys (Trie.pay { rn with keys := some (listRemoveFirst ring (some c0)) }) =
      unlinkVal rn.pay c0 := by
  cases rn
  simp only at hring
  subst hring
  simp [normKeys, Trie.pay, unlinkVal, ringWithout, listEmpty]

theorem Shape.root_of_nil {h : Heap} (hs : Shape h) {nd : Trie} (hp : h.find [] = some nd) :
    nd.value ≠ none := by
  obtain ⟨r0, hr1, hr2⟩ := hs.root
  rw [hp] at hr1
  simp only [Option.some.injEq] at hr1
  subst hr1
  exact hr2

/-- The outcome of `trieRemoveNodeValue` on a node that holds no marker: a node
map `g`, which is the old one with the value of `p` unregistered, and then
pruned. -/
theorem trieRemoveNodeValue_core {h : Heap} (hs : Shape h) (l : Linked h) {p : TriePtr}
    {nd : Trie} (hp : h.find p = some nd) (hnm : nd.value ≠ some ROOT_VALUE) (hpr : p ≠ []) :
    ∃ h' g, trieRemoveNodeValue h p = some h' ∧ Shape h' ∧ h'.cells = h.cells ∧
      PrunedF g (view h') ∧ LinkedF g h.cells ∧
      (∀ x y, FwdF g x y ↔ Fwd h x y ∧ pathOf x ≠ p) ∧
      (∃ x, g p = some x ∧ x.value = none) ∧
      (∀ q, q ≠ p → (∀ x, g q = some x → ∃ x0, view h q = some x0 ∧ x0.value = x.value) ∧
        (∀ x0, view h q = some x0 → ∃ x, g q = some x ∧ x.value = x0.value)) := by
  have hvp := view_eq_some hp
  cases hv : nd.value with
  | none =>
    -- nothing to unregister
    obtain ⟨hk1, hk2⟩ := l.noval p nd.pay hvp (Or.inl hv)
    simp only [Trie.pay] at hk1 hk2
    have hs4 : Shape (h.write p { nd with keysInRev := none, value := none, revNode := none }) :=
      hs.write hp rfl (fun e => absurd e hpr)
    have hv4 : view (h.write p { nd with keysInRev := none, value := none, revNode := none })
        = view h := by
      rw [view_write_eq]
      have : Trie.pay { nd with keysInRev := none, value := none, revNode := none } = nd.pay := by
        cases nd
        simp only at hv hk1 hk2
        subst hv hk1 hk2
        rfl
      rw [this, ← hvp, setF_id]
    obtain ⟨h5, e5, s5, p5⟩ := prune_spec p _ hs4 (by rw [find_write]; simp)
    refine ⟨h5, view h, ?_, s5, p5.1, ?_, l, ?_, ⟨nd.pay, hvp, hv⟩, ?_⟩
    · simp [trieRemoveNodeValue, hp, hk1, hk2, listRemoveFirstAt, dropEmptyKeys,
        trieDeleteUnusedBranch, e5]
    · have := p5.prunedF
      rw [hv4] at this
      exact this
    · intro x y
      constructor
      · intro hf
        refine ⟨hf, fun e => ?_⟩
        obtain ⟨_, z, h1, h2, _⟩ := hf
        rw [e, hvp] at h1
        simp only [Option.some.injEq] at h1
        subst h1
        simp only [Trie.pay] at h2
        rw [hv] at h2; cases h2
      · exact fun hf => hf.1
    · intro q _
      exact ⟨fun x hx => ⟨x, hx, rfl⟩, fun x hx => ⟨x, hx, rfl⟩⟩
  | some v =>
    have hr : v ≠ ROOT_VALUE := fun e => hnm (by rw [hv, e])
    obtain ⟨c0, k, rn0, ring, hvv, hne, hrev, hkir, hk, hkp, hrn0, hring, hmem, _⟩ :=
      l.val_data hvp hv hr
    simp only [Trie.pay] at hrev hkir
    obtain ⟨rn, hrn, hrnp⟩ := find_of_view hrn0
    have hring' : rn.keys = some ring := by rw [← hrnp] at hring; exact hring
    -- unlink the cell
    have e1 := listRemoveFirstAt_spec hrn hring' hmem
    have hs1 : Shape (h.write (pathOf v) { rn with keys := some (listRemoveFirst ring (some c0)) }) :=
      hs.write hrn rfl (fun e => absurd e hvv.pathOf_ne_nil)
    -- release the registry when it is empty
    obtain ⟨h2, e2, c2, v2, s2⟩ := @dropEmptyKeys_spec
      (h.write (pathOf v) { rn with keys := some (listRemoveFirst ring (some c0)) })
      (pathOf v) { rn with keys := some (listRemoveFirst ring (some c0)) }
      (by rw [find_write]; simp)
    have hs2 := s2 hs1
    rw [view_write_eq, setF_setF, normKeys_removed rn ring c0 hring', hrnp] at v2
    have hp2 : view h2 p = some nd.pay := by
      rw [v2, setF_other _ _ (Ne.symm hne)]; exact hvp
    have hro2 : (h2.find (pathOf v)).isSome = true := by
      rw [← view_isSome, v2]; simp
    -- prune from the reverse node
    obtain ⟨h3, e3, s3, p3⟩ := prune_spec (pathOf v) h2 hs2 hro2
    have hp3 : view h3 p = some nd.pay :=
      p3.prunedF.keep_prunedF hp2 (Or.inl (by simp [Trie.pay, hv]))
    obtain ⟨nd3, hnd3, hnd3p⟩ := find_of_view hp3
    -- clear the node
    have hs4 : Shape (h3.write p { nd3 with keysInRev := none, value := none, revNode := none }) :=
      s3.write hnd3 rfl (fun e => absurd e hpr)
    have hpay4 : Trie.pay { nd3 with keysInRev := none, value := none, revNode := none }
        = unlinkKey nd.pay := by
      rw [← hnd3p]; rfl
    -- prune from the node
    obtain ⟨h5, e5, s5, p5⟩ := prune_spec p _ hs4 (by rw [find_write]; simp)
    have hg : PrunedF (unlinkF (view h) p (pathOf v) nd.pay rn0 c0) (view h5) := by
      have a : PrunedF (setF (view h2) p (some (unlinkKey nd.pay)))
          (setF (view h3) p (some (unlinkKey nd.pay))) := p3.prunedF.setF p _
      have b := p5.prunedF
      rw [view_write_eq, hpay4] at b
      have c := a.trans_prunedF b
      rw [v2] at c
      exact c
    refine ⟨h5, unlinkF (view h) p (pathOf v) nd.pay rn0 c0, ?_, s5, ?_, hg, ?_, ?_, ?_, ?_⟩
    · simp [trieRemoveNodeValue, hp, hkir, hrev, e1, e2, trieDeleteUnusedBranch, e3, hnd3, e5]
    · rw [p5.1]
      show h3.cells = h.cells
      rw [p3.1, c2]; rfl
    · exact LinkedF.unlink_linkedF l hvp hv hr hrn0 (by simp [Trie.pay, hkir])
    · intro x y
      exact FwdF.unlink_fwdF hne hrn0 x y
    · exact ⟨_, unlinkF_key _ _ _ _ _ _, rfl⟩
    · intro q hq
      by_cases e : q = pathOf v
      · subst e
        rw [unlinkF_val _ _ _ _ hne]
        refine ⟨fun x hx => ⟨rn0, hrn0, ?_⟩, fun x0 hx0 => ⟨_, rfl, ?_⟩⟩
        · simp only [Option.some.injEq] at hx
          rw [← hx]; rfl
        · rw [hrn0] at hx0
          simp only [Option.some.injEq] at hx0
          rw [← hx0]; rfl
      · rw [unlinkF_other _ _ _ _ _ _ hq e]
        exact ⟨fun x hx => ⟨x, hx, rfl⟩, fun x hx => ⟨x, hx, rfl⟩⟩

theorem Shape.live_suffix {h : Heap} (hs : Shape h) : ∀ (q s : TriePtr),
    (h.find q).isSome = true → s <:+ q → (h.find s).isSome = true
  | [], s, hq, hsq => by
    rw [List.suffix_nil.1 hsq]; exact hq
  | n :: q, s, hq, hsq => by
    rcases List.suffix_cons_iff.1 hsq with e | e
    · rw [e]; exact hq
    · exact hs.live_suffix q s (hs.closed n q hq).2 e

theorem Shape.lt_of_live {h : Heap} (hs : Shape h) : ∀ (q : TriePtr),
    (h.find q).isSome = true → ∀ n ∈ q, n < ALPHABET_SIZE
  | [], _, n, hn => by simp at hn
  | m :: q, hq, n, hn => by
    have := hs.closed m q hq
    rcases List.mem_cons.1 hn with e | e
    · rw [e]; exact this.1
    · exact hs.lt_of_live q this.2 n e

/-- `trieRemoveNodeValue` on a node without marker: it succeeds, keeps the
invariants, forgets the forwarding of that node and no other, and touches the
value of no other node. -/
theorem trieRemoveNodeValue_spec {h : Heap} (hs : Shape h) (l : Linked h) {p : TriePtr}
    {nd : Trie} (hp : h.find p = some nd) (hnm : nd.value ≠ some ROOT_VALUE) (hpr : p ≠ []) :
    ∃ h', trieRemoveNodeValue h p = some h' ∧ Shape h' ∧ Linked h' ∧
      (∀ x y, Fwd h' x y ↔ Fwd h x y ∧ pathOf x ≠ p) ∧
      (∀ q x', view h' q = some x' → ∃ x, view h q = some x ∧
        (q ≠ p → x'.value = x.value) ∧ (q = p → x'.value = none)) ∧
      (∀ q x, view h q = some x → q ≠ p → x.value ≠ none →
        ∃ x', view h' q = some x' ∧ x'.value = x.value) := by
  obtain ⟨h', g, e, s', c', pr, lg, fg, ⟨xp, gp, gpv⟩, gq⟩ :=
    trieRemoveNodeValue_core hs l hp hnm hpr
  have groot : g [] ≠ none := by
    obtain ⟨r, hr, _⟩ := hs.root
    obtain ⟨x, hx, _⟩ := (gq [] (Ne.symm hpr)).2 r.pay (view_eq_some hr)
    rw [hx]; simp
  refine ⟨h', e, s', ?_, ?_, ?_, ?_⟩
  · unfold Linked
    rw [c']
    exact lg.similar_linkedF pr.similar_prunedF groot
  · intro x y
    rw [← fg x y]
    exact FwdF.similar_fwdF pr.similar_prunedF x y
  · intro q x' hq
    have hgq := pr.from hq
    by_cases e : q = p
    · subst e
      rw [gp] at hgq
      simp only [Option.some.injEq] at hgq
      subst hgq
      exact ⟨nd.pay, view_eq_some hp, fun e => absurd rfl e, fun _ => gpv⟩
    · obtain ⟨x0, h0, h1⟩ := (gq q e).1 x' hgq
      exact ⟨x0, h0, fun _ => h1.symm, fun e2 => absurd e2 e⟩
  · intro q x hq hqp hv
    obtain ⟨x1, h1, h2⟩ := (gq q hqp).2 x hq
    exact ⟨x1, pr.keep_prunedF h1 (Or.inl (by rw [h2]; exact hv)), h2⟩

/-! ## Writing and clearing the marker in the heap -/

theorem write_same {h : Heap} {p : TriePtr} {nd : Trie} (hp : h.find p = some nd) :
    view (h.write p nd) = view h := by
  rw [view_write_eq, ← view_eq_some hp, setF_id]

theorem Linked.setValue_linked {h : Heap} (l : Linked h) {p : TriePtr} {nd : Trie}
    (hp : h.find p = some nd) (hv : nd.value = none ∨ nd.value = some ROOT_VALUE)
    {w : Option Str} (hw : w = none ∨ w = some ROOT_VALUE) (hpr : p ≠ []) :
    Linked (h.write p { nd with value := w }) := by
  unfold Linked
  rw [view_write_eq]
  exact LinkedF.setValue_linkedF l (view_eq_some hp) hv hw (fun e => absurd e hpr)

theorem Fwd.setValue_fwd {h : Heap} {p : TriePtr} {nd : Trie}
    (hp : h.find p = some nd) (hv : nd.value = none ∨ nd.value = some ROOT_VALUE)
    {w : Option Str} (hw : w = none ∨ w = some ROOT_VALUE) (x y : Str) :
    Fwd (h.write p { nd with value := w }) x y ↔ Fwd h x y := by
  unfold Fwd
  rw [view_write_eq]
  exact FwdF.setValue_fwdF (view_eq_some hp) hv hw x y

/-! ## One iteration of the loop of `trieRemoveValues` -/

theorem loop_finalize (stop : Option TriePtr) (fuel : Nat) (h : Heap) (cur : TriePtr)
    (nd0 : Trie) (hne : some cur ≠ stop) (hf : h.find cur = some nd0) :
    trieRemoveValuesLoop stop (fuel + 1) h (some cur) ALPHABET_SIZE =
      match trieRemoveNodeValue
          ((h.write cur (markNode nd0)).write cur (unmarkNode (markNode nd0))) cur with
      | none => none
      | some h' => trieRemoveValuesLoop stop fuel h' (previous cur) ((order cur + 1) % 256) := by
  rw [trieRemoveValuesLoop]
  simp only [hne, if_false, hf, if_true]
  rfl

theorem loop_skip (stop : Option TriePtr) (fuel : Nat) (h : Heap) (cur : TriePtr)
    (nd0 : Trie) (i : Nat) (hne : some cur ≠ stop) (hf : h.find cur = some nd0)
    (hi : i < ALPHABET_SIZE)
    (hc : (h.write cur (markNode nd0)).find (i :: cur) = none) :
    trieRemoveValuesLoop stop (fuel + 1) h (some cur) i =
      trieRemoveValuesLoop stop fuel (h.write cur (markNode nd0)) (some cur) ((i + 1) % 256) := by
  rw [trieRemoveValuesLoop]
  have hi2 : i ≠ ALPHABET_SIZE := Nat.ne_of_lt hi
  have hn : next (h.write cur (markNode nd0)) cur i = some none := by
    simp [next, hi, hc]
  simp only [hne, if_false, hf, hi2]
  show (match next (h.write cur (markNode nd0)) cur i with
    | none => none
    | some none => _
    | some (some child) => _) = _
  rw [hn]
  rfl

theorem loop_descend (stop : Option TriePtr) (fuel : Nat) (h : Heap) (cur : TriePtr)
    (nd0 : Trie) (i : Nat) (hne : some cur ≠ stop) (hf : h.find cur = some nd0)
    (hi : i < ALPHABET_SIZE)
    (hc : ((h.write cur (markNode nd0)).find (i :: cur)).isSome = true) :
    trieRemoveValuesLoop stop (fuel + 1) h (some cur) i =
      trieRemoveValuesLoop stop fuel (h.write cur (markNode nd0)) (some (i :: cur)) 0 := by
  rw [trieRemoveValuesLoop]
  have hi2 : i ≠ ALPHABET_SIZE := Nat.ne_of_lt hi
  have hn : next (h.write cur (markNode nd0)) cur i = some (some (i :: cur)) := by
    simp [next, hi, hc]
  simp only [hne, if_false, hf, hi2]
  show (match next (h.write cur (markNode nd0)) cur i with
    | none => none
    | some none => _
    | some (some child) => _) = _
  rw [hn]
  rfl

theorem loop_stop (stop : Option TriePtr) (fuel : Nat) (h : Heap) (i : Nat) :
    trieRemoveValuesLoop stop (fuel + 1) h stop i = some h := by
  simp [trieRemoveValuesLoop]

/-! ## Marking and unmarking the current node -/

theorem Linked.of_view_eq_linked {h h' : Heap} (l : Linked h) (hv : view h' = view h)
    (hc : h'.cells = h.cells) : Linked h' := by
  unfold Linked at l ⊢
  rw [hv, hc]; exact l

theorem Fwd.of_view_eq_fwd {h h' : Heap} (hv : view h' = view h) (x y : Str) :
    Fwd h' x y ↔ Fwd h x y := by
  unfold Fwd
  rw [hv]

theorem mark_heap {h : Heap} (hs : Shape h) (l : Linked h) {cur : TriePtr} {nd0 : Trie}
    (hf : h.find cur = some nd0) (hne : cur ≠ []) :
    Shape (h.write cur (markNode nd0)) ∧ Linked (h.write cur (markNode nd0)) ∧
    (∀ x y, Fwd (h.write cur (markNode nd0)) x y ↔ Fwd h x y) ∧
    (markNode nd0).value ≠ none ∧
    ((markNode nd0).value = some ROOT_VALUE ∨ (markNode nd0).value = nd0.value) := by
  by_cases hv : nd0.value = none
  · have e : markNode nd0 = { nd0 with value := some ROOT_VALUE } := by simp [markNode, hv]
    rw [e]
    refine ⟨hs.write hf rfl (fun e => absurd e hne), l.setValue_linked hf (Or.inl hv) (Or.inr rfl) hne,
      Fwd.setValue_fwd hf (Or.inl hv) (Or.inr rfl), by simp, Or.inl rfl⟩
  · have e : markNode nd0 = nd0 := by simp [markNode, hv]
    rw [e]
    exact ⟨hs.write hf rfl (fun e => absurd e hne), l.of_view_eq_linked (write_same hf) rfl,
      Fwd.of_view_eq_fwd (write_same hf), hv, Or.inr rfl⟩

theorem unmark_heap {h : Heap} (hs : Shape h) (l : Linked h) {cur : TriePtr} {nd : Trie}
    (hf : h.find cur = some nd) (hne : cur ≠ []) :
    Shape (h.write cur (unmarkNode nd)) ∧ Linked (h.write cur (unmarkNode nd)) ∧
    (∀ x y, Fwd (h.write cur (unmarkNode nd)) x y ↔ Fwd h x y) ∧
    (unmarkNode nd).value ≠ some ROOT_VALUE ∧
    ((unmarkNode nd).value = none ∨ (unmarkNode nd).value = nd.value) := by
  by_cases hv : nd.value = some ROOT_VALUE
  · have e : unmarkNode nd = { nd with value := none } := by simp [unmarkNode, hv]
    rw [e]
    refine ⟨hs.write hf rfl (fun e => absurd e hne), l.setValue_linked hf (Or.inr hv) (Or.inl rfl) hne,
      Fwd.setValue_fwd hf (Or.inr hv) (Or.inl rfl), by simp, Or.inl rfl⟩
  · have e : unmarkNode nd = nd := by simp [unmarkNode, hv]
    rw [e]
    exact ⟨hs.write hf rfl (fun e => absurd e hne), l.of_view_eq_linked (write_same hf) rfl,
      Fwd.of_view_eq_fwd (write_same hf), hv, Or.inr rfl⟩

/-! ## Suffixes -/

theorem suffix_same_length {s1 s2 q : TriePtr} (h1 : s1 <:+ q) (h2 : s2 <:+ q)
    (hl : s1.length = s2.length) : s1 = s2 :=
  (List.suffix_of_suffix_length_le h1 h2 (Nat.le_of_eq hl)).eq_of_length hl

theorem not_cons_suffix (n : Nat) (a : TriePtr) : ¬ (n :: a <:+ a) := by
  intro h
  have := h.length_le
  simp at this

theorem suffix_of_cons_ne {s a : TriePtr} {n : Nat} (h : s <:+ n :: a) (hne : s ≠ n :: a) :
    s <:+ a := by
  rcases List.suffix_cons_iff.1 h with e | e
  · exact absurd e hne
  · exact e

theorem Valid.path_lt {x : Str} (hx : Valid x) : ∀ n ∈ pathOf x, n < ALPHABET_SIZE := by
  intro n hn
  simp only [pathOf, List.mem_reverse, List.mem_map] at hn
  obtain ⟨c, hc, rfl⟩ := hn
  exact strToInt_lt c (hx.good c hc)

theorem Fwd.live_fwd {h : Heap} {x y : Str} (hf : Fwd h x y) : (h.find (pathOf x)).isSome = true := by
  obtain ⟨_, nd, h1, _, _⟩ := hf
  rw [← view_isSome, h1]; rfl

theorem depthCost_self (R : TriePtr) : depthCost R R = 0 := by
  simp [depthCost]

theorem depthCost_cons {R a : TriePtr} (n : Nat) (h : R <:+ a) :
    depthCost R (n :: a) = (ALPHABET_SIZE - n) + depthCost R a := by
  unfold depthCost
  have hl := h.length_le
  have : (n :: a).length - R.length = (a.length - R.length) + 1 := by
    simp only [List.length_cons]; omega
  rw [this, List.take_succ_cons]
  simp

/-! ## The nodes still to be visited -/

theorem proper_suffix_extend {s q : TriePtr} (h : s <:+ q) (hne : s ≠ q) :
    ∃ c, c :: s <:+ q := by
  obtain ⟨t, rfl⟩ := h
  have ht : t ≠ [] := by
    intro e; subst e; exact hne rfl
  refine ⟨t.getLast ht, t.dropLast, ?_⟩
  have := List.dropLast_append_getLast ht
  calc t.dropLast ++ t.getLast ht :: s = (t.dropLast ++ [t.getLast ht]) ++ s := by simp
    _ = t ++ s := by rw [this]

theorem Unvisited.skip_unvisited {R cur q : TriePtr} {i : Nat} (u : Unvisited R cur i q)
    (hn : ¬ (i :: cur <:+ q)) : Unvisited R cur (i + 1) q := by
  rcases u with ⟨c, hc, hs⟩ | u
  · left
    refine ⟨c, ?_, hs⟩
    rcases Nat.eq_or_lt_of_le hc with e | e
    · subst e; exact absurd hs hn
    · exact e
  · exact Or.inr u

theorem Unvisited.of_skip {R cur q : TriePtr} {i : Nat} (u : Unvisited R cur (i + 1) q) :
    Unvisited R cur i q := by
  rcases u with ⟨c, hc, hs⟩ | u
  · exact Or.inl ⟨c, by omega, hs⟩
  · exact Or.inr u

theorem Unvisited.descend_unvisited {R cur q : TriePtr} {i : Nat} (u : Unvisited R cur i q)
    (hR : R <:+ cur) : q <:+ i :: cur ∨ Unvisited R (i :: cur) 0 q := by
  rcases u with ⟨c, hc, hs⟩ | ⟨a, n, c, h1, h2, h3, h4⟩
  · rcases Nat.eq_or_lt_of_le hc with e | e
    · subst e
      by_cases hq : i :: cur = q
      · left; rw [hq]
      · obtain ⟨c', hc'⟩ := proper_suffix_extend hs hq
        exact Or.inr (Or.inl ⟨c', Nat.zero_le _, hc'⟩)
    · exact Or.inr (Or.inr ⟨cur, i, c, hR, List.suffix_refl _, e, hs⟩)
  · exact Or.inr (Or.inr ⟨a, n, c, h1, h2.trans (List.suffix_cons _ _), h3, h4⟩)

theorem Unvisited.of_descend {R cur q : TriePtr} {i : Nat} (u : Unvisited R (i :: cur) 0 q) :
    Unvisited R cur i q ∧ q ≠ i :: cur := by
  rcases u with ⟨c, _, hs⟩ | ⟨a, n, c, h1, h2, h3, h4⟩
  · refine ⟨Or.inl ⟨i, Nat.le_refl _, (List.suffix_cons _ _).trans hs⟩, ?_⟩
    intro e
    rw [e] at hs
    exact not_cons_suffix _ _ hs
  · rcases List.suffix_cons_iff.1 h2 with e | e
    · simp only [List.cons.injEq] at e
      obtain ⟨rfl, rfl⟩ := e
      refine ⟨Or.inl ⟨c, Nat.le_of_lt h3, h4⟩, ?_⟩
      intro e2
      rw [e2] at h4
      have := suffix_same_length h4 (List.suffix_refl _) (by simp)
      simp only [List.cons.injEq, and_true] at this
      omega
    · refine ⟨Or.inr ⟨a, n, c, h1, e, h3, h4⟩, ?_⟩
      intro e2
      rw [e2] at h4
      rcases List.suffix_cons_iff.1 h4 with e3 | e3
      · simp only [List.cons.injEq] at e3
        rw [e3.2] at e
        exact not_cons_suffix _ _ e
      · have := suffix_same_length e3 e (by simp)
        simp only [List.cons.injEq, and_true] at this
        omega

theorem Unvisited.finalize_unvisited {R a q : TriePtr} {n : Nat} (u : Unvisited R (n :: a) ALPHABET_SIZE q)
    (hq : ∀ m ∈ q, m < ALPHABET_SIZE) : Unvisited R a (n + 1) q := by
  rcases u with ⟨c, hc, hs⟩ | ⟨a', n', c, h1, h2, h3, h4⟩
  · have := hq c (hs.subset (by simp))
    omega
  · rcases List.suffix_cons_iff.1 h2 with e | e
    · simp only [List.cons.injEq] at e
      obtain ⟨rfl, rfl⟩ := e
      exact Or.inl ⟨c, h3, h4⟩
    · exact Or.inr ⟨a', n', c, h1, e, h3, h4⟩

theorem Unvisited.of_finalize {R a q : TriePtr} {n : Nat} (u : Unvisited R a (n + 1) q)
    (hR : R <:+ a) : Unvisited R (n :: a) ALPHABET_SIZE q := by
  rcases u with ⟨c, hc, hs⟩ | ⟨a', n', c, h1, h2, h3, h4⟩
  · exact Or.inr ⟨a, n, c, hR, List.suffix_refl _, by omega, hs⟩
  · exact Or.inr ⟨a', n', c, h1, h2.trans (List.suffix_cons _ _), h3, h4⟩

/-- Nothing is left to visit when the loop leaves the node it started on. -/
theorem Unvisited.none_left {R q : TriePtr} (u : Unvisited R R ALPHABET_SIZE q)
    (hq : ∀ m ∈ q, m < ALPHABET_SIZE) : False := by
  rcases u with ⟨c, hc, hs⟩ | ⟨a', n', c, h1, h2, _, _⟩
  · have := hq c (hs.subset (by simp))
    omega
  · exact not_cons_suffix _ _ (h2.trans h1)

/-! ## The invariant through one iteration -/

theorem LoopInv.cur_ne {R : TriePtr} {h0 h : Heap} {cur : TriePtr} {i : Nat}
    (li : LoopInv R h0 h cur i) : cur ≠ [] := by
  intro e
  have := li.sub
  rw [e] at this
  exact li.rne (List.suffix_nil.1 this)

theorem LoopInv.mark {R : TriePtr} {h0 h : Heap} {cur : TriePtr} {i : Nat}
    (li : LoopInv R h0 h cur i) {nd0 : Trie} (hf : h.find cur = some nd0) :
    LoopInv R h0 (h.write cur (markNode nd0)) cur i ∧ (markNode nd0).value ≠ none := by
  obtain ⟨m1, m2, m3, m4, _⟩ := mark_heap li.shape li.linked hf li.cur_ne
  refine ⟨⟨m1, m2, li.rne, li.sub, li.ile, ?_, ?_, ?_, ?_, ?_, ?_⟩, m4⟩
  · intro a h1 h2 h3
    rw [find_write, if_neg h3]
    exact li.alive a h1 h2 h3
  · rw [find_write]; simp
  · intro q nd hq hv hm
    by_cases e : q = cur
    · rw [e]; exact ⟨li.sub, List.suffix_refl _⟩
    · rw [view_write, if_neg e] at hv
      exact li.markers q nd hq hv hm
  · intro x y hxy
    exact li.fwdIn x y ((m3 x y).1 hxy)
  · intro x y hxy hn
    exact (m3 x y).2 (li.fwdOut x y hxy hn)
  · intro x y hxy hn
    exact li.done x y ((m3 x y).1 hxy) hn

theorem LoopInv.unmark {R : TriePtr} {h0 h : Heap} {cur : TriePtr} {i : Nat}
    (li : LoopInv R h0 h cur i) {nd : Trie} (hf : h.find cur = some nd) :
    LoopInv R h0 (h.write cur (unmarkNode nd)) cur i ∧
    (unmarkNode nd).value ≠ some ROOT_VALUE ∧
    (∀ q x, q ≠ [] → view (h.write cur (unmarkNode nd)) q = some x →
      x.value = some ROOT_VALUE → q ≠ cur) := by
  obtain ⟨m1, m2, m3, m4, _⟩ := unmark_heap li.shape li.linked hf li.cur_ne
  have hmk : ∀ q x, q ≠ [] → view (h.write cur (unmarkNode nd)) q = some x →
      x.value = some ROOT_VALUE → q ≠ cur := by
    intro q x _ hv hm e
    rw [view_write, if_pos e] at hv
    simp only [Option.some.injEq] at hv
    rw [← hv] at hm
    exact m4 hm
  refine ⟨⟨m1, m2, li.rne, li.sub, li.ile, ?_, ?_, ?_, ?_, ?_, ?_⟩, m4, hmk⟩
  · intro a h1 h2 h3
    rw [find_write, if_neg h3]
    exact li.alive a h1 h2 h3
  · rw [find_write]; simp
  · intro q x hq hv hm
    have e := hmk q x hq hv hm
    rw [view_write, if_neg e] at hv
    exact li.markers q x hq hv hm
  · intro x y hxy
    exact li.fwdIn x y ((m3 x y).1 hxy)
  · intro x y hxy hn
    exact (m3 x y).2 (li.fwdOut x y hxy hn)
  · intro x y hxy hn
    exact li.done x y ((m3 x y).1 hxy) hn

theorem LoopInv.skip_loopInv {R : TriePtr} {h0 h : Heap} {cur : TriePtr} {i : Nat}
    (li : LoopInv R h0 h cur i) (hi : i < ALPHABET_SIZE) (hc : h.find (i :: cur) = none) :
    LoopInv R h0 h cur (i + 1) := by
  refine ⟨li.shape, li.linked, li.rne, li.sub, hi, li.alive, li.curlive, li.markers,
    li.fwdIn, li.fwdOut, ?_⟩
  intro x y hxy hn
  rcases li.done x y hxy hn with e | e
  · exact Or.inl e
  · refine Or.inr (e.skip_unvisited ?_)
    intro hs
    have := li.shape.live_suffix _ _ hxy.live_fwd hs
    rw [hc] at this
    cases this

theorem LoopInv.descend_loopInv {R : TriePtr} {h0 h : Heap} {cur : TriePtr} {i : Nat}
    (li : LoopInv R h0 h cur i) (hc : (h.find (i :: cur)).isSome = true)
    {nd : Trie} (hf : h.find cur = some nd) (hv : nd.value ≠ none) :
    LoopInv R h0 h (i :: cur) 0 := by
  refine ⟨li.shape, li.linked, li.rne, li.sub.trans (List.suffix_cons _ _), Nat.zero_le _,
    ?_, hc, ?_, li.fwdIn, li.fwdOut, ?_⟩
  · intro a h1 h2 h3
    have h4 := suffix_of_cons_ne h2 h3
    by_cases e : a = cur
    · rw [e]; exact ⟨nd, hf, hv⟩
    · exact li.alive a h1 h4 e
  · intro q x hq hvw hm
    obtain ⟨a1, a2⟩ := li.markers q x hq hvw hm
    exact ⟨a1, a2.trans (List.suffix_cons _ _)⟩
  · intro x y hxy hn
    rcases li.done x y hxy hn with e | e
    · exact Or.inl (e.trans (List.suffix_cons _ _))
    · exact e.descend_unvisited li.sub

theorem LoopInv.finalize_loopInv {R : TriePtr} {h0 h h' : Heap} {n : Nat} {a : TriePtr}
    (li : LoopInv R h0 h (n :: a) ALPHABET_SIZE) (hR : R <:+ a)
    (s' : Shape h') (l' : Linked h')
    (fw : ∀ x y, Fwd h' x y ↔ Fwd h x y ∧ pathOf x ≠ n :: a)
    (c : ∀ q x', view h' q = some x' → ∃ x, view h q = some x ∧
        (q ≠ n :: a → x'.value = x.value) ∧ (q = n :: a → x'.value = none))
    (d : ∀ q x, view h q = some x → q ≠ n :: a → x.value ≠ none →
        ∃ x', view h' q = some x' ∧ x'.value = x.value) :
    LoopInv R h0 h' a (n + 1) := by
  have hn : n < ALPHABET_SIZE := li.shape.lt_of_live _ li.curlive n (by simp)
  have hane : a ≠ n :: a := fun e => by
    have := congrArg List.length e
    simp at this
  have keep : ∀ a', R <:+ a' → a' <:+ a → ∃ nd, h'.find a' = some nd ∧ nd.value ≠ none := by
    intro a' h1 h2
    have h3 : a' ≠ n :: a := fun e => not_cons_suffix n a (e ▸ h2)
    obtain ⟨nd, g1, g2⟩ := li.alive a' h1 (h2.trans (List.suffix_cons _ _)) h3
    obtain ⟨x', g3, g4⟩ := d a' nd.pay (view_eq_some g1) h3 g2
    obtain ⟨nd', g5, g6⟩ := find_of_view g3
    refine ⟨nd', g5, ?_⟩
    have : nd'.value = x'.value := by rw [← g6]; rfl
    rw [this, g4]; exact g2
  refine ⟨s', l', li.rne, hR, hn, fun a' h1 h2 _ => keep a' h1 h2, ?_, ?_, ?_, ?_, ?_⟩
  · obtain ⟨nd, g1, _⟩ := keep a hR (List.suffix_refl _)
    simp [g1]
  · intro q x' hq hv hm
    obtain ⟨x, g1, g2, g3⟩ := c q x' hv
    have hqc : q ≠ n :: a := by
      intro e
      rw [g3 e] at hm; cases hm
    obtain ⟨b1, b2⟩ := li.markers q x hq g1 (by rw [← g2 hqc]; exact hm)
    exact ⟨b1, suffix_of_cons_ne b2 hqc⟩
  · intro x y hxy
    exact li.fwdIn x y ((fw x y).1 hxy).1
  · intro x y hxy hno
    refine (fw x y).2 ⟨li.fwdOut x y hxy hno, ?_⟩
    intro e
    exact hno (e ▸ li.sub)
  · intro x y hxy hsub
    obtain ⟨g1, g2⟩ := (fw x y).1 hxy
    rcases li.done x y g1 hsub with e | e
    · exact Or.inl (suffix_of_cons_ne e g2)
    · exact Or.inr (e.finalize_unvisited g1.1.path_lt)

theorem LoopInv.finish {R : TriePtr} {h0 h h' : Heap}
    (li : LoopInv R h0 h R ALPHABET_SIZE)
    (hmk : ∀ q x, q ≠ [] → view h q = some x → x.value = some ROOT_VALUE → q ≠ R)
    (s' : Shape h') (l' : Linked h')
    (fw : ∀ x y, Fwd h' x y ↔ Fwd h x y ∧ pathOf x ≠ R)
    (c : ∀ q x', view h' q = some x' → ∃ x, view h q = some x ∧
        (q ≠ R → x'.value = x.value) ∧ (q = R → x'.value = none)) :
    RemovePost R h0 h' := by
  refine ⟨s', l', ?_, ?_⟩
  · intro q x' hq hv hm
    obtain ⟨x, g1, g2, g3⟩ := c q x' hv
    have hqc : q ≠ R := by
      intro e
      rw [g3 e] at hm; cases hm
    have hm' : x.value = some ROOT_VALUE := by rw [← g2 hqc]; exact hm
    exact hmk q x hq g1 hm' ((li.markers q x hq g1 hm').2.eq_of_length
      (Nat.le_antisymm (li.markers q x hq g1 hm').2.length_le
        (li.markers q x hq g1 hm').1.length_le))
  · intro x y
    constructor
    · intro hxy
      obtain ⟨g1, g2⟩ := (fw x y).1 hxy
      refine ⟨li.fwdIn x y g1, fun hsub => ?_⟩
      rcases li.done x y g1 hsub with e | e
      · exact g2 (e.eq_of_length (Nat.le_antisymm e.length_le hsub.length_le))
      · exact e.none_left g1.1.path_lt
    · rintro ⟨hxy, hno⟩
      refine (fw x y).2 ⟨li.fwdOut x y hxy hno, ?_⟩
      intro e
      exact hno (e ▸ List.suffix_refl _)

/-- The loop of `trieRemoveValues` started below `R`: with enough fuel it ends,
and what it leaves is the heap without the forwardings below `R`. -/
theorem loop_spec (R : TriePtr) (h0 : Heap) : ∀ (fuel : Nat) (h : Heap) (cur : TriePtr)
    (i : Nat) (U : Finset TriePtr), LoopInv R h0 h cur i →
    (∀ q, (h.find q).isSome = true → Unvisited R cur i q → q ∈ U) →
    (13 - i) + depthCost R cur + 13 * U.card + 1 ≤ fuel →
    ∃ h', trieRemoveValuesLoop (previous R) fuel h (some cur) i = some h' ∧
      RemovePost R h0 h' := by
  intro fuel
  induction fuel with
  | zero => intro h cur i U _ _ hf; omega
  | succ fuel ih =>
    intro h cur i U li hU hfuel
    obtain ⟨nd0, hnd0⟩ := Option.isSome_iff_exists.1 li.curlive
    have hcne := li.cur_ne
    have hstop : some cur ≠ previous R := by
      cases hR : R with
      | nil => exact absurd hR li.rne
      | cons r R' =>
        simp only [previous, ne_eq, Option.some.injEq]
        intro e
        have := li.sub
        rw [hR, e] at this
        exact not_cons_suffix _ _ this
    obtain ⟨lia, hva⟩ := li.mark hnd0
    have hfa : (h.write cur (markNode nd0)).find cur = some (markNode nd0) := by
      rw [find_write]; simp
    have hlive : ∀ q, ((h.write cur (markNode nd0)).find q).isSome = (h.find q).isSome := by
      intro q
      rw [find_write]
      split_ifs with e
      · rw [e, hnd0]; rfl
      · rfl
    have hile := li.ile
    unfold ALPHABET_SIZE at hile
    by_cases hi : i = ALPHABET_SIZE
    · -- the node is done
      subst hi
      rw [loop_finalize _ _ _ _ _ hstop hnd0]
      obtain ⟨lib, hvb, hmk⟩ := lia.unmark hfa
      have hfb : ((h.write cur (markNode nd0)).write cur (unmarkNode (markNode nd0))).find cur
          = some (unmarkNode (markNode nd0)) := by
        rw [find_write]; simp
      obtain ⟨hc, e, s', l', fw, c, d⟩ :=
        trieRemoveNodeValue_spec lib.shape lib.linked hfb hvb hcne
      rw [e]
      show ∃ h', trieRemoveValuesLoop (previous R) fuel hc (previous cur)
        ((order cur + 1) % 256) = some h' ∧ RemovePost R h0 h'
      cases hcur : cur with
      | nil => exact absurd hcur hcne
      | cons n a =>
        rw [hcur] at lib fw c d hmk
        have hn : n < ALPHABET_SIZE := by
          have := li.shape.lt_of_live _ li.curlive n (by rw [hcur]; simp)
          exact this
        unfold ALPHABET_SIZE at hn
        have hmod : (order (n :: a) + 1) % 256 = n + 1 := by
          simp only [order]; omega
        have hpv : previous (n :: a) = some a := rfl
        rw [hpv, hmod]
        by_cases hR : n :: a = R
        · -- the starting node is done: the loop ends
          have hprev : previous R = some a := by rw [← hR]; rfl
          rw [hprev]
          cases fuel with
          | zero =>
            unfold ALPHABET_SIZE at hfuel
            omega
          | succ fuel =>
            rw [loop_stop]
            rw [hR] at lib fw c hmk
            exact ⟨hc, rfl, lib.finish hmk s' l' fw c⟩
        · have hRa : R <:+ a := suffix_of_cons_ne (hcur ▸ li.sub) (Ne.symm hR)
          have lic := lib.finalize_loopInv hRa s' l' fw c d
          apply ih hc a (n + 1) U lic
          · intro q hq hu
            apply hU q
            · obtain ⟨x', hx'⟩ := Option.isSome_iff_exists.1 hq
              obtain ⟨x, g1, _⟩ := c q x'.pay (view_eq_some hx')
              rw [← view_isSome] at *
              have : (view ((h.write cur (markNode nd0)).write cur
                  (unmarkNode (markNode nd0))) q).isSome = true := by
                rw [← hcur] at g1; rw [g1]; rfl
              rw [view_isSome, find_write] at this
              rw [view_isSome]
              split_ifs at this with e1
              · rw [e1]; exact li.curlive
              · rw [hlive] at this; exact this
            · rw [hcur]; exact hu.of_finalize hRa
          · rw [hcur, depthCost_cons n hRa] at hfuel
            unfold ALPHABET_SIZE at hfuel
            omega
    · have hi' : i < ALPHABET_SIZE := by
        unfold ALPHABET_SIZE at hi ⊢; omega
      unfold ALPHABET_SIZE at hi'
      cases hch : (h.write cur (markNode nd0)).find (i :: cur) with
      | none =>
        -- no such child
        rw [loop_skip _ _ _ _ _ _ hstop hnd0 hi' hch]
        have hmod : (i + 1) % 256 = i + 1 := by omega
        rw [hmod]
        apply ih _ cur (i + 1) U (lia.skip_loopInv hi' hch)
        · intro q hq hu
          rw [hlive] at hq
          exact hU q hq hu.of_skip
        · omega
      | some ch =>
        -- down to the child
        rw [loop_descend _ _ _ _ _ _ hstop hnd0 hi' (by rw [hch]; rfl)]
        have hin : i :: cur ∈ U := by
          apply hU
          · rw [← hlive, hch]; rfl
          · exact Or.inl ⟨i, Nat.le_refl _, List.suffix_refl _⟩
        apply ih _ (i :: cur) 0 (U.erase (i :: cur))
          (lia.descend_loopInv (by rw [hch]; rfl) hfa hva)
        · intro q hq hu
          rw [hlive] at hq
          obtain ⟨u1, u2⟩ := hu.of_descend
          exact Finset.mem_erase.2 ⟨u2, hU q hq u1⟩
        · rw [depthCost_cons i li.sub, Finset.card_erase_of_mem hin]
          have : 0 < U.card := Finset.card_pos.2 ⟨_, hin⟩
          unfold ALPHABET_SIZE
          omega

/-! ## `trieRemove` -/

theorem trieRemoveWalk_spec {h : Heap} (hs : Shape h) : ∀ (key : Str) (cur : TriePtr),
    (h.find cur).isSome = true → (∀ c ∈ key, badChar c = false) →
    trieRemoveWalk h key (some cur) =
      some (if (h.find (pathOf key ++ cur)).isSome = true then some (pathOf key ++ cur) else none)
  | [], cur, hc, _ => by
    simp [trieRemoveWalk, hc]
  | c :: key, cur, hc, hg => by
    have hlt := strToInt_lt c (hg c (by simp))
    have hg2 : ∀ d ∈ key, badChar d = false := fun d hd => hg d (by simp [hd])
    have hpath : pathOf (c :: key) ++ cur = pathOf key ++ (strToInt c :: cur) := by
      rw [pathOf_cons]; simp
    rw [hpath]
    cases hch : h.find (strToInt c :: cur) with
    | some x =>
      have := trieRemoveWalk_spec hs key (strToInt c :: cur) (by rw [hch]; rfl) hg2
      simp only [trieRemoveWalk, next, hlt, if_true, hch, Option.isSome_some]
      exact this
    | none =>
      have hdead : (h.find (pathOf key ++ strToInt c :: cur)).isSome = false := by
        cases hx : (h.find (pathOf key ++ strToInt c :: cur)).isSome with
        | false => rfl
        | true =>
          have := hs.live_suffix _ (strToInt c :: cur) hx (List.suffix_append _ _)
          rw [hch] at this
          cases this
      simp only [trieRemoveWalk, next, hlt, if_true, hch, Option.isSome_none, hdead]
      cases key <;> simp [trieRemoveWalk]

theorem LoopInv.start {h : Heap} (hs : Shape h) (l : Linked h) (nm : NoMarker h)
    {R : TriePtr} (hR : R ≠ []) (hl : (h.find R).isSome = true) : LoopInv R h h R 0 := by
  refine ⟨hs, l, hR, List.suffix_refl _, Nat.zero_le _, ?_, hl, ?_, fun _ _ hxy => hxy,
    fun _ _ hxy _ => hxy, ?_⟩
  · intro a h1 h2 h3
    exact absurd (h2.eq_of_length (Nat.le_antisymm h2.length_le h1.length_le)) h3
  · intro q nd hq hv hm
    exact absurd hm (nm q nd hq hv)
  · intro x y _ hsub
    by_cases e : R = pathOf x
    · left; rw [e]
    · right
      obtain ⟨c, hc⟩ := proper_suffix_extend hsub e
      exact Or.inl ⟨c, Nat.zero_le _, hc⟩

theorem trieRemoveValues_spec {h : Heap} (hs : Shape h) (l : Linked h) (nm : NoMarker h)
    {R : TriePtr} (hR : R ≠ []) (hl : (h.find R).isSome = true) :
    ∃ h', trieRemoveValues h (some R) = some h' ∧ RemovePost R h h' := by
  unfold trieRemoveValues
  obtain ⟨nd, hnd⟩ := Option.isSome_iff_exists.1 hl
  have hmem : R ∈ (h.nodes.map Prod.fst).toFinset := by
    rw [List.mem_toFinset, List.mem_map]
    exact ⟨(R, nd), find_mem_nodes h R nd hnd, rfl⟩
  apply loop_spec R h _ h R 0 ((h.nodes.map Prod.fst).toFinset.erase R)
    (LoopInv.start hs l nm hR hl)
  · intro q hq hu
    obtain ⟨x, hx⟩ := Option.isSome_iff_exists.1 hq
    refine Finset.mem_erase.2 ⟨?_, ?_⟩
    · intro e
      rw [e] at hu
      rcases hu with ⟨c, _, hc⟩ | ⟨a, n, c, h1, h2, _, _⟩
      · exact not_cons_suffix _ _ hc
      · exact not_cons_suffix _ _ (h2.trans h1)
    · rw [List.mem_toFinset, List.mem_map]
      exact ⟨(q, x), find_mem_nodes h q x hx, rfl⟩
  · rw [depthCost_self, Finset.card_erase_of_mem hmem]
    have h1 : 0 < (h.nodes.map Prod.fst).toFinset.card := Finset.card_pos.2 ⟨_, hmem⟩
    have h2 : (h.nodes.map Prod.fst).toFinset.card ≤ h.nodes.length := by
      have := List.toFinset_card_le (h.nodes.map Prod.fst)
      simpa using this
    omega

/-- `trieRemove` on a valid key: it succeeds, keeps the invariants, and forgets
exactly the forwardings whose key starts with `key`. -/
theorem trieRemove_spec {h : Heap} (hs : Shape h) (l : Linked h) (nm : NoMarker h)
    {key : Str} (hk : Valid key) :
    ∃ h', trieRemove h [] key = some h' ∧ Shape h' ∧ Linked h' ∧ NoMarker h' ∧
      ∀ x y, Fwd h' x y ↔ Fwd h x y ∧ ¬ key <+: x := by
  have hroot : (h.find []).isSome = true := by
    obtain ⟨r, hr, _⟩ := hs.root
    rw [hr]; rfl
  have hw := trieRemoveWalk_spec hs key [] hroot hk.good
  simp only [List.append_nil] at hw
  have hiff : ∀ x y, Fwd h x y → (pathOf key <:+ pathOf x ↔ key <+: x) := by
    intro x y hxy
    exact ⟨of_pathOf_suffix hk.good hxy.1.good, pathOf_suffix_of⟩
  unfold trieRemove
  rw [hw]
  by_cases hl : (h.find (pathOf key)).isSome = true
  · simp only [hl, if_true]
    obtain ⟨h', e, p⟩ := trieRemoveValues_spec hs l nm hk.pathOf_ne_nil hl
    refine ⟨h', e, p.shape, p.linked, p.nomarker, fun x y => ?_⟩
    rw [p.fwd x y]
    constructor
    · rintro ⟨a, b⟩
      exact ⟨a, fun e => b ((hiff x y a).2 e)⟩
    · rintro ⟨a, b⟩
      exact ⟨a, fun e => b ((hiff x y a).1 e)⟩
  · simp only [hl, Bool.false_eq_true, if_false]
    refine ⟨h, rfl, hs, l, nm, fun x y => ⟨fun hxy => ⟨hxy, fun e => ?_⟩, fun a => a.1⟩⟩
    exact hl (hs.live_suffix _ _ hxy.live_fwd (pathOf_suffix_of e))

/-! ## `trieInsert` -/

theorem linkKey_pay (kn : Trie) (v : Str) (tv : TriePtr) (c : Nat) :
    (linkKey kn v tv c).pay = linkKey kn.pay v tv c := rfl

theorem linkKey_unlinkKey (kn : Trie) (v : Str) (tv : TriePtr) (c : Nat) :
    linkKey (unlinkKey kn) v tv c = linkKey kn v tv c := rfl

/-- The second part of `trieInsert` when the node of the key held no value. -/
theorem trieInsertLink_fresh {h3 : Heap} (hs : Shape h3) {f2 : TriePtr → Option Trie}
    {k v : Str} {kn vn : Trie} {c0 : Nat} (hk : Valid k)
    (hne : pathOf k ≠ pathOf v)
    (hview : view h3 = setF f2 (pathOf v) (some (linkVal vn c0 k)))
    (hkn : f2 (pathOf k) = some kn) (hval : kn.value = none)
    (hkir : kn.keysInRev = none) (hrev : kn.revNode = none) :
    ∃ h9, trieInsertLink h3 (pathOf k) (pathOf v) ⟨pathOf v, c0⟩ v = some h9 ∧ Shape h9 ∧
      h9.cells = h3.cells ∧ view h9 = linkF f2 k v kn vn c0 := by
  have hv3 : view h3 (pathOf k) = some kn := by
    rw [hview, setF_other _ _ hne]; exact hkn
  obtain ⟨kn3, hkn3, hpay3⟩ := find_of_view hv3
  have hkir3 : kn3.keysInRev = none := by rw [← hpay3] at hkir; exact hkir
  have hrev3 : kn3.revNode = none := by rw [← hpay3] at hrev; exact hrev
  refine ⟨((h3.write (pathOf k) { kn3 with value := some v }).write (pathOf k)
      { kn3 with value := some v, keysInRev := some ⟨pathOf v, c0⟩ }).write (pathOf k)
      { kn3 with value := some v, keysInRev := some ⟨pathOf v, c0⟩,
                 revNode := some (pathOf v) }, ?_, ?_, ?_, ?_⟩
  · unfold trieInsertLink
    simp only [bind, Option.bind, hkn3, hkir3, listRemoveFirstAt, find_write, if_true, hrev3,
      dropEmptyKeys, Bool.false_eq_true, if_false, pure]
  · refine @Shape.write _ ?_ _
      { kn3 with value := some v, keysInRev := some ⟨pathOf v, c0⟩ } _
      (by rw [find_write]; simp) rfl (fun e => absurd e hk.pathOf_ne_nil)
    refine @Shape.write _ ?_ _ { kn3 with value := some v } _ (by rw [find_write]; simp) rfl
      (fun e => absurd e hk.pathOf_ne_nil)
    exact hs.write hkn3 rfl (fun e => absurd e hk.pathOf_ne_nil)
  · rfl
  · rw [view_write_eq, view_write_eq, view_write_eq, setF_setF, setF_setF, hview]
    unfold linkF
    congr 2
    rw [← hpay3]
    rfl

theorem filter_cons_fresh (ring : CList) (c0 cold : Nat) (k : Str) (h : c0 ≠ cold) :
    listRemoveFirst ((c0, k) :: ring) (some cold) = (c0, k) :: listRemoveFirst ring (some cold) := by
  simp [listRemoveFirst_cell, List.filter_cons, h]

theorem ringWithout_getD (keys : Option CList) (c : Nat) :
    (ringWithout keys c).getD [] = listRemoveFirst (keys.getD []) (some c) := by
  unfold ringWithout
  split_ifs with e
  · rw [List.isEmpty_iff] at e
    rw [e]; rfl
  · rfl

/-- The second part of `trieInsert` when the node of the key held a value: the
old registration goes, the new one comes. -/
theorem trieInsertLink_replace {h3 : Heap} (hs : Shape h3) {f2 : TriePtr → Option Trie}
    {k v old : Str} {kn vn rn : Trie} {c0 cold : Nat} {ring : CList} (hk : Valid k)
    (hne : pathOf k ≠ pathOf v) (hro : pathOf old ≠ pathOf k) (hold : Valid old)
    (hview : view h3 = setF f2 (pathOf v) (some (linkVal vn c0 k)))
    (hkn : f2 (pathOf k) = some kn) (hvn : f2 (pathOf v) = some vn)
    (hrn : f2 (pathOf old) = some rn)
    (hval : kn.value = some old)
    (hkir : kn.keysInRev = some ⟨pathOf old, cold⟩) (hrev : kn.revNode = some (pathOf old))
    (hring : rn.keys = some ring) (hmem : (cold, k) ∈ ring) (hfresh : c0 ≠ cold) :
    ∃ h9, trieInsertLink h3 (pathOf k) (pathOf v) ⟨pathOf v, c0⟩ v = some h9 ∧ Shape h9 ∧
      h9.cells = h3.cells ∧
      PrunedF (linkF (unlinkF f2 (pathOf k) (pathOf old) kn rn cold) k v (unlinkKey kn)
        (if pathOf old = pathOf v then unlinkVal vn cold else vn) c0) (view h9) := by
  have hv3 : view h3 (pathOf k) = some kn := by
    rw [hview, setF_other _ _ hne]; exact hkn
  obtain ⟨kn3, hkn3, hpay3⟩ := find_of_view hv3
  have hkir3 : kn3.keysInRev = some ⟨pathOf old, cold⟩ := by rw [← hpay3] at hkir; exact hkir
  have hrev3 : kn3.revNode = some (pathOf old) := by rw [← hpay3] at hrev; exact hrev
  have hknr : pathOf k ≠ [] := hk.pathOf_ne_nil
  have hror : pathOf old ≠ [] := hold.pathOf_ne_nil
  -- the registry that holds the old cell, as it stands in `h3`
  have hv3ro : ∃ rn3 ring3, h3.find (pathOf old) = some rn3 ∧ rn3.keys = some ring3 ∧
      (cold, k) ∈ ring3 ∧
      normKeys (Trie.pay { rn3 with keys := some (listRemoveFirst ring3 (some cold)) }) =
        (if pathOf old = pathOf v then linkVal (unlinkVal vn cold) c0 k else unlinkVal rn cold) := by
    by_cases e : pathOf old = pathOf v
    · have hvn' : rn = vn := by
        rw [e, hvn] at hrn; exact (Option.some.inj hrn).symm
      subst hvn'
      have : view h3 (pathOf old) = some (linkVal rn c0 k) := by
        rw [hview, e, setF_same]
      obtain ⟨rn3, g1, g2⟩ := find_of_view this
      have g3 : rn3.keys = some ((c0, k) :: ring) := by
        have : rn3.keys = (linkVal rn c0 k).keys := by rw [← g2]; rfl
        rw [this, linkVal, hring]; rfl
      refine ⟨rn3, _, g1, g3, List.mem_cons_of_mem _ hmem, ?_⟩
      rw [if_pos e, filter_cons_fresh _ _ _ _ hfresh]
      have hp : Trie.pay { rn3 with keys := some ((c0, k) :: listRemoveFirst ring (some cold)) }
          = { rn with keys := some ((c0, k) :: listRemoveFirst ring (some cold)) } := by
        have : rn3.pay = linkVal rn c0 k := g2
        cases rn3; cases rn
        simp only [Trie.pay, linkVal, Trie.mk.injEq] at this ⊢
        simp [this]
      rw [hp]
      simp only [normKeys, listEmpty, List.isEmpty_cons, Bool.false_eq_true, if_false, linkVal,
        unlinkVal, ringWithout_getD, hring, Option.getD_some]
    · have : view h3 (pathOf old) = some rn := by
        rw [hview, setF_other _ _ e]; exact hrn
      obtain ⟨rn3, g1, g2⟩ := find_of_view this
      have g3 : rn3.keys = some ring := by
        have : rn3.keys = rn.keys := by rw [← g2]; rfl
        rw [this, hring]
      refine ⟨rn3, ring, g1, g3, hmem, ?_⟩
      rw [if_neg e, normKeys_removed rn3 ring cold g3, g2]
  obtain ⟨rn3, ring3, hrn3, hring3, hmem3, hnorm⟩ := hv3ro
  obtain ⟨val3, keys3, kir3, rev3, cnt3⟩ := kn3
  simp only at hkir3 hrev3
  subst hkir3
  subst hrev3
  -- the value is written, the old cell unlinked
  have e4 : (h3.write (pathOf k) ⟨some v, keys3, some ⟨pathOf old, cold⟩, some (pathOf old),
      cnt3⟩).find (pathOf old) = some rn3 := by
    rw [find_write, if_neg hro]; exact hrn3
  have e5 := listRemoveFirstAt_spec e4 hring3 hmem3
  -- `keysInRev` is written, the old registry released when empty
  have e6 : (((h3.write (pathOf k) ⟨some v, keys3, some ⟨pathOf old, cold⟩, some (pathOf old),
      cnt3⟩).write (pathOf old)
      { rn3 with keys := some (listRemoveFirst ring3 (some cold)) }).write (pathOf k)
      ⟨some v, keys3, some ⟨pathOf v, c0⟩, some (pathOf old), cnt3⟩).find (pathOf old)
      = some { rn3 with keys := some (listRemoveFirst ring3 (some cold)) } := by
    rw [find_write, if_neg hro, find_write, if_pos rfl]
  obtain ⟨h7, e7, c7, v7, s7⟩ := dropEmptyKeys_spec e6
  have hs6 : Shape (((h3.write (pathOf k) ⟨some v, keys3, some ⟨pathOf old, cold⟩,
      some (pathOf old), cnt3⟩).write (pathOf old)
      { rn3 with keys := some (listRemoveFirst ring3 (some cold)) }).write (pathOf k)
      ⟨some v, keys3, some ⟨pathOf v, c0⟩, some (pathOf old), cnt3⟩) := by
    refine @Shape.write _ ?_ _
      ⟨some v, keys3, some ⟨pathOf old, cold⟩, some (pathOf old), cnt3⟩ _
      (by rw [find_write, if_neg (Ne.symm hro), find_write, if_pos rfl]) rfl
      (fun e => absurd e hknr)
    refine @Shape.write _ ?_ _ rn3 _ e4 rfl (fun e => absurd e hror)
    exact hs.write hkn3 rfl (fun e => absurd e hknr)
  have hs7 := s7 hs6
  have hk7 : view h7 (pathOf k) =
      some (Trie.pay ⟨some v, keys3, some ⟨pathOf v, c0⟩, some (pathOf old), cnt3⟩) := by
    rw [v7, setF_other _ _ (Ne.symm hro), view_write, if_pos rfl]
  -- pruning from the old reverse node, if its registry was released
  have e8 : ∃ h8, (if listEmpty (some (listRemoveFirst ring3 (some cold))) = true then
      trieDeleteUnusedBranch h7 (some (pathOf old)) else some h7) = some h8 ∧ Shape h8 ∧
      h8.cells = h7.cells ∧ PrunedF (view h7) (view h8) := by
    split_ifs
    · obtain ⟨h8, g1, g2, g3⟩ := prune_spec (pathOf old) h7 hs7
        (by rw [← view_isSome, v7, setF_same]; rfl)
      exact ⟨h8, g1, g2, g3.1, g3.prunedF⟩
    · exact ⟨h7, rfl, hs7, rfl, PrunedF.refl_prunedF _⟩
  obtain ⟨h8, e8, s8, c8, p8⟩ := e8
  have hk8 := p8.keep_prunedF hk7 (Or.inl (by simp [Trie.pay]))
  obtain ⟨kn8, hkn8, hpay8⟩ := find_of_view hk8
  refine ⟨h8.write (pathOf k) { kn8 with revNode := some (pathOf v) }, ?_, ?_, ?_, ?_⟩
  · unfold trieInsertLink
    simp only [bind, Option.bind, hkn3, e5, find_write, if_true, if_neg (Ne.symm hro),
      e7, pure]
    split_ifs at e8 ⊢ with he
    · simp only [e8, hkn8]
    · simp only [Option.some.injEq] at e8
      subst e8
      simp only [hkn8]
  · exact s8.write hkn8 rfl (fun e => absurd e hknr)
  · show h8.cells = h3.cells
    rw [c8, c7]; rfl
  · have hfinal : Trie.pay { kn8 with revNode := some (pathOf v) }
        = linkKey (unlinkKey kn) v (pathOf v) c0 := by
      rw [linkKey_unlinkKey, ← hpay3]
      cases kn8
      simp only [Trie.pay, Trie.mk.injEq] at hpay8
      simp [Trie.pay, linkKey, hpay8]
    have hp := p8.setF (pathOf k) (some (linkKey (unlinkKey kn) v (pathOf v) c0))
    rw [view_write_eq, hfinal]
    have hG : setF (view h7) (pathOf k) (some (linkKey (unlinkKey kn) v (pathOf v) c0))
        = linkF (unlinkF f2 (pathOf k) (pathOf old) kn rn cold) k v (unlinkKey kn)
          (if pathOf old = pathOf v then unlinkVal vn cold else vn) c0 := by
      rw [v7, hnorm, view_write_eq, view_write_eq, view_write_eq, hview]
      funext q
      simp only [linkF, unlinkF, setF]
      by_cases q1 : q = pathOf k
      · simp [q1]
      · by_cases q2 : q = pathOf old
        · by_cases q3 : pathOf old = pathOf v
          · simp [q1, q2, q3]
          · simp [q1, q2, q3, hro]
        · by_cases q3 : q = pathOf v
          · have q4 : ¬ pathOf old = pathOf v := fun e => q2 (q3.trans e.symm)
            have q5 : ¬ pathOf v = pathOf old := fun e => q4 e.symm
            simp [q1, q2, q3, q4, q5, Ne.symm hne]
          · simp [q1, q2, q3]
    rw [← hG]
    exact hp

theorem Shape.root_live {h : Heap} (hs : Shape h) : (h.find []).isSome = true := by
  obtain ⟨r, hr, _⟩ := hs.root
  rw [hr]; rfl

theorem Shape.newCell {h : Heap} (hs : Shape h) : Shape h.newCell :=
  ⟨hs.root, hs.closed, hs.count⟩

theorem linkVal_of_add (vn : Trie) (c : Nat) (k : Str) :
    Trie.pay { vn with keys := some (listAdd (vn.keys.getD listNew) c k) } = linkVal vn.pay c k := by
  cases vn with
  | mk a b c d e =>
    cases b <;> rfl

/-- `trieInsert` of a valid key and a valid value that differ: it succeeds, keeps
the invariants, and afterwards the key forwards to the value while every
other forwarding is as before. -/
theorem trieInsert_spec {h : Heap} (hs : Shape h) (l : Linked h) (nm : NoMarker h)
    {k v : Str} (hk : Valid k) (hv : Valid v) (hkv : k ≠ v) :
    ∃ h', trieInsert h [] k v = some (h', true) ∧ Shape h' ∧ Linked h' ∧ NoMarker h' ∧
      ∀ x y, Fwd h' x y ↔ if x = k then y = v else Fwd h x y := by
  obtain ⟨h1, e1, s1, g1, l1⟩ := trieGetNode_spec k h [] hs hs.root_live hk.good
  obtain ⟨h2, e2, s2, g2, l2⟩ := trieGetNode_spec v h1 [] s1 s1.root_live hv.good
  simp only [List.append_nil] at e1 e2 l1 l2
  have g := g1.trans_grown g2
  have lk2 : Linked h2 := l.grown hs g
  have nm2 : NoMarker h2 := NoMarkerF.similar_noMarkerF g.similar_grown nm
  have fw2 : ∀ x y, Fwd h2 x y ↔ Fwd h x y := fun x y => FwdF.similar_fwdF g.similar_grown x y
  have hne : pathOf k ≠ pathOf v := fun e => hkv (pathOf_inj hk hv e)
  obtain ⟨vn2, hvn2⟩ := Option.isSome_iff_exists.1 l2
  obtain ⟨kn2, hkn2⟩ := Option.isSome_iff_exists.1 (g2.live_grown l1)
  have hvn := view_eq_some hvn2
  have hkn := view_eq_some hkn2
  -- the heap with the new registry cell
  have hs3 : Shape (h2.write (pathOf v) { vn2 with keys := some (listAdd (vn2.keys.getD listNew) h2.cells k) }).newCell :=
    Shape.newCell (s2.write hvn2 rfl (fun e => absurd e hv.pathOf_ne_nil))
  have hv3 : view (h2.write (pathOf v) { vn2 with keys := some (listAdd (vn2.keys.getD listNew) h2.cells k) }).newCell
      = setF (view h2) (pathOf v) (some (linkVal vn2.pay h2.cells k)) := by
    rw [← linkVal_of_add, ← view_write_eq]
    rfl
  have finish : ∀ h9 G, trieInsertLink (h2.write (pathOf v) { vn2 with keys := some (listAdd
        (vn2.keys.getD listNew) h2.cells k) }).newCell
        (pathOf k) (pathOf v) ⟨pathOf v, h2.cells⟩ v = some h9 →
      Shape h9 → h9.cells = h2.cells + 1 → PrunedF G (view h9) → LinkedF G (h2.cells + 1) →
      NoMarkerF G → G [] ≠ none →
      (∀ x y, FwdF G x y ↔ if x = k then y = v else Fwd h2 x y) →
      ∃ h', trieInsert h [] k v = some (h', true) ∧ Shape h' ∧ Linked h' ∧ NoMarker h' ∧
        ∀ x y, Fwd h' x y ↔ if x = k then y = v else Fwd h x y := by
    intro h9 G e9 s9 c9 p9 lg ng rg fg
    refine ⟨h9, ?_, s9, ?_, NoMarkerF.similar_noMarkerF p9.similar_prunedF ng, ?_⟩
    · unfold trieInsert
      simp only [bind, Option.bind, e1, e2, hvn2, strCopy, pure]
      rw [e9]
    · unfold Linked
      rw [c9]
      exact lg.similar_linkedF p9.similar_prunedF rg
    · intro x y
      have := FwdF.similar_fwdF p9.similar_prunedF x y
      unfold Fwd
      rw [this, fg x y]
      split_ifs
      · rfl
      · exact fw2 x y
  cases hval : kn2.value with
  | none =>
    obtain ⟨hk1, hk2⟩ := lk2.noval _ kn2.pay hkn (Or.inl hval)
    obtain ⟨h9, e9, s9, c9, v9⟩ := trieInsertLink_fresh hs3 hk hne hv3 hkn hval hk1 hk2
    apply finish h9 (linkF (view h2) k v kn2.pay vn2.pay h2.cells) e9 s9 c9
    · rw [v9]; exact PrunedF.refl_prunedF _
    · exact LinkedF.link_linkedF lk2 hk hv hkv hkn hvn hval
    · exact NoMarkerF.link_noMarkerF nm2 hv hvn
    · rw [linkF_other _ _ _ _ _ _ (Ne.symm hk.pathOf_ne_nil) (Ne.symm hv.pathOf_ne_nil)]
      exact s2.view_root
    · intro x y
      exact FwdF.link_fwdF lk2 hk hv hkv hkn hvn x y
  | some old =>
    have hold : old ≠ ROOT_VALUE := fun e => nm2 _ kn2.pay hk.pathOf_ne_nil hkn (by
      show kn2.value = _
      rw [hval, e])
    obtain ⟨cold, k', rn, ring, hvo, hro, hrev, hkir, hk', hkp, hrn, hring, hmem, _⟩ :=
      lk2.val_data hkn hval hold
    have hkk : k' = k := pathOf_inj hk' hk hkp
    subst hkk
    have hfresh : h2.cells ≠ cold := by
      have := (lk2.ring _ rn ring cold k' hrn hring hmem).2.1
      omega
    obtain ⟨h9, e9, s9, c9, p9⟩ := trieInsertLink_replace hs3 hk hne hro hvo hv3 hkn hvn hrn
      hval hkir hrev hring hmem hfresh
    have hU := LinkedF.unlink_linkedF lk2 hkn hval hold hrn hkir
    have hUk : unlinkF (view h2) (pathOf k') (pathOf old) kn2.pay rn cold (pathOf k')
        = some (unlinkKey kn2.pay) := unlinkF_key _ _ _ _ _ _
    have hUv : unlinkF (view h2) (pathOf k') (pathOf old) kn2.pay rn cold (pathOf v)
        = some (if pathOf old = pathOf v then unlinkVal vn2.pay cold else vn2.pay) := by
      by_cases e : pathOf old = pathOf v
      · rw [if_pos e, ← e, unlinkF_val _ _ _ _ hro]
        rw [e, hvn] at hrn
        rw [Option.some.inj hrn]
      · rw [if_neg e, unlinkF_other _ _ _ _ _ _ (Ne.symm hne) (Ne.symm e)]
        exact hvn
    apply finish h9 _ e9 s9 c9 p9
    · exact LinkedF.link_linkedF hU hk hv hkv hUk hUv rfl
    · exact NoMarkerF.link_noMarkerF (NoMarkerF.unlink_noMarkerF nm2 hrn) hv hUv
    · rw [linkF_other _ _ _ _ _ _ (Ne.symm hk.pathOf_ne_nil) (Ne.symm hv.pathOf_ne_nil),
        unlinkF_other _ _ _ _ _ _ (Ne.symm hk.pathOf_ne_nil) (Ne.symm hvo.pathOf_ne_nil)]
      exact s2.view_root
    · intro x y
      rw [FwdF.link_fwdF hU hk hv hkv hUk hUv x y]
      split_ifs with e
      · rfl
      · rw [FwdF.unlink_fwdF hro hrn x y]
        constructor
        · exact fun a => a.1
        · intro a
          exact ⟨a, fun e2 => e (pathOf_inj a.1 hk e2)⟩

/-! ## Registries and forwardings -/

theorem Fwd.val_eq {h : Heap} {k v v' : Str} (a : Fwd h k v) (b : Fwd h k v') : v = v' := by
  obtain ⟨_, nd, h1, h2, _⟩ := a
  obtain ⟨_, nd', h1', h2', _⟩ := b
  rw [h1] at h1'
  simp only [Option.some.injEq] at h1'
  subst h1'
  rw [h2] at h2'
  exact Option.some.inj h2'

theorem view_value {h : Heap} {q : TriePtr} {nd : Trie} (hf : h.find q = some nd) :
    ∃ x, view h q = some x ∧ x.value = nd.value ∧ x.keys = nd.keys :=
  ⟨nd.pay, view_eq_some hf, rfl, rfl⟩

theorem reg_of_fwd {h : Heap} (l : Linked h) {k v : Str} (hf : Fwd h k v) :
    Valid v ∧ ∃ nd ring c, h.find (pathOf v) = some nd ∧ nd.keys = some ring ∧
      (c, k) ∈ ring := by
  obtain ⟨hk, nd, h1, h2, h3⟩ := hf
  obtain ⟨c0, k', rn, ring, hvv, _, _, _, hk', hkp, hrn, hring, hmem, _⟩ := l.val_data h1 h2 h3
  have := pathOf_inj hk' hk hkp
  subst this
  obtain ⟨rn', g1, g2⟩ := find_of_view hrn
  refine ⟨hvv, rn', ring, c0, g1, ?_, hmem⟩
  rw [← hring, ← g2]; rfl

theorem fwd_of_reg {h : Heap} (l : Linked h) {q : TriePtr} {nd : Trie} {ring : CList}
    {c : Nat} {k : Str} (hq : h.find q = some nd) (hr : nd.keys = some ring)
    (hm : (c, k) ∈ ring) : ∃ v, Fwd h k v ∧ pathOf v = q ∧ Valid v ∧ Valid k := by
  obtain ⟨a1, _, kn, v, b1, b2, b3, b4, _⟩ := l.ring q nd.pay ring c k (view_eq_some hq) hr hm
  exact ⟨v, ⟨a1, kn, b1, b2, b3⟩, b4, (l.val _ kn v b1 b2 b3).1, a1⟩

/-! ## `trieGet` -/

theorem take_succ_of_append (pre : Str) (c : Char) (rest : Str) :
    (pre ++ c :: rest).take (pre.length + 1) = pre ++ [c] := by
  rw [List.take_append_eq_append_take]
  simp

theorem Valid.of_append_cons {pre rest : Str} {c : Char} (h : Valid (pre ++ c :: rest)) :
    Valid (pre ++ [c]) := by
  rw [valid_iff] at h ⊢
  refine ⟨by simp, fun d hd => h.2 d ?_⟩
  simp only [List.mem_append, List.mem_singleton, List.mem_cons] at hd ⊢
  rcases hd with hd | hd
  · exact Or.inl hd
  · rcases hd with hd | hd
    · exact Or.inr (Or.inl hd)
    · simp at hd

/-- A forwarded beginning of `num` longer than `pre` needs the node after `pre`. -/
theorem live_child_of_fwd {h : Heap} (hs : Shape h) {pre t : Str} {c : Char} {d : Nat}
    (hd : pre.length < d) {q : TriePtr}
    (hq : (h.find q).isSome = true) (hqd : q = pathOf ((pre ++ c :: t).take d)) :
    (h.find (strToInt c :: pathOf pre)).isSome = true := by
  have hp : pre ++ [c] <+: (pre ++ c :: t).take d := by
    rw [← take_succ_of_append pre c t]
    exact (List.take_prefix_take_left _ (by omega))
  have := pathOf_suffix_of hp
  rw [pathOf_snoc] at this
  exact hs.live_suffix _ _ (hqd ▸ hq) this

theorem trieGetLoop_spec {h : Heap} (hs : Shape h) (nm : NoMarker h) (num : Str)
    (hnum : Valid num) : ∀ (rest pre : Str) (result : Option Str) (n : Nat),
    pre ++ rest = num → GetInv h num result n pre.length →
    ∃ r m, trieGetLoop h rest (pathOf pre) pre.length result n = some (r, m) ∧
      GetInv h num r m num.length := by
  intro rest
  induction rest with
  | nil =>
    intro pre result n hpre hinv
    simp only [List.append_nil] at hpre
    subst hpre
    exact ⟨result, n, rfl, hinv⟩
  | cons c rest ih =>
    intro pre result n hpre hinv
    have hc : badChar c = false := hnum.good c (by rw [← hpre]; simp)
    have hlt := strToInt_lt c hc
    have hpre' : (pre ++ [c]) ++ rest = num := by rw [← hpre]; simp
    have hvalid : Valid (pre ++ [c]) := by
      have := hnum
      rw [← hpre] at this
      exact this.of_append_cons
    have htake : num.take (pre.length + 1) = pre ++ [c] := by
      rw [← hpre]; exact take_succ_of_append pre c rest
    have hlen : (pre ++ [c]).length = pre.length + 1 := by simp
    -- no forwarded beginning is longer when the child is missing
    have extend : ∀ (res : Option Str) (m : Nat), GetInv h num res m pre.length →
        (∀ v', ¬ Fwd h (pre ++ [c]) v') → GetInv h num res m (pre.length + 1) := by
      intro res m hi hno
      cases res with
      | none =>
        intro d v' h1 h2
        rcases Nat.eq_or_lt_of_le h2 with e | e
        · rw [e, htake]; exact hno v'
        · exact hi d v' h1 (by omega)
      | some v =>
        obtain ⟨a1, a2, a3, a4⟩ := hi
        refine ⟨a1, by omega, a3, ?_⟩
        intro d v' h1 h2
        rcases Nat.eq_or_lt_of_le h2 with e | e
        · rw [e, htake]; exact hno v'
        · exact a4 d v' h1 (by omega)
    cases hch : h.find (strToInt c :: pathOf pre) with
    | none =>
      refine ⟨result, n, ?_, ?_⟩
      · simp [trieGetLoop, next, hlt, hch]
      · have hno : ∀ d v', pre.length < d → ¬ Fwd h (num.take d) v' := by
          intro d v' hd hf
          have := live_child_of_fwd hs (c := c) (t := rest) hd hf.live_fwd (by rw [hpre])
          rw [hch] at this
          cases this
        cases result with
        | none =>
          intro d v' h1 _
          by_cases hd : d ≤ pre.length
          · exact hinv d v' h1 hd
          · exact hno d v' (by omega)
        | some v =>
          obtain ⟨a1, a2, a3, a4⟩ := hinv
          have hle : pre.length ≤ num.length := by rw [← hpre]; simp
          refine ⟨a1, by omega, a3, ?_⟩
          intro d v' h1 _
          by_cases hd : d ≤ pre.length
          · exact a4 d v' h1 hd
          · exact hno d v' (by omega)
    | some nd =>
      have hchild : pathOf (pre ++ [c]) = strToInt c :: pathOf pre := pathOf_snoc pre c
      cases hv : nd.value with
      | none =>
        have hno : ∀ v', ¬ Fwd h (pre ++ [c]) v' := by
          rintro v' ⟨_, x, h1, h2, _⟩
          rw [hchild, view_eq_some hch] at h1
          simp only [Option.some.injEq] at h1
          rw [← h1] at h2
          simp only [Trie.pay] at h2
          rw [hv] at h2; cases h2
        obtain ⟨r, m, e, hi⟩ := ih (pre ++ [c]) result n hpre'
          (by rw [hlen]; exact extend result n hinv hno)
        refine ⟨r, m, ?_, hi⟩
        rw [hchild, hlen] at e
        simp only [trieGetLoop, next, hlt, if_true, hch, Option.isSome_some, hv]
        exact e
      | some v =>
        have hvr : v ≠ ROOT_VALUE := fun e =>
          nm _ nd.pay (by simp) (view_eq_some hch) (by
            show nd.value = _
            rw [hv, e])
        have hf : Fwd h (pre ++ [c]) v :=
          ⟨hvalid, nd.pay, by rw [hchild]; exact view_eq_some hch, hv, hvr⟩
        obtain ⟨r, m, e, hi⟩ := ih (pre ++ [c]) (some v) (pre.length + 1) hpre'
          (by
            rw [hlen]
            refine ⟨Nat.succ_pos _, Nat.le_refl _, by rw [htake]; exact hf, ?_⟩
            intro d v' h1 h2
            omega)
        refine ⟨r, m, ?_, hi⟩
        rw [hchild, hlen] at e
        simp only [trieGetLoop, next, hlt, if_true, hch, Option.isSome_some, hv]
        exact e

/-- `trieGet` on a valid number: no fault, and the result is the value and the
length of the longest forwarded beginning of the number. -/
theorem trieGet_spec {h : Heap} (hs : Shape h) (nm : NoMarker h) {num : Str}
    (hnum : Valid num) :
    ∃ r m, trieGet h [] num = some (r, m) ∧ GetInv h num r m num.length := by
  have := trieGetLoop_spec hs nm num hnum num [] none 0 rfl (by
    intro d v' h1 h2
    simp at h2
    omega)
  simpa [trieGet] using this

/-! ## `trieReverse` -/

@[simp]
theorem vectorAdd_elements (v : Vector) (x : Str) :
    (vectorAdd v x).elements = v.elements ++ [x] := rfl

theorem trieReverseCells_elements (val : Str) : ∀ (ring : CList) (acc : Vector),
    (trieReverseCells val ring acc).elements = acc.elements ++ ring.map (fun c => c.2 ++ val)
  | [], acc => by simp [trieReverseCells]
  | c :: ring, acc => by
    rw [trieReverseCells, trieReverseCells_elements val ring]
    simp [strConcat]

theorem drop_succ_of_append (pre : Str) (c : Char) (rest : Str) :
    (pre ++ c :: rest).drop (pre.length + 1) = rest := by
  rw [List.drop_append_eq_append_drop]
  simp

theorem trieReverseLoop_spec {h : Heap} (hs : Shape h) (l : Linked h) (num : Str)
    (hnum : Valid num) : ∀ (rest pre : Str) (acc : Vector), pre ++ rest = num →
    ∃ result, trieReverseLoop h rest (pathOf pre) acc = some result ∧
      ∀ x, x ∈ result.elements ↔ (x ∈ acc.elements ∨
        ∃ d k, pre.length < d ∧ d ≤ num.length ∧ Fwd h k (num.take d) ∧ x = k ++ num.drop d) := by
  intro rest
  induction rest with
  | nil =>
    intro pre acc hpre
    simp only [List.append_nil] at hpre
    subst hpre
    refine ⟨acc, rfl, fun x => ⟨Or.inl, ?_⟩⟩
    rintro (hx | ⟨d, k, h1, h2, _⟩)
    · exact hx
    · omega
  | cons c rest ih =>
    intro pre acc hpre
    have hc : badChar c = false := hnum.good c (by rw [← hpre]; simp)
    have hlt := strToInt_lt c hc
    have hpre' : (pre ++ [c]) ++ rest = num := by rw [← hpre]; simp
    have hvalid : Valid (pre ++ [c]) := by
      have := hnum
      rw [← hpre] at this
      exact this.of_append_cons
    have htake : num.take (pre.length + 1) = pre ++ [c] := by
      rw [← hpre]; exact take_succ_of_append pre c rest
    have hdrop : num.drop (pre.length + 1) = rest := by
      rw [← hpre]; exact drop_succ_of_append pre c rest
    have hlen : (pre ++ [c]).length = pre.length + 1 := by simp
    have hle : pre.length + 1 ≤ num.length := by rw [← hpre]; simp
    have hchild : pathOf (pre ++ [c]) = strToInt c :: pathOf pre := pathOf_snoc pre c
    cases hch : h.find (strToInt c :: pathOf pre) with
    | none =>
      refine ⟨acc, ?_, fun x => ⟨Or.inl, ?_⟩⟩
      · simp [trieReverseLoop, next, hlt, hch]
      · rintro (hx | ⟨d, k, h1, _, h3, _⟩)
        · exact hx
        · obtain ⟨_, nd, ring, c0, g1, _, _⟩ := reg_of_fwd l h3
          have := live_child_of_fwd hs (c := c) (t := rest) h1
            (q := pathOf (num.take d)) (by rw [g1]; rfl) (by rw [hpre])
          rw [hch] at this
          cases this
    | some nd =>
      -- the candidates of this depth are the cells of the registry of the child
      have here : ∀ x, (∃ k, Fwd h k (pre ++ [c]) ∧ x = k ++ rest) ↔
          x ∈ (nd.keys.getD []).map (fun e => e.2 ++ rest) := by
        intro x
        constructor
        · rintro ⟨k, hf, rfl⟩
          obtain ⟨_, nd', ring, c0, g1, g2, g3⟩ := reg_of_fwd l hf
          rw [hchild, hch] at g1
          simp only [Option.some.injEq] at g1
          subst g1
          rw [g2]
          exact List.mem_map.2 ⟨(c0, k), g3, rfl⟩
        · intro hx
          obtain ⟨e, he, rfl⟩ := List.mem_map.1 hx
          cases hk : nd.keys with
          | none => simp [hk] at he
          | some ring =>
            rw [hk] at he
            simp only [Option.getD_some] at he
            obtain ⟨v, hf, hp, hvv, _⟩ := fwd_of_reg l (c := e.1) (k := e.2) hch hk he
            have : v = pre ++ [c] := pathOf_inj hvv hvalid (by rw [hp, hchild])
            exact ⟨e.2, this ▸ hf, rfl⟩
      have split : ∀ x, (∃ d k, pre.length < d ∧ d ≤ num.length ∧ Fwd h k (num.take d) ∧
            x = k ++ num.drop d) ↔
          (x ∈ (nd.keys.getD []).map (fun e => e.2 ++ rest) ∨
            ∃ d k, pre.length + 1 < d ∧ d ≤ num.length ∧ Fwd h k (num.take d) ∧
              x = k ++ num.drop d) := by
        intro x
        rw [← here x]
        constructor
        · rintro ⟨d, k, h1, h2, h3, h4⟩
          by_cases e : d = pre.length + 1
          · left
            subst e
            refine ⟨k, ?_, ?_⟩
            · rw [← htake]; exact h3
            · rw [← hdrop]; exact h4
          · exact Or.inr ⟨d, k, by omega, h2, h3, h4⟩
        · rintro (⟨k, h3, h4⟩ | ⟨d, k, h1, h2, h3, h4⟩)
          · exact ⟨pre.length + 1, k, Nat.lt_succ_self _, hle, by rw [htake]; exact h3,
              by rw [hdrop]; exact h4⟩
          · exact ⟨d, k, by omega, h2, h3, h4⟩
      cases hk : nd.keys with
      | none =>
        obtain ⟨result, e, hr⟩ := ih (pre ++ [c]) acc hpre'
        rw [hchild] at e
        refine ⟨result, ?_, fun x => ?_⟩
        · simp only [trieReverseLoop, next, hlt, if_true, hch, Option.isSome_some, hk, listEmpty]
          exact e
        · rw [hr x, hlen, split x, hk]
          simp
      | some ring =>
        cases ring with
        | nil =>
          obtain ⟨result, e, hr⟩ := ih (pre ++ [c]) acc hpre'
          rw [hchild] at e
          refine ⟨result, ?_, fun x => ?_⟩
          · simp only [trieReverseLoop, next, hlt, if_true, hch, Option.isSome_some, hk,
              listEmpty, List.isEmpty_nil]
            exact e
          · rw [hr x, hlen, split x, hk]
            simp
        | cons e0 ring =>
          obtain ⟨result, e, hr⟩ := ih (pre ++ [c]) (trieReverseCells rest (e0 :: ring) acc) hpre'
          rw [hchild] at e
          refine ⟨result, ?_, fun x => ?_⟩
          · simp only [trieReverseLoop, next, hlt, if_true, hch, Option.isSome_some, hk,
              listEmpty, List.isEmpty_cons, Bool.false_eq_true, if_false]
            exact e
          · rw [hr x, hlen, split x, hk, trieReverseCells_elements]
            simp only [List.mem_append, Option.getD_some]
            tauto

/-- `trieReverse` on a valid number: no fault, and the strings collected are the
keys of the forwardings whose value begins the number, each followed by the
rest of the number. -/
theorem trieReverse_spec {h : Heap} (hs : Shape h) (l : Linked h) {num : Str}
    (hnum : Valid num) :
    ∃ result, trieReverse h [] num = some result ∧
      ∀ x, x ∈ result.elements ↔
        ∃ d k, 0 < d ∧ d ≤ num.length ∧ Fwd h k (num.take d) ∧ x = k ++ num.drop d := by
  obtain ⟨result, e, hr⟩ := trieReverseLoop_spec hs l num hnum num [] vectorNew rfl
  refine ⟨result, by simpa [trieReverse] using e, fun x => ?_⟩
  rw [hr x]
  simp [vectorNew]

/-! ## The comparator -/

theorem Valid.isGood {s : Str} (h : Valid s) : Good s := h.good

theorem cmp_nil_left (b : Str) : phoneNumbersComparator [] b ≤ 0 := by
  cases b <;> simp [phoneNumbersComparator]

theorem cmp_cons_nil (x : Char) (a : Str) : ¬ phoneNumbersComparator (x :: a) [] ≤ 0 := by
  simp [phoneNumbersComparator]

theorem cmp_cons_cons_ne {x y : Char} (a b : Str) (h : x ≠ y) :
    phoneNumbersComparator (x :: a) (y :: b) ≤ 0 ↔ strToInt x < strToInt y := by
  simp only [phoneNumbersComparator, ne_eq, h, not_false_eq_true, if_true]
  split_ifs with e
  · simp [e]
  · simp [e]

theorem cmp_cons_cons_eq (x : Char) (a b : Str) :
    phoneNumbersComparator (x :: a) (x :: b) = phoneNumbersComparator a b := by
  simp [phoneNumbersComparator]

theorem Good.tail {x : Char} {a : Str} (h : Good (x :: a)) : Good a :=
  fun c hc => h c (List.mem_cons_of_mem _ hc)

theorem Good.head {x : Char} {a : Str} (h : Good (x :: a)) : badChar x = false :=
  h x (List.mem_cons_self _ _)

theorem NotAfter.total : ∀ {a b : Str}, Good a → Good b → NotAfter a b ∨ NotAfter b a
  | [], b, _, _ => Or.inl (cmp_nil_left b)
  | _ :: _, [], _, _ => Or.inr (cmp_nil_left _)
  | x :: a, y :: b, ha, hb => by
    unfold NotAfter
    by_cases h : x = y
    · subst h
      rw [cmp_cons_cons_eq, cmp_cons_cons_eq]
      exact NotAfter.total ha.tail hb.tail
    · rw [cmp_cons_cons_ne a b h, cmp_cons_cons_ne b a (Ne.symm h)]
      have : strToInt x ≠ strToInt y := fun e => h (strToInt_inj x y ha.head hb.head e)
      omega

theorem NotAfter.trans_notAfter : ∀ {a b c : Str}, Good a → Good b → Good c →
    NotAfter a b → NotAfter b c → NotAfter a c
  | [], _, c, _, _, _, _, _ => cmp_nil_left c
  | x :: a, [], _, _, _, _, h1, _ => absurd h1 (cmp_cons_nil x a)
  | _ :: _, y :: b, [], _, _, _, _, h2 => absurd h2 (cmp_cons_nil y b)
  | x :: a, y :: b, z :: c, ha, hb, hc, h1, h2 => by
    unfold NotAfter at h1 h2 ⊢
    by_cases e1 : x = y
    · subst e1
      by_cases e2 : x = z
      · subst e2
        rw [cmp_cons_cons_eq] at h1 h2 ⊢
        exact NotAfter.trans_notAfter ha.tail hb.tail hc.tail h1 h2
      · rw [cmp_cons_cons_ne _ _ e2] at h2 ⊢
        exact h2
    · rw [cmp_cons_cons_ne _ _ e1] at h1
      by_cases e2 : y = z
      · subst e2
        rw [cmp_cons_cons_ne _ _ e1]
        exact h1
      · rw [cmp_cons_cons_ne _ _ e2] at h2
        have e3 : x ≠ z := by
          intro e; subst e; omega
        rw [cmp_cons_cons_ne _ _ e3]
        omega

/-! ## Sorting -/

theorem orderedInsert_perm (cmp : Str → Str → Int) (a : Str) :
    ∀ l : List Str, (orderedInsert cmp a l).Perm (a :: l)
  | [] => List.Perm.refl _
  | b :: l => by
    unfold orderedInsert
    split_ifs
    · exact List.Perm.refl _
    · exact ((orderedInsert_perm cmp a l).cons b).trans (List.Perm.swap a b l)

theorem qsort_perm (cmp : Str → Str → Int) : ∀ l : List Str, (qsort cmp l).Perm l
  | [] => List.Perm.refl _
  | a :: l => by
    unfold qsort
    exact (orderedInsert_perm cmp a _).trans ((qsort_perm cmp l).cons a)

theorem orderedInsert_sorted (a : Str) (ha : Good a) : ∀ l : List Str, (∀ x ∈ l, Good x) →
    l.Pairwise NotAfter → (orderedInsert phoneNumbersComparator a l).Pairwise NotAfter
  | [], _, _ => by simp [orderedInsert]
  | b :: l, hl, hp => by
    have hb : Good b := hl b (List.mem_cons_self _ _)
    have hl' : ∀ x ∈ l, Good x := fun x hx => hl x (List.mem_cons_of_mem _ hx)
    obtain ⟨hp1, hp2⟩ := List.pairwise_cons.1 hp
    unfold orderedInsert
    split_ifs with e
    · refine List.pairwise_cons.2 ⟨?_, hp⟩
      intro x hx
      rcases List.mem_cons.1 hx with rfl | hx
      · exact e
      · exact NotAfter.trans_notAfter ha hb (hl' x hx) e (hp1 x hx)
    · refine List.pairwise_cons.2 ⟨?_, orderedInsert_sorted a ha l hl' hp2⟩
      intro x hx
      have := (orderedInsert_perm phoneNumbersComparator a l).subset hx
      rcases List.mem_cons.1 this with rfl | hx
      · rcases NotAfter.total ha hb with t | t
        · exact absurd t e
        · exact t
      · exact hp1 x hx

theorem qsort_sorted : ∀ l : List Str, (∀ x ∈ l, Good x) →
    (qsort phoneNumbersComparator l).Pairwise NotAfter
  | [], _ => by simp [qsort]
  | a :: l, hl => by
    unfold qsort
    apply orderedInsert_sorted a (hl a (List.mem_cons_self _ _))
    · intro x hx
      exact hl x (List.mem_cons_of_mem _ ((qsort_perm _ l).subset hx))
    · exact qsort_sorted l (fun x hx => hl x (List.mem_cons_of_mem _ hx))

/-! ## The vector loops of `phfwdReverse` and `phfwdGetReverse` -/

theorem getD_mid (A : List Str) (x : Str) (B : List Str) :
    (A ++ x :: B).getD A.length [] = x := by
  rw [List.getD_eq_getElem?_getD, List.getElem?_append_right (Nat.le_refl _)]
  simp

theorem set_mid (A : List Str) (x y : Str) (B : List Str) :
    (A ++ x :: B).set A.length y = A ++ y :: B := by
  simp

/-- `vectorSwap` of the first junk slot with the slot under the loop index. -/
theorem vectorSwap_mid (v : Vector) (A B C : List Str) (x y : Str)
    (hv : v.elements = A ++ x :: B ++ y :: C) :
    (vectorSwap v (A.length + (B.length + 1)) A.length).elements = A ++ y :: B ++ x :: C := by
  have hi : A.length + (B.length + 1) < v.elements.length := by
    rw [hv]; simp only [List.length_append, List.length_cons]; omega
  have hj : A.length < v.elements.length := by
    rw [hv]; simp only [List.length_append, List.length_cons]; omega
  have hv2 : v.elements = (A ++ x :: B) ++ y :: C := by rw [hv]
  have hl : (A ++ x :: B).length = A.length + (B.length + 1) := by simp
  have e1 : v.elements.getD A.length [] = x := by
    rw [hv, List.append_assoc]; exact getD_mid A x _
  have e2 : v.elements.getD (A.length + (B.length + 1)) [] = y := by
    rw [hv2, ← hl]; exact getD_mid _ y C
  have s1 : v.elements.set (A.length + (B.length + 1)) x = A ++ x :: (B ++ x :: C) := by
    rw [hv2, ← hl, set_mid]; simp
  unfold vectorSwap
  rw [if_pos ⟨hi, hj, by omega⟩]
  show (v.elements.set (A.length + (B.length + 1)) (v.elements.getD A.length [])).set A.length
    (v.elements.getD (A.length + (B.length + 1)) []) = _
  rw [e1, e2, s1, set_mid]
  simp

theorem vectorSwap_self (v : Vector) (i : Nat) : vectorSwap v i i = v := by
  simp [vectorSwap]

theorem vectorSwap_size (v : Vector) (i j : Nat) : (vectorSwap v i j).size = v.size := by
  unfold vectorSwap
  split_ifs <;> rfl

theorem vectorGet_mid (v : Vector) (A : List Str) (y : Str) (C : List Str)
    (hv : v.elements = A ++ y :: C) : vectorGet (some v) A.length = some y := by
  show (if A.length < v.elements.length then v.elements.get? A.length else none) = some y
  rw [hv, if_pos (by simp), List.get?_eq_getElem?, List.getElem?_append_right (Nat.le_refl _)]
  simp

theorem vectorGet_last (v : Vector) (A : List Str) (p : Str) (C : List Str)
    (hv : v.elements = (A ++ [p]) ++ C) : vectorGet (some v) ((A ++ [p]).length - 1) = some p := by
  have h1 : v.elements = A ++ p :: C := by rw [hv]; simp
  have h2 : (A ++ [p]).length - 1 = A.length := by simp
  rw [h2]
  exact vectorGet_mid v A p C h1

theorem removeLastLoop_spec : ∀ (k : Nat) (v : Vector), k ≤ v.elements.length →
    ∃ v', removeLastLoop k v = some v' ∧ v'.size = v.size ∧
      v'.elements = v.elements.take (v.elements.length - k)
  | 0, v, _ => ⟨v, rfl, rfl, by simp⟩
  | k + 1, v, hk => by
    have hne : v.elements.length ≠ 0 := by omega
    obtain ⟨v', e, s, hv'⟩ := removeLastLoop_spec k { v with elements := v.elements.dropLast }
      (by simp; omega)
    refine ⟨v', ?_, s, ?_⟩
    · simp [removeLastLoop, vectorRemoveLast, hne, e]
    · rw [hv']
      show v.elements.dropLast.take (v.elements.dropLast.length - k) = _
      rw [List.length_dropLast, List.dropLast_eq_take, List.take_take]
      congr 1
      omega

/-- The duplicate-removing loop of `phfwdReverse`. The array is `kept ++ junk ++
rest` with `j = |kept|` and `i = |kept ++ junk|`. Afterwards the first `j` slots
hold `kept` and then, in order, some of the strings of `rest`, among them
every string that occurs in `rest`. -/
theorem dedupLoop_spec : ∀ (rest kept junk : List Str) (v : Vector),
    v.elements = kept ++ junk ++ rest → kept ≠ [] → (∀ x ∈ junk, x ∈ kept) →
    ∃ sub junk',
      (dedupLoop rest.length v (kept ++ junk).length kept.length).1.elements
        = kept ++ sub ++ junk' ∧
      (dedupLoop rest.length v (kept ++ junk).length kept.length).2 = (kept ++ sub).length ∧
      (dedupLoop rest.length v (kept ++ junk).length kept.length).1.size = v.size ∧
      sub.Sublist rest ∧ (∀ x ∈ rest, x ∈ kept ++ sub) ∧
      (kept ++ sub ++ junk').length = v.elements.length
  | [], kept, junk, v, hv, _, _ => by
    refine ⟨[], junk, ?_, by simp [dedupLoop], by simp [dedupLoop], List.Sublist.refl _,
      by simp, by rw [hv]; simp⟩
    simp only [List.length_nil, dedupLoop, List.append_nil]
    rw [hv]; simp
  | y :: rest, kept, junk, v, hv, hk, hj => by
    -- the string before the loop index
    obtain ⟨A, p, hAp⟩ : ∃ A p, kept ++ junk = A ++ [p] := by
      have hne : kept ++ junk ≠ [] := by simp [hk]
      exact ⟨(kept ++ junk).dropLast, (kept ++ junk).getLast hne,
        (List.dropLast_append_getLast hne).symm⟩
    have hprev : vectorGet (some v) ((kept ++ junk).length - 1) = some p := by
      rw [hAp]
      apply vectorGet_last v A p (y :: rest)
      rw [hv, hAp]
    have hcur : vectorGet (some v) (kept ++ junk).length = some y :=
      vectorGet_mid v (kept ++ junk) y rest hv
    have hp : p ∈ kept := by
      have : p ∈ kept ++ junk := by rw [hAp]; simp
      rcases List.mem_append.1 this with h | h
      · exact h
      · exact hj p h
    have hstep : dedupLoop (y :: rest).length v (kept ++ junk).length kept.length =
        if p ≠ y then
          dedupLoop rest.length (vectorSwap v (kept ++ junk).length kept.length)
            ((kept ++ junk).length + 1) (kept.length + 1)
        else dedupLoop rest.length v ((kept ++ junk).length + 1) kept.length := by
      simp only [List.length_cons, dedupLoop, hprev, hcur, ne_eq, Option.some.injEq]
    rw [hstep]
    by_cases hpy : p = y
    · -- a duplicate: it joins the junk
      subst hpy
      rw [if_neg (by simp)]
      obtain ⟨sub, junk', h1, h2, h3, h4, h5, h6⟩ := dedupLoop_spec rest kept (junk ++ [p]) v
        (by rw [hv]; simp) hk (by
          intro x hx
          rcases List.mem_append.1 hx with h | h
          · exact hj x h
          · simp only [List.mem_singleton] at h
            rw [h]; exact hp)
      have hlen : (kept ++ (junk ++ [p])).length = (kept ++ junk).length + 1 := by
        simp only [List.length_append, List.length_cons, List.length_nil]; omega
      rw [hlen] at h1 h2 h3
      refine ⟨sub, junk', h1, h2, h3, h4.cons _, ?_, h6⟩
      intro x hx
      rcases List.mem_cons.1 hx with rfl | hx
      · exact List.mem_append_left _ hp
      · exact h5 x hx
    · -- a new string: it is swapped into the first junk slot
      rw [if_pos hpy]
      have hswap : ∃ junk1, (vectorSwap v (kept ++ junk).length kept.length).elements
          = (kept ++ [y]) ++ junk1 ++ rest ∧ junk1.length = junk.length ∧
            ∀ x ∈ junk1, x ∈ kept ++ [y] := by
        cases junk with
        | nil =>
          refine ⟨[], ?_, rfl, by simp⟩
          simp only [List.append_nil, vectorSwap_self]
          rw [hv]; simp
        | cons x junk1 =>
          refine ⟨junk1 ++ [x], ?_, by simp, ?_⟩
          · have := vectorSwap_mid v kept junk1 rest x y hv
            have hl : (kept ++ x :: junk1).length = kept.length + (junk1.length + 1) := by
              simp only [List.length_append, List.length_cons]
            rw [hl, this]
            simp
          · intro z hz
            apply List.mem_append_left
            apply hj
            simp only [List.mem_append, List.mem_singleton] at hz
            rcases hz with hz | hz
            · exact List.mem_cons_of_mem _ hz
            · rw [hz]; exact List.mem_cons_self _ _
      obtain ⟨junk1, hs1, hs2, hs3⟩ := hswap
      obtain ⟨sub, junk', h1, h2, h3, h4, h5, h6⟩ := dedupLoop_spec rest (kept ++ [y]) junk1
        (vectorSwap v (kept ++ junk).length kept.length) hs1 (by simp) hs3
      have hlen : ((kept ++ [y]) ++ junk1).length = (kept ++ junk).length + 1 := by
        simp only [List.length_append, List.length_cons, List.length_nil, hs2]; omega
      have hlen2 : (kept ++ [y]).length = kept.length + 1 := by simp
      have hlen3 : (vectorSwap v (kept ++ junk).length kept.length).elements.length
          = v.elements.length := by
        rw [hs1, hv]
        simp only [List.length_append, List.length_cons, List.length_nil, hs2]; omega
      rw [hlen, hlen2] at h1 h2 h3
      rw [vectorSwap_size] at h3
      rw [hlen3] at h6
      refine ⟨y :: sub, junk', ?_, ?_, h3, h4.cons₂ _, ?_, ?_⟩
      · rw [h1]; simp
      · rw [h2]; simp
      · intro x hx
        rcases List.mem_cons.1 hx with rfl | hx
        · simp
        · have := h5 x hx
          simpa using this
      · rw [← h6]; simp

theorem phnumGet_oneNumber (x : Str) : phnumGet (some (oneNumber x)) 0 = some x := rfl

theorem oneNumber_elements (x : Str) : (oneNumber x).vector.elements = [x] := rfl

theorem oneNumber_inj {x y : Str} (h : oneNumber x = oneNumber y) : x = y := by
  have := congrArg (fun p => p.vector.elements) h
  simpa [oneNumber_elements] using this

/-- One accepting round of a compaction loop: the string under the loop index
goes to the first junk slot. -/
theorem vectorSwap_step (v : Vector) (kept junk rest : List Str) (y : Str)
    (hv : v.elements = kept ++ junk ++ y :: rest) :
    ∃ junk1, (vectorSwap v (kept ++ junk).length kept.length).elements
        = (kept ++ [y]) ++ junk1 ++ rest ∧ junk1.length = junk.length := by
  cases junk with
  | nil =>
    refine ⟨[], ?_, rfl⟩
    simp only [List.append_nil, vectorSwap_self]
    rw [hv]; simp
  | cons x junk1 =>
    refine ⟨junk1 ++ [x], ?_, by simp⟩
    have := vectorSwap_mid v kept junk1 rest x y hv
    have hl : (kept ++ x :: junk1).length = kept.length + (junk1.length + 1) := by
      simp only [List.length_append, List.length_cons]
    rw [hl, this]
    simp

/-- The filtering loop of `phfwdGetReverse`. The array is `kept ++ junk ++ rest`
with `j = |kept|` and `i = |kept ++ junk|`; `keep` tells of every string of
`rest` whether `phfwdGet` turns it into `num`. Afterwards the first `j` slots
hold `kept` and then, in order, the strings of `rest` that `keep` accepts. -/
theorem filterLoop_spec (pf : Option PhoneForward) (num : Str) (keep : Str → Bool) :
    ∀ (rest kept junk : List Str) (v : Vector),
    v.elements = kept ++ junk ++ rest →
    (∀ y ∈ rest, ∃ x, phfwdGet pf (some y) = some (some (oneNumber x)) ∧
      (keep y = true ↔ x = num)) →
    ∃ junk' v',
      filterLoop pf num rest.length v (kept ++ junk).length kept.length
        = some (some (v', (kept ++ rest.filter keep).length)) ∧
      v'.elements = kept ++ rest.filter keep ++ junk' ∧ v'.size = v.size ∧
      v'.elements.length = v.elements.length
  | [], kept, junk, v, hv, _ => by
    refine ⟨junk, v, by simp [filterLoop], ?_, rfl, rfl⟩
    rw [hv]; simp
  | y :: rest, kept, junk, v, hv, hg => by
    have hcur : vectorGet (some v) (kept ++ junk).length = some y :=
      vectorGet_mid v (kept ++ junk) y rest hv
    obtain ⟨x, hx, hkeep⟩ := hg y (List.mem_cons_self _ _)
    have hg' : ∀ z ∈ rest, ∃ x, phfwdGet pf (some z) = some (some (oneNumber x)) ∧
        (keep z = true ↔ x = num) := fun z hz => hg z (List.mem_cons_of_mem _ hz)
    have hstep : filterLoop pf num (y :: rest).length v (kept ++ junk).length kept.length =
        if x = num then
          filterLoop pf num rest.length (vectorSwap v (kept ++ junk).length kept.length)
            ((kept ++ junk).length + 1) (kept.length + 1)
        else filterLoop pf num rest.length v ((kept ++ junk).length + 1) kept.length := by
      simp only [List.length_cons, filterLoop, hcur, hx, phnumGet_oneNumber, Option.some.injEq]
    rw [hstep]
    by_cases hxn : x = num
    · rw [if_pos hxn]
      have hk : keep y = true := hkeep.2 hxn
      obtain ⟨junk1, hs1, hs2⟩ := vectorSwap_step v kept junk rest y hv
      obtain ⟨junk', v', h1, h2, h3, h4⟩ := filterLoop_spec pf num keep rest (kept ++ [y]) junk1
        (vectorSwap v (kept ++ junk).length kept.length) hs1 hg'
      have hlen : ((kept ++ [y]) ++ junk1).length = (kept ++ junk).length + 1 := by
        simp only [List.length_append, List.length_cons, List.length_nil, hs2]; omega
      have hlen2 : (kept ++ [y]).length = kept.length + 1 := by simp
      have hlen3 : (vectorSwap v (kept ++ junk).length kept.length).elements.length
          = v.elements.length := by
        rw [hs1, hv]
        simp only [List.length_append, List.length_cons, List.length_nil, hs2]; omega
      rw [hlen, hlen2] at h1
      rw [vectorSwap_size] at h3
      rw [hlen3] at h4
      refine ⟨junk', v', ?_, ?_, h3, h4⟩
      · rw [h1]; simp [List.filter_cons, hk]
      · rw [h2]; simp [List.filter_cons, hk]
    · rw [if_neg hxn]
      have hk : keep y = false := by
        cases hky : keep y with
        | false => rfl
        | true => exact absurd (hkeep.1 hky) hxn
      obtain ⟨junk', v', h1, h2, h3, h4⟩ := filterLoop_spec pf num keep rest kept (junk ++ [y]) v
        (by rw [hv]; simp) hg'
      have hlen : (kept ++ (junk ++ [y])).length = (kept ++ junk).length + 1 := by
        simp only [List.length_append, List.length_cons, List.length_nil]; omega
      rw [hlen] at h1
      refine ⟨junk', v', ?_, ?_, h3, h4⟩
      · rw [h1]; simp [List.filter_cons, hk]
      · rw [h2]; simp [List.filter_cons, hk]

theorem prefix_eq_take {k num : Str} (h : k <+: num) : k = num.take k.length := by
  obtain ⟨t, rfl⟩ := h
  simp

theorem Valid.length_pos {k : Str} (h : Valid k) : 0 < k.length :=
  List.length_pos.2 h.ne_nil

theorem Fwd.valid_key {h : Heap} {k v : Str} (a : Fwd h k v) : Valid k := a.1

theorem phfwdGet_spec {pf : PhoneForward} {m : Str → Option Str} (rep : Rep pf m)
    {num : Str} (hnum : Valid num) :
    ∃ x, phfwdGet (some pf) (some num) = some (some (oneNumber x)) ∧ Rewritten m num x := by
  obtain ⟨r, n, e, inv⟩ := trieGet_spec rep.shape rep.nomarker hnum
  have hv : isPhoneNumberCorrect (some num) = true := hnum
  rw [← rep.trie] at e
  cases r with
  | none =>
    refine ⟨num, ?_, Or.inr ⟨?_, rfl⟩⟩
    · simp [phfwdGet, hv, e, phnumNew, oneNumber, strCopy]
    · intro k v hm hp
      have hf := (rep.fwd k v).1 hm
      have hk := hf.valid_key
      have := inv k.length v hk.length_pos (hp.length_le)
      rw [← prefix_eq_take hp] at this
      exact this hf
  | some v =>
    obtain ⟨hn0, hnl, hf, hmax⟩ := inv
    have hlen : (num.take n).length = n := by simp; omega
    refine ⟨v ++ num.drop n, ?_, Or.inl ⟨num.take n, v, (rep.fwd _ _).2 hf, ?_,
      List.take_prefix _ _, ?_, by rw [hlen]⟩⟩
    · simp [phfwdGet, hv, e, phnumNew, oneNumber]
    · exact hf.valid_key.ne_nil
    · intro k' v' hm hp
      rw [hlen]
      by_contra hc
      have hf' := (rep.fwd k' v').1 hm
      have := hmax k'.length v' (by omega) hp.length_le
      rw [← prefix_eq_take hp] at this
      exact this hf'

theorem candidate_iff {pf : PhoneForward} {m : Str → Option Str} (rep : Rep pf m)
    {num : Str} (x : Str) :
    (∃ d k, 0 < d ∧ d ≤ num.length ∧ Fwd pf.heap k (num.take d) ∧ x = k ++ num.drop d) ↔
      Candidate m num x := by
  constructor
  · rintro ⟨d, k, h0, hl, hf, rfl⟩
    have hlen : (num.take d).length = d := by simp; omega
    refine ⟨k, num.take d, (rep.fwd _ _).2 hf, ?_, List.take_prefix _ _, by rw [hlen]⟩
    intro e
    rw [e] at hlen
    simp at hlen
    omega
  · rintro ⟨k, v, hm, hne, hp, rfl⟩
    refine ⟨v.length, k, List.length_pos.2 hne, hp.length_le, ?_, rfl⟩
    rw [← prefix_eq_take hp]
    exact (rep.fwd _ _).1 hm

theorem Candidate.valid {pf : PhoneForward} {m : Str → Option Str} (rep : Rep pf m)
    {num x : Str} (hnum : Valid num) (hc : Candidate m num x) : Valid x := by
  obtain ⟨k, v, hm, _, _, rfl⟩ := hc
  have hk := ((rep.fwd _ _).1 hm).valid_key
  rw [valid_iff]
  refine ⟨by simp [hk.ne_nil], ?_⟩
  intro c hc
  rcases List.mem_append.1 hc with h | h
  · exact hk.good c h
  · exact hnum.good c (List.mem_of_mem_drop h)

theorem phfwdReverse_spec {pf : PhoneForward} {m : Str → Option Str} (rep : Rep pf m)
    {num : Str} (hnum : Valid num) :
    ∃ pn cands, phfwdReverse (some pf) (some num) = some (some pn) ∧
      (∀ x, x ∈ cands ↔ Candidate m num x) ∧
      pn.vector.elements.Sublist (qsort phoneNumbersComparator (cands ++ [num])) ∧
      (∀ x ∈ cands ++ [num], x ∈ pn.vector.elements) := by
  obtain ⟨result, e, hres⟩ := trieReverse_spec rep.shape rep.linked hnum
  have hv : isPhoneNumberCorrect (some num) = true := hnum
  rw [← rep.trie] at e
  have hperm := qsort_perm phoneNumbersComparator (result.elements ++ [num])
  cases hs : qsort phoneNumbersComparator (result.elements ++ [num]) with
  | nil =>
    rw [hs] at hperm
    have := hperm.length_eq
    simp at this
  | cons s0 rest =>
    have hvs : (vectorSort (vectorAdd result (strCopy num)) phoneNumbersComparator).elements
        = [s0] ++ [] ++ rest := by
      simp only [vectorSort, vectorAdd_elements, strCopy, hs]; rfl
    obtain ⟨sub, junk', h1, h2, h3, h4, h5, h6⟩ := dedupLoop_spec rest [s0] [] _ hvs (by simp)
      (by simp)
    have hsize : vectorSize (some (vectorSort (vectorAdd result (strCopy num))
        phoneNumbersComparator)) = rest.length + 1 := by
      show (vectorSort (vectorAdd result (strCopy num)) phoneNumbersComparator).elements.length = _
      rw [hvs]; simp
    cases hd : dedupLoop rest.length (vectorSort (vectorAdd result (strCopy num))
        phoneNumbersComparator) 1 1 with
    | mk vd jd =>
      have ll : ([s0] ++ ([] : List Str)).length = 1 := rfl
      have l1 : ([s0] : List Str).length = 1 := rfl
      rw [ll, l1, hd] at h1 h2 h3
      simp only at h1 h2 h3
      have hvl : vd.elements.length = rest.length + 1 := by
        rw [h1, h6, hvs]; simp
      have hjl : jd ≤ rest.length + 1 := by
        rw [h2, ← hvl, h1]; simp
      obtain ⟨v', r1, _, r3⟩ := removeLastLoop_spec (rest.length + 1 - jd) vd (by omega)
      refine ⟨{ vector := vectorShrink v' }, result.elements, ?_, ?_, ?_, ?_⟩
      · simp only [phfwdReverse, hv, Bool.not_true, Bool.false_eq_true, if_false, e, hsize,
          Nat.add_sub_cancel, hd, r1, phnumNew]
      · intro x
        rw [hres x]
        exact candidate_iff rep x
      · show v'.elements.Sublist _
        rw [r3, hs, hvl, h1, h2]
        have : rest.length + 1 - (rest.length + 1 - ([s0] ++ sub).length) = ([s0] ++ sub).length := by
          have := h4.length_le
          simp only [List.length_append, List.length_cons, List.length_nil]
          omega
        rw [this, List.take_left]
        exact h4.cons₂ s0
      · intro x hx
        show x ∈ v'.elements
        rw [r3, hvl, h1, h2]
        have : rest.length + 1 - (rest.length + 1 - ([s0] ++ sub).length) = ([s0] ++ sub).length := by
          have := h4.length_le
          simp only [List.length_append, List.length_cons, List.length_nil]
          omega
        rw [this, List.take_left]
        have hx2 : x ∈ s0 :: rest := by
          rw [← hs]; exact hperm.symm.subset hx
        rcases List.mem_cons.1 hx2 with rfl | hx3
        · simp
        · exact h5 x hx3

theorem getsTo_iff {pf : PhoneForward} {num y x : Str}
    (hx : phfwdGet (some pf) (some y) = some (some (oneNumber x))) :
    getsTo pf num y = true ↔ x = num := by
  unfold getsTo
  rw [hx, decide_eq_true_iff]
  constructor
  · intro h
    simp only [Option.some.injEq] at h
    exact oneNumber_inj h
  · rintro rfl; rfl

theorem phfwdReverse_valid {pf : PhoneForward} {m : Str → Option Str} (rep : Rep pf m)
    {num : Str} (hnum : Valid num) {pn : PhoneNumbers}
    (hrev : phfwdReverse (some pf) (some num) = some (some pn)) :
    ∀ x ∈ pn.vector.elements, Valid x := by
  obtain ⟨pn', cands, e, hc, hsub, _⟩ := phfwdReverse_spec rep hnum
  rw [hrev] at e
  simp only [Option.some.injEq] at e
  subst e
  intro x hx
  have h1 := (qsort_perm phoneNumbersComparator (cands ++ [num])).subset (hsub.subset hx)
  rcases List.mem_append.1 h1 with h | h
  · exact ((hc x).1 h).valid rep hnum
  · simp only [List.mem_singleton] at h
    rw [h]; exact hnum

theorem phfwdGetReverse_spec {pf : PhoneForward} {m : Str → Option Str} (rep : Rep pf m)
    {num : Str} (hnum : Valid num) {pn : PhoneNumbers}
    (hrev : phfwdReverse (some pf) (some num) = some (some pn)) :
    ∃ pn2, phfwdGetReverse (some pf) (some num) = some (some pn2) ∧
      pn2.vector.elements = pn.vector.elements.filter (getsTo pf num) := by
  have hval := phfwdReverse_valid rep hnum hrev
  have hmem : num ∈ pn.vector.elements := by
    obtain ⟨pn', cands, e, _, _, hall⟩ := phfwdReverse_spec rep hnum
    rw [hrev] at e
    simp only [Option.some.injEq] at e
    subst e
    exact hall num (by simp)
  have hfirst : phnumGet (some pn) 0 ≠ none := by
    show vectorGet (some pn.vector) 0 ≠ none
    cases he : pn.vector.elements with
    | nil => rw [he] at hmem; simp at hmem
    | cons a l => simp [vectorGet, he]
  obtain ⟨junk', v', f1, f2, _, f4⟩ := filterLoop_spec (some pf) num (getsTo pf num)
    pn.vector.elements [] [] pn.vector (by simp) (by
      intro y hy
      obtain ⟨x, hx, _⟩ := phfwdGet_spec rep (hval y hy)
      exact ⟨x, hx, getsTo_iff hx⟩)
  simp only [List.nil_append, List.length_nil] at f1 f2
  have hle : (pn.vector.elements.filter (getsTo pf num)).length ≤ v'.elements.length := by
    rw [f2]; simp
  obtain ⟨v2, r1, _, r3⟩ := removeLastLoop_spec
    (pn.vector.elements.length - (pn.vector.elements.filter (getsTo pf num)).length) v'
    (by omega)
  refine ⟨{ vector := vectorShrink v2 }, ?_, ?_⟩
  · simp only [phfwdGetReverse, hrev, hfirst, if_false, vectorSize, f1, r1]
  · show v2.elements = _
    rw [r3, f4]
    have : pn.vector.elements.length -
        (pn.vector.elements.length - (pn.vector.elements.filter (getsTo pf num)).length)
        = (pn.vector.elements.filter (getsTo pf num)).length := by
      rw [f4] at hle; omega
    rw [this, f2, List.take_left]

/-! ## Every structure reached by calls is well formed -/

theorem find_new (q : TriePtr) : phfwdNew.heap.find q =
    if q = [] then some { Trie.zero with value := some ROOT_VALUE } else none := by
  by_cases hq : q = []
  · subst hq; rfl
  · have : ([] : TriePtr) ≠ q := fun e => hq e.symm
    simp [phfwdNew, trieNew, Heap.find, List.find?_cons, hq, this]

theorem view_new (q : TriePtr) : view phfwdNew.heap q =
    if q = [] then some { Trie.zero with value := some ROOT_VALUE } else none := by
  unfold view
  rw [find_new]
  split_ifs <;> rfl

theorem rep_new : Rep phfwdNew (fun _ => none) where
  trie := rfl
  shape := {
    root := ⟨_, rfl, by simp⟩
    closed := by
      intro n p h
      rw [find_new] at h
      simp at h
    count := by
      intro p nd h
      rw [find_new] at h
      split_ifs at h with hp
      subst hp
      simp only [Option.some.injEq] at h
      subst h
      unfold childCount
      simp [find_new, Trie.zero] }
  linked := {
    root := by
      intro r h
      rw [view_new] at h
      simp only [if_true, Option.some.injEq] at h
      subst h; rfl
    noval := by
      intro p nd h _
      rw [view_new] at h
      split_ifs at h
      simp only [Option.some.injEq] at h
      subst h
      exact ⟨rfl, rfl⟩
    val := by
      intro p nd v h hv hne
      rw [view_new] at h
      split_ifs at h
      simp only [Option.some.injEq] at h
      subst h
      simp only [Option.some.injEq] at hv
      exact absurd hv.symm hne
    ring := by
      intro q nd ring c k h hr _
      rw [view_new] at h
      split_ifs at h
      simp only [Option.some.injEq] at h
      subst h
      simp [Trie.zero] at hr
    ringNe := by
      intro q nd h
      rw [view_new] at h
      split_ifs at h
      simp only [Option.some.injEq] at h
      subst h
      simp [Trie.zero]
    ringNodup := by
      intro q nd ring h hr
      rw [view_new] at h
      split_ifs at h
      simp only [Option.some.injEq] at h
      subst h
      simp [Trie.zero] at hr }
  nomarker := by
    intro p nd hp h
    rw [view_new, if_neg hp] at h
    simp at h
  fwd := by
    intro k v
    constructor
    · intro h; simp at h
    · rintro ⟨_, nd, h, hv, hne⟩
      rw [view_new] at h
      split_ifs at h
      simp only [Option.some.injEq] at h
      subst h
      simp only [Option.some.injEq] at hv
      exact absurd hv.symm hne

theorem phfwdAdd_spec {pf : PhoneForward} {m : Str → Option Str} (rep : Rep pf m)
    {num1 num2 : Str} (h1 : Valid num1) (h2 : Valid num2) (hne : num1 ≠ num2) :
    ∃ pf', phfwdAdd (some pf) (some num1) (some num2) = some (some pf', true) ∧
      Rep pf' (fun x => if x = num1 then some num2 else m x) := by
  obtain ⟨h', e, hs, hl, hn, hf⟩ := trieInsert_spec rep.shape rep.linked rep.nomarker h1 h2 hne
  have v1 : isPhoneNumberCorrect (some num1) = true := h1
  have v2 : isPhoneNumberCorrect (some num2) = true := h2
  rw [← rep.trie] at e
  refine ⟨{ pf with heap := h' }, ?_, rep.trie, hs, hl, hn, ?_⟩
  · simp [phfwdAdd, v1, v2, hne, strCopy, e]
  · intro k v
    show _ ↔ Fwd h' k v
    rw [hf]
    by_cases hk : k = num1
    · simp only [hk, if_true, Option.some.injEq]
      exact eq_comm
    · simp only [hk, if_false]
      exact rep.fwd k v

theorem phfwdRemove_spec {pf : PhoneForward} {m : Str → Option Str} (rep : Rep pf m)
    {num : Str} (h1 : Valid num) :
    ∃ pf', phfwdRemove (some pf) (some num) = some (some pf') ∧
      Rep pf' (fun x => if num <+: x then none else m x) := by
  obtain ⟨h', e, hs, hl, hn, hf⟩ := trieRemove_spec rep.shape rep.linked rep.nomarker h1
  have v1 : isPhoneNumberCorrect (some num) = true := h1
  rw [← rep.trie] at e
  refine ⟨{ pf with heap := h' }, ?_, rep.trie, hs, hl, hn, ?_⟩
  · simp [phfwdRemove, v1, e]
  · intro k v
    show _ ↔ Fwd h' k v
    rw [hf]
    by_cases hk : num <+: k
    · simp [hk]
    · simp only [hk, if_false, not_false_eq_true, and_true]
      exact rep.fwd k v

theorem Call.run_spec {pf : PhoneForward} {m : Str → Option Str} (rep : Rep pf m) (c : Call) :
    ∃ pf', c.run pf = some pf' ∧ Rep pf' (c.apply m) := by
  cases c with
  | add num1 num2 =>
    cases num1 with
    | none => exact ⟨pf, rfl, rep⟩
    | some n1 =>
      cases num2 with
      | none => exact ⟨pf, rfl, rep⟩
      | some n2 =>
        by_cases hc : Valid n1 ∧ Valid n2 ∧ n1 ≠ n2
        · obtain ⟨pf', e, r⟩ := phfwdAdd_spec rep hc.1 hc.2.1 hc.2.2
          refine ⟨pf', by simp [Call.run, e], ?_⟩
          simp only [Call.apply, hc, and_self, if_true, ne_eq, not_false_eq_true]
          exact r
        · refine ⟨pf, ?_, ?_⟩
          · have : (!isPhoneNumberCorrect (some n1) || !isPhoneNumberCorrect (some n2)
                || decide (n1 = n2)) = true := by
              unfold Valid at hc
              by_cases a : isPhoneNumberCorrect (some n1) = true
              · by_cases b : isPhoneNumberCorrect (some n2) = true
                · by_cases d : n1 = n2
                  · simp [d]
                  · exact absurd ⟨a, b, d⟩ hc
                · simp [b]
              · simp [a]
            simp only [Call.run, phfwdAdd, this, if_true]
          · simp only [Call.apply, hc, if_false]
            exact rep
  | remove num =>
    cases num with
    | none => exact ⟨pf, rfl, rep⟩
    | some n =>
      by_cases hc : Valid n
      · obtain ⟨pf', e, r⟩ := phfwdRemove_spec rep hc
        refine ⟨pf', by simp [Call.run, e], ?_⟩
        simp only [Call.apply, hc, if_true]
        exact r
      · refine ⟨pf, ?_, ?_⟩
        · have : isPhoneNumberCorrect (some n) = false := by
            unfold Valid at hc
            simpa using hc
          simp [Call.run, phfwdRemove, this]
        · simp only [Call.apply, hc, if_false]
          exact rep

theorem runCalls_spec : ∀ (calls : List Call) {pf : PhoneForward} {m : Str → Option Str},
    Rep pf m → ∃ pf', runCalls calls pf = some pf' ∧ Rep pf' (forwardings calls m)
  | [], pf, _, rep => ⟨pf, rfl, rep⟩
  | c :: cs, pf, m, rep => by
    obtain ⟨pf1, e1, r1⟩ := Call.run_spec rep c
    obtain ⟨pf2, e2, r2⟩ := runCalls_spec cs r1
    exact ⟨pf2, by simp [runCalls, e1, e2], r2⟩

theorem rep_of_reached {calls : List Call} {pf : PhoneForward}
    (h : runCalls calls phfwdNew = some pf) : Rep pf (registered calls) := by
  obtain ⟨pf', e, r⟩ := runCalls_spec calls rep_new
  rw [h] at e
  simp only [Option.some.injEq] at e
  subst e
  exact r

/-! ## What the queries return on a well-formed structure -/

theorem Rewritten.of_key {m : Str → Option Str} {num x v : Str} (h : Rewritten m num x)
    (hm : m num = some v) : x = v := by
  rcases h with ⟨k, v', hk, _, hp, hmax, rfl⟩ | ⟨hno, _⟩
  · have hl := hmax num v hm (List.prefix_refl _)
    have hkn : k = num := by
      have h1 := prefix_eq_take hp
      rw [h1, List.take_of_length_le hl]
    subst hkn
    rw [hm] at hk
    simp only [Option.some.injEq] at hk
    subst hk
    simp
  · exact absurd (List.prefix_refl _) (hno num v hm)

theorem reverse_mem_iff {pf : PhoneForward} {m : Str → Option Str} (rep : Rep pf m)
    {num : Str} (hnum : Valid num) :
    ∃ pn, phfwdReverse (some pf) (some num) = some (some pn) ∧
      ∀ x, x ∈ pn.vector.elements ↔ x = num ∨ Candidate m num x := by
  obtain ⟨pn, cands, e, hc, hsub, hall⟩ := phfwdReverse_spec rep hnum
  refine ⟨pn, e, fun x => ⟨?_, ?_⟩⟩
  · intro hx
    have h1 := (qsort_perm phoneNumbersComparator (cands ++ [num])).subset (hsub.subset hx)
    rcases List.mem_append.1 h1 with h | h
    · exact Or.inr ((hc x).1 h)
    · exact Or.inl (List.mem_singleton.1 h)
  · rintro (rfl | h)
    · exact hall _ (by simp)
    · exact hall _ (List.mem_append_left _ ((hc x).2 h))

theorem reverse_sorted {pf : PhoneForward} {m : Str → Option Str} (rep : Rep pf m)
    {num : Str} (hnum : Valid num) {pn : PhoneNumbers}
    (hrev : phfwdReverse (some pf) (some num) = some (some pn)) :
    pn.vector.elements.Pairwise NotAfter := by
  obtain ⟨pn', cands, e, hc, hsub, _⟩ := phfwdReverse_spec rep hnum
  rw [hrev] at e
  simp only [Option.some.injEq] at e
  subst e
  refine (qsort_sorted (cands ++ [num]) ?_).sublist hsub
  intro x hx
  rcases List.mem_append.1 hx with h | h
  · exact (((hc x).1 h).valid rep hnum).isGood
  · rw [List.mem_singleton.1 h]; exact hnum.isGood

theorem reverse_alone {pf : PhoneForward} {m : Str → Option Str} (rep : Rep pf m)
    {num : Str} (hnum : Valid num) (hno : ∀ x, ¬ Candidate m num x) :
    ∃ pn, phfwdReverse (some pf) (some num) = some (some pn) ∧ pn.vector.elements = [num] := by
  obtain ⟨pn, cands, e, hc, hsub, hall⟩ := phfwdReverse_spec rep hnum
  refine ⟨pn, e, ?_⟩
  have hnil : cands = [] := by
    cases cands with
    | nil => rfl
    | cons a l => exact absurd ((hc a).1 (List.mem_cons_self _ _)) (hno a)
  subst hnil
  have hmem := hall num (by simp)
  have hsub' : pn.vector.elements.Sublist [num] := hsub
  rcases List.sublist_singleton.1 hsub' with h | h
  · rw [h] at hmem; simp at hmem
  · exact h

theorem not_mem_reverseRegistry {pf : PhoneForward} {m : Str → Option Str} (rep : Rep pf m)
    {k v w : Str} (hw : Valid w) (hm : m k = some v) (hvw : v ≠ w) :
    k ∉ reverseRegistry pf w := by
  intro hin
  unfold reverseRegistry at hin
  cases hf : pf.heap.find ((w.map strToInt).reverse) with
  | none => rw [hf] at hin; simp at hin
  | some nd =>
    rw [hf] at hin
    simp only [List.mem_map] at hin
    obtain ⟨⟨c, k'⟩, hmem, rfl⟩ := hin
    cases hk : nd.keys with
    | none => rw [hk] at hmem; simp at hmem
    | some ring =>
      rw [hk] at hmem
      obtain ⟨v', hfwd, hp, hv', _⟩ := fwd_of_reg rep.linked hf hk hmem
      have h1 : v' = w := pathOf_inj hv' hw hp
      have h2 := (rep.fwd _ _).2 hfwd
      simp only at h2
      rw [hm] at h2
      simp only [Option.some.injEq] at h2
      exact hvw (h2.trans h1)

theorem get_of_mem_filter {pf : PhoneForward} {num r : Str} {l : List Str}
    (h : r ∈ l.filter (getsTo pf num)) :
    phfwdGet (some pf) (some r) = some (some (oneNumber num)) := by
  have := (List.mem_filter.1 h).2
  unfold getsTo at this
  exact of_decide_eq_true this

theorem mem_reverse_of_get {pf : PhoneForward} {m : Str → Option Str} (rep : Rep pf m)
    {x num : Str} (hx : Valid x)
    (hg : phfwdGet (some pf) (some x) = some (some (oneNumber num))) :
    x = num ∨ Candidate m num x := by
  obtain ⟨y, e, hr⟩ := phfwdGet_spec rep hx
  rw [hg] at e
  simp only [Option.some.injEq] at e
  have hy : num = y := oneNumber_inj e
  subst hy
  rcases hr with ⟨k, v, hm, _, hp, _, rfl⟩ | ⟨_, rfl⟩
  · right
    have hv : Valid v := (reg_of_fwd rep.linked ((rep.fwd _ _).1 hm)).1
    refine ⟨k, v, hm, hv.ne_nil, List.prefix_append _ _, ?_⟩
    obtain ⟨t, rfl⟩ := hp
    simp
  · exact Or.inl rfl

theorem reached (calls : List Call) :
    ∃ pf, runCalls calls phfwdNew = some pf ∧ Rep pf (registered calls) :=
  runCalls_spec calls rep_new

/-! ## The claims -/

/-- C1: on the structure reached by any sequence of `phfwdAdd`/`phfwdRemove`
calls (which is reached without a fault), `phfwdGet` of a valid number `num`
returns the sequence of exactly one string `x`: when a key with a registered
forwarding is a non-empty prefix of `num`, `x` is `v ++ num[len(k):]` for the
longest such key `k` and its current value `v`; when no key is a prefix of
`num`, `x` is `num` itself. -/
theorem phfwdGet_longest_prefix (calls : List Call) (num : Str) (hnum : Valid num) :
    ∃ pf x, runCalls calls phfwdNew = some pf ∧
      phfwdGet (some pf) (some num) = some (some (oneNumber x)) ∧
      Rewritten (registered calls) num x := by
  obtain ⟨pf, e, rep⟩ := reached calls
  obtain ⟨x, hx, hr⟩ := phfwdGet_spec rep hnum
  exact ⟨pf, x, e, hx, hr⟩

theorem phfwdGet_longest_prefix_witness :
    ∃ pf x, runCalls [Call.add (some ['1', '2']) (some ['9']),
        Call.add (some ['1', '2', '3']) (some ['4', '5']),
        Call.remove (some ['7'])] phfwdNew = some pf ∧
      phfwdGet (some pf) (some ['1', '2', '3', '4']) = some (some (oneNumber x)) ∧
      Rewritten (registered [Call.add (some ['1', '2']) (some ['9']),
        Call.add (some ['1', '2', '3']) (some ['4', '5']),
        Call.remove (some ['7'])]) ['1', '2', '3', '4'] x :=
  phfwdGet_longest_prefix _ _ (by decide)

/-- C2: on every reachable structure, for valid numbers `num1 ≠ num2`,
`phfwdAdd(num1, num2)` returns true and `phfwdGet(num1)` on the structure
afterwards is the one-element sequence `[num2]`. -/
theorem phfwdAdd_then_get (calls : List Call) (num1 num2 : Str) (h1 : Valid num1)
    (h2 : Valid num2) (hne : num1 ≠ num2) :
    ∃ pf pf', runCalls calls phfwdNew = some pf ∧
      phfwdAdd (some pf) (some num1) (some num2) = some (some pf', true) ∧
      phfwdGet (some pf') (some num1) = some (some (oneNumber num2)) := by
  obtain ⟨pf, e, rep⟩ := reached calls
  obtain ⟨pf', ea, rep'⟩ := phfwdAdd_spec rep h1 h2 hne
  obtain ⟨x, hx, hr⟩ := phfwdGet_spec rep' h1
  have : x = num2 := hr.of_key (by simp)
  subst this
  exact ⟨pf, pf', e, ea, hx⟩

theorem phfwdAdd_then_get_witness :
    ∃ pf pf', runCalls [Call.add (some ['1']) (some ['2', '2']),
        Call.add (some ['1', '0']) (some ['3'])] phfwdNew = some pf ∧
      phfwdAdd (some pf) (some ['1', '0', '5']) (some ['1']) = some (some pf', true) ∧
      phfwdGet (some pf') (some ['1', '0', '5']) = some (some (oneNumber ['1'])) :=
  phfwdAdd_then_get _ _ _ (by decide) (by decide) (by decide)

/-- C3: a second add on the same key supersedes the first. On every reachable
structure, for valid pairwise different `num1`, `num2`, `num3`, after
`phfwdAdd(num1, num2)` and then `phfwdAdd(num1, num3)` (both return true),
`phfwdGet(num1)` is `[num3]` and `num1` is not in the reverse registry of the
node of `num2`; and when the calls before registered no forwarding and `num3` is
not a prefix of `num2`, `phfwdReverse(num2)` is `[num2]`. -/
theorem second_add_supersedes (calls : List Call) (num1 num2 num3 : Str) (h1 : Valid num1)
    (h2 : Valid num2) (h3 : Valid num3) (h12 : num1 ≠ num2) (h13 : num1 ≠ num3)
    (h23 : num2 ≠ num3) :
    ∃ pf pf1 pf2, runCalls calls phfwdNew = some pf ∧
      phfwdAdd (some pf) (some num1) (some num2) = some (some pf1, true) ∧
      phfwdAdd (some pf1) (some num1) (some num3) = some (some pf2, true) ∧
      phfwdGet (some pf2) (some num1) = some (some (oneNumber num3)) ∧
      num1 ∉ reverseRegistry pf2 num2 ∧
      ((∀ k, registered calls k = none) → ¬ num3 <+: num2 →
        ∃ pn, phfwdReverse (some pf2) (some num2) = some (some pn) ∧
          pn.vector.elements = [num2]) := by
  obtain ⟨pf, e, rep⟩ := reached calls
  obtain ⟨pf1, e1, rep1⟩ := phfwdAdd_spec rep h1 h2 h12
  obtain ⟨pf2, e2, rep2⟩ := phfwdAdd_spec rep1 h1 h3 h13
  obtain ⟨x, hx, hr⟩ := phfwdGet_spec rep2 h1
  have : x = num3 := hr.of_key (by simp)
  subst this
  refine ⟨pf, pf1, pf2, e, e1, e2, hx, ?_, ?_⟩
  · exact not_mem_reverseRegistry rep2 h2 (by simp) (fun h => h23 h.symm)
  · intro hempty hpre
    apply reverse_alone rep2 h2
    rintro y ⟨k, v, hm, _, hp, _⟩
    by_cases hk : k = num1
    · simp only [hk, if_true, Option.some.injEq] at hm
      rw [← hm] at hp
      exact hpre hp
    · simp only [hk, if_false] at hm
      rw [hempty] at hm
      exact absurd hm (by simp)

theorem second_add_supersedes_witness :
    ∃ pf pf1 pf2, runCalls [] phfwdNew = some pf ∧
      phfwdAdd (some pf) (some ['5']) (some ['6', '7']) = some (some pf1, true) ∧
      phfwdAdd (some pf1) (some ['5']) (some ['6', '8']) = some (some pf2, true) ∧
      phfwdGet (some pf2) (some ['5']) = some (some (oneNumber ['6', '8'])) ∧
      ['5'] ∉ reverseRegistry pf2 ['6', '7'] ∧
      ((∀ k, registered [] k = none) → ¬ ['6', '8'] <+: ['6', '7'] →
        ∃ pn, phfwdReverse (some pf2) (some ['6', '7']) = some (some pn) ∧
          pn.vector.elements = [['6', '7']]) :=
  second_add_supersedes _ _ _ _ (by decide) (by decide) (by decide) (by decide) (by decide)
    (by decide)

/-- C4: on every reachable structure and for every valid `num`, the strings of
`phfwdReverse(num)` are exactly `num` and the strings `k ++ num[len(v):]` for the
keys `k` that currently forward to a non-empty prefix `v` of `num`, of whatever
length that prefix is. -/
theorem phfwdReverse_members (calls : List Call) (num : Str) (hnum : Valid num) :
    ∃ pf pn, runCalls calls phfwdNew = some pf ∧
      phfwdReverse (some pf) (some num) = some (some pn) ∧
      ∀ x, x ∈ pn.vector.elements ↔ x = num ∨ Candidate (registered calls) num x := by
  obtain ⟨pf, e, rep⟩ := reached calls
  obtain ⟨pn, hx, hr⟩ := reverse_mem_iff rep hnum
  exact ⟨pf, pn, e, hx, hr⟩

theorem phfwdReverse_members_witness :
    ∃ pf pn, runCalls [Call.add (some ['3']) (some ['1']),
        Call.add (some ['4', '0']) (some ['1', '2'])] phfwdNew = some pf ∧
      phfwdReverse (some pf) (some ['1', '2', '9']) = some (some pn) ∧
      ∀ x, x ∈ pn.vector.elements ↔ x = ['1', '2', '9'] ∨
        Candidate (registered [Call.add (some ['3']) (some ['1']),
          Call.add (some ['4', '0']) (some ['1', '2'])]) ['1', '2', '9'] x :=
  phfwdReverse_members _ _ (by decide)

/-- C5: on every reachable structure and for every valid `num`,
`phfwdReverse(num)` contains `num`; and when no forwarding is registered,
`phfwdReverse(num)` is exactly `[num]`. -/
theorem phfwdReverse_contains_num (calls : List Call) (num : Str) (hnum : Valid num) :
    ∃ pf pn, runCalls calls phfwdNew = some pf ∧
      phfwdReverse (some pf) (some num) = some (some pn) ∧
      num ∈ pn.vector.elements ∧
      ((∀ k, registered calls k = none) → pn.vector.elements = [num]) := by
  obtain ⟨pf, e, rep⟩ := reached calls
  obtain ⟨pn, hx, hr⟩ := reverse_mem_iff rep hnum
  refine ⟨pf, pn, e, hx, (hr num).2 (Or.inl rfl), ?_⟩
  intro hempty
  obtain ⟨pn', hx', he⟩ := reverse_alone rep hnum (by
    rintro y ⟨k, v, hm, _⟩
    rw [hempty] at hm
    exact absurd hm (by simp))
  rw [hx] at hx'
  simp only [Option.some.injEq] at hx'
  rw [hx']
  exact he

theorem phfwdReverse_contains_num_witness :
    ∃ pf pn, runCalls [Call.add (some ['3']) (some ['1']),
        Call.remove (some ['3'])] phfwdNew = some pf ∧
      phfwdReverse (some pf) (some ['1', '2']) = some (some pn) ∧
      ['1', '2'] ∈ pn.vector.elements ∧
      ((∀ k, registered [Call.add (some ['3']) (some ['1']),
          Call.remove (some ['3'])] k = none) → pn.vector.elements = [['1', '2']]) :=
  phfwdReverse_contains_num _ _ (by decide)

/-- C6: on every reachable structure and for every valid `num`, the sequences
returned by `phfwdReverse(num)` and `phfwdGetReverse(num)` are sorted: in every
adjacent pair `(a, b)` the string `a` does not sort after `b` under
`phoneNumbersComparator`. -/
theorem reverse_results_sorted (calls : List Call) (num : Str) (hnum : Valid num) :
    ∃ pf pn pn2, runCalls calls phfwdNew = some pf ∧
      phfwdReverse (some pf) (some num) = some (some pn) ∧
      phfwdGetReverse (some pf) (some num) = some (some pn2) ∧
      pn.vector.elements.Chain' (fun a b => phoneNumbersComparator a b ≤ 0) ∧
      pn2.vector.elements.Chain' (fun a b => phoneNumbersComparator a b ≤ 0) := by
  obtain ⟨pf, e, rep⟩ := reached calls
  obtain ⟨pn, hx, _⟩ := reverse_mem_iff rep hnum
  obtain ⟨pn2, hx2, hf⟩ := phfwdGetReverse_spec rep hnum hx
  have hs := reverse_sorted rep hnum hx
  refine ⟨pf, pn, pn2, e, hx, hx2, List.Pairwise.chain' hs, List.Pairwise.chain' ?_⟩
  rw [hf]
  exact hs.sublist (List.filter_sublist _)

theorem reverse_results_sorted_witness :
    ∃ pf pn pn2, runCalls [Call.add (some ['3']) (some ['1']),
        Call.add (some ['2', '#']) (some ['1', '2'])] phfwdNew = some pf ∧
      phfwdReverse (some pf) (some ['1', '2', '9']) = some (some pn) ∧
      phfwdGetReverse (some pf) (some ['1', '2', '9']) = some (some pn2) ∧
      pn.vector.elements.Chain' (fun a b => phoneNumbersComparator a b ≤ 0) ∧
      pn2.vector.elements.Chain' (fun a b => phoneNumbersComparator a b ≤ 0) :=
  reverse_results_sorted _ _ (by decide)

/-- C8: round trip. On every reachable structure and for every valid `num`,
`phfwdGet(r)` is the one-element sequence `[num]` for every element `r` of
`phfwdGetReverse(num)`. -/
theorem getReverse_round_trip (calls : List Call) (num : Str) (hnum : Valid num) :
    ∃ pf pn2, runCalls calls phfwdNew = some pf ∧
      phfwdGetReverse (some pf) (some num) = some (some pn2) ∧
      ∀ r ∈ pn2.vector.elements, phfwdGet (some pf) (some r) = some (some (oneNumber num)) := by
  obtain ⟨pf, e, rep⟩ := reached calls
  obtain ⟨pn, hx, _⟩ := reverse_mem_iff rep hnum
  obtain ⟨pn2, hx2, hf⟩ := phfwdGetReverse_spec rep hnum hx
  refine ⟨pf, pn2, e, hx2, ?_⟩
  intro r hr
  rw [hf] at hr
  exact get_of_mem_filter hr

theorem getReverse_round_trip_witness :
    ∃ pf pn2, runCalls [Call.add (some ['3']) (some ['1']),
        Call.add (some ['3', '2']) (some ['7'])] phfwdNew = some pf ∧
      phfwdGetReverse (some pf) (some ['1', '2']) = some (some pn2) ∧
      ∀ r ∈ pn2.vector.elements,
        phfwdGet (some pf) (some r) = some (some (oneNumber ['1', '2'])) :=
  getReverse_round_trip _ _ (by decide)

/-- C9: completeness of the strict reverse. On every reachable structure and
for valid numbers `x` and `num`, if `phfwdGet(x)` is `[num]` then `x` is an
element of `phfwdGetReverse(num)`. -/
theorem getReverse_complete (calls : List Call) (x num : Str) (hx : Valid x)
    (hnum : Valid num) :
    ∃ pf pn2, runCalls calls phfwdNew = some pf ∧
      phfwdGetReverse (some pf) (some num) = some (some pn2) ∧
      (phfwdGet (some pf) (some x) = some (some (oneNumber num)) →
        x ∈ pn2.vector.elements) := by
  obtain ⟨pf, e, rep⟩ := reached calls
  obtain ⟨pn, hr, hmem⟩ := reverse_mem_iff rep hnum
  obtain ⟨pn2, hx2, hf⟩ := phfwdGetReverse_spec rep hnum hr
  refine ⟨pf, pn2, e, hx2, ?_⟩
  intro hg
  rw [hf, List.mem_filter]
  refine ⟨(hmem x).2 (mem_reverse_of_get rep hx hg), ?_⟩
  unfold getsTo
  exact decide_eq_true hg

theorem getReverse_complete_witness :
    ∃ pf pn2, runCalls [Call.add (some ['3']) (some ['1']),
        Call.add (some ['3', '2']) (some ['7'])] phfwdNew = some pf ∧
      phfwdGetReverse (some pf) (some ['1', '5']) = some (some pn2) ∧
      (phfwdGet (some pf) (some ['3', '5']) = some (some (oneNumber ['1', '5'])) →
        ['3', '5'] ∈ pn2.vector.elements) :=
  getReverse_complete _ _ _ (by decide) (by decide)

/-- C10: on every reachable structure and for every valid `num`,
`phfwdGetReverse(num)` is the subsequence of `phfwdReverse(num)` made of the
candidates `c` for which `phfwdGet(c)` is `[num]`, in the order they have in
`phfwdReverse(num)`. -/
theorem getReverse_is_filter (calls : List Call) (num : Str) (hnum : Valid num) :
    ∃ pf pn pn2, runCalls calls phfwdNew = some pf ∧
      phfwdReverse (some pf) (some num) = some (some pn) ∧
      phfwdGetReverse (some pf) (some num) = some (some pn2) ∧
      pn2.vector.elements = pn.vector.elements.filter (getsTo pf num) := by
  obtain ⟨pf, e, rep⟩ := reached calls
  obtain ⟨pn, hx, _⟩ := reverse_mem_iff rep hnum
  obtain ⟨pn2, hx2, hf⟩ := phfwdGetReverse_spec rep hnum hx
  exact ⟨pf, pn, pn2, e, hx, hx2, hf⟩

theorem getReverse_is_filter_witness :
    ∃ pf pn pn2, runCalls [Call.add (some ['3']) (some ['1']),
        Call.add (some ['3', '2']) (some ['7'])] phfwdNew = some pf ∧
      phfwdReverse (some pf) (some ['1', '2']) = some (some pn) ∧
      phfwdGetReverse (some pf) (some ['1', '2']) = some (some pn2) ∧
      pn2.vector.elements = pn.vector.elements.filter (getsTo pf ['1', '2']) :=
  getReverse_is_filter _ _ (by decide)

set_option maxRecDepth 100000

/-- C7: after the calls `phfwdAdd("3", "1")`, `phfwdAdd("32", "12")`,
`phfwdAdd("4", "1")`, `phfwdAdd("42", "12")` on a new structure, both
`phfwdReverse("12")` and `phfwdGetReverse("12")` return the four strings
`"12", "32", "42", "42"`: the string `"42"` occurs twice. -/
theorem phfwdReverse_keeps_duplicate :
    reverseAfter [Call.add (some ['3']) (some ['1']),
        Call.add (some ['3', '2']) (some ['1', '2']),
        Call.add (some ['4']) (some ['1']),
        Call.add (some ['4', '2']) (some ['1', '2'])] ['1', '2']
      = some [['1', '2'], ['3', '2'], ['4', '2'], ['4', '2']] ∧
    getReverseAfter [Call.add (some ['3']) (some ['1']),
        Call.add (some ['3', '2']) (some ['1', '2']),
        Call.add (some ['4']) (some ['1']),
        Call.add (some ['4', '2']) (some ['1', '2'])] ['1', '2']
      = some [['1', '2'], ['3', '2'], ['4', '2'], ['4', '2']] := by
  decide

/-! ## Calls that change nothing -/

theorem phfwdAdd_refused (pf : PhoneForward) (num1 num2 : Option Str)
    (h : isPhoneNumberCorrect num1 = false ∨ isPhoneNumberCorrect num2 = false ∨ num1 = num2) :
    phfwdAdd (some pf) num1 num2 = some (some pf, false) := by
  cases num1 with
  | none => rfl
  | some n1 =>
    cases num2 with
    | none => rfl
    | some n2 =>
      have hc : (!isPhoneNumberCorrect (some n1) || !isPhoneNumberCorrect (some n2)
          || decide (n1 = n2)) = true := by
        rcases h with h | h | h
        · simp [h]
        · simp [h]
        · simp only [Option.some.injEq] at h
          simp [h]
      simp only [phfwdAdd, hc, if_true]

theorem phfwdRemove_refused (pf : PhoneForward) (num : Option Str)
    (h : isPhoneNumberCorrect num = false) : phfwdRemove (some pf) num = some (some pf) := by
  cases num with
  | none => rfl
  | some n => simp [phfwdRemove, h]

theorem trieRemoveWalk_null (h : Heap) : ∀ key : Str, trieRemoveWalk h key none = some none
  | [] => rfl
  | _ :: _ => rfl

theorem trieRemoveWalk_missing (h : Heap) : ∀ (key : Str) (t : TriePtr),
    key ≠ [] → (∀ c ∈ key, badChar c = false) → h.find (pathOf key ++ t) = none →
    trieRemoveWalk h key (some t) = some none
  | [], _, hne, _, _ => absurd rfl hne
  | c :: key, t, _, hg, hf => by
    have hc : strToInt c < ALPHABET_SIZE := strToInt_lt c (hg c (List.mem_cons_self _ _))
    have hg' : ∀ d ∈ key, badChar d = false := fun d hd => hg d (List.mem_cons_of_mem _ hd)
    by_cases hchild : (h.find (strToInt c :: t)).isSome = true
    · have hstep : trieRemoveWalk h (c :: key) (some t)
          = trieRemoveWalk h key (some (strToInt c :: t)) := by
        simp [trieRemoveWalk, next, hc, hchild]
      rw [hstep]
      cases key with
      | nil =>
        simp only [pathOf, List.map_cons, List.map_nil, List.reverse_cons, List.reverse_nil,
          List.nil_append, List.singleton_append] at hf
        rw [hf] at hchild
        simp at hchild
      | cons d key =>
        apply trieRemoveWalk_missing h (d :: key) (strToInt c :: t) (by simp) hg'
        rw [← hf, pathOf_cons (c := c)]
        simp
    · have hstep : trieRemoveWalk h (c :: key) (some t) = trieRemoveWalk h key none := by
        simp [trieRemoveWalk, next, hc, hchild]
      rw [hstep, trieRemoveWalk_null]

theorem phfwdRemove_missing {pf : PhoneForward} (ht : pf.trie = []) {num : Str}
    (hnum : Valid num) (hf : pf.heap.find (pathOf num) = none) :
    phfwdRemove (some pf) (some num) = some (some pf) := by
  obtain ⟨heap, trie⟩ := pf
  simp only at ht hf
  subst ht
  have hv : isPhoneNumberCorrect (some num) = true := hnum
  have hw := trieRemoveWalk_missing heap num [] hnum.ne_nil hnum.good (by simpa using hf)
  simp [phfwdRemove, hv, trieRemove, hw]

/-! ## Queries on an invalid number -/

theorem phfwdGet_invalid (pf : PhoneForward) (num : Option Str)
    (h : isPhoneNumberCorrect num = false) :
    phfwdGet (some pf) num = some (some { vector := vectorNew }) := by
  cases num with
  | none => rfl
  | some n => simp [phfwdGet, h, phnumNew]

theorem phfwdReverse_invalid (pf : PhoneForward) (num : Option Str)
    (h : isPhoneNumberCorrect num = false) :
    phfwdReverse (some pf) num = some (some { vector := vectorNew }) := by
  cases num with
  | none => rfl
  | some n => simp [phfwdReverse, h, phnumNew]

theorem phfwdGetReverse_invalid (pf : PhoneForward) (num : Option Str)
    (h : isPhoneNumberCorrect num = false) :
    phfwdGetReverse (some pf) num = some (some { vector := vectorNew }) := by
  unfold phfwdGetReverse
  rw [phfwdReverse_invalid pf num h]
  rfl

/-! ## The rewritten number is unique -/

theorem Rewritten.unique {m : Str → Option Str} {num x y : Str} (hx : Rewritten m num x)
    (hy : Rewritten m num y) : x = y := by
  rcases hx with ⟨k, v, hk, _, hp, hmax, rfl⟩ | ⟨hno, rfl⟩
  · rcases hy with ⟨k', v', hk', _, hp', hmax', rfl⟩ | ⟨hno', rfl⟩
    · have h1 := hmax k' v' hk' hp'
      have h2 := hmax' k v hk hp
      have hkk : k = k' := by
        rw [prefix_eq_take hp, prefix_eq_take hp', Nat.le_antisymm h2 h1]
      subst hkk
      rw [hk] at hk'
      simp only [Option.some.injEq] at hk'
      rw [hk']
    · exact absurd hp (hno' k v hk)
  · rcases hy with ⟨k', v', hk', _, hp', _, rfl⟩ | ⟨_, rfl⟩
    · exact absurd hp' (hno k' v' hk')
    · rfl

/-- Two sets of forwardings that agree on the prefixes of `num` rewrite `num`
alike. -/
theorem Rewritten.congr {m m' : Str → Option Str} {num x : Str}
    (h : ∀ k, k <+: num → m' k = m k) (hx : Rewritten m num x) : Rewritten m' num x := by
  rcases hx with ⟨k, v, hk, hne, hp, hmax, rfl⟩ | ⟨hno, rfl⟩
  · refine Or.inl ⟨k, v, by rw [h k hp]; exact hk, hne, hp, ?_, rfl⟩
    intro k' v' hk' hp'
    rw [h k' hp'] at hk'
    exact hmax k' v' hk' hp'
  · refine Or.inr ⟨?_, rfl⟩
    intro k v hk hp
    rw [h k hp] at hk
    exact hno k v hk hp

/-! ## The claims on scenarios, removal and refused input -/

/-- C11 (counterexample): after `phfwdAdd("1", "2")` and `phfwdAdd("19", "5")` on
a new structure, `phfwdReverse("29")` is `["19", "29"]`, yet `phfwdGet("19")` is
`["5"]` and not `["29"]`. -/
theorem phfwdReverse_not_all_resolve :
    reverseAfter [Call.add (some ['1']) (some ['2']),
        Call.add (some ['1', '9']) (some ['5'])] ['2', '9']
      = some [['1', '9'], ['2', '9']] ∧
    getAfter [Call.add (some ['1']) (some ['2']),
        Call.add (some ['1', '9']) (some ['5'])] (some ['1', '9'])
      = some [['5']] := by
  decide

/-- C11 (amended): on every reachable structure and for every valid `num`,
`phfwdReverse(num)` contains every valid `x` with `phfwdGet(x) = [num]`, and an
element `r` of `phfwdReverse(num)` satisfies `phfwdGet(r) = [num]` exactly when
it is an element of `phfwdGetReverse(num)`. -/
theorem phfwdReverse_superset (calls : List Call) (num : Str) (hnum : Valid num) :
    ∃ pf pn pn2, runCalls calls phfwdNew = some pf ∧
      phfwdReverse (some pf) (some num) = some (some pn) ∧
      phfwdGetReverse (some pf) (some num) = some (some pn2) ∧
      (∀ x, Valid x → phfwdGet (some pf) (some x) = some (some (oneNumber num)) →
        x ∈ pn.vector.elements) ∧
      (∀ r ∈ pn.vector.elements,
        phfwdGet (some pf) (some r) = some (some (oneNumber num)) ↔
          r ∈ pn2.vector.elements) := by
  obtain ⟨pf, e, rep⟩ := reached calls
  obtain ⟨pn, hr, hmem⟩ := reverse_mem_iff rep hnum
  obtain ⟨pn2, hx2, hf⟩ := phfwdGetReverse_spec rep hnum hr
  refine ⟨pf, pn, pn2, e, hr, hx2, ?_, ?_⟩
  · intro x hx hg
    exact (hmem x).2 (mem_reverse_of_get rep hx hg)
  · intro r hrm
    rw [hf, List.mem_filter]
    constructor
    · intro hg
      exact ⟨hrm, by unfold getsTo; exact decide_eq_true hg⟩
    · intro h
      have := h.2
      unfold getsTo at this
      exact of_decide_eq_true this

theorem phfwdReverse_superset_witness :
    ∃ pf pn pn2, runCalls [Call.add (some ['1']) (some ['2']),
        Call.add (some ['1', '9']) (some ['5'])] phfwdNew = some pf ∧
      phfwdReverse (some pf) (some ['2', '9']) = some (some pn) ∧
      phfwdGetReverse (some pf) (some ['2', '9']) = some (some pn2) ∧
      (∀ x, Valid x → phfwdGet (some pf) (some x) = some (some (oneNumber ['2', '9'])) →
        x ∈ pn.vector.elements) ∧
      (∀ r ∈ pn.vector.elements,
        phfwdGet (some pf) (some r) = some (some (oneNumber ['2', '9'])) ↔
          r ∈ pn2.vector.elements) :=
  phfwdReverse_superset _ _ (by decide)

/-- C12: on a new structure, after `phfwdAdd("123", "41")` and
`phfwdAdd("124", "42")`: `phfwdGet("123")` is `["41"]`, `phfwdGet("501")` is
`["501"]` and `phfwdReverse("41")` is `["123", "41"]`, in that order. -/
theorem scenario_get_reverse :
    getAfter [Call.add (some ['1', '2', '3']) (some ['4', '1']),
        Call.add (some ['1', '2', '4']) (some ['4', '2'])] (some ['1', '2', '3'])
      = some [['4', '1']] ∧
    getAfter [Call.add (some ['1', '2', '3']) (some ['4', '1']),
        Call.add (some ['1', '2', '4']) (some ['4', '2'])] (some ['5', '0', '1'])
      = some [['5', '0', '1']] ∧
    reverseAfter [Call.add (some ['1', '2', '3']) (some ['4', '1']),
        Call.add (some ['1', '2', '4']) (some ['4', '2'])] ['4', '1']
      = some [['1', '2', '3'], ['4', '1']] := by
  decide

/-- C13 (counterexample): on a new structure, after `phfwdAdd("123", "41")` and
`phfwdAdd("124", "42")`, the string `"41"` is an element of
`phfwdGetReverse("41")`. -/
theorem scenario_getReverse_has_num :
    ∃ l, getReverseAfter [Call.add (some ['1', '2', '3']) (some ['4', '1']),
        Call.add (some ['1', '2', '4']) (some ['4', '2'])] ['4', '1'] = some l ∧
      ['4', '1'] ∈ l :=
  ⟨[['1', '2', '3'], ['4', '1']], by decide, by decide⟩

/-- C13 (amended): on a new structure, after `phfwdAdd("123", "41")` and
`phfwdAdd("124", "42")`, `phfwdGetReverse("41")` is exactly `["123", "41"]`: the
number `"41"` is part of the result, as `phfwdGet("41")` is `["41"]`. -/
theorem scenario_getReverse :
    getReverseAfter [Call.add (some ['1', '2', '3']) (some ['4', '1']),
        Call.add (some ['1', '2', '4']) (some ['4', '2'])] ['4', '1']
      = some [['1', '2', '3'], ['4', '1']] ∧
    getAfter [Call.add (some ['1', '2', '3']) (some ['4', '1']),
        Call.add (some ['1', '2', '4']) (some ['4', '2'])] (some ['4', '1'])
      = some [['4', '1']] := by
  decide

/-- C14: add then remove restores identity. On every reachable structure in
which no proper prefix of `k` has a forwarding, for valid `k ≠ v`, after
`phfwdAdd(k, v)` and then `phfwdRemove(k)`, `phfwdGet(k)` is `[k]`. -/
theorem add_remove_identity (calls : List Call) (k v : Str) (hk : Valid k) (hv : Valid v)
    (hne : k ≠ v) (hpre : ∀ p w, registered calls p = some w → p <+: k → p = k) :
    ∃ pf pf1 pf2, runCalls calls phfwdNew = some pf ∧
      phfwdAdd (some pf) (some k) (some v) = some (some pf1, true) ∧
      phfwdRemove (some pf1) (some k) = some (some pf2) ∧
      phfwdGet (some pf2) (some k) = some (some (oneNumber k)) := by
  obtain ⟨pf, e, rep⟩ := reached calls
  obtain ⟨pf1, e1, rep1⟩ := phfwdAdd_spec rep hk hv hne
  obtain ⟨pf2, e2, rep2⟩ := phfwdRemove_spec rep1 hk
  obtain ⟨x, hx, hr⟩ := phfwdGet_spec rep2 hk
  refine ⟨pf, pf1, pf2, e, e1, e2, ?_⟩
  have hno : ∀ k' v', (if k <+: k' then none else if k' = k then some v
      else registered calls k') = some v' → ¬ k' <+: k := by
    intro k' v' hm hp
    by_cases h1 : k <+: k'
    · simp [h1] at hm
    · have h2 : k' ≠ k := fun h => h1 (h ▸ List.prefix_refl _)
      simp only [h1, h2, if_false] at hm
      exact h2 (hpre k' v' hm hp)
  rcases hr with ⟨k', v', hm, _, hp, _, _⟩ | ⟨_, rfl⟩
  · exact absurd hp (hno k' v' hm)
  · exact hx

theorem add_remove_identity_witness :
    ∃ pf pf1 pf2, runCalls [] phfwdNew = some pf ∧
      phfwdAdd (some pf) (some ['1', '2']) (some ['3', '4']) = some (some pf1, true) ∧
      phfwdRemove (some pf1) (some ['1', '2']) = some (some pf2) ∧
      phfwdGet (some pf2) (some ['1', '2']) = some (some (oneNumber ['1', '2'])) :=
  add_remove_identity [] ['1', '2'] ['3', '4'] (by decide) (by decide) (by decide)
    (by intro p w h; simp [registered, forwardings] at h)

/-- C16: `phfwdRemove` changes nothing when `num` is NULL, empty or holds a
character outside `0`-`9`, `*`, `#`, and also when no trie node exists for
`num`: on every reachable structure the call returns the structure as it was,
so every later `phfwdGet` and `phfwdReverse` result is the same as before. -/
theorem phfwdRemove_noop (calls : List Call) (num : Option Str) :
    ∃ pf, runCalls calls phfwdNew = some pf ∧
      ((isPhoneNumberCorrect num = false ∨
          ∃ s, num = some s ∧ pf.heap.find (pathOf s) = none) →
        phfwdRemove (some pf) num = some (some pf)) := by
  obtain ⟨pf, e, rep⟩ := reached calls
  refine ⟨pf, e, ?_⟩
  rintro (h | ⟨s, rfl, hf⟩)
  · exact phfwdRemove_refused pf num h
  · by_cases hv : Valid s
    · exact phfwdRemove_missing rep.trie hv hf
    · apply phfwdRemove_refused
      unfold Valid at hv
      simpa using hv

/-- C17: on every reachable structure `phfwdAdd(pf, num1, num2)` returns false
if and only if `num1` is invalid or `num2` is invalid or the two are equal
(allocations succeed); on a new structure `phfwdAdd("", "1")` and
`phfwdAdd("12", "12")` return false. -/
theorem phfwdAdd_false_iff (calls : List Call) (num1 num2 : Option Str) :
    (∃ pf r, runCalls calls phfwdNew = some pf ∧ phfwdAdd (some pf) num1 num2 = some r ∧
      (r.2 = false ↔ isPhoneNumberCorrect num1 = false ∨ isPhoneNumberCorrect num2 = false ∨
        num1 = num2)) ∧
    phfwdAdd (some phfwdNew) (some []) (some ['1']) = some (some phfwdNew, false) ∧
    phfwdAdd (some phfwdNew) (some ['1', '2']) (some ['1', '2'])
      = some (some phfwdNew, false) := by
  refine ⟨?_, by decide, by decide⟩
  obtain ⟨pf, e, rep⟩ := reached calls
  by_cases h : isPhoneNumberCorrect num1 = false ∨ isPhoneNumberCorrect num2 = false ∨
      num1 = num2
  · exact ⟨pf, _, e, phfwdAdd_refused pf num1 num2 h, by simp [h]⟩
  · cases num1 with
    | none => exact absurd (Or.inl rfl) h
    | some n1 =>
      cases num2 with
      | none => exact absurd (Or.inr (Or.inl rfl)) h
      | some n2 =>
        have h1 : Valid n1 := by
          unfold Valid
          by_contra hc
          exact h (Or.inl (by simpa using hc))
        have h2 : Valid n2 := by
          unfold Valid
          by_contra hc
          exact h (Or.inr (Or.inl (by simpa using hc)))
        have h3 : n1 ≠ n2 := fun hc => h (Or.inr (Or.inr (by rw [hc])))
        obtain ⟨pf', e1, _⟩ := phfwdAdd_spec rep h1 h2 h3
        exact ⟨pf, _, e, e1, fun hc => by simp at hc, fun hc => absurd hc h⟩

/-- C18: when `phfwdAdd` refuses its arguments, because one of them is invalid
or the two are equal, it returns false and the structure it was given, with
every node, value and registry as before. -/
theorem phfwdAdd_refused_unchanged (pf : PhoneForward) (num1 num2 : Option Str)
    (h : isPhoneNumberCorrect num1 = false ∨ isPhoneNumberCorrect num2 = false ∨ num1 = num2) :
    phfwdAdd (some pf) num1 num2 = some (some pf, false) :=
  phfwdAdd_refused pf num1 num2 h

theorem phfwdAdd_refused_unchanged_witness :
    phfwdAdd (some phfwdNew) (some ['1', 'a']) (some ['2']) = some (some phfwdNew, false) :=
  phfwdAdd_refused_unchanged phfwdNew (some ['1', 'a']) (some ['2']) (Or.inl (by decide))

set_option maxRecDepth 100000

/-- C19: on a new trie, `trieInsert` of the key `"12"` and the value `"123"` with
two allocations succeeding and the third failing (the node of `"123"`) ends in a
fault: the failed `trieGetNode` of the value has freed the nodes of `"1"` and
`"12"`, and `trieDeleteUnusedBranch(trieKey)` then reads the freed node of
`"12"`. The same happens for the key `"123"` and the value `"12"` when the
fourth allocation (`listNew`) fails. With paths that share no node, key `"1"`
and value `"2"`, every failing allocation leaves the trie as it was. -/
theorem trieInsert_alloc_failure_fault :
    trieInsertA phfwdNew.heap [] ['1', '2'] ['1', '2', '3'] 2 = none ∧
    trieInsertA phfwdNew.heap [] ['1', '2', '3'] ['1', '2'] 3 = none ∧
    (∀ b, b < 4 → trieInsertA phfwdNew.heap [] ['1'] ['2'] b = some (phfwdNew.heap, false)) ∧
    trieInsertA phfwdNew.heap [] ['1'] ['2'] 4 = trieInsert phfwdNew.heap [] ['1'] ['2'] := by
  decide

/-- C20: on a non-NULL structure and for an invalid `num` (NULL, empty, or with
a character other than `0`-`9`, `*`, `#`), `phfwdGet`, `phfwdReverse` and
`phfwdGetReverse` each return an empty sequence, whose index 0 reads as
absent. -/
theorem queries_invalid_empty (pf : PhoneForward) (num : Option Str)
    (h : isPhoneNumberCorrect num = false) :
    ∃ pn, phfwdGet (some pf) num = some (some pn) ∧
      phfwdReverse (some pf) num = some (some pn) ∧
      phfwdGetReverse (some pf) num = some (some pn) ∧
      pn.vector.elements = [] ∧ phnumGet (some pn) 0 = none :=
  ⟨{ vector := vectorNew }, phfwdGet_invalid pf num h, phfwdReverse_invalid pf num h,
    phfwdGetReverse_invalid pf num h, rfl, rfl⟩

theorem queries_invalid_empty_witness :
    (∃ pn, phfwdGet (some phfwdNew) (some ['1', 'a', '2']) = some (some pn) ∧
      phfwdReverse (some phfwdNew) (some ['1', 'a', '2']) = some (some pn) ∧
      phfwdGetReverse (some phfwdNew) (some ['1', 'a', '2']) = some (some pn) ∧
      pn.vector.elements = [] ∧ phnumGet (some pn) 0 = none) ∧
    (∃ pn, phfwdGet (some phfwdNew) none = some (some pn) ∧
      phfwdReverse (some phfwdNew) none = some (some pn) ∧
      phfwdGetReverse (some phfwdNew) none = some (some pn) ∧
      pn.vector.elements = [] ∧ phnumGet (some pn) 0 = none) :=
  ⟨queries_invalid_empty phfwdNew (some ['1', 'a', '2']) (by decide),
    queries_invalid_empty phfwdNew none (by decide)⟩

/-! ## The results depend on the forwardings only -/

theorem NotAfter.antisymm_notAfter : ∀ {a b : Str}, NotAfter a b → NotAfter b a → a = b
  | [], [], _, _ => rfl
  | [], y :: b, _, h2 => absurd h2 (cmp_cons_nil y b)
  | x :: a, [], h1, _ => absurd h1 (cmp_cons_nil x a)
  | x :: a, y :: b, h1, h2 => by
    unfold NotAfter at h1 h2
    by_cases e : x = y
    · subst e
      rw [cmp_cons_cons_eq] at h1 h2
      rw [NotAfter.antisymm_notAfter h1 h2]
    · rw [cmp_cons_cons_ne _ _ e] at h1
      rw [cmp_cons_cons_ne _ _ (Ne.symm e)] at h2
      omega

/-- Sorting two arrangements of the same strings gives the same array. -/
theorem qsort_congr {l1 l2 : List Str} (hp : l1.Perm l2) (hg : ∀ x ∈ l1, Good x) :
    qsort phoneNumbersComparator l1 = qsort phoneNumbersComparator l2 := by
  haveI : IsAntisymm Str NotAfter := ⟨fun _ _ h1 h2 => NotAfter.antisymm_notAfter h1 h2⟩
  have hg2 : ∀ x ∈ l2, Good x := fun x hx => hg x (hp.symm.subset hx)
  exact List.eq_of_perm_of_sorted
    (((qsort_perm _ l1).trans hp).trans (qsort_perm _ l2).symm)
    (qsort_sorted l1 hg) (qsort_sorted l2 hg2)

theorem vectorGet_congr {v w : Vector} (h : v.elements = w.elements) (i : Nat) :
    vectorGet (some v) i = vectorGet (some w) i := by
  simp only [vectorGet, h]

theorem vectorSwap_congr {v w : Vector} (h : v.elements = w.elements) (i j : Nat) :
    (vectorSwap v i j).elements = (vectorSwap w i j).elements := by
  unfold vectorSwap
  rw [h]
  split_ifs
  · simp only [h]
  · exact h

theorem dedupLoop_congr : ∀ (n : Nat) (v w : Vector) (i j : Nat), v.elements = w.elements →
    (dedupLoop n v i j).1.elements = (dedupLoop n w i j).1.elements ∧
      (dedupLoop n v i j).2 = (dedupLoop n w i j).2
  | 0, _, _, _, _, h => ⟨h, rfl⟩
  | n + 1, v, w, i, j, h => by
    simp only [dedupLoop, vectorGet_congr h]
    split_ifs
    · exact dedupLoop_congr n _ _ _ _ (vectorSwap_congr h i j)
    · exact dedupLoop_congr n _ _ _ _ h

theorem removeLastLoop_congr : ∀ (k : Nat) (v w : Vector), v.elements = w.elements →
    (removeLastLoop k v).map (fun x => x.elements) = (removeLastLoop k w).map (fun x => x.elements)
  | 0, _, _, h => by simp [removeLastLoop, h]
  | k + 1, v, w, h => by
    simp only [removeLastLoop, vectorRemoveLast, h]
    split_ifs
    · rfl
    · exact removeLastLoop_congr k _ _ (by simp [h])

theorem vectorShrink_congr {v w : Vector} (h : v.elements = w.elements) :
    vectorShrink v = vectorShrink w := by
  unfold vectorShrink
  cases v; cases w
  simp only at h
  subst h
  rfl

/-- What `phfwdReverse` does with the array of `trieReverse` depends on the
strings in it only, and not on their order. -/
theorem reverseTail_congr {r1 r2 : Vector} {num : Str} (hp : r1.elements.Perm r2.elements)
    (hg : ∀ x ∈ r1.elements, Good x) (hnum : Good num) (pf1 pf2 : PhoneForward)
    (e1 : trieReverse pf1.heap pf1.trie num = some r1)
    (e2 : trieReverse pf2.heap pf2.trie num = some r2)
    (hv : isPhoneNumberCorrect (some num) = true) :
    phfwdReverse (some pf1) (some num) = phfwdReverse (some pf2) (some num) := by
  have hs : (vectorSort (vectorAdd r1 (strCopy num)) phoneNumbersComparator).elements
      = (vectorSort (vectorAdd r2 (strCopy num)) phoneNumbersComparator).elements := by
    simp only [vectorSort, vectorAdd_elements, strCopy]
    apply qsort_congr (hp.append_right _)
    intro x hx
    rcases List.mem_append.1 hx with h | h
    · exact hg x h
    · rw [List.mem_singleton.1 h]; exact hnum
  have hsize : vectorSize (some (vectorSort (vectorAdd r1 (strCopy num)) phoneNumbersComparator))
      = vectorSize (some (vectorSort (vectorAdd r2 (strCopy num)) phoneNumbersComparator)) := by
    simp only [vectorSize, hs]
  simp only [phfwdReverse, hv, Bool.not_true, Bool.false_eq_true, if_false, e1, e2, hsize]
  obtain ⟨d1, d2⟩ := dedupLoop_congr
    (vectorSize (some (vectorSort (vectorAdd r2 (strCopy num)) phoneNumbersComparator)) - 1)
    _ _ 1 1 hs
  generalize dedupLoop _ (vectorSort (vectorAdd r1 (strCopy num)) phoneNumbersComparator) 1 1
    = x1 at d1 d2
  generalize dedupLoop _ (vectorSort (vectorAdd r2 (strCopy num)) phoneNumbersComparator) 1 1
    = x2 at d1 d2
  obtain ⟨v1, j1⟩ := x1
  obtain ⟨v2, j2⟩ := x2
  simp only at d1 d2 ⊢
  subst d2
  have hr := removeLastLoop_congr
    (vectorSize (some (vectorSort (vectorAdd r2 (strCopy num)) phoneNumbersComparator)) - j1)
    v1 v2 d1
  cases h1 : removeLastLoop
      (vectorSize (some (vectorSort (vectorAdd r2 (strCopy num)) phoneNumbersComparator)) - j1)
      v1 with
  | none =>
    rw [h1] at hr
    cases h2 : removeLastLoop
        (vectorSize (some (vectorSort (vectorAdd r2 (strCopy num)) phoneNumbersComparator)) - j1)
        v2 with
    | none => rfl
    | some w2 => rw [h2] at hr; simp at hr
  | some w1 =>
    rw [h1] at hr
    cases h2 : removeLastLoop
        (vectorSize (some (vectorSort (vectorAdd r2 (strCopy num)) phoneNumbersComparator)) - j1)
        v2 with
    | none => rw [h2] at hr; simp at hr
    | some w2 =>
      rw [h2] at hr
      simp only [Option.map_some', Option.some.injEq] at hr
      simp only [phnumNew, vectorShrink_congr hr]

/-! ## The registry of a node holds the keys that forward to it, each once -/

theorem mem_registryAt_iff {h : Heap} (l : Linked h) {v : Str} (hv : Valid v) (k : Str) :
    k ∈ (registryAt h (pathOf v)).map Prod.snd ↔ Fwd h k v := by
  constructor
  · intro hin
    unfold registryAt at hin
    cases hf : h.find (pathOf v) with
    | none => rw [hf] at hin; simp at hin
    | some nd =>
      rw [hf] at hin
      simp only [List.mem_map] at hin
      obtain ⟨⟨c, k'⟩, hmem, rfl⟩ := hin
      cases hk : nd.keys with
      | none => rw [hk] at hmem; simp at hmem
      | some ring =>
        rw [hk] at hmem
        obtain ⟨v', hfwd, hp, hv', _⟩ := fwd_of_reg l hf hk hmem
        have h1 : v' = v := pathOf_inj hv' hv hp
        rw [← h1]; exact hfwd
  · intro hf
    obtain ⟨_, nd, ring, c, g1, g2, g3⟩ := reg_of_fwd l hf
    unfold registryAt
    rw [g1]
    show k ∈ List.map Prod.snd (nd.keys.getD [])
    rw [g2]
    exact List.mem_map.2 ⟨(c, k), g3, rfl⟩

theorem registryAt_nodup {h : Heap} (l : Linked h) (q : TriePtr) :
    ((registryAt h q).map Prod.snd).Nodup := by
  unfold registryAt
  cases hf : h.find q with
  | none => simp
  | some nd =>
    show ((nd.keys.getD []).map Prod.snd).Nodup
    cases hk : nd.keys with
    | none => simp
    | some ring =>
      have hv : view h q = some nd.pay := view_eq_some hf
      have hk' : nd.pay.keys = some ring := hk
      have hnd := l.ringNodup q nd.pay ring hv hk'
      simp only [Option.getD_some]
      refine List.Nodup.map_on ?_ (List.Nodup.of_map _ hnd)
      rintro ⟨c1, k1⟩ h1 ⟨c2, k2⟩ h2 (e : k1 = k2)
      subst e
      obtain ⟨_, _, kn1, v1, a1, _, _, _, a5⟩ := l.ring q nd.pay ring c1 k1 hv hk' h1
      obtain ⟨_, _, kn2, v2, b1, _, _, _, b5⟩ := l.ring q nd.pay ring c2 k1 hv hk' h2
      rw [a1] at b1
      simp only [Option.some.injEq] at b1
      subst b1
      rw [a5] at b5
      simp only [Option.some.injEq, ListPtr.mk.injEq, true_and] at b5
      rw [b5]

theorem registryAt_perm {h1 h2 : Heap} (l1 : Linked h1) (l2 : Linked h2)
    (hfw : ∀ k v, Fwd h1 k v ↔ Fwd h2 k v) {v : Str} (hv : Valid v) :
    ((registryAt h1 (pathOf v)).map Prod.snd).Perm ((registryAt h2 (pathOf v)).map Prod.snd) := by
  rw [List.perm_ext_iff_of_nodup (registryAt_nodup l1 _) (registryAt_nodup l2 _)]
  intro k
  rw [mem_registryAt_iff l1 hv, mem_registryAt_iff l2 hv]
  exact hfw k v

/-! ## `trieReverse` on two tries with the same forwardings -/

theorem trieReverseLoop_step (h : Heap) (c : Char) (val : Str) (trie : TriePtr) (acc : Vector)
    (hc : strToInt c < ALPHABET_SIZE) :
    trieReverseLoop h (c :: val) trie acc =
      if (h.find (strToInt c :: trie)).isSome = true then
        trieReverseLoop h val (strToInt c :: trie)
          (trieReverseCells val (registryAt h (strToInt c :: trie)) acc)
      else some acc := by
  cases hf : h.find (strToInt c :: trie) with
  | none => simp [trieReverseLoop, next, hc, hf]
  | some nd =>
    cases hk : nd.keys with
    | none =>
      simp [trieReverseLoop, next, hc, hf, hk, listEmpty, registryAt, trieReverseCells]
    | some ring =>
      cases ring with
      | nil => simp [trieReverseLoop, next, hc, hf, hk, listEmpty, registryAt, trieReverseCells]
      | cons a ring => simp [trieReverseLoop, next, hc, hf, hk, listEmpty, registryAt]

theorem no_fwd_of_missing {h : Heap} (s : Shape h) (l : Linked h) {pre rest num : Str}
    {c : Char} (hpre : pre ++ c :: rest = num)
    (hmiss : ¬ (h.find (strToInt c :: pathOf pre)).isSome = true) :
    ∀ d k, pre.length < d → ¬ Fwd h k (num.take d) := by
  intro d k hd hf
  obtain ⟨_, nd, ring, c0, g1, _, _⟩ := reg_of_fwd l hf
  apply hmiss
  exact live_child_of_fwd s (c := c) (t := rest) hd (q := pathOf (num.take d))
    (by rw [g1]; rfl) (by rw [hpre])

/-- Below a prefix after which no value of a forwarding lies on the path of
`num`, the loop of `trieReverse` collects nothing. -/
theorem trieReverseLoop_none {h : Heap} (l : Linked h) (num : Str) (hnum : Valid num) :
    ∀ (rest pre : Str) (acc : Vector), pre ++ rest = num →
    (∀ d k, pre.length < d → ¬ Fwd h k (num.take d)) →
    trieReverseLoop h rest (pathOf pre) acc = some acc := by
  intro rest
  induction rest with
  | nil => intro pre acc _ _; rfl
  | cons c rest ih =>
    intro pre acc hpre hno
    have hc : badChar c = false := hnum.good c (by rw [← hpre]; simp)
    have hlt := strToInt_lt c hc
    have hpre' : (pre ++ [c]) ++ rest = num := by rw [← hpre]; simp
    have hvalid : Valid (pre ++ [c]) := by
      have := hnum
      rw [← hpre] at this
      exact this.of_append_cons
    have htake : num.take (pre.length + 1) = pre ++ [c] := by
      rw [← hpre]; exact take_succ_of_append pre c rest
    have hchild : pathOf (pre ++ [c]) = strToInt c :: pathOf pre := pathOf_snoc pre c
    rw [trieReverseLoop_step h c rest _ acc hlt]
    split_ifs with hex
    · have hreg : registryAt h (strToInt c :: pathOf pre) = [] := by
        rw [← hchild]
        have : (registryAt h (pathOf (pre ++ [c]))).map Prod.snd = [] := by
          rw [List.eq_nil_iff_forall_not_mem]
          intro k hk
          rw [mem_registryAt_iff l hvalid] at hk
          rw [← htake] at hk
          exact hno _ k (Nat.lt_succ_self _) hk
        exact List.map_eq_nil_iff.1 this
      rw [hreg]
      have := ih (pre ++ [c]) acc hpre' (by
        intro d k hd
        apply hno d k
        simp only [List.length_append, List.length_cons, List.length_nil] at hd
        omega)
      rw [hchild] at this
      exact this
    · rfl

theorem trieReverseLoop_perm {h1 h2 : Heap} (s1 : Shape h1) (s2 : Shape h2) (l1 : Linked h1)
    (l2 : Linked h2) (hfw : ∀ k v, Fwd h1 k v ↔ Fwd h2 k v) (num : Str) (hnum : Valid num) :
    ∀ (rest pre : Str) (acc1 acc2 : Vector), pre ++ rest = num →
    acc1.elements.Perm acc2.elements →
    ∃ r1 r2, trieReverseLoop h1 rest (pathOf pre) acc1 = some r1 ∧
      trieReverseLoop h2 rest (pathOf pre) acc2 = some r2 ∧ r1.elements.Perm r2.elements := by
  intro rest
  induction rest with
  | nil => intro pre acc1 acc2 _ hp; exact ⟨acc1, acc2, rfl, rfl, hp⟩
  | cons c rest ih =>
    intro pre acc1 acc2 hpre hp
    have hc : badChar c = false := hnum.good c (by rw [← hpre]; simp)
    have hlt := strToInt_lt c hc
    have hpre' : (pre ++ [c]) ++ rest = num := by rw [← hpre]; simp
    have hvalid : Valid (pre ++ [c]) := by
      have := hnum
      rw [← hpre] at this
      exact this.of_append_cons
    have hchild : pathOf (pre ++ [c]) = strToInt c :: pathOf pre := pathOf_snoc pre c
    by_cases e1 : (h1.find (strToInt c :: pathOf pre)).isSome = true
    · by_cases e2 : (h2.find (strToInt c :: pathOf pre)).isSome = true
      · rw [trieReverseLoop_step h1 c rest _ acc1 hlt, trieReverseLoop_step h2 c rest _ acc2 hlt,
          if_pos e1, if_pos e2, ← hchild]
        apply ih (pre ++ [c]) _ _ hpre'
        rw [trieReverseCells_elements, trieReverseCells_elements]
        apply hp.append
        have := (registryAt_perm l1 l2 hfw hvalid).map (fun k => k ++ rest)
        simpa [List.map_map, Function.comp] using this
      · have hno := no_fwd_of_missing s2 l2 hpre e2
        refine ⟨acc1, acc2, ?_, ?_, hp⟩
        · exact trieReverseLoop_none l1 num hnum (c :: rest) pre acc1 hpre
            (fun d k hd hf => hno d k hd ((hfw _ _).1 hf))
        · rw [trieReverseLoop_step h2 c rest _ acc2 hlt, if_neg e2]
    · have hno := no_fwd_of_missing s1 l1 hpre e1
      refine ⟨acc1, acc2, ?_, ?_, hp⟩
      · rw [trieReverseLoop_step h1 c rest _ acc1 hlt, if_neg e1]
      · exact trieReverseLoop_none l2 num hnum (c :: rest) pre acc2 hpre
          (fun d k hd hf => hno d k hd ((hfw _ _).2 hf))

/-- Two well-formed structures that hold the same forwardings return the same
`phfwdGet` result for every valid number. -/
theorem phfwdGet_congr {pf1 pf2 : PhoneForward} {m : Str → Option Str} (r1 : Rep pf1 m)
    (r2 : Rep pf2 m) {num : Str} (hnum : Valid num) :
    phfwdGet (some pf1) (some num) = phfwdGet (some pf2) (some num) := by
  obtain ⟨x, hx, hr⟩ := phfwdGet_spec r1 hnum
  obtain ⟨y, hy, hr'⟩ := phfwdGet_spec r2 hnum
  rw [hx, hy, hr.unique hr']

/-- Two well-formed structures that hold the same forwardings return the same
`phfwdReverse` result for every valid number. -/
theorem phfwdReverse_congr {pf1 pf2 : PhoneForward} {m : Str → Option Str} (r1 : Rep pf1 m)
    (r2 : Rep pf2 m) {num : Str} (hnum : Valid num) :
    phfwdReverse (some pf1) (some num) = phfwdReverse (some pf2) (some num) := by
  have hfw : ∀ k v, Fwd pf1.heap k v ↔ Fwd pf2.heap k v := fun k v =>
    ((r1.fwd k v).symm.trans (r2.fwd k v))
  obtain ⟨v1, v2, e1, e2, hp⟩ := trieReverseLoop_perm r1.shape r2.shape r1.linked r2.linked
    hfw num hnum num [] vectorNew vectorNew rfl (List.Perm.refl _)
  obtain ⟨v1', e1', hmem⟩ := trieReverse_spec r1.shape r1.linked hnum
  have e1'' : trieReverse pf1.heap pf1.trie num = some v1 := by
    rw [r1.trie]; exact e1
  have e2'' : trieReverse pf2.heap pf2.trie num = some v2 := by
    rw [r2.trie]; exact e2
  have hv1 : v1' = v1 := by
    have : trieReverse pf1.heap [] num = some v1 := e1
    rw [e1'] at this
    exact Option.some.inj this
  subst hv1
  refine reverseTail_congr hp ?_ hnum.isGood pf1 pf2 e1'' e2'' hnum
  intro x hx
  exact (((candidate_iff r1 x).1 ((hmem x).1 hx)).valid r1 hnum).isGood

/-- C15: `phfwdRemove(p)` for a valid `p` deletes the forwardings whose key
begins with `p` and no others. On every reachable structure, for every valid
`x`, after the call `phfwdGet(x)` is the one string that the forwardings
registered before, without those whose key begins with `p`, rewrite `x` to; the
strings of `phfwdReverse(x)` are `x` and the candidates over those same
forwardings; `phfwdGet(x)` is what it was before the call when `x` does not
begin with `p`; and every structure reached by calls that register exactly the
forwardings registered before without those whose key begins with `p` returns
the same `phfwdGet(x)` and the same `phfwdReverse(x)`. -/
theorem phfwdRemove_frame (calls : List Call) (p x : Str) (hp : Valid p) (hx : Valid x) :
    ∃ pf pf' y pn, runCalls calls phfwdNew = some pf ∧
      phfwdRemove (some pf) (some p) = some (some pf') ∧
      phfwdGet (some pf') (some x) = some (some (oneNumber y)) ∧
      Rewritten (fun k => if p <+: k then none else registered calls k) x y ∧
      phfwdReverse (some pf') (some x) = some (some pn) ∧
      (∀ r, r ∈ pn.vector.elements ↔
        r = x ∨ Candidate (fun k => if p <+: k then none else registered calls k) x r) ∧
      (¬ p <+: x → phfwdGet (some pf') (some x) = phfwdGet (some pf) (some x)) ∧
      (∀ calls2 pf2, runCalls calls2 phfwdNew = some pf2 →
        (∀ k, registered calls2 k = if p <+: k then none else registered calls k) →
        phfwdGet (some pf2) (some x) = phfwdGet (some pf') (some x) ∧
          phfwdReverse (some pf2) (some x) = phfwdReverse (some pf') (some x)) := by
  obtain ⟨pf, e, rep⟩ := reached calls
  obtain ⟨pf', e1, rep'⟩ := phfwdRemove_spec rep hp
  obtain ⟨y, hy, hr⟩ := phfwdGet_spec rep' hx
  obtain ⟨pn, hpn, hmem⟩ := reverse_mem_iff rep' hx
  refine ⟨pf, pf', y, pn, e, e1, hy, hr, hpn, hmem, ?_, ?_⟩
  swap
  · intro calls2 pf2 e2 hm
    have rep2 := rep_of_reached e2
    have hfun : registered calls2 = fun k => if p <+: k then none else registered calls k :=
      funext hm
    rw [hfun] at rep2
    exact ⟨phfwdGet_congr rep2 rep' hx, phfwdReverse_congr rep2 rep' hx⟩
  intro hnp
  obtain ⟨y0, hy0, hr0⟩ := phfwdGet_spec rep hx
  have hagree : ∀ k, k <+: x →
      (fun k => if p <+: k then none else registered calls k) k = registered calls k := by
    intro k hk
    have : ¬ p <+: k := fun h => hnp (h.trans hk)
    simp [this]
  have := hr.unique (hr0.congr hagree)
  rw [hy, hy0, this]

theorem phfwdRemove_frame_witness :
    ∃ pf pf' y pn, runCalls [Call.add (some ['1', '2']) (some ['7']),
        Call.add (some ['3']) (some ['1', '2', '5'])] phfwdNew = some pf ∧
      phfwdRemove (some pf) (some ['1']) = some (some pf') ∧
      phfwdGet (some pf') (some ['3', '4']) = some (some (oneNumber y)) ∧
      Rewritten (fun k => if ['1'] <+: k then none
        else registered [Call.add (some ['1', '2']) (some ['7']),
          Call.add (some ['3']) (some ['1', '2', '5'])] k) ['3', '4'] y ∧
      phfwdReverse (some pf') (some ['3', '4']) = some (some pn) ∧
      (∀ r, r ∈ pn.vector.elements ↔
        r = ['3', '4'] ∨ Candidate (fun k => if ['1'] <+: k then none
          else registered [Call.add (some ['1', '2']) (some ['7']),
            Call.add (some ['3']) (some ['1', '2', '5'])] k) ['3', '4'] r) ∧
      (¬ ['1'] <+: ['3', '4'] →
        phfwdGet (some pf') (some ['3', '4']) = phfwdGet (some pf) (some ['3', '4'])) ∧
      (∀ calls2 pf2, runCalls calls2 phfwdNew = some pf2 →
        (∀ k, registered calls2 k = if ['1'] <+: k then none
          else registered [Call.add (some ['1', '2']) (some ['7']),
            Call.add (some ['3']) (some ['1', '2', '5'])] k) →
        phfwdGet (some pf2) (some ['3', '4']) = phfwdGet (some pf') (some ['3', '4']) ∧
          phfwdReverse (some pf2) (some ['3', '4'])
            = phfwdReverse (some pf') (some ['3', '4'])) :=
  phfwdRemove_frame _ _ _ (by decide) (by decide)

theorem phfwdRemove_noop_witness :
    ∃ pf, runCalls [Call.add (some ['1', '2']) (some ['3', '4'])] phfwdNew = some pf ∧
      phfwdRemove (some pf) (some ['1', '2', '7']) = some (some pf) := by
  obtain ⟨pf, e, h⟩ := phfwdRemove_noop [Call.add (some ['1', '2']) (some ['3', '4'])]
    (some ['1', '2', '7'])
  refine ⟨pf, e, h (Or.inr ⟨_, rfl, ?_⟩)⟩
  have d : (runCalls [Call.add (some ['1', '2']) (some ['3', '4'])] phfwdNew).map
      (fun q => q.heap.find (pathOf ['1', '2', '7'])) = some none := by decide
  rw [e] at d
  simpa using d

/-! ## Validity, symbol codes and the comparator -/

/-- C21: `isPhoneNumberCorrect(s)` is true if and only if `s` is not NULL, not
empty, and every character of `s` is a digit `0`-`9`, `*` or `#`. -/
theorem isPhoneNumberCorrect_iff (s : Option Str) :
    isPhoneNumberCorrect s = true ↔
      ∃ str, s = some str ∧ str ≠ [] ∧
        ∀ c ∈ str, ('0' ≤ c ∧ c ≤ '9') ∨ c = '*' ∨ c = '#' := by
  have e0 : ('0' : Char).toNat = 48 := rfl
  have e9 : ('9' : Char).toNat = 57 := rfl
  have hch : ∀ c : Char, badChar c = false ↔ (('0' ≤ c ∧ c ≤ '9') ∨ c = '*' ∨ c = '#') := by
    intro c
    rw [badChar_false_iff, char_le_iff, char_le_iff, e0, e9]
    tauto
  cases s with
  | none => simp [isPhoneNumberCorrect]
  | some str =>
    have := valid_iff str
    unfold Valid at this
    rw [this]
    constructor
    · rintro ⟨h1, h2⟩
      exact ⟨str, rfl, h1, fun c hc => (hch c).1 (h2 c hc)⟩
    · rintro ⟨str', e, h1, h2⟩
      simp only [Option.some.injEq] at e
      subst e
      exact ⟨h1, fun c hc => (hch c).2 (h2 c hc)⟩

theorem cmp_neg_iff : ∀ (a b : Str), phoneNumbersComparator a b < 0 ↔
    ((∃ t, t ≠ [] ∧ b = a ++ t) ∨
      ∃ p x y ra rb, a = p ++ x :: ra ∧ b = p ++ y :: rb ∧ x ≠ y ∧ strToInt x < strToInt y)
  | [], [] => by
    simp [phoneNumbersComparator]
  | [], y :: b => by
    simp only [phoneNumbersComparator, List.nil_append]
    constructor
    · intro _; exact Or.inl ⟨y :: b, by simp, rfl⟩
    · intro _; decide
  | x :: a, [] => by
    simp [phoneNumbersComparator]
  | x :: a, y :: b => by
    by_cases e : x = y
    · subst e
      rw [cmp_cons_cons_eq, cmp_neg_iff a b]
      constructor
      · rintro (⟨t, ht, rfl⟩ | ⟨p, u, w, ra, rb, rfl, rfl, hne, hlt⟩)
        · exact Or.inl ⟨t, ht, rfl⟩
        · exact Or.inr ⟨x :: p, u, w, ra, rb, rfl, rfl, hne, hlt⟩
      · rintro (⟨t, ht, h⟩ | ⟨p, u, w, ra, rb, h1, h2, hne, hlt⟩)
        · simp only [List.cons_append, List.cons.injEq, true_and] at h
          exact Or.inl ⟨t, ht, h⟩
        · cases p with
          | nil =>
            simp only [List.nil_append, List.cons.injEq] at h1 h2
            exact absurd (h1.1.symm.trans h2.1) hne
          | cons z p =>
            simp only [List.cons_append, List.cons.injEq] at h1 h2
            exact Or.inr ⟨p, u, w, ra, rb, h1.2, h2.2, hne, hlt⟩
    · have hval : phoneNumbersComparator (x :: a) (y :: b) < 0 ↔ strToInt x < strToInt y := by
        simp only [phoneNumbersComparator, ne_eq, e, not_false_eq_true, if_true]
        split_ifs with h <;> simp [h]
      rw [hval]
      constructor
      · intro h
        exact Or.inr ⟨[], x, y, a, b, rfl, rfl, e, h⟩
      · rintro (⟨t, _, h⟩ | ⟨p, u, w, ra, rb, h1, h2, hne, hlt⟩)
        · simp only [List.cons_append, List.cons.injEq] at h
          exact absurd h.1.symm e
        · cases p with
          | nil =>
            simp only [List.nil_append, List.cons.injEq] at h1 h2
            rw [h1.1, h2.1]; exact hlt
          | cons z p =>
            simp only [List.cons_append, List.cons.injEq] at h1 h2
            exact absurd (h1.1.trans h2.1.symm) e

theorem cmp_zero_iff : ∀ (a b : Str), phoneNumbersComparator a b = 0 ↔ a = b
  | [], [] => by simp [phoneNumbersComparator]
  | [], y :: b => by simp [phoneNumbersComparator]
  | x :: a, [] => by simp [phoneNumbersComparator]
  | x :: a, y :: b => by
    by_cases e : x = y
    · subst e
      rw [cmp_cons_cons_eq, cmp_zero_iff a b]
      simp
    · simp only [phoneNumbersComparator, ne_eq, e, not_false_eq_true, if_true, List.cons.injEq,
        false_and, iff_false]
      split_ifs <;> decide

/-- C22: for valid numbers `a` and `b`, `phoneNumbersComparator(a, b)` is
negative if and only if `a` is a proper prefix of `b` or, at the first position
where they differ, the symbol code (`strToInt`) of `a` is smaller than that of
`b`; it is zero if and only if `a = b`; and it is positive otherwise. -/
theorem phoneNumbersComparator_order (a b : Str) (ha : Valid a) (hb : Valid b) :
    (phoneNumbersComparator a b < 0 ↔
      ((∃ t, t ≠ [] ∧ b = a ++ t) ∨
        ∃ p x y ra rb, a = p ++ x :: ra ∧ b = p ++ y :: rb ∧ x ≠ y ∧
          strToInt x < strToInt y)) ∧
    (phoneNumbersComparator a b = 0 ↔ a = b) ∧
    (0 < phoneNumbersComparator a b ↔
      ¬ ((∃ t, t ≠ [] ∧ b = a ++ t) ∨
        ∃ p x y ra rb, a = p ++ x :: ra ∧ b = p ++ y :: rb ∧ x ≠ y ∧
          strToInt x < strToInt y) ∧ a ≠ b) := by
  refine ⟨cmp_neg_iff a b, cmp_zero_iff a b, ?_⟩
  rw [← cmp_neg_iff a b]
  have hz : a ≠ b ↔ phoneNumbersComparator a b ≠ 0 := not_iff_not.2 (cmp_zero_iff a b).symm
  rw [hz]
  omega

theorem phoneNumbersComparator_order_witness :
    (phoneNumbersComparator ['1', '9'] ['1', '*', '0'] < 0 ↔
      ((∃ t, t ≠ [] ∧ ['1', '*', '0'] = ['1', '9'] ++ t) ∨
        ∃ p x y ra rb, ['1', '9'] = p ++ x :: ra ∧ ['1', '*', '0'] = p ++ y :: rb ∧ x ≠ y ∧
          strToInt x < strToInt y)) ∧
    (phoneNumbersComparator ['1', '9'] ['1', '*', '0'] = 0 ↔ ['1', '9'] = ['1', '*', '0']) ∧
    (0 < phoneNumbersComparator ['1', '9'] ['1', '*', '0'] ↔
      ¬ ((∃ t, t ≠ [] ∧ ['1', '*', '0'] = ['1', '9'] ++ t) ∨
        ∃ p x y ra rb, ['1', '9'] = p ++ x :: ra ∧ ['1', '*', '0'] = p ++ y :: rb ∧ x ≠ y ∧
          strToInt x < strToInt y) ∧ ['1', '9'] ≠ ['1', '*', '0']) :=
  phoneNumbersComparator_order _ _ (by decide) (by decide)

/-- C28: `strToInt` maps `0`-`9` to 0-9, `*` to 10, `#` to 11 and every other
character to 12; it is injective on the twelve symbols; and for a valid number
every character has a code below 12, so that `trie->next[strToInt(c)]` is inside
the array of `ALPHABET_SIZE` children. -/
theorem strToInt_codes :
    (strToInt '0' = 0 ∧ strToInt '1' = 1 ∧ strToInt '2' = 2 ∧ strToInt '3' = 3 ∧
      strToInt '4' = 4 ∧ strToInt '5' = 5 ∧ strToInt '6' = 6 ∧ strToInt '7' = 7 ∧
      strToInt '8' = 8 ∧ strToInt '9' = 9 ∧ strToInt '*' = 10 ∧ strToInt '#' = 11) ∧
    (∀ c : Char, '0' ≤ c → c ≤ '9' → strToInt c = c.toNat - '0'.toNat) ∧
    (∀ c : Char, ¬ ('0' ≤ c ∧ c ≤ '9') → c ≠ '*' → c ≠ '#' → strToInt c = 12) ∧
    (∀ c d : Char, strToInt c < 12 → strToInt d < 12 → strToInt c = strToInt d → c = d) ∧
    (∀ num, Valid num → ∀ c ∈ num, strToInt c < ALPHABET_SIZE ∧
      ∀ h trie, (next h trie (strToInt c)).isSome = true) := by
  have hgood : ∀ c : Char, strToInt c < 12 → badChar c = false := by
    intro c hc
    by_contra hb
    have hb' : badChar c = true := by simpa using hb
    unfold badChar at hb'
    simp only [Bool.and_eq_true, Bool.or_eq_true, decide_eq_true_eq, ne_eq,
      decide_not, Bool.not_eq_true', decide_eq_false_iff_not] at hb'
    obtain ⟨⟨h1, h2⟩, h3⟩ := hb'
    have : ¬ ('0' ≤ c ∧ c ≤ '9') := by
      rintro ⟨a, b⟩
      rcases h3 with h3 | h3
      · exact absurd a (not_le.2 h3)
      · exact absurd b (not_le.2 h3)
    unfold strToInt at hc
    simp only [this, if_false, h1, h2] at hc
    omega
  refine ⟨by decide, ?_, ?_, ?_, ?_⟩
  · intro c h1 h2
    simp [strToInt, h1, h2]
  · intro c h1 h2 h3
    simp [strToInt, h1, h2, h3]
  · intro c d hc hd h
    exact strToInt_inj c d (hgood c hc) (hgood d hd) h
  · intro num hnum c hc
    have := strToInt_lt c (hnum.good c hc)
    refine ⟨this, fun h trie => ?_⟩
    simp [next, this]

theorem good_of_code_lt (c : Char) (hc : strToInt c < ALPHABET_SIZE) : badChar c = false := by
  unfold ALPHABET_SIZE at hc
  by_contra hb
  have hb' : badChar c = true := by simpa using hb
  unfold badChar at hb'
  simp only [Bool.and_eq_true, Bool.or_eq_true, decide_eq_true_eq, ne_eq,
    decide_not, Bool.not_eq_true', decide_eq_false_iff_not] at hb'
  obtain ⟨⟨h1, h2⟩, h3⟩ := hb'
  have : ¬ ('0' ≤ c ∧ c ≤ '9') := by
    rintro ⟨a, b⟩
    rcases h3 with h3 | h3
    · exact absurd a (not_le.2 h3)
    · exact absurd b (not_le.2 h3)
  unfold strToInt at hc
  simp only [this, if_false, h1, h2] at hc
  omega

/-- The string of an allocated node is empty (the root) or a valid number. -/
theorem valid_of_live {h : Heap} (hs : Shape h) {k : Str}
    (hl : (h.find (pathOf k)).isSome = true) : k = [] ∨ Valid k := by
  by_cases hk : k = []
  · exact Or.inl hk
  · right
    rw [valid_iff]
    refine ⟨hk, fun c hc => good_of_code_lt c ?_⟩
    apply hs.lt_of_live _ hl
    unfold pathOf
    simp only [List.mem_reverse, List.mem_map]
    exact ⟨c, hc, rfl⟩

theorem Rewritten.valid_result {pf : PhoneForward} {m : Str → Option Str} (rep : Rep pf m)
    {num x : Str} (hnum : Valid num) (hr : Rewritten m num x) : Valid x := by
  rcases hr with ⟨k, v, hm, _, _, _, rfl⟩ | ⟨_, rfl⟩
  · have hv : Valid v := (reg_of_fwd rep.linked ((rep.fwd _ _).1 hm)).1
    rw [valid_iff]
    refine ⟨by simp [hv.ne_nil], ?_⟩
    intro c hc
    rcases List.mem_append.1 hc with h | h
    · exact hv.good c h
    · exact hnum.good c (List.mem_of_mem_drop h)
  · exact hnum

theorem not_correct_of_not_valid {s : Str} (h : ¬ Valid s) :
    isPhoneNumberCorrect (some s) = false := by
  unfold Valid at h
  simpa using h

/-- C25: the removal sentinel is never observable. On every reachable
structure the root is the only node whose value is the sentinel `"!"`, the
value of every other node is absent or a valid number, and every string that
`phfwdGet`, `phfwdReverse` or `phfwdGetReverse` returns is made of the
characters `0`-`9`, `*`, `#` only. -/
theorem sentinel_not_observable (calls : List Call) :
    ∃ pf, runCalls calls phfwdNew = some pf ∧
      (∀ p nd, pf.heap.find p = some nd → (nd.value = some ROOT_VALUE ↔ p = [])) ∧
      (∀ p nd v, p ≠ [] → pf.heap.find p = some nd → nd.value = some v → Valid v) ∧
      (∀ num pn, phfwdGet (some pf) num = some (some pn) →
        ∀ s ∈ pn.vector.elements, Valid s) ∧
      (∀ num pn, phfwdReverse (some pf) num = some (some pn) →
        ∀ s ∈ pn.vector.elements, Valid s) ∧
      (∀ num pn, phfwdGetReverse (some pf) num = some (some pn) →
        ∀ s ∈ pn.vector.elements, Valid s) := by
  obtain ⟨pf, e, rep⟩ := reached calls
  have hinv : ∀ (num : Option Str), (∃ s, num = some s ∧ Valid s) ∨
      isPhoneNumberCorrect num = false := by
    intro num
    cases num with
    | none => exact Or.inr rfl
    | some s =>
      by_cases hv : Valid s
      · exact Or.inl ⟨s, rfl, hv⟩
      · exact Or.inr (not_correct_of_not_valid hv)
  refine ⟨pf, e, ?_, ?_, ?_, ?_, ?_⟩
  · intro p nd hf
    constructor
    · intro hv
      by_contra hp
      exact rep.nomarker p nd.pay hp (view_eq_some hf) hv
    · intro hp
      subst hp
      exact rep.linked.root nd.pay (view_eq_some hf)
  · intro p nd v hp hf hv
    have hne : v ≠ ROOT_VALUE := by
      intro hc
      rw [hc] at hv
      exact rep.nomarker p nd.pay hp (view_eq_some hf) hv
    exact (rep.linked.val p nd.pay v (view_eq_some hf) hv hne).1
  · intro num pn hg s hs
    rcases hinv num with ⟨n, rfl, hn⟩ | hbad
    · obtain ⟨x, hx, hr⟩ := phfwdGet_spec rep hn
      rw [hx] at hg
      simp only [Option.some.injEq] at hg
      subst hg
      rw [oneNumber_elements, List.mem_singleton] at hs
      rw [hs]
      exact hr.valid_result rep hn
    · rw [phfwdGet_invalid pf num hbad] at hg
      simp only [Option.some.injEq] at hg
      subst hg
      simp [vectorNew] at hs
  · intro num pn hg s hs
    rcases hinv num with ⟨n, rfl, hn⟩ | hbad
    · exact phfwdReverse_valid rep hn hg s hs
    · rw [phfwdReverse_invalid pf num hbad] at hg
      simp only [Option.some.injEq] at hg
      subst hg
      simp [vectorNew] at hs
  · intro num pn hg s hs
    rcases hinv num with ⟨n, rfl, hn⟩ | hbad
    · obtain ⟨pn1, h1, _⟩ := reverse_mem_iff rep hn
      obtain ⟨pn2, h2, hf⟩ := phfwdGetReverse_spec rep hn h1
      rw [h2] at hg
      simp only [Option.some.injEq] at hg
      subst hg
      rw [hf] at hs
      exact phfwdReverse_valid rep hn h1 s (List.mem_of_mem_filter hs)
    · rw [phfwdGetReverse_invalid pf num hbad] at hg
      simp only [Option.some.injEq] at hg
      subst hg
      simp [vectorNew] at hs

/-- C30: frame of add. On every reachable structure, for valid `k ≠ v` and a
valid `x`: `phfwdAdd(k, v)` succeeds, and `phfwdGet(x)` is the same before and
after it when `k` is not a prefix of `x`, and also when a registered key longer
than `k` is a prefix of `x`. -/
theorem phfwdAdd_frame (calls : List Call) (k v x : Str) (hk : Valid k) (hv : Valid v)
    (hne : k ≠ v) (hx : Valid x) :
    ∃ pf pf', runCalls calls phfwdNew = some pf ∧
      phfwdAdd (some pf) (some k) (some v) = some (some pf', true) ∧
      (¬ k <+: x → phfwdGet (some pf') (some x) = phfwdGet (some pf) (some x)) ∧
      ((∃ k' v', registered calls k' = some v' ∧ k' <+: x ∧ k.length < k'.length) →
        phfwdGet (some pf') (some x) = phfwdGet (some pf) (some x)) := by
  obtain ⟨pf, e, rep⟩ := reached calls
  obtain ⟨pf', e1, rep'⟩ := phfwdAdd_spec rep hk hv hne
  obtain ⟨y0, h0, r0⟩ := phfwdGet_spec rep hx
  obtain ⟨y1, h1, r1⟩ := phfwdGet_spec rep' hx
  refine ⟨pf, pf', e, e1, ?_, ?_⟩
  · intro hnp
    have hagree : ∀ p, p <+: x →
        (fun y => if y = k then some v else registered calls y) p = registered calls p := by
      intro p hp
      have : p ≠ k := fun h => hnp (h ▸ hp)
      simp [this]
    rw [h0, h1, r1.unique (r0.congr hagree)]
  · rintro ⟨k', v', hm', hp', hlen⟩
    rcases r0 with ⟨kk, vv, hm, hnn, hp, hmax, rfl⟩ | ⟨hno, _⟩
    · have hkl := hmax k' v' hm' hp'
      have hkk : kk ≠ k := by
        intro h; rw [h] at hkl; omega
      have : Rewritten (fun y => if y = k then some v else registered calls y) x
          (vv ++ x.drop kk.length) := by
        refine Or.inl ⟨kk, vv, by simp [hkk, hm], hnn, hp, ?_, rfl⟩
        intro k2 v2 hm2 hp2
        by_cases h2 : k2 = k
        · rw [h2]; omega
        · simp only [h2, if_false] at hm2
          exact hmax k2 v2 hm2 hp2
      rw [h0, h1, r1.unique this]
    · exact absurd hp' (hno k' v' hm')

theorem phfwdAdd_frame_witness :
    ∃ pf pf', runCalls [Call.add (some ['1', '2', '3']) (some ['7'])] phfwdNew = some pf ∧
      phfwdAdd (some pf) (some ['1', '2']) (some ['8']) = some (some pf', true) ∧
      (¬ ['1', '2'] <+: ['1', '2', '3', '4'] →
        phfwdGet (some pf') (some ['1', '2', '3', '4'])
          = phfwdGet (some pf) (some ['1', '2', '3', '4'])) ∧
      ((∃ k' v', registered [Call.add (some ['1', '2', '3']) (some ['7'])] k' = some v' ∧
          k' <+: ['1', '2', '3', '4'] ∧ ['1', '2'].length < k'.length) →
        phfwdGet (some pf') (some ['1', '2', '3', '4'])
          = phfwdGet (some pf) (some ['1', '2', '3', '4'])) :=
  phfwdAdd_frame _ _ _ _ (by decide) (by decide) (by decide) (by decide)

/-- C24: reverse-link consistency. On every reachable structure, the key `k`
occurs in the reverse registry of the node `q` if and only if the node of `k`
holds a value whose path is `q` and its `revNode` is `q`; a key occurs in at
most one registry and there at most once; and `keysInRev` of the node of `k` is
the registry cell that holds `k`. -/
theorem reverse_link_consistency (calls : List Call) :
    ∃ pf, runCalls calls phfwdNew = some pf ∧
      (∀ (k : Str) (q : TriePtr), k ∈ (registryAt pf.heap q).map Prod.snd ↔
        ∃ nd v, pf.heap.find (pathOf k) = some nd ∧ nd.value = some v ∧ pathOf v = q ∧
          nd.revNode = some q) ∧
      (∀ (k : Str) (q1 q2 : TriePtr), k ∈ (registryAt pf.heap q1).map Prod.snd →
        k ∈ (registryAt pf.heap q2).map Prod.snd → q1 = q2) ∧
      (∀ q : TriePtr, ((registryAt pf.heap q).map Prod.snd).Nodup) ∧
      (∀ (k : Str) (nd : Trie) (lp : ListPtr), pf.heap.find (pathOf k) = some nd →
        nd.keysInRev = some lp → (lp.cell, k) ∈ registryAt pf.heap lp.owner) := by
  obtain ⟨pf, e, rep⟩ := reached calls
  have l := rep.linked
  -- a key in a registry forwards to the string of the registry's node
  have hin : ∀ (k : Str) (q : TriePtr), k ∈ (registryAt pf.heap q).map Prod.snd →
      ∃ v, Fwd pf.heap k v ∧ pathOf v = q := by
    intro k q hk
    unfold registryAt at hk
    cases hf : pf.heap.find q with
    | none => rw [hf] at hk; simp at hk
    | some nd =>
      rw [hf] at hk
      simp only [List.mem_map] at hk
      obtain ⟨⟨c, k'⟩, hmem, rfl⟩ := hk
      cases hkk : nd.keys with
      | none => rw [hkk] at hmem; simp at hmem
      | some ring =>
        rw [hkk] at hmem
        obtain ⟨v, hfwd, hp, _, _⟩ := fwd_of_reg l hf hkk hmem
        exact ⟨v, hfwd, hp⟩
  -- the data of a node that holds a value
  have hval : ∀ (k : Str) (nd : Trie) (v : Str), pf.heap.find (pathOf k) = some nd →
      nd.value = some v → v ≠ ROOT_VALUE →
      Valid v ∧ nd.revNode = some (pathOf v) ∧
        ∃ c, nd.keysInRev = some ⟨pathOf v, c⟩ ∧ (c, k) ∈ registryAt pf.heap (pathOf v) := by
    intro k nd v hf hv hne
    obtain ⟨hvv, _, hrev, c, k', rn, ring, hkir, hk', hkp, hrn, hring, hmem⟩ :=
      l.val (pathOf k) nd.pay v (view_eq_some hf) hv hne
    have hkv : k = k' := by
      rcases valid_of_live rep.shape (k := k) (by rw [hf]; rfl) with h0 | h0
      · rw [h0] at hkp
        have := hk'.ne_nil
        have h2 : k'.length = 0 := by
          have := congrArg List.length hkp
          simpa using this
        exact absurd (List.length_eq_zero.1 h2) this
      · exact (pathOf_inj hk' h0 hkp).symm
    subst hkv
    obtain ⟨rn', g1, g2⟩ := find_of_view hrn
    refine ⟨hvv, hrev, c, hkir, ?_⟩
    unfold registryAt
    rw [g1]
    show (c, k) ∈ rn'.keys.getD []
    have : rn'.keys = some ring := by rw [← hring, ← g2]; rfl
    rw [this]
    exact hmem
  refine ⟨pf, e, ?_, ?_, ?_, ?_⟩
  · intro k q
    constructor
    · intro hk
      obtain ⟨v, ⟨_, nd, h1, h2, h3⟩, hp⟩ := hin k q hk
      obtain ⟨nd', g1, g2⟩ := find_of_view h1
      have hv' : nd'.value = some v := by rw [← h2, ← g2]; rfl
      obtain ⟨_, hrev, _⟩ := hval k nd' v g1 hv' h3
      exact ⟨nd', v, g1, hv', hp, by rw [hrev, hp]⟩
    · rintro ⟨nd, v, hf, hv, hp, hrev⟩
      have hne : v ≠ ROOT_VALUE := by
        intro hc
        rw [hc] at hv
        have := (l.noval (pathOf k) nd.pay (view_eq_some hf) (Or.inr hv)).2
        have h2 : nd.revNode = none := this
        rw [h2] at hrev
        simp at hrev
      obtain ⟨_, _, c, _, hmem⟩ := hval k nd v hf hv hne
      rw [hp] at hmem
      exact List.mem_map.2 ⟨(c, k), hmem, rfl⟩
  · intro k q1 q2 h1 h2
    obtain ⟨v1, f1, p1⟩ := hin k q1 h1
    obtain ⟨v2, f2, p2⟩ := hin k q2 h2
    rw [← p1, ← p2, f1.val_eq f2]
  · intro q
    exact registryAt_nodup l q
  · intro k nd lp hf hkir
    cases hv : nd.value with
    | none =>
      have := (l.noval (pathOf k) nd.pay (view_eq_some hf) (Or.inl hv)).1
      have h2 : nd.keysInRev = none := this
      rw [h2] at hkir
      simp at hkir
    | some v =>
      by_cases hne : v = ROOT_VALUE
      · rw [hne] at hv
        have := (l.noval (pathOf k) nd.pay (view_eq_some hf) (Or.inr hv)).1
        have h2 : nd.keysInRev = none := this
        rw [h2] at hkir
        simp at hkir
      · obtain ⟨_, _, c, hk2, hmem⟩ := hval k nd v hf hv hne
        rw [hk2] at hkir
        simp only [Option.some.injEq] at hkir
        rw [← hkir]
        exact hmem

/-! ## Unused nodes -/

theorem Dead.of_write {h : Heap} {p q : TriePtr} {nd : Trie} (d : Dead (h.write p nd) q) :
    (q = p ∧ nd.unused) ∨ (q ≠ p ∧ Dead h q) := by
  obtain ⟨hq, x, hx, hu⟩ := d
  rw [find_write] at hx
  by_cases e : q = p
  · left
    simp only [e, if_true, Option.some.injEq] at hx
    subst hx
    exact ⟨e, hu⟩
  · right
    simp only [e, if_false] at hx
    exact ⟨e, hq, x, hx, hu⟩

theorem Dead.of_free {h : Heap} {p q : TriePtr} (d : Dead (h.free p) q) :
    q ≠ p ∧ Dead h q := by
  obtain ⟨hq, x, hx, hu⟩ := d
  rw [find_free] at hx
  by_cases e : q = p
  · simp [e] at hx
  · simp only [e, if_false] at hx
    exact ⟨e, hq, x, hx, hu⟩

theorem Dead.of_newCell {h : Heap} {q : TriePtr} (d : Dead h.newCell q) : Dead h q := d

theorem NoDead.deadOnly {h : Heap} (n : NoDead h) (S : TriePtr → Prop) : DeadOnly h S :=
  fun p d => absurd d (n p)

theorem DeadOnly.noDead {h : Heap} (d : DeadOnly h (fun _ => False)) : NoDead h :=
  fun p hp => d p hp

/-- `trieDeleteUnusedBranch` from the only node that may be unused leaves no
unused node. -/
theorem prune_dead : ∀ (p : TriePtr) (h h' : Heap) (S : TriePtr → Prop),
    DeadOnly h (fun q => S q ∨ q = p) → trieDeleteUnusedBranchLoop p h = some h' →
    DeadOnly h' S
  | [], h, h', S, d, e => by
    intro q dq
    unfold trieDeleteUnusedBranchLoop at e
    cases hf : h.find [] with
    | none => rw [hf] at e; simp at e
    | some nd =>
      rw [hf] at e
      simp only at e
      have hq : Dead h q := by
        split_ifs at e
        · simp only [Option.some.injEq] at e
          rw [← e] at dq
          exact dq.of_free.2
        · simp only [Option.some.injEq] at e
          rw [← e] at dq
          exact dq
      rcases d q hq with h1 | h1
      · exact h1
      · exact absurd h1 hq.1
  | n :: prev, h, h', S, d, e => by
    unfold trieDeleteUnusedBranchLoop at e
    cases hf : h.find (n :: prev) with
    | none => rw [hf] at e; simp at e
    | some nd =>
      rw [hf] at e
      simp only at e
      by_cases hu : nd.nextCount = 0 ∧ nd.value = none ∧ listEmpty nd.keys = true
      · rw [if_pos hu] at e
        cases hp : h.find prev with
        | none => rw [hp] at e; simp at e
        | some pn =>
          rw [hp] at e
          simp only at e
          refine prune_dead prev _ h' S ?_ e
          intro q dq
          obtain ⟨h1, h2⟩ := dq.of_free
          rcases h2.of_write with ⟨h3, _⟩ | ⟨_, h4⟩
          · exact Or.inr h3
          · rcases d q h4 with h5 | h5
            · exact Or.inl h5
            · exact absurd h5 h1
      · rw [if_neg hu] at e
        simp only [Option.some.injEq] at e
        subst e
        intro q dq
        rcases d q dq with h5 | h5
        · exact h5
        · exfalso
          obtain ⟨_, x, hx, hxu⟩ := dq
          rw [h5, hf] at hx
          simp only [Option.some.injEq] at hx
          subst hx
          exact hu hxu

theorem trieDeleteUnusedBranch_dead {h h' : Heap} {S : TriePtr → Prop} (p : Option TriePtr)
    (d : DeadOnly h (fun q => S q ∨ some q = p))
    (e : trieDeleteUnusedBranch h p = some h') : DeadOnly h' S := by
  cases p with
  | none =>
    simp only [trieDeleteUnusedBranch, Option.some.injEq] at e
    subst e
    intro q dq
    rcases d q dq with h1 | h1
    · exact h1
    · simp at h1
  | some r =>
    refine prune_dead r h h' S ?_ e
    intro q dq
    rcases d q dq with h1 | h1
    · exact Or.inl h1
    · exact Or.inr (Option.some.inj h1)

theorem dropEmptyKeys_dead {h h2 : Heap} {r : Option TriePtr} {b : Bool}
    (e : dropEmptyKeys h r = some (h2, b)) {q : TriePtr} (dq : Dead h2 q) : Dead h q := by
  cases r with
  | none =>
    simp only [dropEmptyKeys, Option.some.injEq, Prod.mk.injEq] at e
    rw [← e.1] at dq
    exact dq
  | some r =>
    simp only [dropEmptyKeys] at e
    cases hf : h.find r with
    | none => rw [hf] at e; simp at e
    | some rn =>
      rw [hf] at e
      simp only at e
      split_ifs at e with hk
      · simp only [Option.some.injEq, Prod.mk.injEq] at e
        rw [← e.1] at dq
        rcases dq.of_write with ⟨h1, h2, h3, _⟩ | ⟨_, h4⟩
        · exact ⟨h1 ▸ dq.1, rn, h1 ▸ hf, h2, h3, hk⟩
        · exact h4
      · simp only [Option.some.injEq, Prod.mk.injEq] at e
        rw [← e.1] at dq
        exact dq

theorem listRemoveFirstAt_dead {h h1 : Heap} {lp : Option ListPtr}
    (e : listRemoveFirstAt h lp = some h1) {q : TriePtr} (dq : Dead h1 q) :
    Dead h q ∨ ∃ p, lp = some p ∧ q = p.owner := by
  cases lp with
  | none =>
    simp only [listRemoveFirstAt, Option.some.injEq] at e
    rw [← e] at dq
    exact Or.inl dq
  | some p =>
    simp only [listRemoveFirstAt] at e
    cases hf : h.find p.owner with
    | none => rw [hf] at e; simp at e
    | some nd =>
      rw [hf] at e
      simp only at e
      cases hk : nd.keys with
      | none => rw [hk] at e; simp at e
      | some ring =>
        rw [hk] at e
        simp only at e
        split_ifs at e
        simp only [Option.some.injEq] at e
        rw [← e] at dq
        rcases dq.of_write with ⟨h1, _⟩ | ⟨_, h4⟩
        · exact Or.inr ⟨p, rfl, h1⟩
        · exact Or.inl h4

/-- `trieRemoveNodeValue` on the only node that may be unused leaves no unused
node. -/
theorem trieRemoveNodeValue_dead {h h' : Heap} (l : Linked h) {p : TriePtr} {nd : Trie}
    (hp : h.find p = some nd) (hnm : nd.value ≠ some ROOT_VALUE)
    (d : DeadOnly h (fun q => q = p)) (e : trieRemoveNodeValue h p = some h') : NoDead h' := by
  have hvp := view_eq_some hp
  unfold trieRemoveNodeValue at e
  simp only [bind, Option.bind, hp] at e
  cases h1e : listRemoveFirstAt h nd.keysInRev with
  | none => rw [h1e] at e; simp at e
  | some h1 =>
    rw [h1e] at e
    simp only at e
    cases h2e : dropEmptyKeys h1 nd.revNode with
    | none => rw [h2e] at e; simp at e
    | some r2 =>
      obtain ⟨h2, b⟩ := r2
      rw [h2e] at e
      simp only at e
      cases h3e : trieDeleteUnusedBranch h2 nd.revNode with
      | none => rw [h3e] at e; simp at e
      | some h3 =>
        rw [h3e] at e
        simp only at e
        cases h4e : h3.find p with
        | none => rw [h4e] at e; simp at e
        | some nd3 =>
          rw [h4e] at e
          simp only at e
          -- the unused nodes before the first pruning
          have d2 : DeadOnly h2 (fun q => (q = p ∧ nd.value = none) ∨ some q = nd.revNode) := by
            intro q dq
            have dq1 := dropEmptyKeys_dead h2e dq
            rcases listRemoveFirstAt_dead h1e dq1 with dq0 | ⟨lp, hlp, ho⟩
            · have hq := d q dq0
              left
              refine ⟨hq, ?_⟩
              obtain ⟨_, x, hx, hu⟩ := dq0
              rw [hq, hp] at hx
              simp only [Option.some.injEq] at hx
              rw [hx]; exact hu.2.1
            · right
              cases hv : nd.value with
              | none =>
                have := (l.noval p nd.pay hvp (Or.inl hv)).1
                have h2 : nd.keysInRev = none := this
                rw [h2] at hlp; simp at hlp
              | some v =>
                have hr : v ≠ ROOT_VALUE := fun e => hnm (by rw [hv, e])
                obtain ⟨_, _, hrev, c, k, rn, ring, hkir, _⟩ := l.val p nd.pay v hvp hv hr
                have hrev' : nd.revNode = some (pathOf v) := hrev
                have hkir' : nd.keysInRev = some ⟨pathOf v, c⟩ := hkir
                rw [hkir'] at hlp
                simp only [Option.some.injEq] at hlp
                rw [hrev', ho, ← hlp]
          have d3 : DeadOnly h3 (fun q => q = p ∧ nd.value = none) :=
            trieDeleteUnusedBranch_dead nd.revNode d2 h3e
          apply DeadOnly.noDead
          refine prune_dead p _ h' (fun _ => False) ?_ e
          intro q dq
          rcases dq.of_write with ⟨hq, _⟩ | ⟨_, dq3⟩
          · exact Or.inr hq
          · exact Or.inr (d3 q dq3).1

theorem Dead.of_write_same {h : Heap} {p q : TriePtr} {nd nd' : Trie}
    (hf : h.find p = some nd) (hu : nd'.unused → nd.unused) (d : Dead (h.write p nd') q) :
    Dead h q := by
  rcases d.of_write with ⟨h1, h2⟩ | ⟨_, h3⟩
  · exact ⟨h1 ▸ d.1, nd, h1 ▸ hf, hu h2⟩
  · exact h3

theorem trieAddNode_eq {h h1 : Heap} {p : TriePtr} {nd : Trie} {n : Nat}
    (hp : h.find p = some nd) (hn : n < ALPHABET_SIZE) (hc : h.find (n :: p) = none)
    (e : trieAddNode h p n = some h1) :
    h1 = (h.write (n :: p) Trie.zero).write p
      { nd with nextCount := (nd.nextCount + 1) % 256 } := by
  simp [trieAddNode, hp, next, hn, hc] at e
  exact e.symm

/-- `trieGetNode` leaves at most the node it returns unused. -/
theorem trieGetNode_dead (key : Str) : ∀ (h h' : Heap) (cur t : TriePtr)
    (S : TriePtr → Prop), Shape h → (h.find cur).isSome = true →
    (∀ c ∈ key, badChar c = false) → DeadOnly h (fun q => S q ∨ q = cur) →
    trieGetNode key h cur = some (h', t) → DeadOnly h' (fun q => S q ∨ q = t) := by
  induction key with
  | nil =>
    intro h h' cur t S _ _ _ d e
    simp only [trieGetNode, Option.some.injEq, Prod.mk.injEq] at e
    rw [← e.1, ← e.2]
    exact d
  | cons c key ih =>
    intro h h' cur t S hs hc hg d e
    have hlt := strToInt_lt c (hg c (by simp))
    have hg2 : ∀ x ∈ key, badChar x = false := fun x hx => hg x (by simp [hx])
    obtain ⟨nd, hnd⟩ := Option.isSome_iff_exists.1 hc
    cases hch : h.find (strToInt c :: cur) with
    | some ch =>
      have hstep : trieGetNode (c :: key) h cur = trieGetNode key h (strToInt c :: cur) := by
        simp [trieGetNode, next, hlt, hch]
      rw [hstep] at e
      refine ih h h' _ t S hs (by rw [hch]; rfl) hg2 ?_ e
      intro q dq
      rcases d q dq with h1 | h1
      · exact Or.inl h1
      · exfalso
        obtain ⟨_, x, hx, hu⟩ := dq
        rw [h1, hnd] at hx
        simp only [Option.some.injEq] at hx
        subst hx
        have hz : childCount h cur = 0 := by rw [← hs.count cur nd hnd]; exact hu.1
        have := childCount_eq_zero h cur hz (strToInt c) hlt
        rw [hch] at this
        simp at this
    | none =>
      obtain ⟨h1, e1, s1, _, l1⟩ := trieAddNode_spec hs hnd hlt hch
      have hstep : trieGetNode (c :: key) h cur = trieGetNode key h1 (strToInt c :: cur) := by
        simp [trieGetNode, next, hlt, hch, e1]
      rw [hstep] at e
      have he := trieAddNode_eq hnd hlt hch e1
      refine ih h1 h' _ t S s1 l1 hg2 ?_ e
      intro q dq
      rw [he] at dq
      rcases dq.of_write with ⟨_, hu⟩ | ⟨hq, dq1⟩
      · exfalso
        have hle := hs.nextCount_le hnd
        unfold ALPHABET_SIZE at hle
        have : (nd.nextCount + 1) % 256 = 0 := hu.1
        omega
      · rcases dq1.of_write with ⟨hq2, _⟩ | ⟨_, dq0⟩
        · exact Or.inr hq2
        · rcases d q dq0 with h2 | h2
          · exact Or.inl h2
          · exact absurd h2 hq

theorem dropEmptyKeys_kept {h h2 : Heap} {r : Option TriePtr}
    (e : dropEmptyKeys h r = some (h2, false)) :
    h2 = h ∧ ∀ q rn, r = some q → h.find q = some rn → listEmpty rn.keys = false := by
  cases r with
  | none =>
    simp only [dropEmptyKeys, Option.some.injEq, Prod.mk.injEq, and_true] at e
    exact ⟨e.symm, fun q rn hq => by simp at hq⟩
  | some r =>
    simp only [dropEmptyKeys] at e
    cases hf : h.find r with
    | none => rw [hf] at e; simp at e
    | some rn =>
      rw [hf] at e
      simp only at e
      split_ifs at e with hk
      · simp at e
      · simp only [Option.some.injEq, Prod.mk.injEq, and_true] at e
        refine ⟨e.symm, fun q rn' hq hrn => ?_⟩
        simp only [Option.some.injEq] at hq
        subst hq
        rw [hf] at hrn
        simp only [Option.some.injEq] at hrn
        subst hrn
        simpa using hk

theorem listRemoveFirstAt_find {h h1 : Heap} {lp : Option ListPtr}
    (e : listRemoveFirstAt h lp = some h1) (q : TriePtr) :
    ∃ f : Trie → Trie, (h1.find q = (h.find q).map f) ∧
      ∀ x, (f x).revNode = x.revNode ∧ (f x).value = x.value ∧
        (f x).nextCount = x.nextCount := by
  cases lp with
  | none =>
    simp only [listRemoveFirstAt, Option.some.injEq] at e
    subst e
    exact ⟨id, by simp, fun x => ⟨rfl, rfl, rfl⟩⟩
  | some p =>
    simp only [listRemoveFirstAt] at e
    cases hf : h.find p.owner with
    | none => rw [hf] at e; simp at e
    | some nd =>
      rw [hf] at e
      simp only at e
      cases hk : nd.keys with
      | none => rw [hk] at e; simp at e
      | some ring =>
        rw [hk] at e
        simp only at e
        split_ifs at e
        simp only [Option.some.injEq] at e
        subst e
        by_cases hq : q = p.owner
        · refine ⟨fun x => { x with keys := some (listRemoveFirst ring (some p.cell)) }, ?_,
            fun x => ⟨rfl, rfl, rfl⟩⟩
          rw [find_write, if_pos hq, hq, hf]
          rfl
        · refine ⟨id, ?_, fun x => ⟨rfl, rfl, rfl⟩⟩
          rw [find_write, if_neg hq]
          simp

/-- The second part of `trieInsert`, started with at most the node of the key
unused, leaves no unused node. -/
theorem trieInsertLink_dead {h h' : Heap} {tk tv : TriePtr} {list : ListPtr} {val : Str}
    {kn : Trie} (hkn : h.find tk = some kn)
    (hlink : ∀ lp, kn.keysInRev = some lp → kn.revNode = some lp.owner)
    (d : DeadOnly h (fun q => q = tk))
    (e : trieInsertLink h tk tv list val = some h') : NoDead h' := by
  unfold trieInsertLink at e
  simp only [bind, Option.bind, hkn, pure] at e
  -- the value is stored
  have da : NoDead (h.write tk { kn with value := some val }) := by
    intro q dq
    rcases dq.of_write with ⟨_, hu⟩ | ⟨hq, dq0⟩
    · have : (some val : Option Str) = none := hu.2.1
      simp at this
    · exact hq (d q dq0)
  cases hbe : listRemoveFirstAt (h.write tk { kn with value := some val }) kn.keysInRev with
  | none => rw [hbe] at e; simp at e
  | some hb =>
    rw [hbe] at e
    simp only at e
    obtain ⟨f, hfb, hff⟩ := listRemoveFirstAt_find hbe tk
    rw [find_write, if_pos rfl] at hfb
    simp only [Option.map_some'] at hfb
    have hrevb : (f { kn with value := some val }).revNode = kn.revNode := (hff _).1
    generalize f { kn with value := some val } = kb at hfb hrevb
    rw [hfb] at e
    simp only at e
    rw [hrevb] at e
    have db : DeadOnly hb (fun q => some q = kn.revNode) := by
      intro q dq
      rcases listRemoveFirstAt_dead hbe dq with dq0 | ⟨lp, hlp, ho⟩
      · exact absurd dq0 (da q)
      · rw [hlink lp hlp, ho]
    generalize hce : hb.write tk _ = hc at e
    have dc : DeadOnly hc (fun q => some q = kn.revNode) := by
      intro q dq
      apply db q
      rw [← hce] at dq
      refine Dead.of_write_same hfb ?_ dq
      exact fun hu => ⟨hu.1, hu.2.1, hu.2.2⟩
    cases hde : dropEmptyKeys hc kn.revNode with
    | none => rw [hde] at e; simp at e
    | some rd =>
      obtain ⟨hd, emptied⟩ := rd
      rw [hde] at e
      simp only at e
      have dd : DeadOnly hd (fun q => some q = kn.revNode) :=
        fun q dq => dc q (dropEmptyKeys_dead hde dq)
      -- the last write changes `revNode` only
      have fin : ∀ he : Heap, NoDead he → ∀ kn3 : Trie, he.find tk = some kn3 →
          NoDead (he.write tk { kn3 with revNode := some tv }) := by
        intro he nde kn3 hfe q dq
        refine nde q (Dead.of_write_same hfe ?_ dq)
        exact fun hu => ⟨hu.1, hu.2.1, hu.2.2⟩
      cases hem : emptied with
      | true =>
        rw [hem] at e
        simp only [if_true] at e
        cases hpe : trieDeleteUnusedBranch hd kn.revNode with
        | none => rw [hpe] at e; simp at e
        | some he =>
          rw [hpe] at e
          simp only at e
          have nde : NoDead he := DeadOnly.noDead
            (trieDeleteUnusedBranch_dead kn.revNode (fun q dq => Or.inr (dd q dq)) hpe)
          cases hfe : he.find tk with
          | none => rw [hfe] at e; simp at e
          | some kn3 =>
            rw [hfe] at e
            simp only [Option.some.injEq] at e
            rw [← e]
            exact fin he nde kn3 hfe
      | false =>
        rw [hem] at e hde
        simp only [Bool.false_eq_true, if_false] at e
        have nde : NoDead hd := by
          obtain ⟨hsame, hkeep⟩ := dropEmptyKeys_kept hde
          intro q dq
          have hq := dd q dq
          obtain ⟨_, x, hx, hu⟩ := dq
          rw [hsame] at hx
          have := hkeep q x hq.symm hx
          rw [hu.2.2] at this
          simp at this
        cases hfe : hd.find tk with
        | none => rw [hfe] at e; simp at e
        | some kn3 =>
          rw [hfe] at e
          simp only [Option.some.injEq] at e
          rw [← e]
          exact fin hd nde kn3 hfe

theorem listEmpty_listAdd (ring : CList) (c : Nat) (k : Str) :
    listEmpty (some (listAdd ring c k)) = false := rfl

/-- `trieInsert` on a trie without unused nodes leaves none. -/
theorem trieInsert_dead {h h' : Heap} {b : Bool} (hs : Shape h) (l : Linked h)
    {k v : Str} (hk : Valid k) (hv : Valid v) (hkv : k ≠ v) (nd : NoDead h)
    (e : trieInsert h [] k v = some (h', b)) : NoDead h' := by
  obtain ⟨h1, e1, s1, g1, l1⟩ := trieGetNode_spec k h [] hs hs.root_live hk.good
  obtain ⟨h2, e2, s2, g2, l2⟩ := trieGetNode_spec v h1 [] s1 s1.root_live hv.good
  have d1 := trieGetNode_dead k h h1 [] _ (fun _ => False) hs hs.root_live hk.good
    (nd.deadOnly _) e1
  have d2 := trieGetNode_dead v h1 h2 [] _ (fun q => q = pathOf k) s1 s1.root_live hv.good
    (by
      intro q dq
      rcases d1 q dq with h0 | h0
      · exact h0.elim
      · left; simpa using h0) e2
  simp only [List.append_nil] at e1 e2 l1 l2 d2
  have g := g1.trans_grown g2
  have lk2 : Linked h2 := l.grown hs g
  have hne : pathOf k ≠ pathOf v := fun e => hkv (pathOf_inj hk hv e)
  obtain ⟨vn2, hvn2⟩ := Option.isSome_iff_exists.1 l2
  obtain ⟨kn2, hkn2⟩ := Option.isSome_iff_exists.1 (g2.live_grown l1)
  have hkn := view_eq_some hkn2
  have hlink : ∀ lp, kn2.keysInRev = some lp → kn2.revNode = some lp.owner := by
    intro lp hlp
    cases hval : kn2.value with
    | none =>
      have := (lk2.noval _ kn2.pay hkn (Or.inl hval)).1
      have h0 : kn2.keysInRev = none := this
      rw [h0] at hlp; simp at hlp
    | some w =>
      by_cases hw : w = ROOT_VALUE
      · have := (lk2.noval _ kn2.pay hkn (Or.inr (by rw [← hw]; exact hval))).1
        have h0 : kn2.keysInRev = none := this
        rw [h0] at hlp; simp at hlp
      · obtain ⟨_, _, hrev, c, _, _, _, hkir, _⟩ := lk2.val _ kn2.pay w hkn hval hw
        have hrev' : kn2.revNode = some (pathOf w) := hrev
        have hkir' : kn2.keysInRev = some ⟨pathOf w, c⟩ := hkir
        rw [hkir'] at hlp
        simp only [Option.some.injEq] at hlp
        rw [hrev', ← hlp]
  unfold trieInsert at e
  simp only [bind, Option.bind, e1, e2, hvn2, strCopy, pure] at e
  generalize hce : Heap.newCell (Heap.write h2 (pathOf v) _) = h3 at e
  have d3 : DeadOnly h3 (fun q => q = pathOf k) := by
    intro q dq
    rw [← hce] at dq
    rcases dq.of_newCell.of_write with ⟨_, hu⟩ | ⟨hq, dq2⟩
    · have := hu.2.2
      rw [listEmpty_listAdd] at this
      simp at this
    · rcases d2 q dq2 with h0 | h0
      · exact h0
      · exact absurd h0 hq
  have hkn3 : h3.find (pathOf k) = some kn2 := by
    rw [← hce, find_newCell, find_write, if_neg hne]
    exact hkn2
  cases h9e : trieInsertLink h3 (pathOf k) (pathOf v) { owner := pathOf v, cell := h2.cells } v with
  | none => rw [h9e] at e; simp at e
  | some h9 =>
    rw [h9e] at e
    simp only [Option.some.injEq, Prod.mk.injEq] at e
    rw [← e.1]
    exact trieInsertLink_dead hkn3 hlink d3 h9e

/-! ## The loop of `trieRemoveValues` with its record of calls -/

theorem calls_finalize (stop : Option TriePtr) (fuel : Nat) (h : Heap) (cur : TriePtr)
    (nd0 : Trie) (calls : List TriePtr) (hne : some cur ≠ stop) (hf : h.find cur = some nd0) :
    trieRemoveValuesCalls stop (fuel + 1) h (some cur) ALPHABET_SIZE calls =
      match trieRemoveNodeValue
          ((h.write cur (markNode nd0)).write cur (unmarkNode (markNode nd0))) cur with
      | none => none
      | some h' =>
        trieRemoveValuesCalls stop fuel h' (previous cur) ((order cur + 1) % 256)
          (calls ++ [cur]) := by
  rw [trieRemoveValuesCalls]
  simp only [hne, if_false, hf, if_true]
  rfl

theorem calls_skip (stop : Option TriePtr) (fuel : Nat) (h : Heap) (cur : TriePtr)
    (nd0 : Trie) (i : Nat) (calls : List TriePtr) (hne : some cur ≠ stop)
    (hf : h.find cur = some nd0) (hi : i < ALPHABET_SIZE)
    (hc : (h.write cur (markNode nd0)).find (i :: cur) = none) :
    trieRemoveValuesCalls stop (fuel + 1) h (some cur) i calls =
      trieRemoveValuesCalls stop fuel (h.write cur (markNode nd0)) (some cur) ((i + 1) % 256)
        calls := by
  rw [trieRemoveValuesCalls]
  have hi2 : i ≠ ALPHABET_SIZE := Nat.ne_of_lt hi
  have hn : next (h.write cur (markNode nd0)) cur i = some none := by
    simp [next, hi, hc]
  simp only [hne, if_false, hf, hi2]
  show (match next (h.write cur (markNode nd0)) cur i with
    | none => none
    | some none => _
    | some (some child) => _) = _
  rw [hn]
  rfl

theorem calls_descend (stop : Option TriePtr) (fuel : Nat) (h : Heap) (cur : TriePtr)
    (nd0 : Trie) (i : Nat) (calls : List TriePtr) (hne : some cur ≠ stop)
    (hf : h.find cur = some nd0) (hi : i < ALPHABET_SIZE)
    (hc : ((h.write cur (markNode nd0)).find (i :: cur)).isSome = true) :
    trieRemoveValuesCalls stop (fuel + 1) h (some cur) i calls =
      trieRemoveValuesCalls stop fuel (h.write cur (markNode nd0)) (some (i :: cur)) 0
        calls := by
  rw [trieRemoveValuesCalls]
  have hi2 : i ≠ ALPHABET_SIZE := Nat.ne_of_lt hi
  have hn : next (h.write cur (markNode nd0)) cur i = some (some (i :: cur)) := by
    simp [next, hi, hc]
  simp only [hne, if_false, hf, hi2]
  show (match next (h.write cur (markNode nd0)) cur i with
    | none => none
    | some none => _
    | some (some child) => _) = _
  rw [hn]
  rfl

theorem calls_stop (stop : Option TriePtr) (fuel : Nat) (h : Heap) (i : Nat)
    (calls : List TriePtr) :
    trieRemoveValuesCalls stop (fuel + 1) h stop i calls = some (h, calls) := by
  simp [trieRemoveValuesCalls]

/-- Without the record, the loop is the loop of `trieRemoveValues`. -/
theorem calls_erase (stop : Option TriePtr) : ∀ (fuel : Nat) (h : Heap) (trie : Option TriePtr)
    (i : Nat) (calls : List TriePtr),
    (trieRemoveValuesCalls stop fuel h trie i calls).map Prod.fst
      = trieRemoveValuesLoop stop fuel h trie i
  | 0, _, _, _, _ => rfl
  | fuel + 1, h, trie, i, calls => by
    cases trie with
    | none =>
      by_cases hs : none = stop
      · simp [trieRemoveValuesCalls, trieRemoveValuesLoop, hs]
      · simp [trieRemoveValuesCalls, trieRemoveValuesLoop, hs]
    | some t =>
      rw [trieRemoveValuesCalls, trieRemoveValuesLoop]
      by_cases hs : some t = stop
      · simp [hs]
      · simp only [hs, if_false]
        cases hf : h.find t with
        | none => rfl
        | some nd0 =>
          simp only
          by_cases hi : i = ALPHABET_SIZE
          · simp only [hi, if_true]
            generalize trieRemoveNodeValue _ t = r
            cases r with
            | none => rfl
            | some h2 => exact calls_erase stop fuel _ _ _ _
          · simp only [hi, if_false]
            generalize next _ t i = r
            cases r with
            | none => rfl
            | some ch =>
              cases ch with
              | none => exact calls_erase stop fuel _ _ _ _
              | some c => exact calls_erase stop fuel _ _ _ _

theorem trieRemoveValuesLog_erase (h : Heap) (trie : Option TriePtr) :
    (trieRemoveValuesLog h trie).map Prod.fst = trieRemoveValues h trie := by
  cases trie with
  | none => rfl
  | some t => exact calls_erase _ _ _ _ _ _

/-! ## What the loop of `trieRemoveValues` calls, and in which order -/

theorem Unvisited.not_below {R a q : TriePtr} {n : Nat} (u : Unvisited R a (n + 1) q) :
    ¬ (n :: a <:+ q) := by
  intro hs
  rcases u with ⟨c, hc, h1⟩ | ⟨a', n', c, h1, h2, h3, h4⟩
  · have := suffix_same_length h1 hs (by simp)
    simp only [List.cons.injEq] at this
    omega
  · have hl : (n' :: a').length ≤ a.length := h2.length_le
    have h5 : c :: a' <:+ n :: a :=
      List.suffix_of_suffix_length_le h4 hs (by simp at hl ⊢; omega)
    have h6 : c :: a' <:+ a := by
      rcases List.suffix_cons_iff.1 h5 with e | e
      · have := congrArg List.length e
        simp at this hl
        omega
      · exact e
    have := suffix_same_length h6 h2 (by simp)
    simp only [List.cons.injEq] at this
    omega

/-- From a state of the loop inside the subtree of `R` the loop runs until it
leaves `R`, within the stated number of iterations. -/
theorem loop_run (R : TriePtr) (h0 : Heap) (stop : Option TriePtr)
    (hstop : ∀ q, R <:+ q → some q ≠ stop) :
    ∀ (fuel : Nat) (h : Heap) (cur : TriePtr) (i : Nat) (U : Finset TriePtr)
      (calls : List TriePtr),
    LoopInv R h0 h cur i → NoDead h →
    (∀ q, (h.find q).isSome = true → Unvisited R cur i q → q ∈ U) →
    (13 - i) + depthCost R cur + 13 * U.card ≤ fuel →
    ∃ h' tr fuel',
      trieRemoveValuesCalls stop fuel h (some cur) i calls
        = trieRemoveValuesCalls stop fuel' h' (previous R) ((order R + 1) % 256)
            (calls ++ tr) ∧
      fuel ≤ fuel' + ((13 - i) + depthCost R cur + 13 * U.card) ∧
      RunPost R h0 h h' cur i tr := by
  intro fuel
  induction fuel with
  | zero =>
    intro h cur i U calls li _ _ hf
    have := li.ile
    unfold ALPHABET_SIZE at this
    omega
  | succ fuel ih =>
    intro h cur i U calls li nd hU hfuel
    obtain ⟨nd0, hnd0⟩ := Option.isSome_iff_exists.1 li.curlive
    have hcne := li.cur_ne
    have hst : some cur ≠ stop := hstop cur li.sub
    obtain ⟨lia, hva⟩ := li.mark hnd0
    have hfa : (h.write cur (markNode nd0)).find cur = some (markNode nd0) := by
      rw [find_write]; simp
    have hlive : ∀ q, ((h.write cur (markNode nd0)).find q).isSome = (h.find q).isSome := by
      intro q
      rw [find_write]
      split_ifs with e
      · rw [e, hnd0]; rfl
      · rfl
    have nda : NoDead (h.write cur (markNode nd0)) := by
      intro q dq
      refine nd q (Dead.of_write_same hnd0 ?_ dq)
      exact fun hu => absurd hu.2.1 hva
    have hile := li.ile
    unfold ALPHABET_SIZE at hile
    by_cases hi : i = ALPHABET_SIZE
    · -- the node is done
      subst hi
      rw [calls_finalize _ _ _ _ _ _ hst hnd0]
      obtain ⟨lib, hvb, hmk⟩ := lia.unmark hfa
      have hfb : ((h.write cur (markNode nd0)).write cur (unmarkNode (markNode nd0))).find cur
          = some (unmarkNode (markNode nd0)) := by
        rw [find_write]; simp
      obtain ⟨hc, e, s', l', fw, c, d⟩ :=
        trieRemoveNodeValue_spec lib.shape lib.linked hfb hvb hcne
      have ddb : DeadOnly ((h.write cur (markNode nd0)).write cur (unmarkNode (markNode nd0)))
          (fun q => q = cur) := by
        intro q dq
        rcases dq.of_write with ⟨h1, _⟩ | ⟨_, h2⟩
        · exact h1
        · exact absurd h2 (nda q)
      have ndc : NoDead hc := trieRemoveNodeValue_dead lib.linked hfb hvb ddb e
      have hmono : ∀ q, (hc.find q).isSome = true → (h.find q).isSome = true := by
        intro q hq
        obtain ⟨x', hx'⟩ := Option.isSome_iff_exists.1 hq
        obtain ⟨x, g1, _⟩ := c q x'.pay (view_eq_some hx')
        have : (view ((h.write cur (markNode nd0)).write cur
            (unmarkNode (markNode nd0))) q).isSome = true := by
          rw [g1]; rfl
        rw [view_isSome, find_write] at this
        split_ifs at this with e1
        · rw [e1]; exact li.curlive
        · rw [hlive] at this; exact this
      rw [e]
      show ∃ h' tr fuel',
        trieRemoveValuesCalls stop fuel hc (previous cur) ((order cur + 1) % 256)
            (calls ++ [cur])
          = trieRemoveValuesCalls stop fuel' h' (previous R) ((order R + 1) % 256)
              (calls ++ tr) ∧
        fuel + 1 ≤ fuel' + ((13 - ALPHABET_SIZE) + depthCost R cur + 13 * U.card) ∧
        RunPost R h0 h h' cur ALPHABET_SIZE tr
      obtain ⟨n, a, rfl⟩ : ∃ n a, cur = n :: a := by
        cases cur with
        | nil => exact absurd rfl hcne
        | cons n a => exact ⟨n, a, rfl⟩
      have hn : n < ALPHABET_SIZE := li.shape.lt_of_live _ li.curlive n (by simp)
      unfold ALPHABET_SIZE at hn
      have hmod : (order (n :: a) + 1) % 256 = n + 1 := by
        simp only [order]; omega
      have hpv : previous (n :: a) = some a := rfl
      by_cases hR : n :: a = R
      · -- the starting node is done: the loop leaves it
        subst hR
        refine ⟨hc, [n :: a], fuel, rfl, ?_, ?_⟩
        · unfold ALPHABET_SIZE; omega
        · refine ⟨lib.finish hmk s' l' fw c, ndc, hmono, ?_, ?_, ?_, rfl⟩
          · intro q hq
            rw [List.mem_singleton] at hq
            rw [hq]
            exact ⟨Or.inl (List.suffix_refl _), List.suffix_refl _, li.curlive⟩
          · exact List.pairwise_singleton _ _
          · intro q hq hRq hl
            rw [List.mem_singleton]
            rcases hq with hq | hq
            · exact hq.eq_of_length (Nat.le_antisymm hq.length_le hRq.length_le)
            · exact absurd (hq.none_left (s'.lt_of_live q hl)) id
      · have hRa : R <:+ a := suffix_of_cons_ne li.sub (Ne.symm hR)
        have lic := lib.finalize_loopInv hRa s' l' fw c d
        have hU' : ∀ q, (hc.find q).isSome = true → Unvisited R a (n + 1) q → q ∈ U :=
          fun q hq hu => hU q (hmono q hq) (hu.of_finalize hRa)
        have hfuel' : (13 - (n + 1)) + depthCost R a + 13 * U.card ≤ fuel := by
          rw [depthCost_cons n hRa] at hfuel
          unfold ALPHABET_SIZE at hfuel
          omega
        obtain ⟨h', tr, fuel', e1, e2, rp⟩ :=
          ih hc a (n + 1) U (calls ++ [n :: a]) lic ndc hU' hfuel'
        refine ⟨h', (n :: a) :: tr, fuel', ?_, ?_, ?_⟩
        · rw [hpv, hmod, e1, List.append_assoc]
          rfl
        · rw [depthCost_cons n hRa]
          unfold ALPHABET_SIZE
          omega
        · refine ⟨rp.post, rp.nodead, fun q hq => hmono q (rp.mono q hq), ?_, ?_, ?_, ?_⟩
          · intro q hq
            rcases List.mem_cons.1 hq with hq | hq
            · rw [hq]
              exact ⟨Or.inl (List.suffix_refl _), li.sub, li.curlive⟩
            · obtain ⟨g1, g2, g3⟩ := rp.sound q hq
              refine ⟨?_, g2, hmono q g3⟩
              rcases g1 with g1 | g1
              · exact Or.inl (g1.trans (List.suffix_cons _ _))
              · exact Or.inr (g1.of_finalize hRa)
          · refine List.pairwise_cons.2 ⟨?_, rp.order⟩
            intro q hq hs
            obtain ⟨g1, _, _⟩ := rp.sound q hq
            rcases g1 with g1 | g1
            · exact not_cons_suffix _ _ (hs.trans g1)
            · exact g1.not_below hs
          · intro q hq hRq hl
            by_cases hqc : q = n :: a
            · rw [hqc]; exact List.mem_cons_self _ _
            · refine List.mem_cons_of_mem _ (rp.complete q ?_ hRq hl)
              rcases hq with hq | hq
              · exact Or.inl (suffix_of_cons_ne hq hqc)
              · exact Or.inr (hq.finalize_unvisited (rp.post.shape.lt_of_live q hl))
          · have hl := rp.last
            cases tr with
            | nil => simp at hl
            | cons t tr => rw [List.getLast?_cons_cons]; exact hl
    · have hi' : i < ALPHABET_SIZE := by
        unfold ALPHABET_SIZE at hi ⊢; omega
      unfold ALPHABET_SIZE at hi'
      cases hch : (h.write cur (markNode nd0)).find (i :: cur) with
      | none =>
        -- no such child
        rw [calls_skip _ _ _ _ _ _ _ hst hnd0 hi' hch]
        have hmod : (i + 1) % 256 = i + 1 := by omega
        rw [hmod]
        have hU' : ∀ q, ((h.write cur (markNode nd0)).find q).isSome = true →
            Unvisited R cur (i + 1) q → q ∈ U := by
          intro q hq hu
          rw [hlive] at hq
          exact hU q hq hu.of_skip
        obtain ⟨h', tr, fuel', e1, e2, rp⟩ :=
          ih _ cur (i + 1) U calls (lia.skip_loopInv hi' hch) nda hU' (by omega)
        refine ⟨h', tr, fuel', e1, by omega, ?_⟩
        refine ⟨rp.post, rp.nodead, ?_, ?_, rp.order, ?_, rp.last⟩
        · intro q hq
          rw [← hlive]
          exact rp.mono q hq
        · intro q hq
          obtain ⟨g1, g2, g3⟩ := rp.sound q hq
          rw [hlive] at g3
          refine ⟨?_, g2, g3⟩
          rcases g1 with g1 | g1
          · exact Or.inl g1
          · exact Or.inr g1.of_skip
        · intro q hq hRq hl
          refine rp.complete q ?_ hRq hl
          rcases hq with hq | hq
          · exact Or.inl hq
          · refine Or.inr (hq.skip_unvisited ?_)
            intro hs
            have := lia.shape.live_suffix _ _ (rp.mono q hl) hs
            rw [hch] at this
            cases this
      | some ch =>
        -- down to the child
        have hcl : ((h.write cur (markNode nd0)).find (i :: cur)).isSome = true := by
          rw [hch]; rfl
        rw [calls_descend _ _ _ _ _ _ _ hst hnd0 hi' hcl]
        have hin : i :: cur ∈ U := by
          apply hU
          · rw [← hlive, hch]; rfl
          · exact Or.inl ⟨i, Nat.le_refl _, List.suffix_refl _⟩
        have hU' : ∀ q, ((h.write cur (markNode nd0)).find q).isSome = true →
            Unvisited R (i :: cur) 0 q → q ∈ U.erase (i :: cur) := by
          intro q hq hu
          rw [hlive] at hq
          obtain ⟨u1, u2⟩ := hu.of_descend
          exact Finset.mem_erase.2 ⟨u2, hU q hq u1⟩
        have hcard : 0 < U.card := Finset.card_pos.2 ⟨_, hin⟩
        have hfuel' : (13 - 0) + depthCost R (i :: cur) + 13 * (U.erase (i :: cur)).card
            ≤ fuel := by
          rw [depthCost_cons i li.sub, Finset.card_erase_of_mem hin]
          unfold ALPHABET_SIZE
          omega
        obtain ⟨h', tr, fuel', e1, e2, rp⟩ :=
          ih _ (i :: cur) 0 (U.erase (i :: cur)) calls
            (lia.descend_loopInv hcl hfa hva) nda hU' hfuel'
        refine ⟨h', tr, fuel', e1, ?_, ?_⟩
        · rw [depthCost_cons i li.sub, Finset.card_erase_of_mem hin] at e2
          unfold ALPHABET_SIZE at e2
          omega
        refine ⟨rp.post, rp.nodead, ?_, ?_, rp.order, ?_, rp.last⟩
        · intro q hq
          rw [← hlive]
          exact rp.mono q hq
        · intro q hq
          obtain ⟨g1, g2, g3⟩ := rp.sound q hq
          rw [hlive] at g3
          refine ⟨?_, g2, g3⟩
          rcases g1 with g1 | g1
          · by_cases hqc : q = i :: cur
            · rw [hqc]
              exact Or.inr (Or.inl ⟨i, Nat.le_refl _, List.suffix_refl _⟩)
            · exact Or.inl (suffix_of_cons_ne g1 hqc)
          · exact Or.inr g1.of_descend.1
        · intro q hq hRq hl
          refine rp.complete q ?_ hRq hl
          rcases hq with hq | hq
          · exact Or.inl (hq.trans (List.suffix_cons _ _))
          · exact hq.descend_unvisited li.sub

/-! ## `trieRemoveValues` on a node below the root, with its calls -/

theorem trieRemoveValuesLog_spec {h : Heap} (hs : Shape h) (l : Linked h) (nm : NoMarker h)
    (nd : NoDead h) {R : TriePtr} (hR : R ≠ []) (hl : (h.find R).isSome = true) :
    ∃ h' tr, trieRemoveValuesLog h (some R) = some (h', tr) ∧ RunPost R h h h' R 0 tr := by
  obtain ⟨x, hx⟩ := Option.isSome_iff_exists.1 hl
  have hmem : R ∈ (h.nodes.map Prod.fst).toFinset := by
    rw [List.mem_toFinset, List.mem_map]
    exact ⟨(R, x), find_mem_nodes h R x hx, rfl⟩
  have hstop : ∀ q, R <:+ q → some q ≠ previous R := by
    intro q hq
    cases R with
    | nil => exact absurd rfl hR
    | cons r R' =>
      simp only [previous, ne_eq, Option.some.injEq]
      intro e
      rw [e] at hq
      exact not_cons_suffix _ _ hq
  have hU : ∀ q, (h.find q).isSome = true → Unvisited R R 0 q →
      q ∈ (h.nodes.map Prod.fst).toFinset.erase R := by
    intro q hq hu
    obtain ⟨y, hy⟩ := Option.isSome_iff_exists.1 hq
    refine Finset.mem_erase.2 ⟨?_, ?_⟩
    · intro e
      rw [e] at hu
      rcases hu with ⟨c, _, hc⟩ | ⟨a, n, c, h1, h2, _, _⟩
      · exact not_cons_suffix _ _ hc
      · exact not_cons_suffix _ _ (h2.trans h1)
    · rw [List.mem_toFinset, List.mem_map]
      exact ⟨(q, y), find_mem_nodes h q y hy, rfl⟩
  have h1 : 0 < (h.nodes.map Prod.fst).toFinset.card := Finset.card_pos.2 ⟨_, hmem⟩
  have h2 : (h.nodes.map Prod.fst).toFinset.card ≤ h.nodes.length := by
    have := List.toFinset_card_le (h.nodes.map Prod.fst)
    simpa using this
  have hfuel : (13 - 0) + depthCost R R + 13 * ((h.nodes.map Prod.fst).toFinset.erase R).card
      ≤ 13 * h.nodes.length + 1 := by
    rw [depthCost_self, Finset.card_erase_of_mem hmem]
    omega
  obtain ⟨h', tr, fuel', e1, e2, rp⟩ :=
    loop_run R h (previous R) hstop _ h R 0 _ [] (LoopInv.start hs l nm hR hl) nd hU hfuel
  refine ⟨h', tr, ?_, rp⟩
  show trieRemoveValuesCalls (previous R) (13 * h.nodes.length + 1) h (some R) 0 [] = _
  rw [e1]
  rw [depthCost_self, Finset.card_erase_of_mem hmem] at e2
  cases fuel' with
  | zero => omega
  | succ f => rw [calls_stop]; rfl

/-! ## No unused node is left behind -/

theorem trieRemoveValues_dead {h h' : Heap} (hs : Shape h) (l : Linked h) (nm : NoMarker h)
    (nd : NoDead h) {R : TriePtr} (hR : R ≠ []) (hl : (h.find R).isSome = true)
    (e : trieRemoveValues h (some R) = some h') : NoDead h' := by
  obtain ⟨h2, tr, e2, rp⟩ := trieRemoveValuesLog_spec hs l nm nd hR hl
  have := trieRemoveValuesLog_erase h (some R)
  rw [e2, e] at this
  simp only [Option.map_some', Option.some.injEq] at this
  rw [← this]
  exact rp.nodead

theorem trieRemove_dead {h h' : Heap} (hs : Shape h) (l : Linked h) (nm : NoMarker h)
    (nd : NoDead h) {key : Str} (hk : Valid key) (e : trieRemove h [] key = some h') :
    NoDead h' := by
  have hroot : (h.find []).isSome = true := by
    obtain ⟨r, hr, _⟩ := hs.root
    rw [hr]; rfl
  have hw := trieRemoveWalk_spec hs key [] hroot hk.good
  simp only [List.append_nil] at hw
  unfold trieRemove at e
  rw [hw] at e
  by_cases hl : (h.find (pathOf key)).isSome = true
  · simp only [hl, if_true] at e
    exact trieRemoveValues_dead hs l nm nd hk.pathOf_ne_nil hl e
  · simp only [hl, Bool.false_eq_true, if_false, Option.some.injEq] at e
    rw [← e]
    exact nd

theorem noDead_new : NoDead phfwdNew.heap := by
  intro p d
  obtain ⟨hp, x, hx, _⟩ := d
  rw [find_new] at hx
  simp [hp] at hx

theorem Call.run_dead {pf pf' : PhoneForward} {m : Str → Option Str} (rep : Rep pf m)
    (nd : NoDead pf.heap) (c : Call) (e : c.run pf = some pf') : NoDead pf'.heap := by
  have ht := rep.trie
  cases c with
  | add num1 num2 =>
    cases num1 with
    | none =>
      simp only [Call.run, phfwdAdd, Option.some.injEq] at e
      rw [← e]; exact nd
    | some n1 =>
      cases num2 with
      | none =>
        simp only [Call.run, phfwdAdd, Option.some.injEq] at e
        rw [← e]; exact nd
      | some n2 =>
        by_cases hc : Valid n1 ∧ Valid n2 ∧ n1 ≠ n2
        · have v1 : isPhoneNumberCorrect (some n1) = true := hc.1
          have v2 : isPhoneNumberCorrect (some n2) = true := hc.2.1
          obtain ⟨h', b, ei⟩ : ∃ h' b, trieInsert pf.heap [] n1 n2 = some (h', b) := by
            obtain ⟨h', ei, _⟩ := trieInsert_spec rep.shape rep.linked rep.nomarker
              hc.1 hc.2.1 hc.2.2
            exact ⟨h', _, ei⟩
          have := trieInsert_dead rep.shape rep.linked hc.1 hc.2.1 hc.2.2 nd ei
          simp only [Call.run, phfwdAdd, v1, v2, hc.2.2, ht, strCopy, ei, Bool.not_true,
            Bool.or_self, decide_False, Bool.false_eq_true, if_false, Option.some.injEq] at e
          rw [← e]
          exact this
        · obtain ⟨pf1, e1, _⟩ := Call.run_spec rep (Call.add (some n1) (some n2))
          have hsame : (Call.add (some n1) (some n2)).run pf = some pf := by
            by_cases a : isPhoneNumberCorrect (some n1) = true
            · by_cases b : isPhoneNumberCorrect (some n2) = true
              · by_cases d : n1 = n2
                · simp [Call.run, phfwdAdd, d]
                · exact absurd ⟨a, b, d⟩ hc
              · simp [Call.run, phfwdAdd, b]
            · simp [Call.run, phfwdAdd, a]
          rw [hsame] at e
          simp only [Option.some.injEq] at e
          rw [← e]; exact nd
  | remove num =>
    cases num with
    | none =>
      simp only [Call.run, phfwdRemove, Option.some.injEq] at e
      rw [← e]; exact nd
    | some n =>
      by_cases hc : isPhoneNumberCorrect (some n) = true
      · obtain ⟨h', er, _⟩ := trieRemove_spec rep.shape rep.linked rep.nomarker hc
        have := trieRemove_dead rep.shape rep.linked rep.nomarker nd hc er
        simp only [Call.run, phfwdRemove, hc, if_true, ht, er, Option.some.injEq] at e
        rw [← e]
        exact this
      · simp only [Call.run, phfwdRemove, hc, Bool.false_eq_true, if_false,
          Option.some.injEq] at e
        rw [← e]; exact nd

theorem runCalls_dead : ∀ (calls : List Call) {pf pf' : PhoneForward} {m : Str → Option Str},
    Rep pf m → NoDead pf.heap → runCalls calls pf = some pf' → NoDead pf'.heap
  | [], pf, pf', _, _, nd, e => by
    simp only [runCalls, Option.some.injEq] at e
    rw [← e]; exact nd
  | c :: cs, pf, pf', m, rep, nd, e => by
    obtain ⟨pf1, e1, r1⟩ := Call.run_spec rep c
    have n1 := Call.run_dead rep nd c e1
    simp only [runCalls, e1] at e
    exact runCalls_dead cs r1 n1 e

/-! ## `trieRemoveValues` on the root, with its calls -/

theorem trieRemoveNodeValue_root {h : Heap} {u : Trie} (hf : h.find [] = some u)
    (h1 : u.keysInRev = none) (h2 : u.revNode = none) :
    ∃ h', trieRemoveNodeValue h [] = some h' ∧
      ∀ q, (h'.find q).isSome = true → (h.find q).isSome = true := by
  have e : trieRemoveNodeValue h [] = trieDeleteUnusedBranchLoop []
      (h.write [] { u with keysInRev := none, value := none, revNode := none }) := by
    simp [trieRemoveNodeValue, hf, h1, h2, listRemoveFirstAt, dropEmptyKeys,
      trieDeleteUnusedBranch, bind, Option.bind]
  rw [e, trieDeleteUnusedBranchLoop]
  have hw : ∀ (x : Trie) (q : TriePtr), ((h.write [] x).find q).isSome = true →
      (h.find q).isSome = true := by
    intro x q hq
    rw [find_write] at hq
    split_ifs at hq with e1
    · rw [e1, hf]; rfl
    · exact hq
  simp only [find_write, if_true]
  split_ifs with hc
  · refine ⟨_, rfl, fun q hq => ?_⟩
    rw [find_free] at hq
    split_ifs at hq with e1
    · cases hq
    · exact hw _ q hq
  · exact ⟨_, rfl, hw _⟩

/-- The loop of `trieRemoveValues` on the root, from child index `i` on. -/
theorem root_run : ∀ (k : Nat) (fuel : Nat) (h : Heap) (i : Nat) (U : Finset TriePtr)
    (calls : List TriePtr),
    i + k = ALPHABET_SIZE → Shape h → Linked h → NoMarker h → NoDead h →
    (∀ q, (h.find q).isSome = true → Unvisited [] [] i q → q ∈ U) →
    (13 - i) + 13 * U.card + 1 ≤ fuel →
    ∃ h' tr, trieRemoveValuesCalls none fuel h (some []) i calls = some (h', calls ++ tr) ∧
      (∀ q, (h'.find q).isSome = true → (h.find q).isSome = true) ∧
      (∀ q ∈ tr, (q = [] ∨ Unvisited [] [] i q) ∧ (h.find q).isSome = true) ∧
      tr.Pairwise (fun a b => ¬ a <:+ b) ∧
      (∀ q, Unvisited [] [] i q → (h'.find q).isSome = true → q ∈ tr) ∧
      tr.getLast? = some [] := by
  intro k
  induction k with
  | zero =>
    intro fuel h i U calls hik hs l nm nd hU hfuel
    simp only [Nat.add_zero] at hik
    subst hik
    obtain ⟨r, hr, hrv⟩ := hs.root
    have hv : r.value = some ROOT_VALUE := l.root r.pay (view_eq_some hr)
    have hkr : r.keysInRev = none ∧ r.revNode = none :=
      l.noval [] r.pay (view_eq_some hr) (Or.inr hv)
    have hmark : markNode r = r := by simp [markNode, hrv]
    have hun : unmarkNode r = { r with value := none } := by simp [unmarkNode, hv]
    unfold ALPHABET_SIZE at hfuel
    obtain ⟨fuel, rfl⟩ : ∃ f, fuel = f + 1 := ⟨fuel - 1, by omega⟩
    rw [calls_finalize none fuel h [] r calls (by simp) hr, hmark]
    have hfb : ((h.write [] r).write [] (unmarkNode r)).find [] = some (unmarkNode r) := by
      rw [find_write]; simp
    obtain ⟨hc, e, hm⟩ := trieRemoveNodeValue_root hfb (by rw [hun]; exact hkr.1)
      (by rw [hun]; exact hkr.2)
    rw [e]
    obtain ⟨fuel, rfl⟩ : ∃ f, fuel = f + 1 := ⟨fuel - 1, by omega⟩
    have hmono : ∀ q, (hc.find q).isSome = true → (h.find q).isSome = true := by
      intro q hq
      have := hm q hq
      rw [find_write, find_write] at this
      split_ifs at this with e1
      · rw [e1, hr]; rfl
      · exact this
    refine ⟨hc, [[]], calls_stop none fuel hc _ _, hmono, ?_, List.pairwise_singleton _ _,
      ?_, rfl⟩
    · intro q hq
      rw [List.mem_singleton] at hq
      rw [hq, hr]
      exact ⟨Or.inl rfl, rfl⟩
    · intro q hq hl
      exact absurd (hq.none_left (hs.lt_of_live q (hmono q hl))) id
  | succ k ih =>
    intro fuel h i U calls hik hs l nm nd hU hfuel
    unfold ALPHABET_SIZE at hik
    have hi : i < 12 := by omega
    obtain ⟨r, hr, hrv⟩ := hs.root
    have hmark : markNode r = r := by simp [markNode, hrv]
    obtain ⟨fuel, rfl⟩ : ∃ f, fuel = f + 1 := ⟨fuel - 1, by omega⟩
    have hsa : Shape (h.write [] (markNode r)) := by
      rw [hmark]; exact hs.write hr rfl (fun _ => hrv)
    have la : Linked (h.write [] (markNode r)) := by
      rw [hmark]; exact l.of_view_eq_linked (write_same hr) rfl
    have nma : NoMarker (h.write [] (markNode r)) := by
      rw [hmark]; unfold NoMarker; rw [write_same hr]; exact nm
    have nda : NoDead (h.write [] (markNode r)) := by
      intro q dq
      rw [hmark] at dq
      refine nd q (Dead.of_write_same hr ?_ dq)
      exact fun hu => hu
    have hlive : ∀ q, ((h.write [] (markNode r)).find q).isSome = (h.find q).isSome := by
      intro q
      rw [find_write]
      split_ifs with e
      · rw [e, hr]; rfl
      · rfl
    have hmod : (i + 1) % 256 = i + 1 := by omega
    cases hch : (h.write [] (markNode r)).find [i] with
    | none =>
      rw [calls_skip none fuel h [] r i calls (by simp) hr hi hch, hmod]
      have hU' : ∀ q, ((h.write [] (markNode r)).find q).isSome = true →
          Unvisited [] [] (i + 1) q → q ∈ U := by
        intro q hq hu
        rw [hlive] at hq
        exact hU q hq hu.of_skip
      obtain ⟨h', tr, e3, m3, s3, o3, c3, l3⟩ :=
        ih fuel _ (i + 1) U calls (by unfold ALPHABET_SIZE; omega) hsa la nma nda hU' (by omega)
      refine ⟨h', tr, e3, ?_, ?_, o3, ?_, l3⟩
      · intro q hq
        rw [← hlive]
        exact m3 q hq
      · intro q hq
        obtain ⟨g1, g2⟩ := s3 q hq
        rw [hlive] at g2
        refine ⟨?_, g2⟩
        rcases g1 with g1 | g1
        · exact Or.inl g1
        · exact Or.inr g1.of_skip
      · intro q hq hl
        refine c3 q (hq.skip_unvisited ?_) hl
        intro hsf
        have := hsa.live_suffix _ _ (m3 q hl) hsf
        rw [hch] at this
        cases this
    | some ch =>
      have hcl : ((h.write [] (markNode r)).find [i]).isSome = true := by
        rw [hch]; rfl
      rw [calls_descend none fuel h [] r i calls (by simp) hr hi hcl]
      have hinU : [i] ∈ U := by
        apply hU
        · rw [← hlive, hch]; rfl
        · exact Or.inl ⟨i, Nat.le_refl _, List.suffix_refl _⟩
      have hin : [i] ∈ U.filter (fun q => [i] <:+ q) :=
        Finset.mem_filter.2 ⟨hinU, List.suffix_refl _⟩
      have hcard : (U.filter (fun q => [i] <:+ q)).card +
          (U.filter (fun q => ¬ [i] <:+ q)).card = U.card := by
        convert Finset.filter_card_add_filter_neg_card_eq_card (s := U) (fun q => [i] <:+ q)
      have hcard1 := Finset.card_erase_of_mem hin
      have hpos : 0 < (U.filter (fun q => [i] <:+ q)).card := Finset.card_pos.2 ⟨_, hin⟩
      have hU1 : ∀ q, ((h.write [] (markNode r)).find q).isSome = true →
          Unvisited [i] [i] 0 q → q ∈ (U.filter (fun q => [i] <:+ q)).erase [i] := by
        intro q hq hu
        rw [hlive] at hq
        have hsub : [i] <:+ q ∧ q ≠ [i] := by
          rcases hu with ⟨c, _, hc⟩ | ⟨a, n, c, h1, h2, _, _⟩
          · refine ⟨(List.suffix_cons _ _).trans hc, fun e => ?_⟩
            rw [e] at hc
            exact not_cons_suffix _ _ hc
          · exact absurd (h2.trans h1) (not_cons_suffix _ _)
        exact Finset.mem_erase.2 ⟨hsub.2, Finset.mem_filter.2
          ⟨hU q hq (Or.inl ⟨i, Nat.le_refl _, hsub.1⟩), hsub.1⟩⟩
      have hfuel1 : (13 - 0) + depthCost [i] [i] +
          13 * ((U.filter (fun q => [i] <:+ q)).erase [i]).card ≤ fuel := by
        rw [depthCost_self, hcard1]
        omega
      obtain ⟨h1, tr1, fuel1, e1, e2, rp⟩ :=
        loop_run [i] (h.write [] (markNode r)) none (fun _ _ => by simp) fuel _ [i] 0 _ calls
          (LoopInv.start hsa la nma (by simp) hcl) nda hU1 hfuel1
      rw [depthCost_self, hcard1] at e2
      have hpv : previous [i] = some [] := rfl
      have hord : (order [i] + 1) % 256 = i + 1 := by simp only [order]; omega
      rw [e1, hpv, hord]
      have hU2 : ∀ q, (h1.find q).isSome = true → Unvisited [] [] (i + 1) q →
          q ∈ U.filter (fun q => ¬ [i] <:+ q) := by
        intro q hq hu
        have hq2 := rp.mono q hq
        rw [hlive] at hq2
        exact Finset.mem_filter.2 ⟨hU q hq2 hu.of_skip, hu.not_below⟩
      obtain ⟨h', tr2, e3, m3, s3, o3, c3, l3⟩ :=
        ih fuel1 h1 (i + 1) _ (calls ++ tr1) (by unfold ALPHABET_SIZE; omega) rp.post.shape rp.post.linked
          rp.post.nomarker rp.nodead hU2 (by omega)
      refine ⟨h', tr1 ++ tr2, by rw [e3, List.append_assoc], ?_, ?_, ?_, ?_, ?_⟩
      · intro q hq
        rw [← hlive]
        exact rp.mono q (m3 q hq)
      · intro q hq
        rcases List.mem_append.1 hq with hq | hq
        · obtain ⟨_, g2, g3⟩ := rp.sound q hq
          rw [hlive] at g3
          exact ⟨Or.inr (Or.inl ⟨i, Nat.le_refl _, g2⟩), g3⟩
        · obtain ⟨g1, g2⟩ := s3 q hq
          have g3 := rp.mono q g2
          rw [hlive] at g3
          refine ⟨?_, g3⟩
          rcases g1 with g1 | g1
          · exact Or.inl g1
          · exact Or.inr g1.of_skip
      · refine List.pairwise_append.2 ⟨rp.order, o3, ?_⟩
        intro a ha b hb hab
        obtain ⟨_, g2, _⟩ := rp.sound a ha
        rcases (s3 b hb).1 with g1 | g1
        · rw [g1] at hab
          have := g2.trans hab
          simp at this
        · exact g1.not_below (g2.trans hab)
      · intro q hq hl
        by_cases hsq : [i] <:+ q
        · refine List.mem_append_left _ (rp.complete q ?_ hsq (m3 q hl))
          by_cases e : [i] = q
          · left; rw [e]
          · right
            obtain ⟨c, hc⟩ := proper_suffix_extend hsq e
            exact Or.inl ⟨c, Nat.zero_le _, hc⟩
        · exact List.mem_append_right _ (c3 q (hq.skip_unvisited hsq) hl)
      · cases tr2 with
        | nil => simp at l3
        | cons t tr2 =>
          rw [List.getLast?_append_of_ne_nil _ (by simp)]
          exact l3

/-! ## The pruning invariant and the traversal of `trieRemoveValues` -/

theorem trieRemoveValuesLog_trace {h : Heap} (hs : Shape h) (l : Linked h) (nm : NoMarker h)
    (nd : NoDead h) {n : TriePtr} (hl : (h.find n).isSome = true) :
    ∃ h' tr, trieRemoveValuesLog h (some n) = some (h', tr) ∧
      trieRemoveValues h (some n) = some h' ∧
      (∀ q ∈ tr, n <:+ q ∧ (h.find q).isSome = true) ∧
      tr.Pairwise (fun a b => ¬ a <:+ b) ∧
      (∀ q, n <:+ q → (h.find q).isSome = true → q ∈ tr ∨ h'.find q = none) ∧
      tr.getLast? = some n := by
  have key : ∃ h' tr, trieRemoveValuesLog h (some n) = some (h', tr) ∧
      (∀ q ∈ tr, n <:+ q ∧ (h.find q).isSome = true) ∧
      tr.Pairwise (fun a b => ¬ a <:+ b) ∧
      (∀ q, n <:+ q → (h'.find q).isSome = true → q ∈ tr) ∧
      tr.getLast? = some n := by
    by_cases hn : n = []
    · subst hn
      obtain ⟨x, hx⟩ := Option.isSome_iff_exists.1 hl
      have hmem : [] ∈ (h.nodes.map Prod.fst).toFinset := by
        rw [List.mem_toFinset, List.mem_map]
        exact ⟨([], x), find_mem_nodes h [] x hx, rfl⟩
      have hU : ∀ q, (h.find q).isSome = true → Unvisited [] [] 0 q →
          q ∈ (h.nodes.map Prod.fst).toFinset.erase [] := by
        intro q hq hu
        obtain ⟨y, hy⟩ := Option.isSome_iff_exists.1 hq
        refine Finset.mem_erase.2 ⟨?_, ?_⟩
        · intro e
          rw [e] at hu
          rcases hu with ⟨c, _, hc⟩ | ⟨a, n, c, h1, h2, _, _⟩
          · exact not_cons_suffix _ _ hc
          · exact not_cons_suffix _ _ (h2.trans h1)
        · rw [List.mem_toFinset, List.mem_map]
          exact ⟨(q, y), find_mem_nodes h q y hy, rfl⟩
      have h1 : 0 < (h.nodes.map Prod.fst).toFinset.card := Finset.card_pos.2 ⟨_, hmem⟩
      have h2 : (h.nodes.map Prod.fst).toFinset.card ≤ h.nodes.length := by
        have := List.toFinset_card_le (h.nodes.map Prod.fst)
        simpa using this
      have hfuel : (13 - 0) + 13 * ((h.nodes.map Prod.fst).toFinset.erase []).card + 1
          ≤ 13 * h.nodes.length + 1 := by
        rw [Finset.card_erase_of_mem hmem]
        omega
      obtain ⟨h', tr, e, _, s3, o3, c3, l3⟩ :=
        root_run 12 _ h 0 _ [] rfl hs l nm nd hU hfuel
      refine ⟨h', tr, e, fun q hq => ⟨List.nil_suffix, (s3 q hq).2⟩, o3, ?_, l3⟩
      intro q _ hq
      by_cases e1 : q = []
      · rw [e1]
        exact List.mem_of_mem_getLast? l3
      · obtain ⟨c, hc⟩ := proper_suffix_extend List.nil_suffix (Ne.symm e1)
        exact c3 q (Or.inl ⟨c, Nat.zero_le _, hc⟩) hq
    · obtain ⟨h', tr, e, rp⟩ := trieRemoveValuesLog_spec hs l nm nd hn hl
      refine ⟨h', tr, e, fun q hq => ⟨(rp.sound q hq).2.1, (rp.sound q hq).2.2⟩, rp.order,
        ?_, rp.last⟩
      intro q hnq hq
      refine rp.complete q ?_ hnq hq
      by_cases e1 : n = q
      · left; rw [e1]
      · right
        obtain ⟨c, hc⟩ := proper_suffix_extend hnq e1
        exact Or.inl ⟨c, Nat.zero_le _, hc⟩
  obtain ⟨h', tr, e, s, o, c, la⟩ := key
  refine ⟨h', tr, e, ?_, s, o, ?_, la⟩
  · have := trieRemoveValuesLog_erase h (some n)
    rw [e] at this
    exact this.symm
  · intro q hnq _
    cases hq : h'.find q with
    | none => exact Or.inr rfl
    | some x => exact Or.inl (c q hnq (by rw [hq]; rfl))

/-- C23: after any sequence of `phfwdAdd` and `phfwdRemove` calls on a fresh
structure the calls have run without a fault, and the trie holds no node other
than the root that has every entry of `next` NULL, no value, and a reverse
registry that is NULL or empty. -/
theorem pruning_invariant (calls : List Call) :
    ∃ pf, runCalls calls phfwdNew = some pf ∧
      ∀ p nd, p ≠ [] → pf.heap.find p = some nd →
        ¬ ((∀ n, n < ALPHABET_SIZE → next pf.heap p n = some none) ∧ nd.value = none ∧
          listEmpty nd.keys = true) := by
  obtain ⟨pf, e, rep⟩ := reached calls
  have nd := runCalls_dead calls rep_new noDead_new e
  refine ⟨pf, e, ?_⟩
  rintro p x hp hf ⟨hch, hv, hk⟩
  refine nd p ⟨hp, x, hf, ?_, hv, hk⟩
  rw [rep.shape.count p x hf]
  unfold childCount
  rw [List.length_eq_zero, List.filter_eq_nil_iff]
  intro n hn
  have := hch n (List.mem_range.1 hn)
  simp only [next, List.mem_range.1 hn, if_true, Option.some.injEq] at this
  intro hc
  rw [hc] at this
  simp at this

/-- C29: in the trie reached by any sequence of `phfwdAdd` and `phfwdRemove`
calls on a fresh structure, and for every node `n` allocated in it,
`trieRemoveValues(n)` ends within its bound of iterations without reading a
freed node, leaving the loop at the parent of `n` right after the call on `n`
itself; every call of `trieRemoveNodeValue` is on a node of the subtree of `n`
that was allocated at the start; no node is called twice and no node is called
before a node of its own subtree; and every node of the subtree that is not
called has been freed by the end. -/
theorem trieRemoveValues_traversal (calls : List Call) :
    ∃ pf, runCalls calls phfwdNew = some pf ∧
      ∀ n, (pf.heap.find n).isSome = true →
        ∃ h' tr, trieRemoveValuesLog pf.heap (some n) = some (h', tr) ∧
          trieRemoveValues pf.heap (some n) = some h' ∧
          (∀ q ∈ tr, n <:+ q ∧ (pf.heap.find q).isSome = true) ∧
          tr.Pairwise (fun a b => ¬ a <:+ b) ∧
          (∀ q, n <:+ q → (pf.heap.find q).isSome = true → q ∈ tr ∨ h'.find q = none) ∧
          tr.getLast? = some n := by
  obtain ⟨pf, e, rep⟩ := reached calls
  have nd := runCalls_dead calls rep_new noDead_new e
  exact ⟨pf, e, fun n hl =>
    trieRemoveValuesLog_trace rep.shape rep.linked rep.nomarker nd hl⟩

/-! ## `vector.c`: adding, reading and removing -/

/-- C31: `vectorAdd(v, s)` on a vector of `n` elements makes `vectorSize` equal
to `n + 1` and `vectorGet(v, n)` equal to `s`, and leaves `vectorGet(v, i)` as
it was for every `i < n`; and `vectorGet(w, idx)` is NULL for every vector `w`
(NULL included) and every `idx` that is not below `vectorSize(w)`. -/
theorem vectorAdd_vectorGet (v : Vector) (s : Str) :
    vectorSize (some (vectorAdd v s)) = vectorSize (some v) + 1 ∧
    vectorGet (some (vectorAdd v s)) (vectorSize (some v)) = some s ∧
    (∀ i, i < vectorSize (some v) →
      vectorGet (some (vectorAdd v s)) i = vectorGet (some v) i) ∧
    (∀ (w : Option Vector) (idx : Nat), vectorSize w ≤ idx → vectorGet w idx = none) := by
  refine ⟨?_, ?_, ?_, ?_⟩
  · simp [vectorSize, vectorAdd]
  · simp [vectorSize, vectorGet, vectorAdd]
  · intro i hi
    simp only [vectorSize] at hi
    have h2 : i < (v.elements ++ [s]).length := by simp; omega
    simp only [vectorGet, vectorAdd, hi, h2, if_true]
    rw [List.get?_eq_getElem?, List.get?_eq_getElem?]
    exact List.getElem?_append_left hi
  · intro w idx h
    cases w with
    | none => rfl
    | some w =>
      simp only [vectorSize] at h
      simp only [vectorGet]
      rw [if_neg (by omega)]

/-- C32: `vectorRemoveLast` on an empty vector does not leave the vector as it
is: the count is 0, `--elementsCount` wraps around and the slot that is freed
lies outside the array, which is a fault. This holds for the vector that
`vectorNew` returns and for every other vector without elements. -/
theorem vectorRemoveLast_empty_fault :
    vectorSize (some vectorNew) = 0 ∧ vectorRemoveLast vectorNew = none ∧
    ∀ v : Vector, vectorSize (some v) = 0 → vectorRemoveLast v = none := by
  refine ⟨rfl, rfl, ?_⟩
  intro v hv
  simp only [vectorSize] at hv
  simp [vectorRemoveLast, hv]

namespace ListC

/-! ## The cells of `list.c` -/

theorem cell_filter (l : Mem) (p q : Nat) (hq : q ≠ p) :
    (l.filter (fun e => e.1 ≠ p)).find? (fun e => e.1 = q) = l.find? (fun e => e.1 = q) := by
  rw [List.find?_filter]
  congr 1
  funext a
  by_cases h2 : a.1 = q
  · simp [h2, hq]
  · simp [h2]

theorem cell_filter_self (l : Mem) (p : Nat) :
    (l.filter (fun e => e.1 ≠ p)).find? (fun e => e.1 = p) = none := by
  rw [List.find?_filter, List.find?_eq_none]
  intro a _
  by_cases h2 : a.1 = p <;> simp [h2]

theorem find_write_cell (m : Mem) (p q : Nat) (c : Cell) :
    find (write m p c) q = if q = p then some c else find m q := by
  unfold find write
  by_cases hq : q = p
  · subst hq
    simp [List.find?_cons]
  · have hq2 : p ≠ q := fun e => hq e.symm
    have := cell_filter m p q hq
    simp only [ne_eq, decide_not] at this
    simp [List.find?_cons, hq, hq2, this]

theorem find_free_cell (m : Mem) (p q : Nat) :
    find (free m p) q = if q = p then none else find m q := by
  unfold find free
  by_cases hq : q = p
  · subst hq
    have := cell_filter_self m q
    simp only [ne_eq, decide_not] at this
    simp [this]
  · have := cell_filter m p q hq
    simp only [ne_eq, decide_not] at this
    simp [hq, this]

theorem update_eq {m : Mem} {p : Nat} {c : Cell} (h : find m p = some c) (f : Cell → Cell) :
    update m p f = some (write m p (f c)) := by
  simp [update, h]

/-! ## Chains of cells -/

theorem headAddr_append (e : Nat) (l1 l2 : CList) :
    headAddr e (l1 ++ l2) = headAddr (headAddr e l2) l1 := by
  cases l1 <;> rfl

theorem lastAddr_append : ∀ (l1 l2 : CList) (e : Nat),
    lastAddr e (l1 ++ l2) = lastAddr (lastAddr e l1) l2
  | [], _, _ => rfl
  | c :: l1, l2, _ => lastAddr_append l1 l2 c.1

theorem lastAddr_mem : ∀ (l : CList) (e : Nat), l ≠ [] → lastAddr e l ∈ l.map Prod.fst
  | [], _, h => absurd rfl h
  | c :: l, _, _ => by
    cases l with
    | nil => simp [lastAddr]
    | cons d l =>
      have := lastAddr_mem (d :: l) c.1 (by simp)
      simp only [lastAddr] at this ⊢
      exact List.mem_cons_of_mem _ this

theorem headAddr_mem (l : CList) (e : Nat) (h : l ≠ []) : headAddr e l ∈ l.map Prod.fst := by
  cases l with
  | nil => exact absurd rfl h
  | cons c l => simp [headAddr]

theorem Seg.frame {m m' : Mem} : ∀ {l : CList} {p n : Nat},
    (∀ a ∈ l.map Prod.fst, find m' a = find m a) → Seg m p l n → Seg m' p l n
  | [], _, _, _, _ => trivial
  | c :: l, _, _, hf, hs => by
    refine ⟨?_, Seg.frame (fun a ha => hf a (by simp [ha])) hs.2⟩
    rw [hf c.1 (by simp)]
    exact hs.1

theorem seg_append {m : Mem} : ∀ (l1 l2 : CList) (p n : Nat),
    Seg m p (l1 ++ l2) n ↔ Seg m p l1 (headAddr n l2) ∧ Seg m (lastAddr p l1) l2 n
  | [], l2, p, n => by simp [Seg, lastAddr]
  | c :: l1, l2, p, n => by
    have ih := seg_append (m := m) l1 l2 c.1 n
    show (find m c.1 = some { value := some c.2, next := headAddr n (l1 ++ l2), previous := p } ∧
      Seg m c.1 (l1 ++ l2) n) ↔
      (find m c.1 = some
        { value := some c.2, next := headAddr (headAddr n l2) l1, previous := p } ∧
        Seg m c.1 l1 (headAddr n l2)) ∧ Seg m (lastAddr c.1 l1) l2 n
    rw [ih, headAddr_append, and_assoc]

theorem Seg.cell {m : Mem} {l1 l2 : CList} {c : Nat × Str} {p n : Nat}
    (h : Seg m p (l1 ++ c :: l2) n) :
    find m c.1 = some { value := some c.2, next := headAddr n l2, previous := lastAddr p l1 } :=
  ((seg_append l1 (c :: l2) p n).1 h).2.1

theorem Seg.allocated_seg {m : Mem} {l : CList} {p n a : Nat} (h : Seg m p l n)
    (ha : a ∈ l.map Prod.fst) : ∃ c, find m a = some c ∧ c.value ≠ none := by
  obtain ⟨c, hc, rfl⟩ := List.mem_map.1 ha
  obtain ⟨l1, l2, rfl⟩ := List.append_of_mem hc
  exact ⟨_, h.cell, by simp⟩

/-- The chain with the `next` pointer of its last cell set to `n'`. -/
theorem Seg.set_next {m m' : Mem} {n n' : Nat} : ∀ {l : CList} {p : Nat},
    Seg m p l n → (l.map Prod.fst).Nodup →
    (∀ a ∈ l.map Prod.fst, a ≠ lastAddr p l → find m' a = find m a) →
    (∀ c, l ≠ [] → find m (lastAddr p l) = some c →
      find m' (lastAddr p l) = some { c with next := n' }) →
    Seg m' p l n'
  | [], _, _, _, _, _ => trivial
  | c :: l, p, hs, hn, hf, hl => by
    simp only [List.map_cons, List.nodup_cons] at hn
    cases l with
    | nil =>
      refine ⟨?_, trivial⟩
      have := hl _ (by simp) hs.1
      simpa [lastAddr, headAddr] using this
    | cons d l =>
      have hne : c.1 ≠ lastAddr p (c :: d :: l) := by
        intro e
        have := lastAddr_mem (d :: l) c.1 (by simp)
        simp only [lastAddr] at e this
        rw [← e] at this
        exact hn.1 this
      refine ⟨?_, ?_⟩
      · rw [hf c.1 (by simp) hne]
        exact hs.1
      · refine Seg.set_next hs.2 hn.2 ?_ ?_
        · intro a ha hal
          exact hf a (List.mem_cons_of_mem _ ha) hal
        · intro x _ hx
          exact hl x (by simp) hx

/-- The chain with the `previous` pointer of its first cell set to `p'`. -/
theorem Seg.set_previous {m m' : Mem} {p p' n : Nat} {l : CList}
    (hs : Seg m p l n) (hn : (l.map Prod.fst).Nodup)
    (hf : ∀ a ∈ l.map Prod.fst, a ≠ headAddr n l → find m' a = find m a)
    (hl : ∀ c, l ≠ [] → find m (headAddr n l) = some c →
      find m' (headAddr n l) = some { c with previous := p' }) :
    Seg m' p' l n := by
  cases l with
  | nil => trivial
  | cons c l =>
    simp only [List.map_cons, List.nodup_cons] at hn
    refine ⟨?_, Seg.frame ?_ hs.2⟩
    · have := hl _ (by simp) hs.1
      simpa [headAddr] using this
    · intro a ha
      refine hf a (List.mem_cons_of_mem _ ha) ?_
      intro e
      simp only [headAddr] at e
      rw [e] at ha
      exact hn.1 ha

/-! ## Rings -/

theorem listNew_ring (m : Mem) (s : Nat) : Ring (listNew m s) s [] := by
  refine ⟨?_, trivial, by simp⟩
  simp [listNew, find_write_cell, headAddr, lastAddr]

theorem Ring.allocated_ring {m : Mem} {s : Nat} {l : CList} (r : Ring m s l) {a : Nat}
    (ha : a ∈ s :: l.map Prod.fst) : find m a ≠ none := by
  rcases List.mem_cons.1 ha with e | e
  · rw [e, r.1]; simp
  · obtain ⟨c, hc, _⟩ := r.2.1.allocated_seg e
    rw [hc]; simp

theorem listEmpty_ring {m : Mem} {s : Nat} {l : CList} (r : Ring m s l) :
    listEmpty m (some s) = some l.isEmpty := by
  simp only [listEmpty, r.1]
  cases l with
  | nil => simp [headAddr]
  | cons c l =>
    have := r.2.2
    simp only [List.map_cons, List.nodup_cons, List.mem_cons, not_or] at this
    simp [headAddr, Ne.symm this.1.1]

theorem listGet_ring {m : Mem} {s : Nat} {l : CList} (r : Ring m s l) :
    listGet m (some s) = some (Phfwd.listGet (some l)) := by
  cases l with
  | nil =>
    simp [listGet, listEmpty_ring r, Phfwd.listGet, Phfwd.listEmpty]
  | cons c l =>
    simp [listGet, listEmpty_ring r, Phfwd.listGet, Phfwd.listEmpty, r.1, headAddr, r.2.1.1]

end ListC

namespace ListC

/-! ## `listAdd` -/

theorem headAddr_nil (e : Nat) : headAddr e [] = e := rfl

theorem headAddr_cons (e : Nat) (c : Nat × Str) (l : CList) : headAddr e (c :: l) = c.1 := rfl

/-- The cells after `listAdd` on a cell `s` whose successor `cs.next` is
allocated. -/
theorem listAdd_cells {m : Mem} {s mid : Nat} {cs cr : Cell} (x : Str)
    (hs : find m s = some cs) (hr : find m cs.next = some cr) (hm : find m mid = none) :
    ∃ m', listAdd m (some s) x mid = some (m', some mid) ∧
      ∀ q, find m' q =
        if q = cs.next then
          some { (if cs.next = s then { cs with next := mid } else cr) with previous := mid }
        else if q = s then some { cs with next := mid }
        else if q = mid then some { value := some x, next := cs.next, previous := s }
        else find m q := by
  have hsm : s ≠ mid := fun e => by rw [e, hm] at hs; cases hs
  have hrm : cs.next ≠ mid := fun e => by rw [e, hm] at hr; cases hr
  by_cases hrs : cs.next = s
  · simp only [listAdd, listNew, update, find_write_cell, hsm, hs, hrs, if_false, if_true]
    refine ⟨_, rfl, fun q => ?_⟩
    simp only [find_write_cell]
    by_cases h1 : q = s
    · simp [h1, hsm]
    · by_cases h2 : q = mid
      · simp [h2, hsm, Ne.symm hsm]
      · simp [h1, h2]
  · simp only [listAdd, listNew, update, find_write_cell, hsm, hs, hr, hrs, hrm, if_false,
      if_true]
    refine ⟨_, rfl, fun q => ?_⟩
    simp only [find_write_cell]
    by_cases h0 : q = cs.next
    · simp [h0, hrs, hrm]
    · by_cases h1 : q = s
      · simp [h1, hsm, Ne.symm hrs]
      · by_cases h2 : q = mid
        · simp [h2, hsm, Ne.symm hsm, Ne.symm hrm]
        · simp [h0, h1, h2]

/-- `listAdd` on the sentinel of a ring links the new cell in front. -/
theorem listAdd_ring {m : Mem} {s : Nat} {l : CList} (r : Ring m s l) {mid : Nat}
    (hm : find m mid = none) (x : Str) :
    ∃ m', listAdd m (some s) x mid = some (m', some mid) ∧ Ring m' s ((mid, x) :: l) := by
  have hms : mid ≠ s := fun e => r.allocated_ring (a := s) (by simp) (e ▸ hm)
  have hml : mid ∉ l.map Prod.fst := fun h => r.allocated_ring (List.mem_cons_of_mem _ h) hm
  obtain ⟨hs, hseg, hnd⟩ := r
  have hnd2 := hnd
  simp only [List.nodup_cons] at hnd2
  cases l with
  | nil =>
    obtain ⟨m', e, hf⟩ := listAdd_cells x hs hs hm
    simp only [headAddr_nil] at hf
    refine ⟨m', e, ?_, ⟨?_, trivial⟩, ?_⟩
    · rw [hf s]; simp [headAddr, lastAddr]
    · rw [hf mid]; simp [hms, headAddr]
    · simp [hms, Ne.symm hms]
  | cons c l =>
    have hc := hseg.1
    simp only [List.map_cons, List.mem_cons, not_or, List.nodup_cons] at hnd2 hml
    have hcs : c.1 ≠ s := Ne.symm hnd2.1.1
    obtain ⟨m', e, hf⟩ := listAdd_cells x hs hc hm
    simp only [headAddr_cons] at hf
    refine ⟨m', e, ?_, ⟨?_, ?_, ?_⟩, ?_⟩
    · rw [hf s]; simp [headAddr, lastAddr, Ne.symm hcs]
    · rw [hf mid]; simp [hms, headAddr, hml.1]
    · rw [hf c.1]; simp [hcs]
    · refine Seg.frame ?_ hseg.2
      intro a ha
      have h1 : a ≠ c.1 := fun e1 => hnd2.2.1 (e1 ▸ ha)
      have h2 : a ≠ s := fun e1 => hnd2.1.2 (e1 ▸ ha)
      have h3 : a ≠ mid := fun e1 => hml.2 (e1 ▸ ha)
      rw [hf a]; simp [h1, h2, h3]
    · simp only [List.map_cons, List.nodup_cons, List.mem_cons, not_or]
      exact ⟨⟨Ne.symm hms, hnd2.1.1, hnd2.1.2⟩, ⟨hml.1, hml.2⟩, hnd2.2.1, hnd2.2.2⟩

/-! ## Iteration -/

theorem iterateLoop_ring {m : Mem} {s : Nat} {l : CList} (r : Ring m s l) :
    ∀ (l2 l1 : CList) (c : Nat × Str) (fuel : Nat) (seen : List (Option Str)),
    l = l1 ++ c :: l2 → l2.length < fuel →
    iterateLoop m fuel { start := headAddr s l, current := c.1 } seen =
      some (seen ++ (c :: l2).map (fun e => some e.2))
  | l2, l1, c, 0, seen, _, hfuel => by omega
  | [], l1, c, fuel + 1, seen, hl, _ => by
    have hseg := r.2.1
    rw [hl] at hseg
    have hc := hseg.cell
    simp only [headAddr] at hc
    simp [iterateLoop, listIteratorValue, listIteratorNext, hc, r.1]
  | d :: l2, l1, c, fuel + 1, seen, hl, hfuel => by
    have hseg := r.2.1
    rw [hl] at hseg
    have hc := hseg.cell
    simp only [headAddr] at hc
    have hl2 : l = (l1 ++ [c]) ++ d :: l2 := by rw [hl]; simp
    have hseg2 := r.2.1
    rw [hl2] at hseg2
    have hd := hseg2.cell
    have hne : d.1 ≠ headAddr s l := by
      have hnd : ((l1 ++ [c]).map Prod.fst ++ (d :: l2).map Prod.fst).Nodup := by
        have := r.2.2
        rw [hl2, List.map_append] at this
        exact (List.nodup_cons.1 this).2
      have h1 : headAddr (headAddr s (d :: l2)) (l1 ++ [c]) ∈ (l1 ++ [c]).map Prod.fst :=
        headAddr_mem _ _ (by simp)
      rw [hl2, headAddr_append]
      intro e
      rw [← e] at h1
      exact (List.nodup_append.1 hnd).2.2 h1 (by simp)
    have ih := iterateLoop_ring r l2 (l1 ++ [c]) d fuel (seen ++ [some c.2]) hl2
      (by simp at hfuel; omega)
    simp [iterateLoop, listIteratorValue, listIteratorNext, hc, hd, hne, ih]

/-- An iteration over a ring meets the values of its data cells, front to
back, and nothing else. -/
theorem iterate_ring {m : Mem} {s : Nat} {l : CList} (r : Ring m s l) (fuel : Nat)
    (hfuel : l.length ≤ fuel) :
    iterate m (some s) fuel = some (l.map (fun e => some e.2)) := by
  cases l with
  | nil => simp [iterate, listIteratorNew, listEmpty_ring r]
  | cons c l =>
    have h := iterateLoop_ring r l [] c fuel [] rfl (by simpa using hfuel)
    simp only [headAddr, List.nil_append] at h
    simp [iterate, listIteratorNew, listEmpty_ring r, r.1, headAddr, h]

end ListC

namespace ListC

/-! ## `listRemoveFirst` -/

/-- The cells after the cell `a` has been taken out from between its
neighbours. -/
theorem unlink_cells {m : Mem} {a : Nat} {ca cp cn : Cell}
    (ha : find m a = some ca) (hp : find m ca.previous = some cp)
    (hn : find m ca.next = some cn) (hap : a ≠ ca.previous) (han : a ≠ ca.next) :
    ∃ m', unlink m a = some m' ∧
      ∀ q, find m' q =
        if q = a then none
        else if q = ca.next then
          some { (if ca.next = ca.previous then { cp with next := ca.next } else cn) with
            previous := ca.previous }
        else if q = ca.previous then some { cp with next := ca.next }
        else find m q := by
  by_cases hnp : ca.next = ca.previous
  · simp only [unlink, update, find_write_cell, ha, hp, hap, hnp, if_false, if_true]
    refine ⟨_, rfl, fun q => ?_⟩
    simp only [find_free_cell, find_write_cell]
  · simp only [unlink, update, find_write_cell, ha, hp, hn, hap, han, hnp, if_false, if_true]
    refine ⟨_, rfl, fun q => ?_⟩
    simp only [find_free_cell, find_write_cell]

theorem lastAddr_mem_cons (l : CList) (e : Nat) : lastAddr e l ∈ e :: l.map Prod.fst := by
  cases l with
  | nil => simp [lastAddr]
  | cons c l => exact List.mem_cons_of_mem _ (lastAddr_mem (c :: l) e (by simp))

theorem headAddr_mem_cons (l : CList) (e : Nat) : headAddr e l ∈ e :: l.map Prod.fst := by
  cases l with
  | nil => simp [headAddr]
  | cons c l => simp [headAddr]

/-- Taking a data cell out of a ring leaves the ring of the other cells. -/
theorem unlink_ring {m : Mem} {s a : Nat} {v : Str} {l1 l2 : CList}
    (r : Ring m s (l1 ++ (a, v) :: l2)) :
    ∃ m', unlink m a = some m' ∧ Ring m' s (l1 ++ l2) ∧ find m' a = none := by
  obtain ⟨hs, hseg, hnd⟩ := r
  have hseg2 := (seg_append l1 ((a, v) :: l2) s s).1 hseg
  obtain ⟨hsl1, hca, hsl2⟩ := hseg2
  simp only [headAddr_cons] at hsl1
  -- the addresses are distinct
  simp only [List.map_append, List.map_cons, List.nodup_cons, List.mem_append, List.mem_cons,
    not_or] at hnd
  obtain ⟨⟨hs1, hsa, hs2⟩, hnd⟩ := hnd
  have hnd' := List.nodup_append.1 hnd
  obtain ⟨n1, n2, dj⟩ := hnd'
  simp only [List.nodup_cons] at n2
  obtain ⟨ha2, n2⟩ := n2
  have ha1 : a ∉ l1.map Prod.fst := fun h => dj h (by simp)
  have d12 : ∀ q, q ∈ l1.map Prod.fst → q ∉ l2.map Prod.fst :=
    fun q h1 h2 => dj h1 (List.mem_cons_of_mem _ h2)
  have hpm := lastAddr_mem_cons l1 s
  have hnm := headAddr_mem_cons l2 s
  have hap : a ≠ lastAddr s l1 := by
    intro e
    rw [← e] at hpm
    rcases List.mem_cons.1 hpm with h | h
    · exact hsa h.symm
    · exact ha1 h
  have han : a ≠ headAddr s l2 := by
    intro e
    rw [← e] at hnm
    rcases List.mem_cons.1 hnm with h | h
    · exact hsa h.symm
    · exact ha2 h
  have hpall : ∃ cp, find m (lastAddr s l1) = some cp := by
    rcases List.mem_cons.1 hpm with h | h
    · rw [h]; exact ⟨_, hs⟩
    · obtain ⟨c, hc, _⟩ := hsl1.allocated_seg h
      exact ⟨c, hc⟩
  have hnall : ∃ cn, find m (headAddr s l2) = some cn := by
    rcases List.mem_cons.1 hnm with h | h
    · rw [h]; exact ⟨_, hs⟩
    · obtain ⟨c, hc, _⟩ := hsl2.allocated_seg h
      exact ⟨c, hc⟩
  obtain ⟨cp, hcp⟩ := hpall
  obtain ⟨cn, hcn⟩ := hnall
  obtain ⟨m', e, hf⟩ := unlink_cells hca hcp hcn hap han
  simp only at hf
  refine ⟨m', e, ⟨?_, ?_, ?_⟩, by rw [hf a]; simp⟩
  · -- the sentinel
    rw [hf s, if_neg hsa]
    cases l1 with
    | nil =>
      cases l2 with
      | nil =>
        simp only [lastAddr, headAddr] at hcp hf ⊢
        rw [hs] at hcp
        simp only [Option.some.injEq] at hcp
        subst hcp
        simp [lastAddr, headAddr]
      | cons d l2 =>
        simp only [lastAddr, headAddr, List.nil_append] at hcp hs ⊢
        have hds : s ≠ d.1 := by
          simp only [List.map_cons, List.mem_cons, not_or] at hs2
          exact hs2.1
        rw [hs] at hcp
        simp only [Option.some.injEq] at hcp
        subst hcp
        simp [hds, lastAddr]
    | cons c l1 =>
      have hps : s ≠ lastAddr s (c :: l1) := by
        intro e1
        have := lastAddr_mem (c :: l1) s (by simp)
        rw [← e1] at this
        exact hs1 this
      cases l2 with
      | nil =>
        simp only [headAddr_nil, List.append_nil] at hcn hf ⊢
        rw [hs] at hcn
        simp only [Option.some.injEq] at hcn
        subst hcn
        have e2 : lastAddr s (c :: l1 ++ [(a, v)]) = a := by
          rw [lastAddr_append]; rfl
        simp [hps, headAddr, e2]
      | cons d l2 =>
        have hds : s ≠ d.1 := by
          simp only [List.map_cons, List.mem_cons, not_or] at hs2
          exact hs2.1
        simp only [headAddr_cons] at hf ⊢
        rw [if_neg hds, if_neg hps, hs]
        have e2 : lastAddr s (c :: (l1 ++ (a, v) :: d :: l2))
            = lastAddr s (c :: (l1 ++ d :: l2)) := by
          rw [← List.cons_append, ← List.cons_append, lastAddr_append, lastAddr_append]; rfl
        simp [headAddr, e2]
  · -- the data cells
    refine (seg_append l1 l2 s s).2 ⟨?_, ?_⟩
    · refine Seg.set_next hsl1 n1 ?_ ?_
      · intro q hq hql
        have h1 : q ≠ a := fun e1 => ha1 (e1 ▸ hq)
        have h2 : q ≠ headAddr s l2 := by
          intro e1
          rw [← e1] at hnm
          rcases List.mem_cons.1 hnm with h | h
          · exact hs1 (h ▸ hq)
          · exact d12 q hq h
        rw [hf q]
        simp [h1, h2, hql]
      · intro c hne hc
        have h2 : lastAddr s l1 ≠ headAddr s l2 := by
          have hin := lastAddr_mem l1 s hne
          intro e1
          rw [← e1] at hnm
          rcases List.mem_cons.1 hnm with h | h
          · exact hs1 (h ▸ hin)
          · exact d12 _ hin h
        rw [hcp] at hc
        simp only [Option.some.injEq] at hc
        subst hc
        rw [hf (lastAddr s l1)]
        simp [Ne.symm hap, h2]
    · refine Seg.set_previous hsl2 n2 ?_ ?_
      · intro q hq hqn
        have h1 : q ≠ a := fun e1 => ha2 (e1 ▸ hq)
        have h2 : q ≠ lastAddr s l1 := by
          intro e1
          rw [← e1] at hpm
          rcases List.mem_cons.1 hpm with h | h
          · exact hs2 (h ▸ hq)
          · exact d12 q h hq
        rw [hf q]
        simp [h1, h2, hqn]
      · intro c hne hc
        have h2 : headAddr s l2 ≠ lastAddr s l1 := by
          have hin := headAddr_mem l2 s hne
          intro e1
          rw [e1] at hin
          rcases List.mem_cons.1 hpm with h | h
          · exact hs2 (h ▸ hin)
          · exact d12 _ h hin
        rw [hcn] at hc
        simp only [Option.some.injEq] at hc
        subst hc
        rw [hf (headAddr s l2)]
        simp [Ne.symm han, h2]
  · simp only [List.map_append, List.nodup_cons, List.mem_append, not_or]
    exact ⟨⟨hs1, hs2⟩, List.nodup_append.2 ⟨n1, n2, fun q h1 h2 => d12 q h1 h2⟩⟩

end ListC

namespace ListC

/-! ## The registry list: insertion in front, iteration, removal by handle -/

theorem listRemoveFirst_data {m : Mem} {s a : Nat} {v : Str} {l1 l2 : CList}
    (r : Ring m s (l1 ++ (a, v) :: l2)) :
    ∃ m', listRemoveFirst m (some a) = some m' ∧ Ring m' s (l1 ++ l2) ∧ find m' a = none := by
  have hca := r.2.1.cell
  have hnd := r.2.2
  simp only [List.map_append, List.map_cons, List.nodup_cons, List.mem_append, List.mem_cons,
    not_or] at hnd
  have han : headAddr s l2 ≠ a := by
    intro e
    have hnm := headAddr_mem_cons l2 s
    rw [e] at hnm
    rcases List.mem_cons.1 hnm with h | h
    · exact hnd.1.2.1 h.symm
    · have := (List.nodup_append.1 hnd.2).2.1
      simp only [List.nodup_cons] at this
      exact this.1 h
  obtain ⟨m', e, r'⟩ := unlink_ring r
  refine ⟨m', ?_, r'⟩
  simp only at hca
  simp [listRemoveFirst, listEmpty, hca, han, e]

theorem listRemoveFirst_sentinel {m : Mem} {s : Nat} {l : CList} (r : Ring m s l) :
    ∃ m', listRemoveFirst m (some s) = some m' ∧ Ring m' s (Phfwd.listRemoveFirst l none) ∧
      (l = [] → m' = m) := by
  cases l with
  | nil =>
    refine ⟨m, ?_, r, fun _ => rfl⟩
    simp [listRemoveFirst, listEmpty_ring r]
  | cons c l =>
    obtain ⟨m', e, r', _⟩ := @unlink_ring m s c.1 c.2 [] l r
    refine ⟨m', ?_, r', fun h => by simp at h⟩
    have := r.1
    simp only [headAddr_cons] at this
    simp [listRemoveFirst, listEmpty_ring r, this, e]

theorem filter_handle {l1 l2 : CList} {a : Nat} {v : Str}
    (hnd : ((l1 ++ (a, v) :: l2).map Prod.fst).Nodup) :
    Phfwd.listRemoveFirst (l1 ++ (a, v) :: l2) (some a) = l1 ++ l2 := by
  simp only [List.map_append, List.map_cons] at hnd
  obtain ⟨n1, n2, dj⟩ := List.nodup_append.1 hnd
  simp only [List.nodup_cons] at n2
  have h1 : ∀ c ∈ l1, c.1 ≠ a := by
    intro c hc e
    exact dj (List.mem_map.2 ⟨c, hc, e⟩) (by simp)
  have h2 : ∀ c ∈ l2, c.1 ≠ a := by
    intro c hc e
    exact n2.1 (List.mem_map.2 ⟨c, hc, e⟩)
  simp only [Phfwd.listRemoveFirst, List.filter_append, List.filter_cons, ne_eq,
    not_true_eq_false, decide_False, Bool.false_eq_true, if_false]
  rw [List.filter_eq_self.2 (fun c hc => by simpa using h1 c hc),
    List.filter_eq_self.2 (fun c hc => by simpa using h2 c hc)]

/-- C33: when the memory holds a ring with sentinel `s` whose data cells, front
to back, are `l` (an iteration over it yields the values of `l` in this
order), and `calloc` returns a fresh address `mid`, then `listAdd(s, x)`
returns `mid` and leaves the ring with the new cell in front: an iteration
with `listIteratorNew`, `listIteratorValue` and `listIteratorNext`, until the
latter returns false, yields `x` and then the values of `l`, each once and
never the NULL of the sentinel; `listGet` returns `x`; `listEmpty` is false. -/
theorem listAdd_iteration (m : Mem) (s : Nat) (l : CList) (mid : Nat) (x : Str)
    (r : Ring m s l) (hm : find m mid = none) :
    (∀ fuel, l.length ≤ fuel →
      iterate m (some s) fuel = some ((l.map Prod.snd).map some)) ∧
    ∃ m', listAdd m (some s) x mid = some (m', some mid) ∧
      Ring m' s (Phfwd.listAdd l mid x) ∧
      (∀ fuel, l.length + 1 ≤ fuel →
        iterate m' (some s) fuel = some ((x :: l.map Prod.snd).map some)) ∧
      listGet m' (some s) = some (some x) ∧
      listEmpty m' (some s) = some false := by
  refine ⟨fun fuel hf => ?_, ?_⟩
  · rw [iterate_ring r fuel hf, List.map_map]
    rfl
  · obtain ⟨m', e, r'⟩ := listAdd_ring r hm x
    refine ⟨m', e, r', fun fuel hf => ?_, ?_, ?_⟩
    · rw [iterate_ring r' fuel (by simpa using hf)]
      simp
    · rw [listGet_ring r']
      rfl
    · rw [listEmpty_ring r']
      rfl

theorem listAdd_iteration_witness :
    (Ring ([(1, ⟨some ['7'], 0, 0⟩), (0, ⟨none, 1, 1⟩)] : Mem) 0 [(1, ['7'])] ∧
      find ([(1, ⟨some ['7'], 0, 0⟩), (0, ⟨none, 1, 1⟩)] : Mem) 2 = none) ∧
    ∃ m', listAdd ([(1, ⟨some ['7'], 0, 0⟩), (0, ⟨none, 1, 1⟩)] : Mem) (some 0) ['8'] 2
        = some (m', some 2) ∧
      iterate m' (some 0) 2 = some [some ['8'], some ['7']] ∧
      listGet m' (some 0) = some (some ['8']) := by
  have r : Ring ([(1, ⟨some ['7'], 0, 0⟩), (0, ⟨none, 1, 1⟩)] : Mem) 0 [(1, ['7'])] :=
    ⟨rfl, ⟨rfl, trivial⟩, by decide⟩
  obtain ⟨_, m', e, _, hi, hg, _⟩ := listAdd_iteration _ 0 _ 2 ['8'] r rfl
  exact ⟨⟨r, rfl⟩, m', e, hi 2 (by decide), hg⟩

/-- C34: in a ring with sentinel `s` and data cells `l`, `listRemoveFirst` on
the address `a` of a data cell (the handle that `listAdd` returned for it,
however many cells were added in front since) frees that cell and leaves the
ring of the other cells in their order; on the sentinel it removes the first
data cell, the one added last; on the sentinel of an empty ring and on NULL
it changes nothing. -/
theorem listRemoveFirst_handle (m : Mem) (s : Nat) (l : CList) (r : Ring m s l) :
    (∀ l1 a v l2, l = l1 ++ (a, v) :: l2 →
      Phfwd.listRemoveFirst l (some a) = l1 ++ l2 ∧
      ∃ m', listRemoveFirst m (some a) = some m' ∧ Ring m' s (l1 ++ l2) ∧
        find m' a = none ∧
        ∀ fuel, (l1 ++ l2).length ≤ fuel →
          iterate m' (some s) fuel = some (((l1 ++ l2).map Prod.snd).map some)) ∧
    (∀ x mid, find m mid = none →
      ∃ m1, listAdd m (some s) x mid = some (m1, some mid) ∧
        ∀ m2 ys, Ring m2 s (ys ++ (mid, x) :: l) →
          ∃ m3, listRemoveFirst m2 (some mid) = some m3 ∧ Ring m3 s (ys ++ l)) ∧
    (∃ m', listRemoveFirst m (some s) = some m' ∧
      Ring m' s (Phfwd.listRemoveFirst l none)) ∧
    (l = [] → listRemoveFirst m (some s) = some m) ∧
    listRemoveFirst m none = some m := by
  refine ⟨?_, ?_, ?_, ?_, rfl⟩
  · intro l1 a v l2 hl
    subst hl
    refine ⟨filter_handle (List.nodup_cons.1 r.2.2).2, ?_⟩
    obtain ⟨m', e, r', hfree⟩ := listRemoveFirst_data r
    refine ⟨m', e, r', hfree, fun fuel hf => ?_⟩
    · rw [iterate_ring r' fuel hf, List.map_map]
      rfl
  · intro x mid hm
    obtain ⟨m1, e, _⟩ := listAdd_ring r hm x
    refine ⟨m1, e, fun m2 ys r2 => ?_⟩
    obtain ⟨m3, e3, r3, _⟩ := listRemoveFirst_data r2
    exact ⟨m3, e3, r3⟩
  · obtain ⟨m', e, r', _⟩ := listRemoveFirst_sentinel r
    exact ⟨m', e, r'⟩
  · intro hl
    obtain ⟨m', e, _, h⟩ := listRemoveFirst_sentinel r
    rw [e, h hl]

theorem listRemoveFirst_handle_witness :
    Ring ([(2, ⟨some ['b'], 1, 3⟩), (0, ⟨none, 3, 1⟩), (3, ⟨some ['c'], 2, 0⟩),
        (1, ⟨some ['a'], 0, 2⟩)] : Mem) 0 [(3, ['c']), (2, ['b']), (1, ['a'])] ∧
    ∃ m', listRemoveFirst ([(2, ⟨some ['b'], 1, 3⟩), (0, ⟨none, 3, 1⟩),
        (3, ⟨some ['c'], 2, 0⟩), (1, ⟨some ['a'], 0, 2⟩)] : Mem) (some 2) = some m' ∧
      Ring m' 0 [(3, ['c']), (1, ['a'])] ∧
      iterate m' (some 0) 2 = some [some ['c'], some ['a']] := by
  have r : Ring ([(2, ⟨some ['b'], 1, 3⟩), (0, ⟨none, 3, 1⟩), (3, ⟨some ['c'], 2, 0⟩),
      (1, ⟨some ['a'], 0, 2⟩)] : Mem) 0 [(3, ['c']), (2, ['b']), (1, ['a'])] :=
    ⟨rfl, ⟨rfl, rfl, rfl, trivial⟩, by decide⟩
  obtain ⟨_, m', e, r', _, hi⟩ :=
    (listRemoveFirst_handle _ 0 _ r).1 [(3, ['c'])] 2 ['b'] [(1, ['a'])] rfl
  exact ⟨r, m', e, r', hi 2 (by decide)⟩

end ListC

end Phfwd

namespace Labyrinth

/-! ## The bitset -/

theorem positionNumber_nil (position : List Nat) : positionNumber [] position = 0 := by
  simp [positionNumber]

theorem positionNumber_cons (n z : Nat) (ds ps : List Nat) :
    positionNumber (n :: ds) (z :: ps) = (z - 1) + n * positionNumber ds ps := by
  unfold positionNumber
  rw [List.length_cons, Finset.sum_range_succ', Finset.mul_sum]
  simp only [List.getD_cons_succ, List.take_succ_cons, List.prod_cons, List.getD_cons_zero,
    List.take_zero, List.prod_nil, Nat.mul_one]
  rw [Nat.add_comm]
  congr 1
  apply Finset.sum_congr rfl
  intro i _
  ring

theorem valid_loop_cons {z n : Nat} {ps ds : List Nat}
    (h : is_position_valid_loop (z :: ps) (n :: ds) = true) :
    1 ≤ z ∧ z ≤ n ∧ is_position_valid_loop ps ds = true := by
  simp only [is_position_valid_loop] at h
  split_ifs at h with hc
  exact ⟨by omega, by omega, h⟩

theorem prod_pos_of_valid : ∀ (ps ds : List Nat), ps.length = ds.length →
    is_position_valid_loop ps ds = true → 1 ≤ ds.prod
  | [], [], _, _ => by simp
  | [], _ :: _, hl, _ => by simp at hl
  | _ :: _, [], hl, _ => by simp at hl
  | z :: ps, n :: ds, hl, hv => by
    obtain ⟨h1, h2, h3⟩ := valid_loop_cons hv
    have := prod_pos_of_valid ps ds (by simpa using hl) h3
    rw [List.prod_cons]
    exact Nat.mul_pos (by omega) this

theorem positionNumber_lt : ∀ (ps ds : List Nat), ps.length = ds.length →
    is_position_valid_loop ps ds = true → positionNumber ds ps < ds.prod
  | [], [], _, _ => by simp [positionNumber]
  | [], _ :: _, hl, _ => by simp at hl
  | _ :: _, [], hl, _ => by simp at hl
  | z :: ps, n :: ds, hl, hv => by
    obtain ⟨h1, h2, h3⟩ := valid_loop_cons hv
    have ih := positionNumber_lt ps ds (by simpa using hl) h3
    rw [positionNumber_cons, List.prod_cons]
    calc z - 1 + n * positionNumber ds ps < n + n * positionNumber ds ps := by omega
      _ = n * (positionNumber ds ps + 1) := by ring
      _ ≤ n * ds.prod := Nat.mul_le_mul_left _ ih

/-- The loop of `hash_position` adds `N` times the number of the remaining
coordinates, without wrapping. -/
theorem hash_position_loop_spec : ∀ (ds ps : List Nat) (hash N : Nat),
    ps.length = ds.length → is_position_valid_loop ps ds = true →
    1 ≤ N → hash < N → N * ds.prod < WORD →
    hash_position_loop ds ps hash N = some (hash + N * positionNumber ds ps)
  | [], [], hash, N, _, _, _, _, _ => by
    simp [hash_position_loop, positionNumber]
  | _ :: _, [], _, _, hl, _, _, _, _ => by simp at hl
  | [], _ :: _, _, _, hl, _, _, _, _ => by simp at hl
  | n :: ds, z :: ps, hash, N, hl, hv, hN, hh, hfit => by
    obtain ⟨h1, h2, h3⟩ := valid_loop_cons hv
    have hp := prod_pos_of_valid ps ds (by simpa using hl) h3
    rw [List.prod_cons] at hfit
    have hNn : N * n ≤ N * (n * ds.prod) := by
      rw [← Nat.mul_assoc]
      exact Nat.le_mul_of_pos_right _ hp
    have hn : n ≤ N * n := Nat.le_mul_of_pos_left _ hN
    have hz : (z + WORD - 1) % WORD = z - 1 := by
      have e1 : z + WORD - 1 = (z - 1) + WORD := by omega
      have e2 : z - 1 < WORD := by omega
      rw [e1, Nat.add_mod_right, Nat.mod_eq_of_lt e2]
    have hzN : (z - 1) * N + N ≤ N * n := by
      calc (z - 1) * N + N = N * z := by
            have : z = (z - 1) + 1 := by omega
            conv_rhs => rw [this]
            ring
        _ ≤ N * n := Nat.mul_le_mul_left _ h2
    have hh2 : hash + (z - 1) * N < N * n := by omega
    have m1 : (hash + (z - 1) * N) % WORD = hash + (z - 1) * N :=
      Nat.mod_eq_of_lt (by omega)
    have m2 : (N * n) % WORD = N * n := Nat.mod_eq_of_lt (by omega)
    have hfit2 : N * n * ds.prod < WORD := by rw [Nat.mul_assoc]; exact hfit
    have hpos : 1 ≤ N * n := Nat.mul_pos hN (by omega)
    have ih := hash_position_loop_spec ds ps (hash + (z - 1) * N) (N * n)
      (by simpa using hl) h3 hpos hh2 hfit2
    have e3 : hash + (z - 1) * N + N * n * positionNumber ds ps
        = hash + N * (z - 1 + n * positionNumber ds ps) := by ring
    simp only [hash_position_loop, hz, m1, m2, ih, positionNumber_cons, e3]

/-- The loop of `dehash_position` appends the coordinates of the position with
the given number. -/
theorem dehash_position_loop_spec : ∀ (ds ps : List Nat) (result : Vector),
    ps.length = ds.length → is_position_valid_loop ps ds = true →
    dehash_position_loop ds (positionNumber ds ps) result = some (result ++ ps)
  | [], [], result, _, _ => by
    simp [dehash_position_loop]
  | _ :: _, [], _, hl, _ => by simp at hl
  | [], _ :: _, _, hl, _ => by simp at hl
  | n :: ds, z :: ps, result, hl, hv => by
    obtain ⟨h1, h2, h3⟩ := valid_loop_cons hv
    have hn : n ≠ 0 := by omega
    have hmod : (z - 1 + n * positionNumber ds ps) % n = z - 1 := by
      rw [Nat.add_mul_mod_self_left, Nat.mod_eq_of_lt (by omega)]
    have hdiv : (z - 1 + n * positionNumber ds ps) / n = positionNumber ds ps := by
      rw [Nat.add_mul_div_left _ _ (by omega), Nat.div_eq_of_lt (by omega), Nat.zero_add]
    rw [positionNumber_cons, dehash_position_loop, if_neg hn, hmod, hdiv,
      dehash_position_loop_spec ds ps _ (by simpa using hl) h3]
    have : 1 + (z - 1) = z := by omega
    simp [vector_push_back, this]

theorem is_position_valid_iff (maze : Maze) (z : Vector) :
    is_position_valid maze z = true ↔
      z.length = maze.dimensions.length ∧
        is_position_valid_loop z maze.dimensions = true := by
  unfold is_position_valid vector_size
  by_cases h : z.length = maze.dimensions.length
  · simp [h]
  · simp [h]

/-- C35: in a maze whose number of cells (the product of the dimensions) is
below `2^64`, for every position `z` that `is_position_valid` accepts:
`hash_position(z)` is the sum over `i` of `(z_i - 1) * n_1 * ... * n_(i-1)`,
it is smaller than the product of the dimensions, `dehash_position` of it is
`z` again (whatever `result` held before), and no other valid position has the
same hash. -/
theorem hash_position_round_trip (maze : Maze) (z : Vector)
    (hfit : maze.dimensions.prod < WORD) (hv : is_position_valid maze z = true) :
    hash_position maze z = some (positionNumber maze.dimensions z) ∧
    positionNumber maze.dimensions z < maze.dimensions.prod ∧
    (∀ result, dehash_position maze (positionNumber maze.dimensions z) result = some z) ∧
    (∀ z', is_position_valid maze z' = true →
      hash_position maze z' = hash_position maze z → z' = z) := by
  obtain ⟨hl, hv2⟩ := (is_position_valid_iff maze z).1 hv
  have hash_eq : ∀ y, is_position_valid maze y = true →
      hash_position maze y = some (positionNumber maze.dimensions y) := by
    intro y hy
    obtain ⟨hl, hv2⟩ := (is_position_valid_iff maze y).1 hy
    unfold hash_position
    rw [hash_position_loop_spec _ _ 0 1 hl hv2 (Nat.le_refl _) (by omega) (by omega)]
    simp
  have dehash_eq : ∀ y, is_position_valid maze y = true →
      ∀ result, dehash_position maze (positionNumber maze.dimensions y) result = some y := by
    intro y hy result
    obtain ⟨hl, hv2⟩ := (is_position_valid_iff maze y).1 hy
    unfold dehash_position
    rw [dehash_position_loop_spec _ _ _ hl hv2]
    simp [vector_clear]
  refine ⟨hash_eq z hv, positionNumber_lt _ _ hl hv2, dehash_eq z hv, ?_⟩
  intro z' hv' he
  rw [hash_eq z hv, hash_eq z' hv'] at he
  simp only [Option.some.injEq] at he
  have h1 := dehash_eq z' hv' []
  rw [he, dehash_eq z hv []] at h1
  simp only [Option.some.injEq] at h1
  exact h1.symm

theorem hash_position_round_trip_witness :
    (18 < WORD ∧ is_position_valid
      { dimensions := [2, 3, 3], start_position := [1, 1, 1], end_position := [2, 3, 3],
        walls := bitset_create 18, start_position_hash := 0, end_position_hash := 17 }
      [2, 1, 3] = true) ∧
    hash_position
      { dimensions := [2, 3, 3], start_position := [1, 1, 1], end_position := [2, 3, 3],
        walls := bitset_create 18, start_position_hash := 0, end_position_hash := 17 }
      [2, 1, 3] = some 13 ∧
    dehash_position
      { dimensions := [2, 3, 3], start_position := [1, 1, 1], end_position := [2, 3, 3],
        walls := bitset_create 18, start_position_hash := 0, end_position_hash := 17 }
      13 [] = some [2, 1, 3] := by
  have h1 : ([2, 3, 3] : List Nat).prod < WORD := by decide
  have h2 : is_position_valid
      { dimensions := [2, 3, 3], start_position := [1, 1, 1], end_position := [2, 3, 3],
        walls := bitset_create 18, start_position_hash := 0, end_position_hash := 17 }
      [2, 1, 3] = true := by decide
  have h := hash_position_round_trip _ [2, 1, 3] h1 h2
  have e : positionNumber [2, 3, 3] [2, 1, 3] = 13 := by decide
  refine ⟨⟨by decide, h2⟩, ?_, ?_⟩
  · rw [h.1]; exact congrArg some e
  · have := h.2.2.1 []
    rw [e] at this
    exact this

/-! ## Positions and their numbers, coordinate by coordinate -/

theorem valid_loop_append : ∀ (zpre dpre zrest drest : List Nat), zpre.length = dpre.length →
    (is_position_valid_loop (zpre ++ zrest) (dpre ++ drest) = true ↔
      is_position_valid_loop zpre dpre = true ∧ is_position_valid_loop zrest drest = true)
  | [], [], _, _, _ => by simp [is_position_valid_loop]
  | [], _ :: _, _, _, hl => by simp at hl
  | _ :: _, [], _, _, hl => by simp at hl
  | z :: zpre, n :: dpre, zrest, drest, hl => by
    have ih := valid_loop_append zpre dpre zrest drest (by simpa using hl)
    simp only [List.cons_append, is_position_valid_loop]
    by_cases hc : z < 1 ∨ z > n
    · simp only [hc, if_true]
      simp
    · simp only [hc, if_false]
      exact ih

theorem positionNumber_append : ∀ (zpre dpre zrest drest : List Nat),
    zpre.length = dpre.length →
    positionNumber (dpre ++ drest) (zpre ++ zrest) =
      positionNumber dpre zpre + dpre.prod * positionNumber drest zrest
  | [], [], _, _, _ => by simp [positionNumber_nil]
  | [], _ :: _, _, _, hl => by simp at hl
  | _ :: _, [], _, _, hl => by simp at hl
  | z :: zpre, n :: dpre, zrest, drest, hl => by
    have ih := positionNumber_append zpre dpre zrest drest (by simpa using hl)
    simp only [List.cons_append, positionNumber_cons, ih, List.prod_cons]
    ring

theorem valid_loop_cons_iff (z n : Nat) (ps ds : List Nat) :
    is_position_valid_loop (z :: ps) (n :: ds) = true ↔
      1 ≤ z ∧ z ≤ n ∧ is_position_valid_loop ps ds = true := by
  constructor
  · exact valid_loop_cons
  · rintro ⟨h1, h2, h3⟩
    simp only [is_position_valid_loop]
    rw [if_neg (by omega)]
    exact h3

/-- The number of a position around one of its coordinates `x`. -/
theorem positionNumber_at (zpre dpre zrest drest : List Nat) (x n : Nat)
    (hl : zpre.length = dpre.length) :
    positionNumber (dpre ++ n :: drest) (zpre ++ x :: zrest) =
      positionNumber dpre zpre + dpre.prod * ((x - 1) + n * positionNumber drest zrest) := by
  rw [positionNumber_append _ _ _ _ hl, positionNumber_cons]

/-- One step up in a coordinate adds the product of the dimensions before it. -/
theorem positionNumber_up (zpre dpre zrest drest : List Nat) (x n : Nat)
    (hl : zpre.length = dpre.length) (hx : 1 ≤ x) :
    positionNumber (dpre ++ n :: drest) (zpre ++ (x + 1) :: zrest) =
      positionNumber (dpre ++ n :: drest) (zpre ++ x :: zrest) + dpre.prod := by
  rw [positionNumber_at _ _ _ _ _ _ hl, positionNumber_at _ _ _ _ _ _ hl]
  have : x + 1 - 1 = (x - 1) + 1 := by omega
  rw [this]
  ring

theorem prod_pos_of_valid_loop (ps ds : List Nat) (hl : ps.length = ds.length)
    (hv : is_position_valid_loop ps ds = true) : 1 ≤ ds.prod :=
  prod_pos_of_valid ps ds hl hv

/-! ## `process_adjacent_positions` as a pass over the adjacent hashes -/

theorem scan_nil (maze : Maze) (next : Vector) : scan [] maze next = some (maze, next, false) :=
  rfl

theorem mem_adjacentFrom : ∀ (drest zrest dpre zpre : List Nat),
    zpre.length = dpre.length → zrest.length = drest.length →
    is_position_valid_loop (zpre ++ zrest) (dpre ++ drest) = true →
    ∀ u, u ∈ adjacentFrom drest zrest (positionNumber (dpre ++ drest) (zpre ++ zrest))
        dpre.prod ↔
      ∃ pre x y post, zpre ++ zrest = pre ++ x :: post ∧ zpre.length ≤ pre.length ∧
        (y = x + 1 ∨ x = y + 1) ∧
        is_position_valid_loop (pre ++ y :: post) (dpre ++ drest) = true ∧
        u = positionNumber (dpre ++ drest) (pre ++ y :: post)
  | [], [], dpre, zpre, _, _, _, u => by
    simp only [adjacentFrom, List.not_mem_nil, List.append_nil, false_iff]
    rintro ⟨pre, x, y, post, e, hle, _⟩
    have := congrArg List.length e
    simp at this
    omega
  | [], _ :: _, _, _, _, hl, _, _ => by simp at hl
  | _ :: _, [], _, _, _, hl, _, _ => by simp at hl
  | n :: drest, x :: zrest, dpre, zpre, hl1, hl2, hv, u => by
    have hl3 : zrest.length = drest.length := by simpa using hl2
    obtain ⟨hvpre, hvrest⟩ := (valid_loop_append zpre dpre _ _ hl1).1 hv
    obtain ⟨hx1, hxn, hvr⟩ := valid_loop_cons hvrest
    have ih := mem_adjacentFrom drest zrest (dpre ++ [n]) (zpre ++ [x])
      (by simp [hl1]) hl3 (by simpa using hv) u
    simp only [List.append_assoc, List.singleton_append, List.prod_append, List.prod_cons,
      List.prod_nil, Nat.mul_one, List.length_append, List.length_singleton] at ih
    have hvy : ∀ y, is_position_valid_loop (zpre ++ y :: zrest) (dpre ++ n :: drest) = true ↔
        1 ≤ y ∧ y ≤ n := by
      intro y
      rw [valid_loop_append zpre dpre _ _ hl1, valid_loop_cons_iff]
      constructor
      · rintro ⟨_, a, b, _⟩; exact ⟨a, b⟩
      · rintro ⟨a, b⟩; exact ⟨hvpre, a, b, hvr⟩
    rw [adjacentFrom, List.mem_append, List.mem_append, ih]
    constructor
    · rintro ((h1 | h1) | h1)
      · by_cases h2 : 2 ≤ x
        · simp only [h2, if_true, List.mem_singleton] at h1
          refine ⟨zpre, x, x - 1, zrest, rfl, Nat.le_refl _, Or.inr (by omega),
            (hvy _).2 ⟨by omega, by omega⟩, ?_⟩
          have := positionNumber_up zpre dpre zrest drest (x - 1) n hl1 (by omega)
          have e1 : x - 1 + 1 = x := by omega
          rw [e1] at this
          omega
        · simp [h2] at h1
      · by_cases h2 : x + 1 ≤ n
        · simp only [h2, if_true, List.mem_singleton] at h1
          refine ⟨zpre, x, x + 1, zrest, rfl, Nat.le_refl _, Or.inl rfl,
            (hvy _).2 ⟨by omega, h2⟩, ?_⟩
          rw [positionNumber_up zpre dpre zrest drest x n hl1 hx1]
          exact h1
        · simp [h2] at h1
      · obtain ⟨pre, x', y, post, e, hle, hm, hvc, hu⟩ := h1
        exact ⟨pre, x', y, post, e, by omega, hm, hvc, hu⟩
    · rintro ⟨pre, x', y, post, e, hle, hm, hvc, hu⟩
      rcases Nat.eq_or_lt_of_le hle with heq | hlt
      · obtain ⟨e1, e2⟩ := List.append_inj e heq
        simp only [List.cons.injEq] at e2
        obtain ⟨e3, e4⟩ := e2
        subst e1 e3 e4
        have hy := (hvy y).1 hvc
        rcases hm with hm | hm
        · subst hm
          left; right
          rw [positionNumber_up zpre dpre zrest drest x n hl1 hx1] at hu
          simp [hy.2, hu]
        · left; left
          have h2 : 2 ≤ x := by omega
          have := positionNumber_up zpre dpre zrest drest y n hl1 hy.1
          rw [← hm] at this
          simp only [h2, if_true, List.mem_singleton]
          omega
      · right
        exact ⟨pre, x', y, post, e, by omega, hm, hvc, hu⟩

/-- The hashes that `process_adjacent_positions` reaches from a position are
the hashes of the positions inside the grid that are one move away. -/
theorem mem_adjacent (ds z : List Nat) (hl : z.length = ds.length)
    (hv : is_position_valid_loop z ds = true) (u : Nat) :
    u ∈ adjacentFrom ds z (positionNumber ds z) 1 ↔
      ∃ c, Move z c ∧ is_position_valid_loop c ds = true ∧ u = positionNumber ds c := by
  have h := mem_adjacentFrom ds z [] [] rfl hl hv u
  simp only [List.nil_append, List.prod_nil, List.length_nil, Nat.zero_le, true_and] at h
  rw [h]
  constructor
  · rintro ⟨pre, x, y, post, e, hm, hvc, hu⟩
    exact ⟨pre ++ y :: post, ⟨pre, x, y, post, e, rfl, hm⟩, hvc, hu⟩
  · rintro ⟨c, ⟨pre, x, y, post, e1, e2, hm⟩, hvc, hu⟩
    subst e2
    exact ⟨pre, x, y, post, e1, hm, hvc, hu⟩

theorem Move.length_eq {a b : Vector} (h : Move a b) : b.length = a.length := by
  obtain ⟨pre, x, y, post, e1, e2, _⟩ := h
  rw [e1, e2]
  simp

theorem Move.ne {a b : Vector} (h : Move a b) : a ≠ b := by
  obtain ⟨pre, x, y, post, e1, e2, hm⟩ := h
  rw [e1, e2]
  intro e
  have := List.append_cancel_left e
  simp only [List.cons.injEq] at this
  omega

/-! ## One pass over adjacent hashes -/

theorem walk_snoc {maze : Maze} : ∀ (k : Nat) {a b c : Vector},
    Walk maze k a b → Move b c → Free maze c → Walk maze (k + 1) a c
  | 0, a, b, c, hw, hm, hf => by
    have e : a = b := hw
    subst e
    exact ⟨c, hm, hf, rfl⟩
  | k + 1, a, b, c, hw, hm, hf => by
    obtain ⟨x, h1, h2, h3⟩ := hw
    exact ⟨x, h1, h2, walk_snoc k h3 hm hf⟩

theorem walk_last {maze : Maze} : ∀ (k : Nat) {a c : Vector},
    Walk maze (k + 1) a c → ∃ b, Walk maze k a b ∧ Move b c ∧ Free maze c
  | 0, a, c, hw => by
    obtain ⟨x, h1, h2, h3⟩ := hw
    have e : x = c := h3
    subst e
    exact ⟨a, rfl, h1, h2⟩
  | k + 1, a, c, hw => by
    obtain ⟨x, h1, h2, h3⟩ := hw
    obtain ⟨b, g1, g2, g3⟩ := walk_last k h3
    exact ⟨b, ⟨x, h1, h2, g1⟩, g2, g3⟩

/-- A position `k + 1` moves away has a neighbour `k` moves away. -/
theorem dist_pred {maze : Maze} {a c : Vector} {k : Nat} (h : Dist maze a (k + 1) c) :
    ∃ b, Dist maze a k b ∧ Move b c ∧ Free maze c := by
  obtain ⟨b, h1, h2, h3⟩ := walk_last k h.1
  refine ⟨b, ⟨h1, fun j hj hwj => ?_⟩, h2, h3⟩
  exact h.2 (j + 1) (by omega) (walk_snoc j hwj h2 h3)

theorem dist_zero {maze : Maze} {a z : Vector} : Dist maze a 0 z ↔ z = a := by
  constructor
  · intro h
    exact (show a = z from h.1).symm
  · intro h
    subst h
    exact ⟨rfl, fun j hj => by omega⟩

/-! ## Positions of a maze -/

theorem valid_parts {maze : Maze} {z : Vector} (h : is_position_valid maze z = true) :
    z.length = maze.dimensions.length ∧ is_position_valid_loop z maze.dimensions = true :=
  (is_position_valid_iff maze z).1 h

theorem hash_of_valid {maze : Maze} (hfit : maze.dimensions.prod < WORD) {z : Vector}
    (h : is_position_valid maze z = true) :
    hash_position maze z = some (positionNumber maze.dimensions z) :=
  (hash_position_round_trip maze z hfit h).1

theorem number_lt {maze : Maze} {z : Vector} (h : is_position_valid maze z = true) :
    positionNumber maze.dimensions z < maze.dimensions.prod :=
  positionNumber_lt _ _ (valid_parts h).1 (valid_parts h).2

theorem number_inj {maze : Maze} (hfit : maze.dimensions.prod < WORD) {z z' : Vector}
    (h : is_position_valid maze z = true) (h' : is_position_valid maze z' = true)
    (e : positionNumber maze.dimensions z = positionNumber maze.dimensions z') : z = z' := by
  refine (hash_position_round_trip maze z' hfit h').2.2.2 z h ?_
  rw [hash_of_valid hfit h, hash_of_valid hfit h', e]

theorem free_iff {maze : Maze} (hfit : maze.dimensions.prod < WORD) (z : Vector) :
    Free maze z ↔ is_position_valid maze z = true ∧
      bitset_get maze.walls (positionNumber maze.dimensions z) = some false := by
  constructor
  · rintro ⟨hv, h, hh, hf⟩
    refine ⟨hv, ?_⟩
    rw [hash_of_valid hfit hv] at hh
    simp only [Option.some.injEq] at hh
    subst hh
    simp only [is_position_free] at hf
    cases hg : bitset_get maze.walls (positionNumber maze.dimensions z) with
    | none => rw [hg] at hf; cases hf
    | some b =>
      rw [hg] at hf
      cases b with
      | false => rfl
      | true => simp at hf
  · rintro ⟨hv, hg⟩
    exact ⟨hv, _, hash_of_valid hfit hv, by simp [is_position_free, hg]⟩

theorem Dist.valid_dist {maze : Maze} (r : maze.Ready) : ∀ {k : Nat} {z : Vector},
    Dist maze maze.start_position k z → is_position_valid maze z = true
  | 0, z, h => by
    rw [dist_zero.1 h]
    exact r.start_valid
  | k + 1, z, h => by
    obtain ⟨_, _, _, hf⟩ := dist_pred h
    exact hf.1

theorem Maze.Ready.end_number {maze : Maze} (r : maze.Ready) :
    positionNumber maze.dimensions maze.end_position = maze.end_position_hash := by
  have := hash_of_valid r.fit r.end_valid
  rw [r.end_hash] at this
  exact (Option.some.inj this).symm

/-! ## The invariant of the search -/

theorem valid_of_loop {maze : Maze} {z c : Vector} (hz : is_position_valid maze z = true)
    (hm : Move z c) (hc : is_position_valid_loop c maze.dimensions = true) :
    is_position_valid maze c = true :=
  (is_position_valid_iff maze c).2 ⟨by rw [hm.length_eq]; exact (valid_parts hz).1, hc⟩

/-- When the positions of the current depth are all done, the positions one
move further are those of `next`. -/
theorem BfsInv.level_next {maze0 maze : Maze} {next : Vector} {depth : Nat}
    (r : maze0.Ready) (inv : BfsInv maze0 maze [] next depth) {c : Vector}
    (hc : Dist maze0 maze0.start_position (depth + 1) c) :
    positionNumber maze0.dimensions c ∈ next := by
  obtain ⟨b, hb, hm, hf⟩ := dist_pred hc
  have vc := hf.1
  have mk := inv.done b hb (by simp) c hm vc
  have lt : positionNumber maze0.dimensions c < maze0.walls.size := by
    rw [r.walls_size]; exact number_lt vc
  rcases (inv.marked _ lt).1 mk with h0 | ⟨k, z, hk, hz, he⟩ | hn
  · have := ((free_iff r.fit c).1 hf).2
    rw [this] at h0
    cases h0
  · have e := number_inj r.fit (hz.valid_dist r) vc he
    subst e
    exact absurd hz.1 (hc.2 k (by omega))
  · exact hn

/-- The step of the search to the next depth. -/
theorem BfsInv.swap {maze0 maze : Maze} {next : Vector} {depth : Nat}
    (r : maze0.Ready) (inv : BfsInv maze0 maze [] next depth) :
    BfsInv maze0 maze next [] (depth + 1) where
  same := inv.same
  size := inv.size
  len := inv.len
  marked := by
    intro u hu
    rw [inv.marked u hu]
    constructor
    · rintro (h | ⟨k, z, hk, hz, he⟩ | h)
      · exact Or.inl h
      · exact Or.inr (Or.inl ⟨k, z, by omega, hz, he⟩)
      · obtain ⟨z, hz, he⟩ := inv.nxt u h
        exact Or.inr (Or.inl ⟨depth + 1, z, Nat.le_refl _, hz, he⟩)
    · rintro (h | ⟨k, z, hk, hz, he⟩ | h)
      · exact Or.inl h
      · rcases Nat.eq_or_lt_of_le hk with e | e
        · subst e
          right; right
          rw [← he]
          exact inv.level_next r hz
        · exact Or.inr (Or.inl ⟨k, z, by omega, hz, he⟩)
      · cases h
  cur := inv.nxt
  nxt := fun u hu => by cases hu
  done := by
    intro z hz hn
    exact absurd (inv.level_next r hz) hn
  far := by
    intro k hk hw
    rcases Nat.eq_or_lt_of_le hk with e | e
    · subst e
      have hd : Dist maze0 maze0.start_position (depth + 1) maze0.end_position :=
        ⟨hw, fun j hj hwj => inv.far j (by omega) hwj⟩
      have := inv.level_next r hd
      rw [r.end_number] at this
      exact inv.endOut this
    · exact inv.far k (by omega) hw
  endOut := fun h => by cases h

/-- When the end position is among the adjacent hashes of a position of the
current depth, it is one move further and not less. -/
theorem BfsInv.found {maze0 maze : Maze} {current next : Vector} {depth : Nat} {z : Vector}
    (r : maze0.Ready) (inv : BfsInv maze0 maze current next depth)
    (hz : Dist maze0 maze0.start_position depth z)
    (he : maze0.end_position_hash ∈
      adjacentFrom maze0.dimensions z (positionNumber maze0.dimensions z) 1) :
    Dist maze0 maze0.start_position (depth + 1) maze0.end_position := by
  have vz := hz.valid_dist r
  obtain ⟨c, hm, hvc, hu⟩ := (mem_adjacent _ _ (valid_parts vz).1 (valid_parts vz).2 _).1 he
  have vc := valid_of_loop vz hm hvc
  have ec : c = maze0.end_position :=
    number_inj r.fit vc r.end_valid (by rw [← hu, r.end_number])
  subst ec
  exact ⟨walk_snoc depth hz.1 hm ⟨r.end_valid, _, r.end_hash, r.end_free⟩,
    fun j hj hwj => inv.far j (by omega) hwj⟩

/-! ## The search -/

set_option maxRecDepth 100000 in
/-- The search on some mazes: the corridor of 70 cells takes 69 moves, a 3 by 3
maze without walls 4; equal positions give 0, a walled-off end `NO WAY`. -/
theorem solve_examples :
    solve 71 [70] [1] [70] (bitset_create 70) = some (some (Output.length 69)) ∧
    mazeOf [70] [1] [70] (bitset_create 70) = some corridor ∧
    solve 10 [3, 3] [1, 1] [3, 3] (bitset_create 9) = some (some (Output.length 4)) ∧
    solve 10 [3, 3] [2, 2] [2, 2] (bitset_create 9) = some (some (Output.length 0)) ∧
    solve 5 [2, 2] [1, 1] [2, 2] { data := [6], size := 4 } = some (some Output.noWay) := by
  decide

end Labyrinth
